import Mathlib

/-!
# Pief: lifting-scheme primitives, custom step lists, the step-script parser, the Analyzer and the constructor

A shallow embedding of `src/lifting/lifting.h`, of the custom-scheme drivers,
the model functions and the wavelet constructor of `src/pief/model.cpp`, of the
statement parser of `src/pief/parse.cpp` and of `sumruleorder` and the entry of
`sobsmthest` in `src/lifting/sobolev.cpp`.

Modelling conventions.

* A sample buffer `T* sample` is the list of the cells that the pointer may
  address; every access goes through `rd` / `wr`, which return `none` when the
  cell lies outside the storage (undefined behaviour in the source).
* Sample values live in an arbitrary field `K` (exact arithmetic); all
  definitions are computable and can be run over `ℚ`.
* Loop counters and tap indices (`int64_t` in the source) are unbounded
  integers, a left shift `x << k` is the product `x * 2 ^ k`; this agrees with
  the source as long as no 64-bit arithmetic wraps.
* `assert` is modelled as in a debug build: a failed assertion yields `none`.
* The smoothness values `sob` and `sob_dual` are `double_value`s (finite,
  `±∞` or NaN) with the comparisons of IEEE arithmetic; the eigenvalue part of
  `sobsmthest` (`jtk::eig` is not part of the sources) is a parameter
  `eigen_part`.
-/

namespace Pief

/-! ## Buffer access -/

/-- Read of `sample[idx]`; `none` when `idx` is outside the storage. -/
def rd {K : Type} (sample : List K) (idx : Int) : Option K :=
  if 0 ≤ idx then sample[idx.toNat]? else none

/-- Write `sample[idx] = v`; `none` when `idx` is outside the storage. -/
def wr {K : Type} (sample : List K) (idx : Int) (v : K) : Option (List K) :=
  if 0 ≤ idx ∧ idx.toNat < sample.length then some (sample.set idx.toNat v) else none

/-- The loop `for (int64_t i = start; i < stop; i += step) body(i)` with the
buffer as loop state.  `fuel` bounds the number of iterations; running out of
fuel while the loop condition still holds gives `none`. -/
def for_loop {K : Type} (body : Int → List K → Option (List K)) (stop step : Int) :
    Nat → Int → List K → Option (List K)
  | 0, i, sample => if i < stop then none else some sample
  | fuel + 1, i, sample =>
    if i < stop then (body i sample).bind (for_loop body stop step fuel (i + step))
    else some sample

/-- The inner loop `for (j = 0; j < mask.size(); ++j) acc += mask[j] * sample[coeff(j)*stride]`,
started at tap number `j` with the remaining mask entries. -/
def stencil {K : Type} [Field K] (sample : List K) (stride : Nat) (coeff : Int → Int) :
    List K → Int → K → Option K
  | [], _, acc => some acc
  | m :: ms, j, acc =>
    (rd sample (coeff j * stride)).bind fun v =>
      stencil sample stride coeff ms (j + 1) (acc + m * v)

/-- One iteration of a predict/update style loop: accumulate the stencil over
the taps `coeff i j`, then `sample[target i * stride] = op sample[target i * stride] acc`. -/
def lift_body {K : Type} [Field K] (op : K → K → K) (stride : Nat) (mask : List K)
    (coeff : Int → Int → Int) (target : Int → Int) (i : Int) (sample : List K) :
    Option (List K) :=
  (stencil sample stride (coeff i) mask 0 0).bind fun acc =>
    (rd sample (target i * stride)).bind fun old =>
      wr sample (target i * stride) (op old acc)

/-- One iteration of a scale loop: `sample[i*stride] = f sample[i*stride]`. -/
def scale_body {K : Type} (f : K → K) (stride : Nat) (i : Int) (sample : List K) :
    Option (List K) :=
  (rd sample (i * stride)).bind fun old => wr sample (i * stride) (f old)

namespace lifting

/-- The cyclic boundary rule `if (coeff < 0) coeff += n; else if (coeff >= n) coeff -= n;`. -/
def wrap_coeff (n : Nat) (coeff : Int) : Int :=
  if coeff < 0 then coeff + n else if coeff ≥ n then coeff - n else coeff

/-- The non-cyclic boundary rule `if (coeff < 0) coeff = lo; else if (coeff >= n) coeff = hi;`. -/
def clamp_coeff (n : Nat) (lo hi : Int) (coeff : Int) : Int :=
  if coeff < 0 then lo else if coeff ≥ n then hi else coeff

/-- `is_multiple_of_power_of_two` on `uint64_t` operands:
`pow_two = 1 << level; return (n & (pow_two - 1)) == 0;`. -/
def is_multiple_of_power_of_two (n level : Nat) : Bool :=
  let pow_two := (1 <<< level) % 2 ^ 64
  (n &&& ((pow_two + 2 ^ 64 - 1) % 2 ^ 64)) == 0

/-- Tap index of `predict` / `ipredict` for target number `i` and tap `j`. -/
def predict_coeff (n mask_size level : Nat) (cyclical : Bool) (i j : Int) : Int :=
  let max_i : Nat := n >>> (level + 1)
  let offset : Int := -((mask_size >>> 1 : Nat) : Int) + 1
  let coeff : Int := (i + j + offset) * 2 ^ (level + 1)
  if cyclical then wrap_coeff n coeff
  else
    let max_coeff : Int := ((max_i : Int) - 1) * 2 ^ (level + 1)
    clamp_coeff n 0 max_coeff coeff

/-- Index written by `predict` / `ipredict` for target number `i`:
`((i << 1) + 1) << level`. -/
def predict_target (level : Nat) (i : Int) : Int :=
  (i * 2 + 1) * 2 ^ level

/-- Tap index of `update` / `iupdate` for target number `i` and tap `j`. -/
def update_coeff (n mask_size level : Nat) (cyclical : Bool) (i j : Int) : Int :=
  let max_i : Nat := n >>> (level + 1)
  let offset : Int := -((mask_size >>> 1 : Nat) : Int) + 1
  let coeff : Int := ((i + j + offset) * 2 - 1) * 2 ^ level
  if cyclical then wrap_coeff n coeff
  else
    let min_coeff : Int := 2 ^ level
    let max_coeff : Int := ((max_i : Int) * 2 - 1) * 2 ^ level
    clamp_coeff n min_coeff max_coeff coeff

/-- Index written by `update` / `iupdate` for target number `i`: `i << (level + 1)`. -/
def update_target (level : Nat) (i : Int) : Int :=
  i * 2 ^ (level + 1)

/-- First target number visited by `update` / `iupdate`: the cyclic loop starts
at `i = 0`, the non-cyclic loop at `i = 1`. -/
def update_start (cyclical : Bool) : Int :=
  if cyclical then 0 else 1

variable {K : Type} [Field K]

/-- `scale_even`: multiply the samples at `i = b*offset, b*offset + offset, ...`
below `n - b*offset` (cyclic: `b = 0`) by `s`. -/
def scale_even (sample : List K) (n : Nat) (s : K) (level : Nat)
    (only_scale_away_from_border : Int) (stride : Nat) (cyclical : Bool) : Option (List K) :=
  if !is_multiple_of_power_of_two n level then none
  else
    let offset : Int := 2 ^ (level + 1)
    if cyclical then
      for_loop (scale_body (fun x => x * s) stride) n offset n 0 sample
    else
      for_loop (scale_body (fun x => x * s) stride)
        (n - only_scale_away_from_border * offset) offset n
        (only_scale_away_from_border * offset) sample

/-- `scale_odd`: as `scale_even`, starting at `(1 << level) + b*offset`. -/
def scale_odd (sample : List K) (n : Nat) (s : K) (level : Nat)
    (only_scale_away_from_border : Int) (stride : Nat) (cyclical : Bool) : Option (List K) :=
  if !is_multiple_of_power_of_two n level then none
  else
    let offset : Int := 2 ^ (level + 1)
    if cyclical then
      for_loop (scale_body (fun x => x * s) stride) n offset n (2 ^ level) sample
    else
      for_loop (scale_body (fun x => x * s) stride)
        (n - only_scale_away_from_border * offset) offset n
        (2 ^ level + only_scale_away_from_border * offset) sample

/-- `iscale_even`: `scale_even` with division by `s`. -/
def iscale_even (sample : List K) (n : Nat) (s : K) (level : Nat)
    (only_scale_away_from_border : Int) (stride : Nat) (cyclical : Bool) : Option (List K) :=
  if !is_multiple_of_power_of_two n level then none
  else
    let offset : Int := 2 ^ (level + 1)
    if cyclical then
      for_loop (scale_body (fun x => x / s) stride) n offset n 0 sample
    else
      for_loop (scale_body (fun x => x / s) stride)
        (n - only_scale_away_from_border * offset) offset n
        (only_scale_away_from_border * offset) sample

/-- `iscale_odd`: `scale_odd` with division by `s`. -/
def iscale_odd (sample : List K) (n : Nat) (s : K) (level : Nat)
    (only_scale_away_from_border : Int) (stride : Nat) (cyclical : Bool) : Option (List K) :=
  if !is_multiple_of_power_of_two n level then none
  else
    let offset : Int := 2 ^ (level + 1)
    if cyclical then
      for_loop (scale_body (fun x => x / s) stride) n offset n (2 ^ level) sample
    else
      for_loop (scale_body (fun x => x / s) stride)
        (n - only_scale_away_from_border * offset) offset n
        (2 ^ level + only_scale_away_from_border * offset) sample

/-- `predict`: for `i = 0 .. max_i - 1`, subtract the stencil over the even
neighbours from the odd sample `((i << 1) + 1) << level`. -/
def predict (sample : List K) (n : Nat) (mask : List K) (level stride : Nat)
    (cyclical : Bool) : Option (List K) :=
  if !is_multiple_of_power_of_two n level then none
  else
    let max_i : Nat := n >>> (level + 1)
    for_loop
      (lift_body (fun x p => x - p) stride mask
        (predict_coeff n mask.length level cyclical) (predict_target level))
      max_i 1 max_i 0 sample

/-- `update`: for `i = start .. max_i - 1` (`start = 0` cyclic, `1` non-cyclic),
add the stencil over the odd neighbours to the even sample `i << (level + 1)`. -/
def update (sample : List K) (n : Nat) (mask : List K) (level stride : Nat)
    (cyclical : Bool) : Option (List K) :=
  if !is_multiple_of_power_of_two n level then none
  else
    let max_i : Nat := n >>> (level + 1)
    for_loop
      (lift_body (fun x u => x + u) stride mask
        (update_coeff n mask.length level cyclical) (update_target level))
      max_i 1 max_i (update_start cyclical) sample

/-- `ipredict`: `predict` with `+=` in place of `-=`. -/
def ipredict (sample : List K) (n : Nat) (mask : List K) (level stride : Nat)
    (cyclical : Bool) : Option (List K) :=
  if !is_multiple_of_power_of_two n level then none
  else
    let max_i : Nat := n >>> (level + 1)
    for_loop
      (lift_body (fun x p => x + p) stride mask
        (predict_coeff n mask.length level cyclical) (predict_target level))
      max_i 1 max_i 0 sample

/-- `iupdate`: `update` with `-=` in place of `+=`. -/
def iupdate (sample : List K) (n : Nat) (mask : List K) (level stride : Nat)
    (cyclical : Bool) : Option (List K) :=
  if !is_multiple_of_power_of_two n level then none
  else
    let max_i : Nat := n >>> (level + 1)
    for_loop
      (lift_body (fun x u => x - u) stride mask
        (update_coeff n mask.length level cyclical) (update_target level))
      max_i 1 max_i (update_start cyclical) sample


/-! ### Catalog of named schemes (masks, scale factors, forward and inverse) -/

/-- `compute_symmetric_mask(value)`: the two-entry mask `[value, value]`. -/
def compute_symmetric_mask (value : K) : List K := [value, value]

def get_prediction_mask_chaikin : List K := [1 / 4, 3 / 4]

def get_update_mask_chaikin : List K := [0, -1 / 3]

def get_second_update_mask_chaikin : List K := compute_symmetric_mask (1 / 3)

def get_even_scaling_factor_chaikin : K := 3 / 2

def forward_chaikin (sample : List K) (n level stride : Nat) (cyclical : Bool) :
    Option (List K) :=
  (update sample n get_update_mask_chaikin level stride cyclical).bind fun s1 =>
  (scale_even s1 n get_even_scaling_factor_chaikin level 1 stride cyclical).bind fun s2 =>
  (predict s2 n get_prediction_mask_chaikin level stride cyclical).bind fun s3 =>
  update s3 n get_second_update_mask_chaikin level stride cyclical

def inverse_chaikin (sample : List K) (n level stride : Nat) (cyclical : Bool) :
    Option (List K) :=
  (iupdate sample n get_second_update_mask_chaikin level stride cyclical).bind fun s1 =>
  (ipredict s1 n get_prediction_mask_chaikin level stride cyclical).bind fun s2 =>
  (iscale_even s2 n get_even_scaling_factor_chaikin level 1 stride cyclical).bind fun s3 =>
  iupdate s3 n get_update_mask_chaikin level stride cyclical

def get_prediction_mask_cubic_bspline_wavelets : List K := compute_symmetric_mask (1 / 2)

def get_first_update_mask_cubic_bspline_wavelets : List K := compute_symmetric_mask (-1 / 2)

def get_second_update_mask_cubic_bspline_wavelets : List K := compute_symmetric_mask (3 / 8)

def get_even_scaling_factor_cubic_bspline_wavelets : K := 2

def forward_cubic_bspline_wavelets (sample : List K) (n level stride : Nat) (cyclical : Bool) :
    Option (List K) :=
  (scale_even sample n get_even_scaling_factor_cubic_bspline_wavelets level 1 stride
    cyclical).bind fun s1 =>
  (update s1 n get_first_update_mask_cubic_bspline_wavelets level stride cyclical).bind fun s2 =>
  (predict s2 n get_prediction_mask_cubic_bspline_wavelets level stride cyclical).bind fun s3 =>
  update s3 n get_second_update_mask_cubic_bspline_wavelets level stride cyclical

def inverse_cubic_bspline_wavelets (sample : List K) (n level stride : Nat) (cyclical : Bool) :
    Option (List K) :=
  (iupdate sample n get_second_update_mask_cubic_bspline_wavelets level stride
    cyclical).bind fun s1 =>
  (ipredict s1 n get_prediction_mask_cubic_bspline_wavelets level stride cyclical).bind fun s2 =>
  (iupdate s2 n get_first_update_mask_cubic_bspline_wavelets level stride cyclical).bind fun s3 =>
  iscale_even s3 n get_even_scaling_factor_cubic_bspline_wavelets level 1 stride cyclical

def get_prediction_mask_cubic_bsplines : List K := compute_symmetric_mask (1 / 2)

def get_update_mask_cubic_bsplines : List K := compute_symmetric_mask (-1 / 4)

def get_even_scaling_factor_cubic_bsplines : K := 2

def forward_cubic_bsplines (sample : List K) (n level stride : Nat) (cyclical : Bool) :
    Option (List K) :=
  (update sample n get_update_mask_cubic_bsplines level stride cyclical).bind fun s1 =>
  (scale_even s1 n get_even_scaling_factor_cubic_bsplines level 1 stride cyclical).bind fun s2 =>
  predict s2 n get_prediction_mask_cubic_bsplines level stride cyclical

def inverse_cubic_bsplines (sample : List K) (n level stride : Nat) (cyclical : Bool) :
    Option (List K) :=
  (ipredict sample n get_prediction_mask_cubic_bsplines level stride cyclical).bind fun s1 =>
  (iscale_even s1 n get_even_scaling_factor_cubic_bsplines level 1 stride cyclical).bind fun s2 =>
  iupdate s2 n get_update_mask_cubic_bsplines level stride cyclical

def get_prediction_mask_4_point : List K := [-1 / 16, 9 / 16, 9 / 16, -1 / 16]

def get_update_mask_4_point : List K := compute_symmetric_mask (1 / 4)

def forward_4_point (sample : List K) (n level stride : Nat) (cyclical : Bool) :
    Option (List K) :=
  (predict sample n get_prediction_mask_4_point level stride cyclical).bind fun s1 =>
  update s1 n get_update_mask_4_point level stride cyclical

def inverse_4_point (sample : List K) (n level stride : Nat) (cyclical : Bool) :
    Option (List K) :=
  (iupdate sample n get_update_mask_4_point level stride cyclical).bind fun s1 =>
  ipredict s1 n get_prediction_mask_4_point level stride cyclical

def get_prediction_mask_cdf_5_3 : List K := compute_symmetric_mask (1 / 2)

def get_update_mask_cdf_5_3 : List K := compute_symmetric_mask (1 / 4)

def forward_cdf_5_3 (sample : List K) (n level stride : Nat) (cyclical : Bool) :
    Option (List K) :=
  (predict sample n get_prediction_mask_cdf_5_3 level stride cyclical).bind fun s1 =>
  update s1 n get_update_mask_cdf_5_3 level stride cyclical

def inverse_cdf_5_3 (sample : List K) (n level stride : Nat) (cyclical : Bool) :
    Option (List K) :=
  (iupdate sample n get_update_mask_cdf_5_3 level stride cyclical).bind fun s1 =>
  ipredict s1 n get_prediction_mask_cdf_5_3 level stride cyclical

/-- The Daubechies D4 masks take the value `sqrt3` of `sqrt(3.0)` as a parameter. -/
def get_prediction_mask_daubechies_d4 (sqrt3 : K) : List K :=
  [(sqrt3 - 2) / 4, sqrt3 / 4, 0, 0]

def get_first_update_mask_daubechies_d4 (sqrt3 : K) : List K := [0, sqrt3]

def get_second_update_mask_daubechies_d4 : List K := [0, 0, 0, -1]

def get_even_scaling_factor_daubechies_d4 (sqrt3 : K) : K := (sqrt3 - 1) / 2

def get_odd_scaling_factor_daubechies_d4 (sqrt3 : K) : K := (sqrt3 + 1) / 2

def forward_daubechies_d4 (sqrt3 : K) (sample : List K) (n level stride : Nat)
    (cyclical : Bool) : Option (List K) :=
  (update sample n (get_first_update_mask_daubechies_d4 sqrt3) level stride cyclical).bind
    fun s1 =>
  (predict s1 n (get_prediction_mask_daubechies_d4 sqrt3) level stride cyclical).bind fun s2 =>
  (update s2 n get_second_update_mask_daubechies_d4 level stride cyclical).bind fun s3 =>
  (scale_even s3 n (get_even_scaling_factor_daubechies_d4 sqrt3) level 0 stride cyclical).bind
    fun s4 =>
  scale_odd s4 n (get_odd_scaling_factor_daubechies_d4 sqrt3) level 0 stride cyclical

def inverse_daubechies_d4 (sqrt3 : K) (sample : List K) (n level stride : Nat)
    (cyclical : Bool) : Option (List K) :=
  (iscale_odd sample n (get_odd_scaling_factor_daubechies_d4 sqrt3) level 0 stride
    cyclical).bind fun s1 =>
  (iscale_even s1 n (get_even_scaling_factor_daubechies_d4 sqrt3) level 0 stride cyclical).bind
    fun s2 =>
  (iupdate s2 n get_second_update_mask_daubechies_d4 level stride cyclical).bind fun s3 =>
  (ipredict s3 n (get_prediction_mask_daubechies_d4 sqrt3) level stride cyclical).bind fun s4 =>
  iupdate s4 n (get_first_update_mask_daubechies_d4 sqrt3) level stride cyclical

/-- `std::vector<double> prediction_mask((size_t)1, 1.0)`: one entry of value 1. -/
def get_prediction_mask_haar : List K := [1]

def get_update_mask_haar : List K := [1 / 2, 0]

def forward_haar (sample : List K) (n level stride : Nat) (cyclical : Bool) :
    Option (List K) :=
  (predict sample n get_prediction_mask_haar level stride cyclical).bind fun s1 =>
  update s1 n get_update_mask_haar level stride cyclical

def inverse_haar (sample : List K) (n level stride : Nat) (cyclical : Bool) :
    Option (List K) :=
  (iupdate sample n get_update_mask_haar level stride cyclical).bind fun s1 =>
  ipredict s1 n get_prediction_mask_haar level stride cyclical

def get_first_prediction_mask_cdf_9_7 : List K :=
  compute_symmetric_mask (15861343420693648 / 10000000000000000)

def get_first_update_mask_cdf_9_7 : List K :=
  compute_symmetric_mask (-529801185718856 / 10000000000000000)

def get_second_prediction_mask_cdf_9_7 : List K :=
  compute_symmetric_mask (-8829110755411875 / 10000000000000000)

def get_second_update_mask_cdf_9_7 : List K :=
  compute_symmetric_mask (4435068520511142 / 10000000000000000)

def get_odd_scaling_factor_cdf_9_7 : K := 1 / (16257861322319229 / 10000000000000000)

def get_even_scaling_factor_cdf_9_7 : K := 1 / (1230174104914126 / 1000000000000000)

def forward_cdf_9_7 (sample : List K) (n level stride : Nat) (cyclical : Bool) :
    Option (List K) :=
  (predict sample n get_first_prediction_mask_cdf_9_7 level stride cyclical).bind fun s1 =>
  (update s1 n get_first_update_mask_cdf_9_7 level stride cyclical).bind fun s2 =>
  (predict s2 n get_second_prediction_mask_cdf_9_7 level stride cyclical).bind fun s3 =>
  (update s3 n get_second_update_mask_cdf_9_7 level stride cyclical).bind fun s4 =>
  (scale_odd s4 n get_odd_scaling_factor_cdf_9_7 level 0 stride cyclical).bind fun s5 =>
  scale_even s5 n get_even_scaling_factor_cdf_9_7 level 0 stride cyclical

def inverse_cdf_9_7 (sample : List K) (n level stride : Nat) (cyclical : Bool) :
    Option (List K) :=
  (iscale_even sample n get_even_scaling_factor_cdf_9_7 level 0 stride cyclical).bind fun s1 =>
  (iscale_odd s1 n get_odd_scaling_factor_cdf_9_7 level 0 stride cyclical).bind fun s2 =>
  (iupdate s2 n get_second_update_mask_cdf_9_7 level stride cyclical).bind fun s3 =>
  (ipredict s3 n get_second_prediction_mask_cdf_9_7 level stride cyclical).bind fun s4 =>
  (iupdate s4 n get_first_update_mask_cdf_9_7 level stride cyclical).bind fun s5 =>
  ipredict s5 n get_first_prediction_mask_cdf_9_7 level stride cyclical

def get_prediction_mask_jamlet_linear : List K := compute_symmetric_mask (1 / 2)

def get_update_mask_jamlet_linear : List K :=
  [-562 / 10000, 3062 / 10000, 3062 / 10000, -562 / 10000]

def forward_jamlet_linear (sample : List K) (n level stride : Nat) (cyclical : Bool) :
    Option (List K) :=
  (predict sample n get_prediction_mask_jamlet_linear level stride cyclical).bind fun s1 =>
  update s1 n get_update_mask_jamlet_linear level stride cyclical

def inverse_jamlet_linear (sample : List K) (n level stride : Nat) (cyclical : Bool) :
    Option (List K) :=
  (iupdate sample n get_update_mask_jamlet_linear level stride cyclical).bind fun s1 =>
  ipredict s1 n get_prediction_mask_jamlet_linear level stride cyclical

def get_prediction_mask_jamlet_quadratic : List K := [1 / 4, 3 / 4]

def get_first_update_mask_jamlet_quadratic : List K := [0, -1 / 3]

def get_second_update_mask_jamlet_quadratic : List K :=
  [-975 / 10000, 430833333333 / 1000000000000, 430833333333 / 1000000000000, -975 / 10000]

def get_even_scaling_factor_jamlet_quadratic : K := 3 / 2

def forward_jamlet_quadratic (sample : List K) (n level stride : Nat) (cyclical : Bool) :
    Option (List K) :=
  (update sample n get_first_update_mask_jamlet_quadratic level stride cyclical).bind fun s1 =>
  (scale_even s1 n get_even_scaling_factor_jamlet_quadratic level 1 stride cyclical).bind
    fun s2 =>
  (predict s2 n get_prediction_mask_jamlet_quadratic level stride cyclical).bind fun s3 =>
  update s3 n get_second_update_mask_jamlet_quadratic level stride cyclical

def inverse_jamlet_quadratic (sample : List K) (n level stride : Nat) (cyclical : Bool) :
    Option (List K) :=
  (iupdate sample n get_second_update_mask_jamlet_quadratic level stride cyclical).bind
    fun s1 =>
  (ipredict s1 n get_prediction_mask_jamlet_quadratic level stride cyclical).bind fun s2 =>
  (iscale_even s2 n get_even_scaling_factor_jamlet_quadratic level 1 stride cyclical).bind
    fun s3 =>
  iupdate s3 n get_first_update_mask_jamlet_quadratic level stride cyclical

def get_prediction_mask_jamlet_cubic : List K := compute_symmetric_mask (1 / 2)

def get_first_update_mask_jamlet_cubic : List K := compute_symmetric_mask (-1 / 2)

def get_second_update_mask_jamlet_cubic : List K :=
  [-1217 / 10000, 4967 / 10000, 4967 / 10000, -1217 / 10000]

def get_even_scaling_factor_jamlet_cubic : K := 2

def forward_jamlet_cubic (sample : List K) (n level stride : Nat) (cyclical : Bool) :
    Option (List K) :=
  (scale_even sample n get_even_scaling_factor_jamlet_cubic level 1 stride cyclical).bind
    fun s1 =>
  (update s1 n get_first_update_mask_jamlet_cubic level stride cyclical).bind fun s2 =>
  (predict s2 n get_prediction_mask_jamlet_cubic level stride cyclical).bind fun s3 =>
  update s3 n get_second_update_mask_jamlet_cubic level stride cyclical

def inverse_jamlet_cubic (sample : List K) (n level stride : Nat) (cyclical : Bool) :
    Option (List K) :=
  (iupdate sample n get_second_update_mask_jamlet_cubic level stride cyclical).bind fun s1 =>
  (ipredict s1 n get_prediction_mask_jamlet_cubic level stride cyclical).bind fun s2 =>
  (iupdate s2 n get_first_update_mask_jamlet_cubic level stride cyclical).bind fun s3 =>
  iscale_even s3 n get_even_scaling_factor_jamlet_cubic level 1 stride cyclical

def get_prediction_mask_jamlet_4_point : List K := [-1 / 16, 9 / 16, 9 / 16, -1 / 16]

def get_update_mask_jamlet_4_point : List K :=
  [-415 / 10000, 2915 / 10000, 2915 / 10000, -415 / 10000]

def forward_jamlet_4_point (sample : List K) (n level stride : Nat) (cyclical : Bool) :
    Option (List K) :=
  (predict sample n get_prediction_mask_jamlet_4_point level stride cyclical).bind fun s1 =>
  update s1 n get_update_mask_jamlet_4_point level stride cyclical

def inverse_jamlet_4_point (sample : List K) (n level stride : Nat) (cyclical : Bool) :
    Option (List K) :=
  (iupdate sample n get_update_mask_jamlet_4_point level stride cyclical).bind fun s1 =>
  ipredict s1 n get_prediction_mask_jamlet_4_point level stride cyclical

end lifting

/-! ## Custom schemes and scheme dispatch (`model.h`, `model.cpp`) -/

/-- `enum lifting_step_type`. -/
inductive lifting_step_type
  | lst_predict
  | lst_update
  | lst_scale_even
  | lst_scale_odd
  deriving DecidableEq, Repr

/-- `struct lifting_step`: a step kind with its mask. -/
structure lifting_step (K : Type) where
  type : lifting_step_type
  mask : List K
  deriving DecidableEq, Repr

/-- `enum scheme`. -/
inductive scheme
  | jamlet_linear
  | jamlet_quadratic
  | jamlet_cubic
  | jamlet_4_point
  | cdf_5_3
  | cdf_9_7
  | chaikin
  | cubic_bsplines
  | cubic_bspline_wavelets
  | daubechies_d4
  | four_point
  | haar
  | custom
  deriving DecidableEq, Repr

section Model

variable {K : Type} [Field K]

open lifting

/-- Body of the `switch` in `forward_custom`: one step applied with stride 1,
non-cyclic, border flag 1; a scale step with an empty mask does nothing. -/
def forward_custom_step (sample : List K) (n level : Nat) (s : lifting_step K) :
    Option (List K) :=
  match s.type with
  | .lst_predict => predict sample n s.mask level 1 false
  | .lst_update => update sample n s.mask level 1 false
  | .lst_scale_even =>
    match s.mask with
    | [] => some sample
    | front :: _ => scale_even sample n front level 1 1 false
  | .lst_scale_odd =>
    match s.mask with
    | [] => some sample
    | front :: _ => scale_odd sample n front level 1 1 false

/-- Body of the `switch` in `inverse_custom`. -/
def inverse_custom_step (sample : List K) (n level : Nat) (s : lifting_step K) :
    Option (List K) :=
  match s.type with
  | .lst_predict => ipredict sample n s.mask level 1 false
  | .lst_update => iupdate sample n s.mask level 1 false
  | .lst_scale_even =>
    match s.mask with
    | [] => some sample
    | front :: _ => iscale_even sample n front level 1 1 false
  | .lst_scale_odd =>
    match s.mask with
    | [] => some sample
    | front :: _ => iscale_odd sample n front level 1 1 false

/-- Body of the `switch` in `inverse_custom_biorthogonal`: predict steps run
`iupdate`, update steps run `ipredict`, scale steps divide by `1.0 / front`. -/
def inverse_custom_biorthogonal_step (sample : List K) (n level : Nat) (s : lifting_step K) :
    Option (List K) :=
  match s.type with
  | .lst_predict => iupdate sample n s.mask level 1 false
  | .lst_update => ipredict sample n s.mask level 1 false
  | .lst_scale_even =>
    match s.mask with
    | [] => some sample
    | front :: _ => iscale_even sample n (1 / front) level 1 1 false
  | .lst_scale_odd =>
    match s.mask with
    | [] => some sample
    | front :: _ => iscale_odd sample n (1 / front) level 1 1 false

/-- The range-for loop `for (const auto& s : steps) body(s)` over a step list. -/
def run_steps (body : List K → Nat → Nat → lifting_step K → Option (List K))
    (n level : Nat) : List (lifting_step K) → List K → Option (List K)
  | [], sample => some sample
  | s :: rest, sample => (body sample n level s).bind (run_steps body n level rest)

/-- `forward_custom`: the steps in list order. -/
def forward_custom (sample : List K) (n level : Nat) (custom_steps : List (lifting_step K)) :
    Option (List K) :=
  run_steps forward_custom_step n level custom_steps sample

/-- `inverse_custom`: the inverted steps from `rbegin()` to `rend()`. -/
def inverse_custom (sample : List K) (n level : Nat) (custom_steps : List (lifting_step K)) :
    Option (List K) :=
  run_steps inverse_custom_step n level custom_steps.reverse sample

/-- `inverse_custom_biorthogonal`: the role-swapped steps from `rbegin()` to `rend()`. -/
def inverse_custom_biorthogonal (sample : List K) (n level : Nat)
    (custom_steps : List (lifting_step K)) : Option (List K) :=
  run_steps inverse_custom_biorthogonal_step n level custom_steps.reverse sample

/-- The dual of one step as the specification words it: `Predict` and `Update`
exchange their tags and keep their masks, a scale factor `s` becomes `1/s`. -/
def dual_step (s : lifting_step K) : lifting_step K :=
  match s.type with
  | .lst_predict => { type := .lst_update, mask := s.mask }
  | .lst_update => { type := .lst_predict, mask := s.mask }
  | .lst_scale_even =>
    match s.mask with
    | [] => s
    | front :: rest => { type := .lst_scale_even, mask := (1 / front) :: rest }
  | .lst_scale_odd =>
    match s.mask with
    | [] => s
    | front :: rest => { type := .lst_scale_odd, mask := (1 / front) :: rest }

/-- The dual step list of the specification. -/
def dual_steps (custom_steps : List (lifting_step K)) : List (lifting_step K) :=
  custom_steps.map dual_step

/-- `get_width`. -/
def get_width (s : scheme) : Int :=
  match s with
  | .jamlet_linear => 4
  | .jamlet_quadratic => 5
  | .jamlet_cubic => 4
  | .jamlet_4_point => 5
  | .cdf_5_3 => 4
  | .cdf_9_7 => 4
  | .cubic_bsplines => 4
  | .cubic_bspline_wavelets => 4
  | .daubechies_d4 => 4
  | .haar => 4
  | .four_point => 4
  | .chaikin => 4
  | .custom => 5

/-- The `switch (s)` that selects the forward transform of a scheme (as in
`compress`, `smooth`, `get_spline_component`), with the stride and the boundary
mode handed on to the catalog function; the custom scheme has neither. -/
def forward_scheme (sqrt3 : K) (s : scheme) (custom_steps : List (lifting_step K))
    (sample : List K) (n level stride : Nat) (cyclical : Bool) : Option (List K) :=
  match s with
  | .jamlet_linear => forward_jamlet_linear sample n level stride cyclical
  | .jamlet_quadratic => forward_jamlet_quadratic sample n level stride cyclical
  | .jamlet_cubic => forward_jamlet_cubic sample n level stride cyclical
  | .jamlet_4_point => forward_jamlet_4_point sample n level stride cyclical
  | .cdf_5_3 => forward_cdf_5_3 sample n level stride cyclical
  | .cdf_9_7 => forward_cdf_9_7 sample n level stride cyclical
  | .chaikin => forward_chaikin sample n level stride cyclical
  | .cubic_bsplines => forward_cubic_bsplines sample n level stride cyclical
  | .cubic_bspline_wavelets => forward_cubic_bspline_wavelets sample n level stride cyclical
  | .daubechies_d4 => forward_daubechies_d4 sqrt3 sample n level stride cyclical
  | .four_point => forward_4_point sample n level stride cyclical
  | .haar => forward_haar sample n level stride cyclical
  | .custom => forward_custom sample n level custom_steps

/-- The `switch (s)` that selects the inverse transform of a scheme. -/
def inverse_scheme (sqrt3 : K) (s : scheme) (custom_steps : List (lifting_step K))
    (sample : List K) (n level stride : Nat) (cyclical : Bool) : Option (List K) :=
  match s with
  | .jamlet_linear => inverse_jamlet_linear sample n level stride cyclical
  | .jamlet_quadratic => inverse_jamlet_quadratic sample n level stride cyclical
  | .jamlet_cubic => inverse_jamlet_cubic sample n level stride cyclical
  | .jamlet_4_point => inverse_jamlet_4_point sample n level stride cyclical
  | .cdf_5_3 => inverse_cdf_5_3 sample n level stride cyclical
  | .cdf_9_7 => inverse_cdf_9_7 sample n level stride cyclical
  | .chaikin => inverse_chaikin sample n level stride cyclical
  | .cubic_bsplines => inverse_cubic_bsplines sample n level stride cyclical
  | .cubic_bspline_wavelets => inverse_cubic_bspline_wavelets sample n level stride cyclical
  | .daubechies_d4 => inverse_daubechies_d4 sqrt3 sample n level stride cyclical
  | .four_point => inverse_4_point sample n level stride cyclical
  | .haar => inverse_haar sample n level stride cyclical
  | .custom => inverse_custom sample n level custom_steps

/-- The loop `for (lev = first; lev < first + count; ++lev) f(sample, lev)`. -/
def levels_up (f : List K → Nat → Option (List K)) : Nat → Nat → List K → Option (List K)
  | 0, _, sample => some sample
  | count + 1, lev, sample => (f sample lev).bind (levels_up f count (lev + 1))

/-- The loop `for (lev = count - 1; lev >= 0; --lev) f(sample, lev)`. -/
def levels_down (f : List K → Nat → Option (List K)) : Nat → List K → Option (List K)
  | 0, sample => some sample
  | count + 1, sample => (f sample count).bind (levels_down f count)

/-- Forward transform of scheme `s` at the levels `0, 1, ..., levels - get_width s`. -/
def forward_levels (sqrt3 : K) (s : scheme) (custom_steps : List (lifting_step K))
    (sample : List K) (n : Nat) (levels : Int) (stride : Nat) (cyclical : Bool) :
    Option (List K) :=
  levels_up (fun x lev => forward_scheme sqrt3 s custom_steps x n lev stride cyclical)
    (levels - get_width s + 1).toNat 0 sample

/-- Inverse transform of scheme `s` at the levels `levels - get_width s, ..., 1, 0`
(the loop of `make_scaling_function`). -/
def inverse_levels (sqrt3 : K) (s : scheme) (custom_steps : List (lifting_step K))
    (sample : List K) (n : Nat) (levels : Int) (stride : Nat) (cyclical : Bool) :
    Option (List K) :=
  levels_down (fun x lev => inverse_scheme sqrt3 s custom_steps x n lev stride cyclical)
    (levels - get_width s + 1).toNat sample

end Model

/-! ## The step-script parser (`tokenize.h`, `parse.h`, `parse.cpp`, `parse` in `model.cpp`) -/

/-- How a run of the parser can fail to return: a thrown `std::logic_error`
with its `what()` text, an operation without defined behaviour (`back()` or
`pop_back()` on an empty vector, `v[k]` past the end), or exhausted fuel of
this model. -/
inductive Failure
  | logic_error (what : String)
  | undefined_behaviour
  | out_of_fuel
  deriving DecidableEq, Repr

deriving instance DecidableEq for Except

/-- `token::e_type`. -/
inductive e_type
  | T_BAD
  | T_LEFT_ROUND_BRACKET
  | T_RIGHT_ROUND_BRACKET
  | T_INTEGER
  | T_REAL
  | T_ID
  | T_PLUS
  | T_MINUS
  | T_MUL
  | T_DIV
  | T_SEMICOLON
  deriving DecidableEq, Repr

/-- `struct token`. -/
structure token where
  type : e_type
  value : String
  line_nr : Int
  deriving DecidableEq, Repr

/-- The token stack of the parser.  `make_program` reverses the token vector and
every parser function pops from its back, so the head of this list is the
next token of the script. -/
abbrev tokens := List token

/-- `template<typename T> class Precedence`. -/
structure Precedence (T : Type) where
  operands : List T
  fops : List String
  line_nr : Int

/-- `class Factor` with its `std::variant<double, Expression, FuncCall>`: a
signed number, parenthesised expression or function call (`FuncCall` with
`name`, `exprs` and its own `line_nr`). -/
inductive Factor (D : Type) : Type where
  | number (sign : Char) (value : D) (line_nr : Int)
  | expression (sign : Char) (e : Precedence (Precedence (Factor D))) (line_nr : Int)
  | funccall (sign : Char) (name : String)
      (exprs : List (Precedence (Precedence (Factor D)))) (fn_line_nr : Int) (line_nr : Int)

/-- `typedef Precedence<Factor> Term`. -/
abbrev Term (D : Type) := Precedence (Factor D)

/-- `typedef Precedence<Term> Expression`. -/
abbrev Expression (D : Type) := Precedence (Term D)

/-- `class Tag`. -/
structure Tag where
  name : String
  line_nr : Int
  deriving DecidableEq, Repr

/-- `typedef std::variant<Expression, Tag> Statement`. -/
inductive Statement (D : Type) : Type where
  | expression (e : Expression D)
  | tag (t : Tag)

/-- `class Program`. -/
structure Program (D : Type) where
  statements : List (Statement D)

/-- The functions of `<cmath>` that `c_funcs` refers to. -/
structure cmath (D : Type) where
  sqrt : D → D
  pow : D → D → D
  sin : D → D
  cos : D → D
  exp : D → D
  log : D → D
  log2 : D → D
  abs : D → D

section Parser

variable {D : Type}

/-- `throw_parse_error`. -/
def throw_parse_error {α : Type} (line_nr : Int) (message : String) : Except Failure α :=
  if line_nr ≤ 0 then .error (.logic_error ("parse error: " ++ message))
  else .error (.logic_error ("parse error: line " ++ toString line_nr ++ ": " ++ message))

/-- `current`: the value of the next token, the empty string when there is none. -/
def current (tokes : tokens) : String :=
  match tokes with
  | [] => ""
  | t :: _ => t.value

/-- `take`: pop the next token. -/
def take (tokes : tokens) : Except Failure (token × tokens) :=
  match tokes with
  | [] => throw_parse_error (-1) "unexpected end"
  | t :: rest => .ok (t, rest)

/-- `current_type`. -/
def current_type (tokes : tokens) : e_type :=
  match tokes with
  | [] => .T_BAD
  | t :: _ => t.type

/-- `advance`: `tokens.pop_back()`. -/
def advance (tokes : tokens) : Except Failure tokens :=
  match tokes with
  | [] => .error .undefined_behaviour
  | _ :: rest => .ok rest

/-- `require`. -/
def require (tokes : tokens) (required : String) : Except Failure tokens :=
  match tokes with
  | [] => throw_parse_error (-1) ("unexpected end: missing " ++ required)
  | t :: rest =>
    if t.value ≠ required then
      throw_parse_error t.line_nr ("required: " ++ required ++ ", found: " ++ t.value)
    else .ok rest

/-- `is_tag`. -/
def is_tag ( fun_name : String) : Bool :=
  fun_name == "predict" || fun_name == "update" || fun_name == "scale_even" ||
    fun_name == "scale_odd"

/-- `is_fun`. -/
def is_fun ( fun_name : String) : Bool :=
  fun_name == "sqrt" || fun_name == "pow" || fun_name == "sin" || fun_name == "log" ||
    fun_name == "exp" || fun_name == "log2" || fun_name == "abs"

/-- `make_tag`. -/
def make_tag (tokes : tokens) : Except Failure (Tag × tokens) :=
  match take tokes with
  | .error f => .error f
  | .ok (t, rest) => .ok ({ name := t.value, line_nr := t.line_nr }, rest)

mutual

/-- `make_expression = parse_multiop<Expression, Term>(tokes, make_term, {"+", "-"})`. -/
def make_expression (to_double : String → D) :
    Nat → tokens → Except Failure (Expression D × tokens)
  | 0, _ => .error .out_of_fuel
  | _ + 1, [] => .error .undefined_behaviour
  | fuel + 1, t :: rest =>
    match make_term to_double fuel (t :: rest) with
    | .error f => .error f
    | .ok (first, tokes1) =>
      match expression_loop to_double fuel tokes1 with
      | .error f => .error f
      | .ok (operands, fops, tokes2) =>
        .ok ({ operands := first :: operands, fops := fops, line_nr := t.line_nr }, tokes2)

/-- The `while (1)` loop of `parse_multiop` for the operators `+` and `-`. -/
def expression_loop (to_double : String → D) :
    Nat → tokens → Except Failure (List (Term D) × List String × tokens)
  | 0, _ => .error .out_of_fuel
  | fuel + 1, tokes =>
    if current tokes = "+" ∨ current tokes = "-" then
      match tokes with
      | [] => .error .undefined_behaviour
      | t :: tokes1 =>
        match make_term to_double fuel tokes1 with
        | .error f => .error f
        | .ok (operand, tokes2) =>
          match expression_loop to_double fuel tokes2 with
          | .error f => .error f
          | .ok (operands, fops, tokes3) => .ok (operand :: operands, t.value :: fops, tokes3)
    else .ok ([], [], tokes)

/-- `make_term = parse_multiop<Term, Factor>(tokes, make_factor, {"*", "/"})`. -/
def make_term (to_double : String → D) : Nat → tokens → Except Failure (Term D × tokens)
  | 0, _ => .error .out_of_fuel
  | _ + 1, [] => .error .undefined_behaviour
  | fuel + 1, t :: rest =>
    match make_factor to_double fuel (t :: rest) with
    | .error f => .error f
    | .ok (first, tokes1) =>
      match term_loop to_double fuel tokes1 with
      | .error f => .error f
      | .ok (operands, fops, tokes2) =>
        .ok ({ operands := first :: operands, fops := fops, line_nr := t.line_nr }, tokes2)

/-- The `while (1)` loop of `parse_multiop` for the operators `*` and `/`. -/
def term_loop (to_double : String → D) :
    Nat → tokens → Except Failure (List (Factor D) × List String × tokens)
  | 0, _ => .error .out_of_fuel
  | fuel + 1, tokes =>
    if current tokes = "*" ∨ current tokes = "/" then
      match tokes with
      | [] => .error .undefined_behaviour
      | t :: tokes1 =>
        match make_factor to_double fuel tokes1 with
        | .error f => .error f
        | .ok (operand, tokes2) =>
          match term_loop to_double fuel tokes2 with
          | .error f => .error f
          | .ok (operands, fops, tokes3) => .ok (operand :: operands, t.value :: fops, tokes3)
    else .ok ([], [], tokes)

/-- `make_factor`: an optional sign, then a parenthesised expression, a
number or a function call. -/
def make_factor (to_double : String → D) : Nat → tokens → Except Failure (Factor D × tokens)
  | 0, _ => .error .out_of_fuel
  | fuel + 1, tokes =>
    match take tokes with
    | .error f => .error f
    | .ok (toke0, tokes0) =>
      let line_nr := toke0.line_nr
      let signed : Except Failure (Char × token × tokens) :=
        if toke0.value = "+" ∨ toke0.value = "-" then
          match take tokes0 with
          | .error f => .error f
          | .ok (toke1, tokes1) => .ok (toke0.value.get 0, toke1, tokes1)
        else .ok ('+', toke0, tokes0)
      match signed with
      | .error f => .error f
      | .ok (sign, toke, tokes1) =>
        match toke.type with
        | .T_LEFT_ROUND_BRACKET =>
          match make_expression to_double fuel tokes1 with
          | .error f => .error f
          | .ok (e, tokes2) =>
            match require tokes2 ")" with
            | .error f => .error f
            | .ok tokes3 => .ok (.expression sign e line_nr, tokes3)
        | .T_REAL => .ok (.number sign (to_double toke.value) line_nr, tokes1)
        | .T_INTEGER => .ok (.number sign (to_double toke.value) line_nr, tokes1)
        | .T_ID =>
          match make_funccall to_double fuel toke tokes1 with
          | .error f => .error f
          | .ok ((name, exprs, fn_line_nr), tokes2) =>
            .ok (.funccall sign name exprs fn_line_nr line_nr, tokes2)
        | _ => throw_parse_error toke.line_nr "Unhandled type"

/-- `make_funccall`: returns the `name`, `exprs` and `line_nr` of the `FuncCall`. -/
def make_funccall (to_double : String → D) :
    Nat → token → tokens → Except Failure ((String × List (Expression D) × Int) × tokens)
  | 0, _, _ => .error .out_of_fuel
  | fuel + 1, t, tokes =>
    if !is_fun t.value then throw_parse_error t.line_nr ("Unknown function " ++ t.value)
    else
      match require tokes "(" with
      | .error f => .error f
      | .ok tokes1 =>
        if current tokes1 ≠ ")" then
          match make_expression to_double fuel tokes1 with
          | .error f => .error f
          | .ok (e, tokes2) =>
            match funccall_loop to_double fuel tokes2 with
            | .error f => .error f
            | .ok (es, tokes3) =>
              match require tokes3 ")" with
              | .error f => .error f
              | .ok tokes4 => .ok ((t.value, e :: es, t.line_nr), tokes4)
        else
          match require tokes1 ")" with
          | .error f => .error f
          | .ok tokes2 => .ok ((t.value, [], t.line_nr), tokes2)

/-- The loop `while (current(tokes) == ",") { advance(tokes); exprs.push_back(make_expression(tokes)); }`. -/
def funccall_loop (to_double : String → D) :
    Nat → tokens → Except Failure (List (Expression D) × tokens)
  | 0, _ => .error .out_of_fuel
  | fuel + 1, tokes =>
    if current tokes = "," then
      match advance tokes with
      | .error f => .error f
      | .ok tokes1 =>
        match make_expression to_double fuel tokes1 with
        | .error f => .error f
        | .ok (e, tokes2) =>
          match funccall_loop to_double fuel tokes2 with
          | .error f => .error f
          | .ok (es, tokes3) => .ok (e :: es, tokes3)
    else .ok ([], tokes)

end

/-- Fuel handed to the expression parser for a token stack: more than the
depth of calls that the stack can cause. -/
def parse_fuel (tokes : tokens) : Nat := 4 * tokes.length + 4

/-- `make_statement`. -/
def make_statement (to_double : String → D) (tokes : tokens) :
    Except Failure (Statement D × tokens) :=
  match tokes with
  | [] => throw_parse_error (-1) "incomplete tokens stack"
  | t :: _ =>
    if t.type = .T_ID ∧ is_tag (current tokes) = true then
      match make_tag tokes with
      | .error f => .error f
      | .ok (tag, rest) => .ok (.tag tag, rest)
    else
      match make_expression to_double (parse_fuel tokes) tokes with
      | .error f => .error f
      | .ok (e, rest) => .ok (.expression e, rest)

/-- The loop `while (!tokes.empty()) { statements.push_back(make_statement(tokes)); require(tokes, ";"); }`. -/
def make_program_loop (to_double : String → D) :
    Nat → tokens → Except Failure (List (Statement D))
  | _, [] => .ok []
  | 0, _ :: _ => .error .out_of_fuel
  | fuel + 1, t :: rest =>
    match make_statement to_double (t :: rest) with
    | .error f => .error f
    | .ok (stm, tokes1) =>
      match require tokes1 ";" with
      | .error f => .error f
      | .ok tokes2 =>
        match make_program_loop to_double fuel tokes2 with
        | .error f => .error f
        | .ok stms => .ok (stm :: stms)

/-- `make_program`, on the tokens in script order. -/
def make_program (to_double : String → D) (tokes : tokens) : Except Failure (Program D) :=
  match make_program_loop to_double tokes.length tokes with
  | .error f => .error f
  | .ok stms => .ok { statements := stms }

end Parser

/-! ### Evaluation (`get_value`) -/

section Evaluation

variable {D : Type} [Field D]

def c_add (v : List D) : Except Failure D :=
  match v with
  | a :: b :: _ => .ok (a + b)
  | _ => .error .undefined_behaviour

def c_sub (v : List D) : Except Failure D :=
  match v with
  | a :: b :: _ => .ok (a - b)
  | _ => .error .undefined_behaviour

def c_mul (v : List D) : Except Failure D :=
  match v with
  | a :: b :: _ => .ok (a * b)
  | _ => .error .undefined_behaviour

def c_div (v : List D) : Except Failure D :=
  match v with
  | a :: b :: _ => .ok (a / b)
  | _ => .error .undefined_behaviour

/-- A one-argument entry of `c_funcs`: `return f(v[0])`. -/
def c_unary (f : D → D) (v : List D) : Except Failure D :=
  match v with
  | a :: _ => .ok (f a)
  | [] => .error .undefined_behaviour

/-- `c_pow`: `return pow(v[0], v[1])`. -/
def c_pow (m : cmath D) (v : List D) : Except Failure D :=
  match v with
  | a :: b :: _ => .ok (m.pow a b)
  | _ => .error .undefined_behaviour

/-- The map `c_funcs` with its `find`. -/
def c_funcs (m : cmath D) (name : String) : Option (List D → Except Failure D) :=
  if name = "+" then some c_add
  else if name = "-" then some c_sub
  else if name = "*" then some c_mul
  else if name = "/" then some c_div
  else if name = "sqrt" then some (c_unary m.sqrt)
  else if name = "pow" then some (c_pow m)
  else if name = "sin" then some (c_unary m.sin)
  else if name = "cos" then some (c_unary m.cos)
  else if name = "exp" then some (c_unary m.exp)
  else if name = "log" then some (c_unary m.log)
  else if name = "log2" then some (c_unary m.log2)
  else if name = "abs" then some (c_unary m.abs)
  else none

/-- The body of the `while (j < fops.size())` loops of `get_value`: look the
operator up in `c_funcs` and apply it to `value` and `v2`. -/
def apply_fop (m : cmath D) (fop : String) (value v2 : D) : Except Failure D :=
  match c_funcs m fop with
  | none => .error (.logic_error ("error: unknown function: " ++ fop))
  | some f => f [value, v2]

/-- `-ret` when the sign of the factor is `'-'`. -/
def apply_sign (sign : Char) (ret : D) : D :=
  if sign = '-' then -ret else ret

mutual

/-- `get_value(const Factor&)`. -/
def get_value_factor (m : cmath D) : Factor D → Except Failure D
  | .number sign value _ => .ok (apply_sign sign value)
  | .funccall sign name exprs _ _ =>
    match get_values m exprs with
    | .error f => .error f
    | .ok v =>
      match c_funcs m name with
      | none => .error (.logic_error ("error: unknown function: " ++ name))
      | some f =>
        match f v with
        | .error e => .error e
        | .ok ret => .ok (apply_sign sign ret)
  | .expression sign e _ =>
    match get_value m e with
    | .error f => .error f
    | .ok ret => .ok (apply_sign sign ret)

/-- The loop `for (const auto& e : f.exprs) v.push_back(get_value(e))`. -/
def get_values (m : cmath D) : List (Expression D) → Except Failure (List D)
  | [] => .ok []
  | e :: es =>
    match get_value m e with
    | .error f => .error f
    | .ok v =>
      match get_values m es with
      | .error f => .error f
      | .ok vs => .ok (v :: vs)

/-- `get_value(const Term&)`. -/
def get_value_term (m : cmath D) : Term D → Except Failure D
  | ⟨[], _, _⟩ => .error .undefined_behaviour
  | ⟨first :: operands, fops, _⟩ =>
    match get_value_factor m first with
    | .error f => .error f
    | .ok value => term_value_loop m value operands fops

/-- The `while (j < t.fops.size())` loop of `get_value(const Term&)`. -/
def term_value_loop (m : cmath D) (value : D) :
    List (Factor D) → List String → Except Failure D
  | _, [] => .ok value
  | [], _ :: _ => .error .undefined_behaviour
  | operand :: operands, fop :: fops =>
    match get_value_factor m operand with
    | .error f => .error f
    | .ok v2 =>
      match apply_fop m fop value v2 with
      | .error f => .error f
      | .ok value1 => term_value_loop m value1 operands fops

/-- `get_value(const Expression&)`. -/
def get_value (m : cmath D) : Expression D → Except Failure D
  | ⟨[], _, _⟩ => .error .undefined_behaviour
  | ⟨first :: operands, fops, _⟩ =>
    match get_value_term m first with
    | .error f => .error f
    | .ok value => expression_value_loop m value operands fops

/-- The `while (j < e.fops.size())` loop of `get_value(const Expression&)`. -/
def expression_value_loop (m : cmath D) (value : D) :
    List (Term D) → List String → Except Failure D
  | _, [] => .ok value
  | [], _ :: _ => .error .undefined_behaviour
  | operand :: operands, fop :: fops =>
    match get_value_term m operand with
    | .error f => .error f
    | .ok v2 =>
      match apply_fop m fop value v2 with
      | .error f => .error f
      | .ok value1 => expression_value_loop m value1 operands fops

end

end Evaluation

/-! ### `parse` (`model.cpp`) -/

section Parse

variable {D : Type} [Field D]

/-- The `if / else if` chain of `parse` on the name of a tag: the step kind it
opens, if any. -/
def tag_type (name : String) : Option lifting_step_type :=
  if name = "predict" then some .lst_predict
  else if name = "update" then some .lst_update
  else if name = "scale_even" then some .lst_scale_even
  else if name = "scale_odd" then some .lst_scale_odd
  else none

/-- `rules.back().mask.push_back(v)`. -/
def push_to_back (rules : List (lifting_step D)) (v : D) : List (lifting_step D) :=
  match rules with
  | [] => []
  | [r] => [{ type := r.type, mask := r.mask ++ [v] }]
  | r :: r2 :: rest => r :: push_to_back (r2 :: rest) v

/-- The loop `for (const auto& stm : prog.statements)` of `parse`, started with
the rules built so far.  Returns the rules at the end of the loop, or the
rules at the moment an exception left the loop together with that exception. -/
def build_rules (m : cmath D) :
    List (Statement D) → List (lifting_step D) → List (lifting_step D) × Option Failure
  | [], rules => (rules, none)
  | .tag t :: rest, rules =>
    match tag_type t.name with
    | some ty => build_rules m rest (rules ++ [{ type := ty, mask := [] }])
    | none => build_rules m rest rules
  | .expression e :: rest, rules =>
    if rules.isEmpty then
      (rules, some (.logic_error
        "error: tag missing (valid tags are update, predict, scale_even, scale_odd)"))
    else
      match get_value m e with
      | .error f => (rules, some f)
      | .ok v => build_rules m rest (push_to_back rules v)

/-- What `parse` hands back: the returned rules and, when a `std::logic_error`
was caught, its `what()` text (which is logged). -/
structure parse_output (D : Type) where
  rules : List (lifting_step D)
  error : Option String
  deriving DecidableEq

/-- `parse`: tokenize, `make_program`, build the rules; a `std::logic_error`
is caught and the rules built so far are returned.  The tokenizer and
`to_double` (`tokenize.cpp`) and the `<cmath>` functions are parameters.  The
final call `analyze(custom, rules)`, which only logs, is not part of the model. -/
def parse (tokenize : String → Except Failure tokens) (to_double : String → D) (m : cmath D)
    (wavelet_rules : String) : Except Failure (parse_output D) :=
  match tokenize wavelet_rules with
  | .error (.logic_error what) => .ok { rules := [], error := some what }
  | .error f => .error f
  | .ok tokes =>
    match make_program to_double tokes with
    | .error (.logic_error what) => .ok { rules := [], error := some what }
    | .error f => .error f
    | .ok prog =>
      match build_rules m prog.statements [] with
      | (rules, some (.logic_error what)) => .ok { rules := rules, error := some what }
      | (_, some f) => .error f
      | (rules, none) => .ok { rules := rules, error := none }

/-- The value of an expression statement, 0 when `get_value` does not return. -/
def statement_value (m : cmath D) (e : Expression D) : D :=
  match get_value m e with
  | .ok v => v
  | .error _ => 0

/-- Specification: the values of the expression statements in front of the next tag. -/
def leading_values (m : cmath D) : List (Statement D) → List D
  | .expression e :: rest => statement_value m e :: leading_values m rest
  | _ => []

/-- Specification of the step list of a program: one step per tag statement,
in source order, of the kind the tag names, whose mask holds the values of
the expression statements between this tag and the next one. -/
def steps_of_statements (m : cmath D) : List (Statement D) → List (lifting_step D)
  | [] => []
  | .tag t :: rest =>
    match tag_type t.name with
    | some ty => { type := ty, mask := leading_values m rest } :: steps_of_statements m rest
    | none => steps_of_statements m rest
  | .expression _ :: rest => steps_of_statements m rest

end Parse

/-! ### Test data: the script of the specification's DSL example -/

/-- The tokens of the script
`predict; -1/16; 9/16; 9/16; -1/16; update; 0.25; 0.25;`
(line breaks as in the specification: lines 1, 2, 4 and 5). -/
def example_script_tokens : tokens :=
  [⟨.T_ID, "predict", 1⟩, ⟨.T_SEMICOLON, ";", 1⟩,
   ⟨.T_MINUS, "-", 2⟩, ⟨.T_INTEGER, "1", 2⟩, ⟨.T_DIV, "/", 2⟩, ⟨.T_INTEGER, "16", 2⟩,
   ⟨.T_SEMICOLON, ";", 2⟩,
   ⟨.T_INTEGER, "9", 2⟩, ⟨.T_DIV, "/", 2⟩, ⟨.T_INTEGER, "16", 2⟩, ⟨.T_SEMICOLON, ";", 2⟩,
   ⟨.T_INTEGER, "9", 2⟩, ⟨.T_DIV, "/", 2⟩, ⟨.T_INTEGER, "16", 2⟩, ⟨.T_SEMICOLON, ";", 2⟩,
   ⟨.T_MINUS, "-", 2⟩, ⟨.T_INTEGER, "1", 2⟩, ⟨.T_DIV, "/", 2⟩, ⟨.T_INTEGER, "16", 2⟩,
   ⟨.T_SEMICOLON, ";", 2⟩,
   ⟨.T_ID, "update", 4⟩, ⟨.T_SEMICOLON, ";", 4⟩,
   ⟨.T_REAL, "0.25", 5⟩, ⟨.T_SEMICOLON, ";", 5⟩,
   ⟨.T_REAL, "0.25", 5⟩, ⟨.T_SEMICOLON, ";", 5⟩]

/-- A reading of the number tokens of the example script as rationals. -/
def example_to_double (value : String) : ℚ :=
  if value = "0.25" then 1 / 4
  else if value = "1" then 1
  else if value = "9" then 9
  else if value = "16" then 16
  else 0

/-- Stand-ins for the `<cmath>` functions over the rationals (the example
script calls none of them). -/
def example_cmath : cmath ℚ :=
  { sqrt := fun a => a, pow := fun a _ => a, sin := fun a => a, cos := fun a => a,
    exp := fun a => a, log := fun a => a, log2 := fun a => a, abs := fun a => |a| }

/-! ### Shape of parsed expressions and the arithmetic value of the grammar -/

section Shape

variable {D : Type}

/-- The sign of a factor is one of the two sign characters. -/
def sign_ok (sign : Char) : Bool :=
  sign == '+' || sign == '-'

/-- Every operator of the list is one of `a`, `b`. -/
def fops_ok (a b : String) (fops : List String) : Bool :=
  fops.all fun f => f == a || f == b

mutual

/-- Shape of a factor that `make_factor` returns. -/
def wf_factor : Factor D → Bool
  | .number sign _ _ => sign_ok sign
  | .expression sign e _ => sign_ok sign && wf_expression e
  | .funccall sign name exprs _ _ => sign_ok sign && is_fun name && wf_expressions exprs

/-- Shape of a term that `make_term` returns: one operand more than operators,
all operators `*` or `/`. -/
def wf_term : Term D → Bool
  | ⟨operands, fops, _⟩ =>
    operands.length == fops.length + 1 && fops_ok "*" "/" fops && wf_factors operands

def wf_factors : List (Factor D) → Bool
  | [] => true
  | f :: fs => wf_factor f && wf_factors fs

/-- Shape of an expression that `make_expression` returns: one operand more
than operators, all operators `+` or `-`. -/
def wf_expression : Expression D → Bool
  | ⟨operands, fops, _⟩ =>
    operands.length == fops.length + 1 && fops_ok "+" "-" fops && wf_terms operands

def wf_terms : List (Term D) → Bool
  | [] => true
  | t :: ts => wf_term t && wf_terms ts

def wf_expressions : List (Expression D) → Bool
  | [] => true
  | e :: es => wf_expression e && wf_expressions es

end

/-- Specification: `pow` has two arguments, every other function has one. -/
def arity (name : String) : Nat :=
  if name = "pow" then 2 else 1

mutual

/-- Every call in the factor supplies exactly the arguments of its function. -/
def arity_ok_factor : Factor D → Bool
  | .number _ _ _ => true
  | .expression _ e _ => arity_ok_expression e
  | .funccall _ name exprs _ _ =>
    arity_ok_expressions exprs && exprs.length == arity name

def arity_ok_term : Term D → Bool
  | ⟨operands, _, _⟩ => arity_ok_factors operands

def arity_ok_factors : List (Factor D) → Bool
  | [] => true
  | f :: fs => arity_ok_factor f && arity_ok_factors fs

def arity_ok_expression : Expression D → Bool
  | ⟨operands, _, _⟩ => arity_ok_terms operands

def arity_ok_terms : List (Term D) → Bool
  | [] => true
  | t :: ts => arity_ok_term t && arity_ok_terms ts

def arity_ok_expressions : List (Expression D) → Bool
  | [] => true
  | e :: es => arity_ok_expression e && arity_ok_expressions es

end

end Shape

section Arith

variable {D : Type} [Field D]

/-- Specification: the value of a call, `pow` of two arguments and each other
function of one argument. -/
def call_value (m : cmath D) (name : String) (args : List D) : Option D :=
  match args with
  | [a] =>
    if name = "sqrt" then some (m.sqrt a)
    else if name = "sin" then some (m.sin a)
    else if name = "cos" then some (m.cos a)
    else if name = "exp" then some (m.exp a)
    else if name = "log" then some (m.log a)
    else if name = "log2" then some (m.log2 a)
    else if name = "abs" then some (m.abs a)
    else none
  | [a, b] => if name = "pow" then some (m.pow a b) else none
  | _ => none

/-- Specification: the binary operation an operator sign stands for. -/
def additive_op (fop : String) : Option (D → D → D) :=
  if fop = "+" then some fun a b => a + b
  else if fop = "-" then some fun a b => a - b
  else none

/-- Specification: the binary operation an operator sign stands for. -/
def multiplicative_op (fop : String) : Option (D → D → D) :=
  if fop = "*" then some fun a b => a * b
  else if fop = "/" then some fun a b => a / b
  else none

/-- Specification: operators of equal precedence associate from left to
right: `v0 op1 v1 op2 v2 ...` is `((v0 op1 v1) op2 v2) ...`. -/
def left_assoc (op_of : String → Option (D → D → D)) (value : D) :
    List D → List String → Option D
  | [], [] => some value
  | v :: vs, fop :: fops =>
    match op_of fop with
    | some g => left_assoc op_of (g value v) vs fops
    | none => none
  | _, _ => none

/-- Specification: a leading `-` negates the factor it stands in front of. -/
def signed (sign : Char) (value : D) : D :=
  if sign = '-' then -value else value

mutual

/-- Specification: the arithmetic value of a factor: a signed number, a signed
parenthesised expression taken as a unit, or a signed call. -/
def arith_factor (m : cmath D) : Factor D → Option D
  | .number sign value _ => some (signed sign value)
  | .expression sign e _ =>
    match arith_value m e with
    | some v => some (signed sign v)
    | none => none
  | .funccall sign name exprs _ _ =>
    match arith_values m exprs with
    | some args =>
      match call_value m name args with
      | some v => some (signed sign v)
      | none => none
    | none => none

def arith_factors (m : cmath D) : List (Factor D) → Option (List D)
  | [] => some []
  | f :: fs =>
    match arith_factor m f, arith_factors m fs with
    | some v, some vs => some (v :: vs)
    | _, _ => none

/-- Specification: the arithmetic value of a term, a left-associated chain of
`*` and `/`. -/
def arith_term (m : cmath D) : Term D → Option D
  | ⟨[], _, _⟩ => none
  | ⟨first :: operands, fops, _⟩ =>
    match arith_factor m first, arith_factors m operands with
    | some v, some vs => left_assoc multiplicative_op v vs fops
    | _, _ => none

def arith_terms (m : cmath D) : List (Term D) → Option (List D)
  | [] => some []
  | t :: ts =>
    match arith_term m t, arith_terms m ts with
    | some v, some vs => some (v :: vs)
    | _, _ => none

/-- Specification: the arithmetic value of an expression, a left-associated
chain of `+` and `-` over the values of its terms. -/
def arith_value (m : cmath D) : Expression D → Option D
  | ⟨[], _, _⟩ => none
  | ⟨first :: operands, fops, _⟩ =>
    match arith_term m first, arith_terms m operands with
    | some v, some vs => left_assoc additive_op v vs fops
    | _, _ => none

def arith_values (m : cmath D) : List (Expression D) → Option (List D)
  | [] => some []
  | e :: es =>
    match arith_value m e, arith_values m es with
    | some v, some vs => some (v :: vs)
    | _, _ => none

end

end Arith

/-! ### Test data for the expression grammar -/

/-- A reading of unsigned integer number tokens as rationals, digit by digit. -/
def digits_to_double (value : String) : ℚ :=
  ((value.data.foldl (fun n c => 10 * n + (c.toNat - 48)) 0 : Nat) : ℚ)

/-- The value `get_value` returns for the expression that `make_expression`
parses from the token stack, with the tokens it leaves. -/
def parsed_value (tokes : tokens) : Option (Except Failure ℚ × tokens) :=
  (make_expression digits_to_double (parse_fuel tokes) tokes).toOption.map
    fun p => (get_value example_cmath p.1, p.2)

/-- The tokens of `1 - 2 - 3`. -/
def tokens_1_minus_2_minus_3 : tokens :=
  [⟨.T_INTEGER, "1", 1⟩, ⟨.T_MINUS, "-", 1⟩, ⟨.T_INTEGER, "2", 1⟩, ⟨.T_MINUS, "-", 1⟩,
   ⟨.T_INTEGER, "3", 1⟩]

/-- The tokens of `8 / 4 / 2`. -/
def tokens_8_div_4_div_2 : tokens :=
  [⟨.T_INTEGER, "8", 1⟩, ⟨.T_DIV, "/", 1⟩, ⟨.T_INTEGER, "4", 1⟩, ⟨.T_DIV, "/", 1⟩,
   ⟨.T_INTEGER, "2", 1⟩]

/-- The tokens of `1 + 2 * 3 - 8 / 4`. -/
def tokens_precedence : tokens :=
  [⟨.T_INTEGER, "1", 1⟩, ⟨.T_PLUS, "+", 1⟩, ⟨.T_INTEGER, "2", 1⟩, ⟨.T_MUL, "*", 1⟩,
   ⟨.T_INTEGER, "3", 1⟩, ⟨.T_MINUS, "-", 1⟩, ⟨.T_INTEGER, "8", 1⟩, ⟨.T_DIV, "/", 1⟩,
   ⟨.T_INTEGER, "4", 1⟩]

/-- The tokens of `-2 + 3`. -/
def tokens_leading_sign : tokens :=
  [⟨.T_MINUS, "-", 1⟩, ⟨.T_INTEGER, "2", 1⟩, ⟨.T_PLUS, "+", 1⟩, ⟨.T_INTEGER, "3", 1⟩]

/-- The tokens of `2 * -(1 + 2) * 3`. -/
def tokens_parenthesised : tokens :=
  [⟨.T_INTEGER, "2", 1⟩, ⟨.T_MUL, "*", 1⟩, ⟨.T_MINUS, "-", 1⟩,
   ⟨.T_LEFT_ROUND_BRACKET, "(", 1⟩, ⟨.T_INTEGER, "1", 1⟩, ⟨.T_PLUS, "+", 1⟩,
   ⟨.T_INTEGER, "2", 1⟩, ⟨.T_RIGHT_ROUND_BRACKET, ")", 1⟩, ⟨.T_MUL, "*", 1⟩,
   ⟨.T_INTEGER, "3", 1⟩]

/-- Specification: the call identifiers the grammar allows. -/
def allowed_functions : List String :=
  ["sqrt", "pow", "sin", "cos", "exp", "log", "log2", "abs"]

/-- The tokens of the script `0.5;`. -/
def tokens_number_only : tokens :=
  [⟨.T_REAL, "0.5", 1⟩, ⟨.T_SEMICOLON, ";", 1⟩]

/-- A reading of the number token `0.5`. -/
def half_to_double (value : String) : ℚ :=
  if value = "0.5" then 1 / 2 else digits_to_double value

/-- The tokens of the script `predict; 1 + foo(2);` (the call on line 3). -/
def tokens_unknown_call : tokens :=
  [⟨.T_ID, "predict", 1⟩, ⟨.T_SEMICOLON, ";", 1⟩,
   ⟨.T_INTEGER, "1", 3⟩, ⟨.T_PLUS, "+", 3⟩, ⟨.T_ID, "foo", 3⟩,
   ⟨.T_LEFT_ROUND_BRACKET, "(", 3⟩, ⟨.T_INTEGER, "2", 3⟩, ⟨.T_RIGHT_ROUND_BRACKET, ")", 3⟩,
   ⟨.T_SEMICOLON, ";", 3⟩]

/-- The tokens of the script `predict; cos(0);`. -/
def tokens_cos_call : tokens :=
  [⟨.T_ID, "predict", 1⟩, ⟨.T_SEMICOLON, ";", 1⟩,
   ⟨.T_ID, "cos", 1⟩, ⟨.T_LEFT_ROUND_BRACKET, "(", 1⟩, ⟨.T_INTEGER, "0", 1⟩,
   ⟨.T_RIGHT_ROUND_BRACKET, ")", 1⟩, ⟨.T_SEMICOLON, ";", 1⟩]

/-- The tokens of the script `predict; name(0);` for a call identifier `name`. -/
def tokens_unary_call (name : String) : tokens :=
  [⟨.T_ID, "predict", 1⟩, ⟨.T_SEMICOLON, ";", 1⟩,
   ⟨.T_ID, name, 1⟩, ⟨.T_LEFT_ROUND_BRACKET, "(", 1⟩, ⟨.T_INTEGER, "0", 1⟩,
   ⟨.T_RIGHT_ROUND_BRACKET, ")", 1⟩, ⟨.T_SEMICOLON, ";", 1⟩]

/-- The tokens of the script `predict; sqrt();`. -/
def tokens_sqrt_no_argument : tokens :=
  [⟨.T_ID, "predict", 1⟩, ⟨.T_SEMICOLON, ";", 1⟩,
   ⟨.T_ID, "sqrt", 1⟩, ⟨.T_LEFT_ROUND_BRACKET, "(", 1⟩,
   ⟨.T_RIGHT_ROUND_BRACKET, ")", 1⟩, ⟨.T_SEMICOLON, ";", 1⟩]

/-- The tokens of the script `predict; pow(2);`. -/
def tokens_pow_one_argument : tokens :=
  [⟨.T_ID, "predict", 1⟩, ⟨.T_SEMICOLON, ";", 1⟩,
   ⟨.T_ID, "pow", 1⟩, ⟨.T_LEFT_ROUND_BRACKET, "(", 1⟩, ⟨.T_INTEGER, "2", 1⟩,
   ⟨.T_RIGHT_ROUND_BRACKET, ")", 1⟩, ⟨.T_SEMICOLON, ";", 1⟩]

/-- The tokens of the script `predict; 1 +`. -/
def tokens_end_after_operator : tokens :=
  [⟨.T_ID, "predict", 1⟩, ⟨.T_SEMICOLON, ";", 1⟩, ⟨.T_INTEGER, "1", 1⟩, ⟨.T_PLUS, "+", 1⟩]

/-- The tokens of the script `predict; (`. -/
def tokens_end_after_bracket : tokens :=
  [⟨.T_ID, "predict", 1⟩, ⟨.T_SEMICOLON, ";", 1⟩, ⟨.T_LEFT_ROUND_BRACKET, "(", 1⟩]

/-- The tokens of the script `predict; pow(2,`, the comma as a token of value `,`. -/
def tokens_end_after_comma : tokens :=
  [⟨.T_ID, "predict", 1⟩, ⟨.T_SEMICOLON, ";", 1⟩,
   ⟨.T_ID, "pow", 1⟩, ⟨.T_LEFT_ROUND_BRACKET, "(", 1⟩, ⟨.T_INTEGER, "2", 1⟩,
   ⟨.T_BAD, ",", 1⟩]

/-- Whether a run ended in an operation without defined behaviour. -/
def is_undefined_behaviour {α : Type} (r : Except Failure α) : Bool :=
  match r with
  | .error .undefined_behaviour => true
  | _ => false

/-- Whether a run returned. -/
def returns {α : Type} (r : Except Failure α) : Bool :=
  match r with
  | .ok _ => true
  | .error _ => false

/-! ## The sum-rule order of a mask (`sobolev.cpp`) -/

section Sobolev

variable {K : Type} [LinearOrderedField K]

/-- `factorial`: the `int` product `2 * 3 * ... * f`, returned as a `double`
(no overflow for `f ≤ 12`; `sumruleorder` calls it with `f ≤ 10`). -/
def factorial (f : Nat) : Nat :=
  (List.range' 2 (f - 1)).foldl (fun fact i => fact * i) 1

/-- `ELp = {1.0, -1.0}`. -/
def ELp (k : Nat) : K :=
  if k = 0 then 1 else -1

/-- A loop `for (j = 0; j <= N; ++j) acc += term(j)` with `n = N + 1` passes. -/
def sum_loop (n : Nat) (term : Nat → K) (init : K) : K :=
  (List.range n).foldl (fun acc j => acc + term j) init

/-- `P[j]`, the mask entry divided by `m = 2`. -/
def P (p : List K) (j : Nat) : K :=
  p.getD j 0 / 2

/-- `PP[k]` after the loop `PP[k] = PP[k] + pow(ELp[k], j1) * P[j1]`. -/
def PP (p : List K) (k : Nat) : K :=
  sum_loop p.length (fun j1 => ELp k ^ j1 * P p j1) 0

/-- `DP(i2, k)` (column `k` counted from 0) after the loop
`DP(i2, k - 1) += pow(j2, i2) * pow(ELp[k - 1], j2) * P[j2]`; the matrix starts
as zeros with `DP(0, 1) = PP[1]`. -/
def DP (p : List K) (i2 k : Nat) : K :=
  sum_loop p.length (fun j2 => (j2 : K) ^ i2 * ELp k ^ j2 * P p j2)
    (if i2 = 0 ∧ k = 1 then PP p 1 else 0)

/-- The matrices `lesssum00r` and `y` that the loop
`for (int s = 2; s <= k0; ++s)` carries from pass to pass. -/
structure order_state (K : Type) where
  lesssum00r : K × K
  y : List K

/-- The summand
`factorial(s) / (factorial(ga1) * factorial(s - ga1)) * pow(m, ga1) * pow(-1, s - ga1) * y(ga1) * DP(s - ga1, k - 1)`. -/
def lesssum_term (p : List K) (y : List K) (s ga1 k : Nat) : K :=
  (factorial s : K) / ((factorial ga1 : K) * (factorial (s - ga1) : K)) * 2 ^ ga1 *
    (-1) ^ (s - ga1) * y.getD ga1 0 * DP p (s - ga1) k

/-- The body of the loop over `s` up to its test: the two passes `k = 1, 2`
over `lesssum00r`, `y(s)` and `sumpir`; returns the matrices and `sumpir(1)`. -/
def order_pass (p : List K) (s : Nat) (st : order_state K) : order_state K × K :=
  let P0 := PP p 0
  let l0 := sum_loop s (fun ga1 => lesssum_term p st.y s ga1 0) st.lesssum00r.1
  let y1 := st.y.set s (l0 / (1 - 2 ^ s * P0))
  let l1 := sum_loop s (fun ga1 => lesssum_term p y1 s ga1 1) st.lesssum00r.2
  let y2 := y1.set s (l0 / (1 - 2 ^ s * P0))
  ({ lesssum00r := (l0, l1), y := y2 }, l1 + 2 ^ s * y2.getD s 0 * PP p 1)

/-- The loop `for (int s = 2; s <= k0; ++s)` over the remaining values of `s`:
it returns at the first `sumpir(1)` above `error` and counts `SLO` up otherwise. -/
def order_loop (p : List K) (error : K) : List Nat → order_state K → Int → Int
  | [], _, SLO => SLO
  | s :: rest, st, SLO =>
    if |(order_pass p s st).2| > error then SLO
    else order_loop p error rest (order_pass p s st).1 (SLO + 1)

/-- `y` and `sum00` of the check of order 2. -/
def y_order2 (p : List K) : List K :=
  let y0 : List K := (List.replicate 11 0).set 0 1
  y0.set 1 ((-1) * y0.getD 0 0 * DP p 1 0 / (1 - 2 * PP p 0))

/-- `sum00 = m * y(1) * PP[1] + (-1) * y(0) * DP(1, 1)`. -/
def sum00 (p : List K) : K :=
  2 * (y_order2 p).getD 1 0 * PP p 1 + (-1) * (y_order2 p).getD 0 0 * DP p 1 1

/-- `sumruleorder`: the values of `SLO` and `P0` at the return, or the thrown
`std::logic_error`.  The thresholds `1e-4` and `1e-8` are the exact decimal
fractions and the arithmetic is exact. -/
def sumruleorder (p : List K) : Except Failure (Int × K) :=
  let P0 := PP p 0
  if |P0 - 1| > 1 / 10 ^ 4 then .error (.logic_error "P0 does not satisfy condition E")
  else
    let vpp := PP p 1
    let error : K := 1 / 10 ^ 8
    if |vpp| > error then
      .error (.logic_error "Mask does not satisfy the sum rule of order 1")
    else if |sum00 p| > error then .ok (1, P0)
    else
      .ok (order_loop p error (List.range' 2 9)
        { lesssum00r := (0, 0), y := y_order2 p } 2, P0)

/-- The quantities the search tests one after the other while it runs: the
`sumpir(1)` of the passes over the values of `s`. -/
def residuals_from (p : List K) : List Nat → order_state K → List K
  | [], _ => []
  | s :: rest, st => (order_pass p s st).2 :: residuals_from p rest (order_pass p s st).1

/-- The residual of each order from 2 on, as `sumruleorder` computes them:
`sum00` for order 2 and the `sumpir(1)` of pass `s` for order `s + 1`. -/
def sum_rule_residuals (p : List K) : List K :=
  sum00 p :: residuals_from p (List.range' 2 9) { lesssum00r := (0, 0), y := y_order2 p }

/-- Specification: order 1 and each higher order in turn as long as the
absolute value of its residual is at most `tol`. -/
def accepted_order (tol : K) (p : List K) : Int :=
  1 + ((sum_rule_residuals p).takeWhile fun r => decide (|r| ≤ tol)).length

end Sobolev

/-! ### Test masks -/

/-- The mask of the linear B-spline. -/
def mask_linear : List ℚ := [1 / 2, 1, 1 / 2]

/-- The mask of the 4-point scheme. -/
def mask_4_point : List ℚ := [-1 / 16, 0, 9 / 16, 1, 9 / 16, 0, -1 / 16]

/-- A mask whose residual of order 2 is `-1 / 2 ^ 21`, between `1e-8` and `1e-6`
in absolute value. -/
def mask_order2_residual : List ℚ := [1 / 2 - 1 / 2 ^ 21, 1, 1 / 2 + 1 / 2 ^ 21]

/-- The binomial mask `C(11, j) / 2 ^ 10`, `j = 0 .. 11`. -/
def mask_binomial_11 : List ℚ :=
  [1 / 1024, 11 / 1024, 55 / 1024, 165 / 1024, 330 / 1024, 462 / 1024, 462 / 1024, 330 / 1024,
   165 / 1024, 55 / 1024, 11 / 1024, 1 / 1024]

/-! ## Thresholding of detail coefficients (`compress`, `smooth` in `lifting.h`) -/

namespace lifting

section Threshold

variable {K : Type} [LinearOrderedField K]

/-- The loop `for (uint64_t i = 0; i < n; ++i)` of `compress` with `count`
passes left from `i`: a sample with `i & mask` nonzero and `|sample| < threshold`
is set to zero and counted. -/
def compress_loop (threshold : K) (mask stride : Nat) :
    Nat → Nat → List K → Nat → Option (List K × Nat)
  | 0, _, sample, compressed => some (sample, compressed)
  | count + 1, i, sample, compressed =>
    if i &&& mask ≠ 0 then
      (rd sample ((i * stride : Nat) : Int)).bind fun v =>
        if |v| < threshold then
          (wr sample ((i * stride : Nat) : Int) 0).bind fun sample1 =>
            compress_loop threshold mask stride count (i + 1) sample1 (compressed + 1)
        else compress_loop threshold mask stride count (i + 1) sample compressed
    else compress_loop threshold mask stride count (i + 1) sample compressed

/-- `compress`: returns the buffer and the number `compressed` of zeroed
samples; `mask = ((uint64_t)1 << multiresolution_levels) - 1`, a shift by 64 or
more has no defined result. -/
def compress (sample : List K) (n : Nat) (threshold : K) (multiresolution_levels stride : Nat) :
    Option (List K × Nat) :=
  if 64 ≤ multiresolution_levels then none
  else compress_loop threshold (2 ^ multiresolution_levels - 1) stride n 0 sample 0

/-- The `if / else if / else` of `smooth` on one sample. -/
def smooth_value (threshold v : K) : K :=
  if v > threshold then v - threshold
  else if v < -threshold then v + threshold
  else 0

/-- The loop `for (uint64_t i = 0; i < n; ++i)` of `smooth` with `count` passes
left from `i`. -/
def smooth_loop (threshold : K) (mask stride : Nat) : Nat → Nat → List K → Option (List K)
  | 0, _, sample => some sample
  | count + 1, i, sample =>
    if i &&& mask ≠ 0 then
      (rd sample ((i * stride : Nat) : Int)).bind fun v =>
        (wr sample ((i * stride : Nat) : Int) (smooth_value threshold v)).bind fun sample1 =>
          smooth_loop threshold mask stride count (i + 1) sample1
    else smooth_loop threshold mask stride count (i + 1) sample

/-- `smooth`. -/
def smooth (sample : List K) (n : Nat) (threshold : K) (multiresolution_levels stride : Nat) :
    Option (List K) :=
  if 64 ≤ multiresolution_levels then none
  else smooth_loop threshold (2 ^ multiresolution_levels - 1) stride n 0 sample

end Threshold

end lifting

/-! ## Basis functions and compression of a model (`model.cpp`) -/

/-- `struct model`: the number of levels and the samples (the render objects
play no part). -/
structure model (K : Type) where
  levels : Int
  values : List K

section ModelFunctions

/-- `(uint64_t)1 << (uint64_t)k` for an `int` `k`: the conversion wraps a
negative `k` to `2^64 + k`, and a shift by 64 or more has no defined result. -/
def shift_one (k : Int) : Option Nat :=
  if (k % 2 ^ 64).toNat < 64 then some (2 ^ (k % 2 ^ 64).toNat) else none

variable {K : Type} [Field K]

/-- `m.values.resize(n); for (auto& v : m.values) v = 0.0; m.values[idx] = 1.0;`. -/
def unit_impulse (n : Nat) (idx : Nat) : Option (List K) :=
  wr (List.replicate n 0) (idx : Int) 1

/-- `make_scaling_function`: the unit impulse at `n / 2`, then the inverse
transform at the levels `levels - get_width(s), ..., 0` (stride 1, non-cyclic). -/
def make_scaling_function (sqrt3 : K) (m : model K) (s : scheme)
    (custom_steps : List (lifting_step K)) : Option (model K) :=
  (shift_one m.levels).bind fun n =>
    (unit_impulse n (n / 2)).bind fun values =>
      (inverse_levels sqrt3 s custom_steps values n m.levels 1 false).map fun values1 =>
        { levels := m.levels, values := values1 }

/-- `make_wavelet_function`: as `make_scaling_function` with the unit impulse at
`n / 2 + ((uint64_t)1 << (uint64_t)(m.levels - get_width(s)))`. -/
def make_wavelet_function (sqrt3 : K) (m : model K) (s : scheme)
    (custom_steps : List (lifting_step K)) : Option (model K) :=
  (shift_one m.levels).bind fun n =>
    (shift_one (m.levels - get_width s)).bind fun offset =>
      (unit_impulse n ((n / 2 + offset) % 2 ^ 64)).bind fun values =>
        (inverse_levels sqrt3 s custom_steps values n m.levels 1 false).map fun values1 =>
          { levels := m.levels, values := values1 }

/-- The loop `for (int lev = 0; lev < levels; ++lev)` over the forward
`switch (s)` of `compress` and `smooth` (stride 1, non-cyclic). -/
@[nospecialize] def forward_all_levels (sqrt3 : K) (s : scheme)
    (custom_steps : List (lifting_step K)) (values : List K) (n : Nat) (levels : Int) :
    Option (List K) :=
  levels_up (fun x lev => forward_scheme sqrt3 s custom_steps x n lev 1 false)
    levels.toNat 0 values

/-- The loop `for (int lev = levels - 1; lev >= 0; --lev)` over the inverse
`switch (s)` of `compress` and `smooth`. -/
@[nospecialize] def inverse_all_levels (sqrt3 : K) (s : scheme)
    (custom_steps : List (lifting_step K)) (values : List K) (n : Nat) (levels : Int) :
    Option (List K) :=
  levels_down (fun x lev => inverse_scheme sqrt3 s custom_steps x n lev 1 false)
    levels.toNat values

end ModelFunctions

section ModelThreshold

variable {K : Type} [LinearOrderedField K]

/-- `compress(model&, threshold, s, custom_steps)`: forward transform at the
levels `0, ..., levels - 1`, `lifting::compress`, inverse transform at the levels
`levels - 1, ..., 0`; returns the model and `(double)compressed / (double)n`. -/
def compress (sqrt3 : K) (m : model K) (threshold : K) (s : scheme)
    (custom_steps : List (lifting_step K)) : Option (model K × K) :=
  (shift_one m.levels).bind fun n =>
    (forward_all_levels sqrt3 s custom_steps m.values n m.levels).bind fun values1 =>
      (lifting.compress values1 n threshold (m.levels % 2 ^ 64).toNat 1).bind
        fun (values2, compressed) =>
          (inverse_all_levels sqrt3 s custom_steps values2 n m.levels).map fun values3 =>
            ({ levels := m.levels, values := values3 }, (compressed : K) / (n : K))

end ModelThreshold

/-! ## The Analyzer front end and the constructor (`model.cpp`) -/

/-- A `double` as the comparisons of the constructor see it: a finite value,
one of the two infinities, or NaN. -/
inductive double_value (K : Type)
  | finite (v : K)
  | pos_inf
  | neg_inf
  | nan
  deriving DecidableEq, Repr

namespace double_value

/-- `x == x` on `double`: false exactly for NaN. -/
def eq_self {K : Type} (x : double_value K) : Bool :=
  match x with
  | .nan => false
  | _ => true

/-- `x > y` on `double`: false when either side is NaN. -/
def gt {K : Type} [LinearOrderedField K] (x y : double_value K) : Bool :=
  match x, y with
  | .nan, _ => false
  | _, .nan => false
  | .neg_inf, _ => false
  | _, .pos_inf => false
  | .pos_inf, _ => true
  | .finite _, .neg_inf => true
  | .finite a, .finite b => decide (a > b)

end double_value

/-- Conversion of a buffer operation to the failure type: an access outside the
storage is undefined behaviour. -/
def defined {α : Type} (r : Option α) : Except Failure α :=
  match r with
  | some v => .ok v
  | none => .error .undefined_behaviour

section AnalyzerProbe

variable {K : Type} [Field K]

/-- `std::vector<double> samples((size_t)n, 0.0); samples[idx] = 1.0;` with
`n = 32`. -/
def probe (idx : Nat) : List K :=
  (List.replicate 32 0).set idx 1

/-- `std::accumulate(samples.begin(), samples.end(), 0.0)`. -/
def accumulate (samples : List K) : K :=
  samples.foldl (fun acc v => acc + v) 0

/-- `current_sum` of `compute_vanishing_moment`: the sum of the response of
`inverse_custom` at level 0 to the unit impulse at index `n / 2 + 1 = 17`. -/
@[nospecialize] def current_sum (custom_steps : List (lifting_step K)) : Option K :=
  (inverse_custom (probe 17) 32 0 custom_steps).map accumulate

/-- `after_update_sum` of `compute_vanishing_moment`: the same sum after an
`iupdate` with the mask `[1, 1]` has been applied to the impulse first. -/
@[nospecialize] def after_update_sum (custom_steps : List (lifting_step K)) : Option K :=
  (lifting.iupdate (probe 17) 32 [1, 1] 0 1 false).bind fun sample_vm =>
    (inverse_custom sample_vm 32 0 custom_steps).map accumulate

/-- `compute_vanishing_moment`: `-current_sum / (after_update_sum - current_sum)`. -/
@[nospecialize] def compute_vanishing_moment (custom_steps : List (lifting_step K)) : Option K :=
  (current_sum custom_steps).bind fun current =>
    (after_update_sum custom_steps).map fun after => -current / (after - current)

/-- The samples `_compute_smoothness` hands to `compute_smoothness` for the
primal side: `inverse_custom` at level 0 on the unit impulse at `n / 2 = 16`. -/
@[nospecialize] def primal_samples (custom_steps : List (lifting_step K)) : Option (List K) :=
  inverse_custom (probe 16) 32 0 custom_steps

/-- The samples for the dual side: `biorthogonal_inverse(…, custom, …)`, i.e.
`inverse_custom_biorthogonal`, at level 0 on the unit impulse at 16. -/
@[nospecialize] def dual_samples (custom_steps : List (lifting_step K)) : Option (List K) :=
  inverse_custom_biorthogonal (probe 16) 32 0 custom_steps

/-- The step list with the mask of `custom_steps.back()` replaced. -/
def set_back_mask (custom_steps : List (lifting_step K)) (mask : List K) :
    List (lifting_step K) :=
  match custom_steps.getLast? with
  | none => custom_steps
  | some back => custom_steps.dropLast ++ [{ type := back.type, mask := mask }]

end AnalyzerProbe

section Analyzer

variable {K : Type} [LinearOrderedField K]

/-- `while (it != P.end() && !(*it)) ++it; P.erase(P.begin(), it);`. -/
def erase_leading_zeros (P : List K) : List K :=
  P.dropWhile fun v => decide (v = 0)

/-- `while (!P.empty() && !P.back()) P.pop_back();`. -/
def pop_trailing_zeros (P : List K) : List K :=
  P.rdropWhile fun v => decide (v = 0)

/-- `sobsmthest`: `sumruleorder`, whose `std::logic_error` passes through, and
then the eigenvalue part (`transop`, `jtk::eig`, the selection and the
logarithm), which enters as the function `eigen_part` of the mask and of `SLO`. -/
def sobsmthest (eigen_part : List K → Int → double_value K) (P : List K) :
    Except Failure (double_value K) :=
  match sumruleorder P with
  | .error e => .error e
  | .ok (SLO, _) => .ok (eigen_part P SLO)

/-- `compute_smoothness(samples, scale)`: trim, scale, `sobsmthest`; a caught
`std::logic_error` leaves `sob` at its initial value, a quiet NaN. -/
def compute_smoothness (eigen_part : List K → Int → double_value K) (samples : List K)
    (scale : K) : Except Failure (double_value K) :=
  let P := (pop_trailing_zeros (erase_leading_zeros samples)).map fun p => p * scale
  match sobsmthest eigen_part P with
  | .ok sob => .ok sob
  | .error (.logic_error _) => .ok .nan
  | .error e => .error e

/-- `_compute_smoothness`: the pair `(sob, sob_dual)`; the scale is `1.0` for
the primal and `2.0` for the dual side. -/
def _compute_smoothness (eigen_part : List K → Int → double_value K)
    (custom_steps : List (lifting_step K)) :
    Except Failure (double_value K × double_value K) :=
  match defined (primal_samples custom_steps) with
  | .error e => .error e
  | .ok samples =>
    match compute_smoothness eigen_part samples 1 with
    | .error e => .error e
    | .ok sob =>
      match defined (dual_samples custom_steps) with
      | .error e => .error e
      | .ok samples1 =>
        match compute_smoothness eigen_part samples1 2 with
        | .error e => .error e
        | .ok sob_dual => .ok (sob, sob_dual)

/-- `do_construction(alpha, custom_steps, sob, sob_dual)`: the step list after
the call with the two smoothness values.  The two `assert`s and the four mask
accesses fail on an empty list, on a last step that is no update and on a mask
of fewer than four entries. -/
def do_construction (eigen_part : List K → Int → double_value K) (alpha : K)
    (custom_steps : List (lifting_step K)) :
    Except Failure (List (lifting_step K) × double_value K × double_value K) :=
  match custom_steps.getLast? with
  | none => .error .undefined_behaviour
  | some back =>
    if back.type ≠ .lst_update then .error .undefined_behaviour
    else if back.mask.length < 4 then .error .undefined_behaviour
    else
      let mask1 := (((back.mask.set 0 alpha).set 1 0).set 2 0).set 3 alpha
      match defined (compute_vanishing_moment (set_back_mask custom_steps mask1)) with
      | .error e => .error e
      | .ok vm =>
        let custom_steps1 := set_back_mask custom_steps ((mask1.set 1 vm).set 2 vm)
        match _compute_smoothness eigen_part custom_steps1 with
        | .error e => .error e
        | .ok (sob, sob_dual) => .ok (custom_steps1, sob, sob_dual)

/-- The loop `while (alpha <= max_coeff)` of `construct_stable_wavelet` with
`max_coeff = 2` and `step_size = 0.0001`; the state is the step list,
`best_alpha` and `sob_dual`.  `fuel` bounds the number of passes. -/
def sweep (eigen_part : List K → Int → double_value K) :
    Nat → K → List (lifting_step K) → K → double_value K →
      Except Failure (List (lifting_step K) × K × double_value K)
  | 0, alpha, custom_steps, best_alpha, sob_dual =>
    if alpha ≤ 2 then .error .out_of_fuel else .ok (custom_steps, best_alpha, sob_dual)
  | fuel + 1, alpha, custom_steps, best_alpha, sob_dual =>
    if alpha ≤ 2 then
      match do_construction eigen_part alpha custom_steps with
      | .error e => .error e
      | .ok (custom_steps1, sob, current_sob_dual) =>
        if current_sob_dual.eq_self && sob.eq_self then
          if current_sob_dual.gt sob_dual then
            sweep eigen_part fuel (alpha + 1 / 10 ^ 4) custom_steps1 alpha current_sob_dual
          else sweep eigen_part fuel (alpha + 1 / 10 ^ 4) custom_steps1 best_alpha sob_dual
        else sweep eigen_part fuel (alpha + 1 / 10 ^ 4) custom_steps1 best_alpha sob_dual
    else .ok (custom_steps, best_alpha, sob_dual)

/-- `construct_stable_wavelet`: the step list after the call with the values of
`sob` and `sob_dual`.  The appended step has the type `lst_update` and, after
`mask.resize(4)`, four zero entries; `sob_dual` starts at `-1000000000000.0`,
`alpha` and `best_alpha` at `-2`.  In exact arithmetic the loop has 40001
passes. -/
def construct_stable_wavelet (eigen_part : List K → Int → double_value K)
    (custom_steps : List (lifting_step K)) :
    Except Failure (List (lifting_step K) × double_value K × double_value K) :=
  let custom_steps1 := custom_steps ++ [{ type := .lst_update, mask := List.replicate 4 0 }]
  match sweep eigen_part 40001 (-2) custom_steps1 (-2) (.finite (-1000000000000)) with
  | .error e => .error e
  | .ok (custom_steps2, best_alpha, _) => do_construction eigen_part best_alpha custom_steps2

end Analyzer

/-! ## The default script of the view (`view.cpp`) -/

/-- The initial value of `_wavelet_rules` in the constructor of `view`
(`view.cpp`). -/
def default_wavelet_rules : String :=
  "//four point scheme\n\npredict;\n-1/16; 9/16; 9/16; -1/16;\n\nupdate;\n0.25; 0.25;"

/-- The tokens of the statements of `default_wavelet_rules`: those of the
example script two lines further down, after the comment line and the empty
line (the tokenizer is a parameter of `parse`). -/
def default_script_tokens : tokens :=
  example_script_tokens.map fun t => ⟨t.type, t.value, t.line_nr + 2⟩

/-! ## The biorthogonal inverse (`biorthogonal_inverse` in `model.cpp`) -/

section Biorthogonal

variable {K : Type} [Field K]

open lifting

/-- `biorthogonal_inverse(sample, n, level, s, custom_steps)`: the `switch (s)`
with the calls of each case in the order of the source (stride 1, non-cyclic). -/
def biorthogonal_inverse (sqrt3 : K) (sample : List K) (n level : Nat) (s : scheme)
    (custom_steps : List (lifting_step K)) : Option (List K) :=
  match s with
  | .jamlet_linear =>
    (ipredict sample n get_update_mask_jamlet_linear level 1 false).bind fun s1 =>
    iupdate s1 n get_prediction_mask_jamlet_linear level 1 false
  | .jamlet_quadratic =>
    (ipredict sample n get_second_update_mask_jamlet_quadratic level 1 false).bind fun s1 =>
    (iupdate s1 n get_prediction_mask_jamlet_quadratic level 1 false).bind fun s2 =>
    (iscale_even s2 n (1 / get_even_scaling_factor_jamlet_quadratic) level 1 1 false).bind
      fun s3 =>
    ipredict s3 n get_first_update_mask_jamlet_quadratic level 1 false
  | .jamlet_cubic =>
    (ipredict sample n get_second_update_mask_jamlet_cubic level 1 false).bind fun s1 =>
    (iupdate s1 n get_prediction_mask_jamlet_cubic level 1 false).bind fun s2 =>
    (ipredict s2 n get_first_update_mask_jamlet_cubic level 1 false).bind fun s3 =>
    iscale_even s3 n (1 / get_even_scaling_factor_jamlet_cubic) level 1 1 false
  | .jamlet_4_point =>
    (ipredict sample n get_update_mask_jamlet_4_point level 1 false).bind fun s1 =>
    iupdate s1 n get_prediction_mask_jamlet_4_point level 1 false
  | .cdf_5_3 =>
    (ipredict sample n get_update_mask_cdf_5_3 level 1 false).bind fun s1 =>
    iupdate s1 n get_prediction_mask_cdf_5_3 level 1 false
  | .cdf_9_7 =>
    (iscale_even sample n (1 / get_even_scaling_factor_cdf_9_7) level 1 1 false).bind fun s1 =>
    (iscale_odd s1 n (1 / get_odd_scaling_factor_cdf_9_7) level 1 1 false).bind fun s2 =>
    (ipredict s2 n get_second_update_mask_cdf_9_7 level 1 false).bind fun s3 =>
    (iupdate s3 n get_second_prediction_mask_cdf_9_7 level 1 false).bind fun s4 =>
    (ipredict s4 n get_first_update_mask_cdf_9_7 level 1 false).bind fun s5 =>
    iupdate s5 n get_first_prediction_mask_cdf_9_7 level 1 false
  | .cubic_bsplines =>
    (iupdate sample n get_prediction_mask_cubic_bsplines level 1 false).bind fun s1 =>
    (iscale_even s1 n (1 / get_even_scaling_factor_cubic_bsplines) level 1 1 false).bind
      fun s2 =>
    ipredict s2 n get_update_mask_cubic_bsplines level 1 false
  | .cubic_bspline_wavelets =>
    (ipredict sample n get_second_update_mask_cubic_bspline_wavelets level 1 false).bind
      fun s1 =>
    (iupdate s1 n get_prediction_mask_cubic_bspline_wavelets level 1 false).bind fun s2 =>
    (ipredict s2 n get_first_update_mask_cubic_bspline_wavelets level 1 false).bind fun s3 =>
    iscale_even s3 n (1 / get_even_scaling_factor_cubic_bspline_wavelets) level 1 1 false
  | .daubechies_d4 =>
    (iscale_even sample n (1 / get_even_scaling_factor_daubechies_d4 sqrt3) level 1 1
      false).bind fun s1 =>
    (iscale_odd s1 n (1 / get_odd_scaling_factor_daubechies_d4 sqrt3) level 1 1 false).bind
      fun s2 =>
    (ipredict s2 n get_second_update_mask_daubechies_d4 level 1 false).bind fun s3 =>
    (iupdate s3 n (get_prediction_mask_daubechies_d4 sqrt3) level 1 false).bind fun s4 =>
    ipredict s4 n (get_first_update_mask_daubechies_d4 sqrt3) level 1 false
  | .haar =>
    (ipredict sample n get_update_mask_haar level 1 false).bind fun s1 =>
    iupdate s1 n get_prediction_mask_haar level 1 false
  | .four_point =>
    (ipredict sample n get_update_mask_4_point level 1 false).bind fun s1 =>
    iupdate s1 n get_prediction_mask_4_point level 1 false
  | .chaikin =>
    (ipredict sample n get_second_update_mask_chaikin level 1 false).bind fun s1 =>
    (iupdate s1 n get_prediction_mask_chaikin level 1 false).bind fun s2 =>
    (iscale_even s2 n (1 / get_even_scaling_factor_chaikin) level 1 1 false).bind fun s3 =>
    ipredict s3 n get_update_mask_chaikin level 1 false
  | .custom => inverse_custom_biorthogonal sample n level custom_steps

/-- One call of an inverse primitive with its mask, or its factor and border
flag. -/
inductive primitive_call (K : Type)
  | ipredict (mask : List K)
  | iupdate (mask : List K)
  | iscale_even (s : K) (only_scale_away_from_border : Int)
  | iscale_odd (s : K) (only_scale_away_from_border : Int)
  deriving DecidableEq, Repr

/-- Executes one call at stride 1 in non-cyclic mode. -/
def run_call (c : primitive_call K) (sample : List K) (n level : Nat) : Option (List K) :=
  match c with
  | .ipredict mask => ipredict sample n mask level 1 false
  | .iupdate mask => iupdate sample n mask level 1 false
  | .iscale_even s b => iscale_even sample n s level b 1 false
  | .iscale_odd s b => iscale_odd sample n s level b 1 false

/-- Executes a sequence of calls from left to right. -/
def run_calls (n level : Nat) : List (primitive_call K) → List K → Option (List K)
  | [], sample => some sample
  | c :: rest, sample => (run_call c sample n level).bind (run_calls n level rest)

/-- Specification: the primitive sequence of the standard `inverse_s` of a
catalog scheme (`lifting.h`). -/
def inverse_calls (sqrt3 : K) : scheme → List (primitive_call K)
  | .jamlet_linear =>
    [.iupdate get_update_mask_jamlet_linear, .ipredict get_prediction_mask_jamlet_linear]
  | .jamlet_quadratic =>
    [.iupdate get_second_update_mask_jamlet_quadratic,
     .ipredict get_prediction_mask_jamlet_quadratic,
     .iscale_even get_even_scaling_factor_jamlet_quadratic 1,
     .iupdate get_first_update_mask_jamlet_quadratic]
  | .jamlet_cubic =>
    [.iupdate get_second_update_mask_jamlet_cubic, .ipredict get_prediction_mask_jamlet_cubic,
     .iupdate get_first_update_mask_jamlet_cubic,
     .iscale_even get_even_scaling_factor_jamlet_cubic 1]
  | .jamlet_4_point =>
    [.iupdate get_update_mask_jamlet_4_point, .ipredict get_prediction_mask_jamlet_4_point]
  | .cdf_5_3 => [.iupdate get_update_mask_cdf_5_3, .ipredict get_prediction_mask_cdf_5_3]
  | .cdf_9_7 =>
    [.iscale_even get_even_scaling_factor_cdf_9_7 0, .iscale_odd get_odd_scaling_factor_cdf_9_7 0,
     .iupdate get_second_update_mask_cdf_9_7, .ipredict get_second_prediction_mask_cdf_9_7,
     .iupdate get_first_update_mask_cdf_9_7, .ipredict get_first_prediction_mask_cdf_9_7]
  | .chaikin =>
    [.iupdate get_second_update_mask_chaikin, .ipredict get_prediction_mask_chaikin,
     .iscale_even get_even_scaling_factor_chaikin 1, .iupdate get_update_mask_chaikin]
  | .cubic_bsplines =>
    [.ipredict get_prediction_mask_cubic_bsplines,
     .iscale_even get_even_scaling_factor_cubic_bsplines 1,
     .iupdate get_update_mask_cubic_bsplines]
  | .cubic_bspline_wavelets =>
    [.iupdate get_second_update_mask_cubic_bspline_wavelets,
     .ipredict get_prediction_mask_cubic_bspline_wavelets,
     .iupdate get_first_update_mask_cubic_bspline_wavelets,
     .iscale_even get_even_scaling_factor_cubic_bspline_wavelets 1]
  | .daubechies_d4 =>
    [.iscale_odd (get_odd_scaling_factor_daubechies_d4 sqrt3) 0,
     .iscale_even (get_even_scaling_factor_daubechies_d4 sqrt3) 0,
     .iupdate get_second_update_mask_daubechies_d4,
     .ipredict (get_prediction_mask_daubechies_d4 sqrt3),
     .iupdate (get_first_update_mask_daubechies_d4 sqrt3)]
  | .four_point => [.iupdate get_update_mask_4_point, .ipredict get_prediction_mask_4_point]
  | .haar => [.iupdate get_update_mask_haar, .ipredict get_prediction_mask_haar]
  | .custom => []

/-- Specification: the role swap of one call; `ipredict` and `iupdate` exchange
and keep their masks, a scale factor `f` becomes `1 / f`, the border flag
stays. -/
def role_swap (c : primitive_call K) : primitive_call K :=
  match c with
  | .ipredict mask => .iupdate mask
  | .iupdate mask => .ipredict mask
  | .iscale_even s b => .iscale_even (1 / s) b
  | .iscale_odd s b => .iscale_odd (1 / s) b

/-- Specification: the role-swapped standard inverse of a catalog scheme. -/
def role_swapped_inverse (sqrt3 : K) (s : scheme) (sample : List K) (n level : Nat) :
    Option (List K) :=
  run_calls n level ((inverse_calls sqrt3 s).map role_swap) sample

end Biorthogonal

/-! ## The eigenvalue selection of `sobsmthest` -/

section Selection

/-- A mask of eleven entries, each a `double` written as an exact fraction
(`0x1.bb19b6e089c3ep-10`, `0x1.1c65128d8ea1p-6`, `0x1.48d5b3e030353p-4`,
`0x1.c3090abe1228p-3`, `0x1.96617b39fff5p-2`, `0x1.f6abba02c631fp-2`,
`0x1.b047f7fab6e04p-2`, `0x1.fe7689b9995d3p-3`, `0x1.8c1fdbaaa164cp-4`,
`0x1.6ce2a3691b3p-6`, `0x1.2f07c9d6d4784p-9`). -/
def mask_eleven_entries : List ℚ :=
  [3897552747646495 / 2 ^ 61, 312695405252257 / 2 ^ 54, 5784922556138323 / 2 ^ 56,
   61989822382661 / 2 ^ 48, 446820400103413 / 2 ^ 50, 8843078356722463 / 2 ^ 54,
   1901192505121665 / 2 ^ 52, 8980160751179219 / 2 ^ 55, 1742173735912851 / 2 ^ 54,
   25074727293363 / 2 ^ 50, 1332741897146849 / 2 ^ 59]

/-- The passes `i` of the loop
`for (size_t i = 0; i < (size_t)vsize; ++i) bigreig[i] = wr((uint32_t)od[i + 1]);`
of `sobsmthest`: `od` is the sorted index list, `wr` the eigenvalue list; an
index outside `od` or outside `wr` gives `none`. -/
def bigreig_loop {K : Type} (wr : List K) (od : List Nat) : List Nat → Option (List K)
  | [] => some []
  | i :: rest =>
    (od[i + 1]?).bind fun k => (wr[k]?).bind fun v =>
      (bigreig_loop wr od rest).map fun vs => v :: vs

/-- The vector `bigreig` of `sobsmthest` for `vsize = 2 * SLO`. -/
def bigreig {K : Type} (wr : List K) (od : List Nat) (vsize : Nat) : Option (List K) :=
  bigreig_loop wr od (List.range vsize)

end Selection

/-! ## The transition operator (`transop` in `sobolev.cpp`) -/

section Transop

variable {K : Type} [Field K]

/-- The passes of a loop `for (int i = first; ...; ++i) body(i)` with `count`
passes left from `i`; a failing body ends the run. -/
def loop_from {σ : Type} (body : Int → σ → Option σ) : Nat → Int → σ → Option σ
  | 0, _, st => some st
  | count + 1, i, st => (body i st).bind (loop_from body count (i + 1))

/-- The loop `for (int i = lo; i <= hi; ++i) body(i)`. -/
def int_loop {σ : Type} (body : Int → σ → Option σ) (lo hi : Int) (st : σ) : Option σ :=
  loop_from body (hi + 1 - lo).toNat lo st

/-- The assignment `T(i, j) = v` on a matrix stored as the list of its rows;
`none` when the row or the column is outside the matrix. -/
def mat_set (T : List (List K)) (i j : Int) (v : K) : Option (List (List K)) :=
  (rd T i).bind fun row => (wr row j v).bind fun row1 => wr T i row1

/-- The statement `a[j1] += p[N + ell1 - j1] * p[ell1]`. -/
def autocorrelation_body (p : List K) (N j1 ell1 : Int) (a : List K) : Option (List K) :=
  (rd p (N + ell1 - j1)).bind fun u =>
    (rd p ell1).bind fun v =>
      (rd a j1).bind fun old => wr a j1 (old + u * v)

/-- The vector `a` of `transop` after the loops
`for (j1 = 0; j1 < 2 * N + 1; ++j1) for (ell1 = max(0, j1 - N); ell1 <= min(N, j1); ++ell1)`;
it starts as `2 * N + 1` zeros. -/
def autocorrelation (p : List K) : Option (List K) :=
  let N : Int := (p.length : Int) - 1
  int_loop (fun j1 a => int_loop (autocorrelation_body p N j1) (max 0 (j1 - N)) (min N j1) a)
    0 (2 * N) (List.replicate (2 * N + 1).toNat 0)

/-- The statement `T(i1 - 1, j1 - 1) = a[m * (i1 - L - 1) - j1 + L + 2 + N - 1] / m`
with `m = 2`. -/
def transop_body (a : List K) (N L i1 j1 : Int) (T : List (List K)) : Option (List (List K)) :=
  (rd a (2 * (i1 - L - 1) - j1 + L + 2 + N - 1)).bind fun v =>
    mat_set T (i1 - 1) (j1 - 1) (v / 2)

/-- `transop(p)`: the matrix `T` as the list of its rows.  `jtk::mat T(r, c)` is
taken as the `r × c` matrix of zeros.  An index outside `p`, `a` or `T` gives
`none`; so does the empty mask, for which the size `(size_t)(2 * N + 1)` of `a`
is `2 ^ 64 - 1` and the allocation throws. -/
def transop (p : List K) : Option (List (List K)) :=
  if p.length = 0 then none
  else
    let N : Int := (p.length : Int) - 1
    let L : Int := N
    (autocorrelation p).bind fun a =>
      int_loop
        (fun i1 T =>
          int_loop (transop_body a N L i1) (max 1 (2 * (i1 - L - 1) + L + 1 - N))
            (min (2 * (i1 - L - 1) + N + L + 1) (2 * L + 1)) T)
        1 (2 * L + 1)
        (List.replicate (2 * L + 1).toNat (List.replicate (2 * L + 1).toNat 0))

/-- The mask entry `p[x]`, taken as 0 outside the mask. -/
def mask_entry (p : List K) (x : Int) : K :=
  (rd p x).getD 0

/-- Specification: `a[k] = Σ_l p[N + l - k] * p[l]` over the `l` with both
indices inside the mask, `N = p.length - 1`. -/
def autocorrelation_spec (p : List K) (k : Int) : K :=
  ∑ l in Finset.range p.length, mask_entry p ((p.length : Int) - 1 + l - k) * p.getD l 0

/-- Entry `c` of row `i` of `T` after `t` passes of the inner loop of
`transop`: the passes fill the columns from `2 i - 2 N` on. -/
def band_entry (a : List K) (N i t c : Nat) : K :=
  if 2 * i - 2 * N ≤ c ∧ c < 2 * i - 2 * N + t then a.getD (2 * i - c) 0 / 2 else 0

/-- Specification: `T[i][j] = a[2 i - j] / 2` when `0 ≤ 2 i - j ≤ 2 N` and 0
otherwise. -/
def transop_spec (p : List K) (i j : Nat) : K :=
  if 0 ≤ 2 * (i : Int) - j ∧ 2 * (i : Int) - j ≤ 2 * ((p.length : Int) - 1) then
    autocorrelation_spec p (2 * (i : Int) - j) / 2
  else 0

end Transop

/-! ## Spline and wavelet components of a model (`model.cpp`) -/

section Components

/-- `(uint64_t)1 << k` for an `int` shift count `k`: a negative count and a
count of 64 or more have no defined result. -/
def shift_one_by (k : Int) : Option Nat :=
  if 0 ≤ k ∧ k < 64 then some (2 ^ k.toNat) else none

variable {K : Type} [Field K]

/-- The loop `for (uint64_t i = 0; i < n; ++i)` of `get_wavelet_component` with
`count` passes left from `i`: `values[i] = 0.0` when `(i & mask) == 0`, and
otherwise when `(i & mask2) != 0`. -/
def wavelet_loop (mask mask2 : Nat) : Nat → Nat → List K → Option (List K)
  | 0, _, values => some values
  | count + 1, i, values =>
    if i &&& mask = 0 then
      (wr values (i : Int) 0).bind (wavelet_loop mask mask2 count (i + 1))
    else if i &&& mask2 ≠ 0 then
      (wr values (i : Int) 0).bind (wavelet_loop mask mask2 count (i + 1))
    else wavelet_loop mask mask2 count (i + 1) values

/-- `get_wavelet_component`: forward transform at the levels
`0, ..., lifting_steps - 1`, the loop that keeps the samples `i` with
`(i & mask) != 0` and `(i & mask2) == 0`, inverse transform at the levels
`lifting_steps - 1, ..., 0`; `mask = (1 << lifting_steps) - 1` and
`mask2 = (1 << (lifting_steps - 1)) - 1`. -/
def get_wavelet_component (sqrt3 : K) (m : model K) (level : Int) (s : scheme)
    (custom_steps : List (lifting_step K)) : Option (List K) :=
  (shift_one m.levels).bind fun n =>
    (forward_all_levels sqrt3 s custom_steps m.values n (m.levels - level)).bind fun values1 =>
      (shift_one_by (m.levels - level)).bind fun p1 =>
        (shift_one_by (m.levels - level - 1)).bind fun p2 =>
          (wavelet_loop (p1 - 1) (p2 - 1) n 0 values1).bind fun values2 =>
            inverse_all_levels sqrt3 s custom_steps values2 n (m.levels - level)

end Components

section ComponentsThreshold

variable {K : Type} [LinearOrderedField K]

/-- `get_spline_component`: forward transform at the levels
`0, ..., lifting_steps - 1` with `lifting_steps = m.levels - _level`,
`lifting::compress` with the threshold
`std::numeric_limits<double>::infinity()`, inverse transform at the levels
`lifting_steps - 1, ..., 0`.  The threshold enters as the argument `infinity`. -/
def get_spline_component (infinity sqrt3 : K) (m : model K) (level : Int) (s : scheme)
    (custom_steps : List (lifting_step K)) : Option (List K) :=
  (shift_one m.levels).bind fun n =>
    (forward_all_levels sqrt3 s custom_steps m.values n (m.levels - level)).bind fun values1 =>
      (lifting.compress values1 n infinity ((m.levels - level) % 2 ^ 64).toNat 1).bind
        fun (values2, _) =>
          inverse_all_levels sqrt3 s custom_steps values2 n (m.levels - level)

end ComponentsThreshold

/-! ## Proof vocabulary -/

/-- `g` undoes `f` on every buffer of `len` cells: `f` returns a buffer of the
same size and `g` maps it back to the input. -/
def Undoes {K : Type} (len : Nat) (f g : List K → Option (List K)) : Prop :=
  ∀ x : List K, x.length = len → ∃ y, f x = some y ∧ y.length = len ∧ g y = some x

/-- `f` returns a buffer of the same size on every buffer of `len` cells. -/
def Total {K : Type} (len : Nat) (f : List K → Option (List K)) : Prop :=
  ∀ x : List K, x.length = len → ∃ y, f x = some y ∧ y.length = len

/-- The cell-wise combination `a * x + b * x'` of two buffers. -/
def comb {K : Type} [Field K] (a b : K) (x x' : List K) : List K :=
  List.zipWith (fun u v => a * u + b * v) x x'

/-- `f` maps the combination `a * x + b * x'` of two buffers to the same
combination of their images, for all coefficients. -/
def Linear {K : Type} [Field K] (f : List K → Option (List K)) : Prop :=
  ∀ (a b : K) (x x' y y' : List K), f x = some y → f x' = some y' →
    f (comb a b x x') = some (comb a b y y')

/-- Whether `compress` zeroes sample number `i` of the buffer `x`. -/
def compress_hits {K : Type} [LinearOrderedField K] (x : List K) (threshold : K) (mask stride : Nat) (i : Nat) : Bool :=
  decide (i &&& mask ≠ 0) &&
    match x[i * stride]? with
    | some v => decide (|v| < threshold)
    | none => false

section ConstructorVocabulary

variable {K : Type} [LinearOrderedField K]

/-- The `k`-th value of `alpha` in the loop of `construct_stable_wavelet`:
`-2` after `k` additions of `0.0001` (exact arithmetic). -/
def alpha_of (k : Nat) : K :=
  -2 + (k : K) / 10 ^ 4

/-- The initial value `-1000000000000.0` of `sob_dual`. -/
def sentinel : double_value K :=
  .finite (-1000000000000)

/-- The call `do_construction(alpha, custom_steps, …)` on the list
`construct_stable_wavelet` works on: the given steps followed by the appended
update step (whose mask the call overwrites). -/
def candidate (eigen_part : List K → Int → double_value K) (steps : List (lifting_step K))
    (alpha : K) : Except Failure (List (lifting_step K) × double_value K × double_value K) :=
  do_construction eigen_part alpha (steps ++ [{ type := .lst_update, mask := List.replicate 4 0 }])

/-- The primal smoothness `sob` that `do_construction` reports for the `k`-th
`alpha`. -/
def candidate_sob (eigen_part : List K → Int → double_value K) (steps : List (lifting_step K))
    (k : Nat) : double_value K :=
  match candidate eigen_part steps (alpha_of k) with
  | .ok (_, sob, _) => sob
  | .error _ => .nan

/-- The dual smoothness `sob_dual` that `do_construction` reports for the
`k`-th `alpha`. -/
def candidate_dual (eigen_part : List K → Int → double_value K) (steps : List (lifting_step K))
    (k : Nat) : double_value K :=
  match candidate eigen_part steps (alpha_of k) with
  | .ok (_, _, sob_dual) => sob_dual
  | .error _ => .nan

/-- The test `current_sob_dual == current_sob_dual && sob == sob` for the
`k`-th `alpha`. -/
def eligible (eigen_part : List K → Int → double_value K) (steps : List (lifting_step K))
    (k : Nat) : Bool :=
  (candidate_dual eigen_part steps k).eq_self && (candidate_sob eigen_part steps k).eq_self

end ConstructorVocabulary

/-- What holds of `best_alpha` and `sob_dual` before the pass number `k` of
the loop of `construct_stable_wavelet`: either no earlier candidate has been
accepted, or the accepted one is the earliest candidate `w` whose dual
smoothness is maximal among the eligible earlier candidates. -/
def sweep_invariant {K : Type} [LinearOrderedField K]
    (eigen_part : List K → Int → double_value K) (steps : List (lifting_step K)) (k : Nat)
    (best_alpha : K) (sob_dual : double_value K) : Prop :=
  (sob_dual = sentinel ∧ best_alpha = alpha_of 0 ∧
    ∀ j, j < k → eligible eigen_part steps j = true →
      (candidate_dual eigen_part steps j).gt sentinel = false) ∨
  ∃ w, w < k ∧ best_alpha = alpha_of w ∧ sob_dual = candidate_dual eigen_part steps w ∧
    eligible eigen_part steps w = true ∧
    (candidate_dual eigen_part steps w).gt sentinel = true ∧
    (∀ j, j < k → eligible eigen_part steps j = true →
      (candidate_dual eigen_part steps j).gt (candidate_dual eigen_part steps w) = false) ∧
    ∀ j, j < w → eligible eigen_part steps j = true →
      (candidate_dual eigen_part steps w).gt (candidate_dual eigen_part steps j) = true

section MomentDefs

variable {K : Type} [LinearOrderedField K]

/-- Specification: the alternating moment `M_i = Σ_j (-1)^j j^i p_j` of a mask. -/
def alternating_moment (p : List K) (i : Nat) : K :=
  ∑ j in Finset.range p.length, (-1) ^ j * (j : K) ^ i * p.getD j 0

end MomentDefs

/-- `f` neither reads nor writes cell `p`: a write to `p` before `f` is the
same as the write after `f`. -/
def Ignores {K : Type} (f : List K → Option (List K)) (p : Nat) : Prop :=
  ∀ (x : List K) (c : K), f (x.set p c) = (f x).map fun y => y.set p c

/-- The buffer with the cells `i`, `first ≤ i < first + count`, that `keep`
rejects set to zero. -/
def zero_from {K : Type} [Field K] (keep : Nat → Bool) : Nat → Nat → List K → List K
  | 0, _, x => x
  | count + 1, i, x => zero_from keep count (i + 1) (if keep i then x else x.set i 0)


/-! ## Buffer access lemmas -/

section Access

variable {K : Type}

theorem rd_eq_some_iff (s : List K) (q : Int) (v : K) :
    rd s q = some v ↔ 0 ≤ q ∧ s[q.toNat]? = some v := by
  unfold rd
  by_cases h : 0 ≤ q <;> simp [h]

theorem rd_isSome_iff (s : List K) (q : Int) :
    (rd s q).isSome ↔ 0 ≤ q ∧ q < s.length := by
  unfold rd
  by_cases h : 0 ≤ q
  · simp only [h, if_true, true_and]
    rw [Option.isSome_iff_exists]
    constructor
    · rintro ⟨a, ha⟩
      have := (List.getElem?_eq_some.mp ha).1
      omega
    · intro hq
      have : q.toNat < s.length := by omega
      exact ⟨s[q.toNat], List.getElem?_eq_getElem this⟩
  · simp [h]

theorem rd_ext {s t : List K} (h : ∀ q : Int, rd s q = rd t q) : s = t := by
  apply List.ext_getElem?
  intro k
  have := h (k : Int)
  simpa [rd] using this

theorem wr_eq_some_iff (s : List K) (p : Int) (v : K) (t : List K) :
    wr s p v = some t ↔ (0 ≤ p ∧ p < s.length) ∧ t = s.set p.toNat v := by
  unfold wr
  by_cases h : 0 ≤ p ∧ p.toNat < s.length
  · have h2 : 0 ≤ p ∧ p < s.length := ⟨h.1, by omega⟩
    simp [h, h2, eq_comm]
  · have h2 : ¬ (0 ≤ p ∧ p < s.length) := fun h3 => h ⟨h3.1, by omega⟩
    simp [h, h2]

theorem wr_length {s t : List K} {p : Int} {v : K} (h : wr s p v = some t) :
    t.length = s.length := by
  rw [wr_eq_some_iff] at h
  simp [h.2]

theorem wr_of_rd {s : List K} {p : Int} {old : K} (h : rd s p = some old) (v : K) :
    wr s p v = some (s.set p.toNat v) := by
  have hs := (rd_isSome_iff s p).mp (by simp [h])
  rw [wr_eq_some_iff]
  exact ⟨hs, rfl⟩

theorem rd_set (s : List K) (p : Nat) (v : K) (q : Int) :
    rd (s.set p v) q = if q = (p : Int) ∧ p < s.length then some v else rd s q := by
  unfold rd
  by_cases hq : 0 ≤ q
  · simp only [hq, if_true]
    rw [List.getElem?_set]
    by_cases hpq : p = q.toNat
    · have hqp : q = (p : Int) := by omega
      subst hqp
      simp only [Int.toNat_ofNat, if_true, true_and]
      by_cases hl : p < s.length
      · simp [hl]
      · simp [hl, List.getElem?_eq_none (Nat.le_of_not_lt hl)]
    · have : ¬ q = (p : Int) := by omega
      simp [hpq, this]
  · have : ¬ q = (p : Int) := by omega
    simp [hq, this]

theorem rd_set_ne (s : List K) (p : Nat) (v : K) (q : Int) (h : q ≠ (p : Int)) :
    rd (s.set p v) q = rd s q := by
  rw [rd_set]; simp [h]

theorem set_rd_self {s : List K} {p : Int} {old : K} (h : rd s p = some old) :
    s.set p.toNat old = s := by
  rw [rd_eq_some_iff] at h
  apply List.ext_getElem?
  intro k
  rw [List.getElem?_set]
  by_cases hk : p.toNat = k
  · subst hk
    have := (List.getElem?_eq_some.mp h.2).1
    simp [this, h.2]
  · simp [hk]

theorem rd_natCast (y : List K) (m : Nat) : rd y (m : Int) = y[m]? := by
  simp [rd]

end Access

/-! ## Generic facts about the lifting loops -/

section Loops

variable {K : Type} [Field K]

theorem stencil_congr (s t : List K) (stride : Nat) (coeff : Int → Int) :
    ∀ (ms : List K) (j : Int) (acc : K),
      (∀ k : Int, j ≤ k → k < j + ms.length →
        rd s (coeff k * stride) = rd t (coeff k * stride)) →
      stencil s stride coeff ms j acc = stencil t stride coeff ms j acc
  | [], _, _, _ => rfl
  | m :: ms, j, acc, h => by
    have h0 := h j le_rfl (by simp only [List.length_cons]; push_cast; omega)
    simp only [stencil, h0]
    congr 1
    funext v
    refine stencil_congr s t stride coeff ms (j + 1) _ (fun k hk1 hk2 => h k (by omega) ?_)
    simp only [List.length_cons]; push_cast; omega

theorem stencil_isSome (s : List K) (stride : Nat) (coeff : Int → Int) :
    ∀ (ms : List K) (j : Int) (acc : K),
      (∀ k : Int, j ≤ k → k < j + ms.length →
        0 ≤ coeff k * stride ∧ coeff k * stride < s.length) →
      ∃ r, stencil s stride coeff ms j acc = some r
  | [], _, acc, _ => ⟨acc, rfl⟩
  | m :: ms, j, acc, h => by
    have h0 := h j le_rfl (by simp only [List.length_cons]; push_cast; omega)
    obtain ⟨v, hv⟩ := Option.isSome_iff_exists.mp ((rd_isSome_iff s _).mpr h0)
    simp only [stencil, hv, Option.some_bind]
    refine stencil_isSome s stride coeff ms (j + 1) _ (fun k hk1 hk2 => h k (by omega) ?_)
    simp only [List.length_cons]; push_cast; omega

theorem lift_body_eq_some_iff (op : K → K → K) (stride : Nat) (mask : List K)
    (coeff : Int → Int → Int) (tgt : Int → Int) (i : Int) (s t : List K) :
    lift_body op stride mask coeff tgt i s = some t ↔
      ∃ acc old, stencil s stride (coeff i) mask 0 0 = some acc ∧
        rd s (tgt i * stride) = some old ∧
        t = s.set (tgt i * stride).toNat (op old acc) := by
  unfold lift_body
  constructor
  · intro h
    rcases hacc : stencil s stride (coeff i) mask 0 0 with _ | acc
    · simp [hacc] at h
    rcases hold : rd s (tgt i * stride) with _ | old
    · simp [hacc, hold] at h
    simp only [hacc, hold, Option.some_bind] at h
    rw [wr_of_rd hold] at h
    exact ⟨acc, old, rfl, rfl, (Option.some.inj h).symm⟩
  · rintro ⟨acc, old, hacc, hold, rfl⟩
    simp only [hacc, hold, Option.some_bind]
    exact wr_of_rd hold _

theorem scale_body_eq_lift_body (f : K → K) (stride : Nat) (i : Int) (s : List K) :
    scale_body f stride i s =
      lift_body (fun x _ => f x) stride [] (fun _ _ => 0) (fun a => a) i s := by
  simp [scale_body, lift_body, stencil]

theorem lift_body_length {op : K → K → K} {stride : Nat} {mask : List K}
    {coeff : Int → Int → Int} {tgt : Int → Int} {i : Int} {s t : List K}
    (h : lift_body op stride mask coeff tgt i s = some t) : t.length = s.length := by
  obtain ⟨acc, old, -, -, rfl⟩ := (lift_body_eq_some_iff _ _ _ _ _ _ _ _).mp h
  simp

theorem lift_body_frame (op : K → K → K) (stride : Nat) (mask : List K)
    (coeff : Int → Int → Int) (tgt : Int → Int) (i : Int) (s : List K) (p : Nat) (v : K)
    (hp : (p : Int) ≠ tgt i * stride)
    (hc : ∀ j : Int, 0 ≤ j → j < mask.length → (p : Int) ≠ coeff i j * stride) :
    lift_body op stride mask coeff tgt i (s.set p v) =
      (lift_body op stride mask coeff tgt i s).map (fun t => t.set p v) := by
  have hst : stencil (s.set p v) stride (coeff i) mask 0 0 =
      stencil s stride (coeff i) mask 0 0 := by
    apply stencil_congr
    intro k hk1 hk2
    exact rd_set_ne _ _ _ _ (fun e => hc k hk1 (by omega) e.symm)
  have hrd : rd (s.set p v) (tgt i * stride) = rd s (tgt i * stride) :=
    rd_set_ne _ _ _ _ (fun e => hp e.symm)
  unfold lift_body
  rw [hst, hrd]
  rcases stencil s stride (coeff i) mask 0 0 with _ | acc
  · rfl
  rcases hold : rd s (tgt i * stride) with _ | old
  · rfl
  simp only [Option.some_bind]
  have hold2 : rd (s.set p v) (tgt i * stride) = some old := by rw [hrd, hold]
  rw [wr_of_rd hold, wr_of_rd hold2]
  simp only [Option.map_some']
  congr 1
  apply List.set_comm
  have := ((rd_isSome_iff s _).mp (by rw [hold]; rfl)).1
  omega

theorem for_loop_preserve (op : K → K → K) (stride : Nat) (mask : List K)
    (coeff : Int → Int → Int) (tgt : Int → Int) (stop step : Int) (hstep : 0 ≤ step) :
    ∀ (fuel : Nat) (i0 : Int) (s y : List K),
      for_loop (lift_body op stride mask coeff tgt) stop step fuel i0 s = some y →
      y.length = s.length ∧
        ∀ q : Int, (∀ a, i0 ≤ a → a < stop → q ≠ tgt a * stride) → rd y q = rd s q := by
  intro fuel
  induction fuel with
  | zero =>
    intro i0 s y h
    simp only [for_loop] at h
    split at h
    · exact absurd h (by simp)
    · cases h; exact ⟨rfl, fun _ _ => rfl⟩
  | succ fuel ih =>
    intro i0 s y h
    simp only [for_loop] at h
    split at h
    · rename_i hlt
      rcases hb : lift_body op stride mask coeff tgt i0 s with _ | s1
      · simp [hb] at h
      simp only [hb, Option.some_bind] at h
      obtain ⟨hl, hq⟩ := ih (i0 + step) s1 y h
      obtain ⟨acc, old, -, hold, rfl⟩ := (lift_body_eq_some_iff _ _ _ _ _ _ _ _).mp hb
      refine ⟨by simp [hl], fun q hne => ?_⟩
      rw [hq q (fun a ha1 ha2 => hne a (by omega) ha2)]
      apply rd_set_ne
      have h1 := hne i0 le_rfl hlt
      have hpos : 0 ≤ tgt i0 * (stride : Int) := ((rd_isSome_iff s _).mp (by rw [hold]; rfl)).1
      omega
    · cases h; exact ⟨rfl, fun _ _ => rfl⟩

theorem for_loop_frame (op : K → K → K) (stride : Nat) (mask : List K)
    (coeff : Int → Int → Int) (tgt : Int → Int) (stop step : Int) (hstep : 0 ≤ step)
    (p : Nat) (v : K) :
    ∀ (fuel : Nat) (i0 : Int) (s : List K),
      (∀ a, i0 ≤ a → a < stop → (p : Int) ≠ tgt a * stride ∧
        ∀ j : Int, 0 ≤ j → j < mask.length → (p : Int) ≠ coeff a j * stride) →
      for_loop (lift_body op stride mask coeff tgt) stop step fuel i0 (s.set p v) =
        (for_loop (lift_body op stride mask coeff tgt) stop step fuel i0 s).map
          (fun t => t.set p v) := by
  intro fuel
  induction fuel with
  | zero =>
    intro i0 s _
    simp only [for_loop]
    split <;> rfl
  | succ fuel ih =>
    intro i0 s h
    simp only [for_loop]
    split
    · rename_i hlt
      obtain ⟨h1, h2⟩ := h i0 le_rfl hlt
      rw [lift_body_frame op stride mask coeff tgt i0 s p v h1 h2]
      rcases lift_body op stride mask coeff tgt i0 s with _ | s1
      · rfl
      simp only [Option.map_some', Option.some_bind]
      exact ih (i0 + step) s1 (fun a ha1 ha2 => h a (by omega) ha2)
    · rfl

theorem for_loop_roundtrip (op op' : K → K → K) (hop : ∀ x u, op' (op x u) u = x)
    (stride : Nat) (mask : List K) (coeff : Int → Int → Int) (tgt : Int → Int)
    (stop step : Int) (hstep : 0 < step) :
    ∀ (fuel : Nat) (i0 : Int) (s y : List K),
      (∀ a b j : Int, i0 ≤ a → a < stop → i0 ≤ b → b < stop → 0 ≤ j → j < mask.length →
        coeff a j * stride ≠ tgt b * stride) →
      (∀ a b : Int, i0 ≤ a → a < stop → i0 ≤ b → b < stop → a ≠ b →
        tgt a * stride ≠ tgt b * stride) →
      for_loop (lift_body op stride mask coeff tgt) stop step fuel i0 s = some y →
      for_loop (lift_body op' stride mask coeff tgt) stop step fuel i0 y = some s := by
  intro fuel
  induction fuel with
  | zero =>
    intro i0 s y _ _ h
    simp only [for_loop] at h ⊢
    split at h
    · exact absurd h (by simp)
    · rename_i hlt
      cases h
      simp [hlt]
  | succ fuel ih =>
    intro i0 s y hdis hinj h
    simp only [for_loop] at h ⊢
    by_cases hlt : i0 < stop
    · simp only [hlt, if_true] at h ⊢
      rcases hb : lift_body op stride mask coeff tgt i0 s with _ | s1
      · simp [hb] at h
      simp only [hb, Option.some_bind] at h
      obtain ⟨acc, old, hacc, hold, hs1⟩ := (lift_body_eq_some_iff _ _ _ _ _ _ _ _).mp hb
      have hpos : 0 ≤ tgt i0 * (stride : Int) := ((rd_isSome_iff s _).mp (by rw [hold]; rfl)).1
      have hrest := ih (i0 + step) s1 y
        (fun a b j ha1 ha2 hb1 hb2 => hdis a b j (by omega) ha2 (by omega) hb2)
        (fun a b ha1 ha2 hb1 hb2 => hinj a b (by omega) ha2 (by omega) hb2) h
      obtain ⟨hlen, hpres⟩ := for_loop_preserve op stride mask coeff tgt stop step
        (le_of_lt hstep) fuel (i0 + step) s1 y h
      -- the taps of `i0` and its target are untouched by the rest of the pass
      have htap : ∀ k : Int, 0 ≤ k → k < mask.length →
          rd y (coeff i0 k * stride) = rd s (coeff i0 k * stride) := by
        intro k hk1 hk2
        rw [hpres _ (fun a ha1 ha2 => hdis i0 a k le_rfl hlt (by omega) ha2 hk1 hk2), hs1]
        apply rd_set_ne
        have := hdis i0 i0 k le_rfl hlt le_rfl hlt hk1 hk2
        omega
      have hstc : stencil y stride (coeff i0) mask 0 0 = some acc := by
        rw [← hacc]
        apply stencil_congr
        intro k hk1 hk2
        exact htap k hk1 (by omega)
      have hty : rd y (tgt i0 * stride) = some (op old acc) := by
        rw [hpres _ (fun a ha1 ha2 => hinj i0 a le_rfl hlt (by omega) ha2 (by omega)), hs1,
          rd_set]
        have hin := ((rd_isSome_iff s _).mp (by rw [hold]; rfl))
        have h1 : tgt i0 * (stride : Int) = ((tgt i0 * (stride : Int)).toNat : Int) := by omega
        have h2 : (tgt i0 * (stride : Int)).toNat < s.length := by omega
        rw [if_pos ⟨h1, h2⟩]
      have hby : lift_body op' stride mask coeff tgt i0 y =
          some (y.set (tgt i0 * stride).toNat old) := by
        rw [lift_body_eq_some_iff]
        exact ⟨acc, op old acc, hstc, hty, by rw [hop]⟩
      rw [hby, Option.some_bind]
      rw [for_loop_frame op' stride mask coeff tgt stop step (le_of_lt hstep) _ old fuel
        (i0 + step) y ?_, hrest, Option.map_some', hs1, List.set_set, set_rd_self hold]
      intro a ha1 ha2
      have e : (((tgt i0 * (stride : Int)).toNat : Nat) : Int) = tgt i0 * stride := by omega
      rw [e]
      exact ⟨hinj i0 a le_rfl hlt (by omega) ha2 (by omega),
        fun j hj1 hj2 => (hdis a i0 j (by omega) ha2 le_rfl hlt hj1 hj2).symm⟩
    · simp only [hlt, if_false] at h ⊢
      cases h
      rfl

theorem for_loop_isSome (op : K → K → K) (stride : Nat) (mask : List K)
    (coeff : Int → Int → Int) (tgt : Int → Int) (stop step : Int) (hstep : 0 < step) :
    ∀ (fuel : Nat) (i0 : Int) (s : List K),
      stop - i0 ≤ fuel * step →
      (∀ a : Int, i0 ≤ a → a < stop →
        (0 ≤ tgt a * stride ∧ tgt a * stride < s.length) ∧
        ∀ j : Int, 0 ≤ j → j < mask.length →
          0 ≤ coeff a j * stride ∧ coeff a j * stride < s.length) →
      ∃ y, for_loop (lift_body op stride mask coeff tgt) stop step fuel i0 s = some y := by
  intro fuel
  induction fuel with
  | zero =>
    intro i0 s hf _
    simp only [for_loop]
    have : ¬ i0 < stop := by
      simp only [Nat.cast_zero, zero_mul] at hf
      omega
    simp [this]
  | succ fuel ih =>
    intro i0 s hf hin
    simp only [for_loop]
    by_cases hlt : i0 < stop
    · simp only [hlt, if_true]
      obtain ⟨ht, hc⟩ := hin i0 le_rfl hlt
      obtain ⟨acc, hacc⟩ := stencil_isSome s stride (coeff i0) mask 0 0
        (fun k hk1 hk2 => hc k hk1 (by omega))
      obtain ⟨old, hold⟩ := Option.isSome_iff_exists.mp ((rd_isSome_iff s _).mpr ht)
      have hb : lift_body op stride mask coeff tgt i0 s =
          some (s.set (tgt i0 * stride).toNat (op old acc)) := by
        rw [lift_body_eq_some_iff]
        exact ⟨acc, old, hacc, hold, rfl⟩
      rw [hb, Option.some_bind]
      apply ih
      · push_cast at hf
        nlinarith
      · intro a ha1 ha2
        simpa using hin a (by omega) ha2
    · simp [hlt]

end Loops

/-! ## Index arithmetic of the primitives -/

namespace lifting

theorem is_multiple_iff (n level : Nat) (hl : level < 64) :
    is_multiple_of_power_of_two n level = true ↔ 2 ^ level ∣ n := by
  unfold is_multiple_of_power_of_two
  have hlt : 2 ^ level < 2 ^ 64 := Nat.pow_lt_pow_right (by norm_num) hl
  have hpos : 0 < 2 ^ level := Nat.pow_pos (by norm_num)
  have h1 : (1 <<< level) % 2 ^ 64 = 2 ^ level := by
    rw [Nat.one_shiftLeft]; exact Nat.mod_eq_of_lt hlt
  have h2 : (2 ^ level + 2 ^ 64 - 1) % 2 ^ 64 = 2 ^ level - 1 := by
    have e : 2 ^ level + 2 ^ 64 - 1 = (2 ^ level - 1) + 2 ^ 64 := by omega
    rw [e, Nat.add_mod_right]
    exact Nat.mod_eq_of_lt (by omega)
  simp only [h1, h2, Nat.and_pow_two_sub_one_eq_mod, beq_iff_eq]
  exact (Nat.dvd_iff_mod_eq_zero ..).symm

theorem is_multiple_of_dvd (n level : Nat) (h : 2 ^ (level + 1) ∣ n) :
    is_multiple_of_power_of_two n level = true := by
  by_cases hl : level < 64
  · rw [is_multiple_iff n level hl]
    exact Dvd.dvd.trans (Dvd.intro 2 (by rw [pow_succ])) h
  · unfold is_multiple_of_power_of_two
    have hd : 2 ^ 64 ∣ 2 ^ level := Nat.pow_dvd_pow 2 (by omega)
    have h1 : (1 <<< level) % 2 ^ 64 = 0 := by
      rw [Nat.one_shiftLeft]; exact Nat.mod_eq_zero_of_dvd hd
    have h3 : n % 2 ^ 64 = 0 :=
      Nat.mod_eq_zero_of_dvd (Dvd.dvd.trans hd (Dvd.dvd.trans (Dvd.intro 2 (by rw [pow_succ])) h))
    have h2 : (0 + 2 ^ 64 - 1) % 2 ^ 64 = 2 ^ 64 - 1 := by norm_num
    simp only [h1, h2, Nat.and_pow_two_sub_one_eq_mod, beq_iff_eq]
    exact h3

theorem shiftRight_of_eq_mul (n M level : Nat) (hn : n = M * 2 ^ (level + 1)) :
    n >>> (level + 1) = M := by
  rw [Nat.shiftRight_eq_div_pow, hn]
  exact Nat.mul_div_cancel _ (Nat.pow_pos (by norm_num))

theorem mul_neg_iff_of_pos (k Q : Int) (hQ : 0 < Q) : k * Q < 0 ↔ k < 0 := by
  constructor
  · intro h
    by_contra hk
    have : 0 ≤ k * Q := mul_nonneg (by omega) (le_of_lt hQ)
    omega
  · intro h
    exact mul_neg_of_neg_of_pos h hQ

theorem mul_ge_iff_of_pos (k M Q : Int) (hQ : 0 < Q) : k * Q ≥ M * Q ↔ k ≥ M := by
  constructor
  · intro h
    exact le_of_mul_le_mul_right h hQ
  · intro h
    exact mul_le_mul_of_nonneg_right h (le_of_lt hQ)

/-- Every `predict` tap is an even multiple `c * 2^(level+1)`; `c` lies in
`[0, max_i)` in non-cyclic mode, and in cyclic mode when the mask has at most
`2 * max_i` entries. -/
theorem predict_coeff_spec (n m level M : Nat) (cyc : Bool) (hn : n = M * 2 ^ (level + 1))
    (i j : Int) :
    ∃ c : Int, predict_coeff n m level cyc i j = c * 2 ^ (level + 1) ∧
      (cyc = false → 1 ≤ M → 0 ≤ c ∧ c < M) ∧
      (cyc = true → 0 ≤ i → i < M → 0 ≤ j → j < m → m ≤ 2 * M → 0 ≤ c ∧ c < M) := by
  have hQ : (0 : Int) < 2 ^ (level + 1) := by positivity
  have hM : n >>> (level + 1) = M := shiftRight_of_eq_mul n M level hn
  have hnZ : (n : Int) = (M : Int) * 2 ^ (level + 1) := by rw [hn]; push_cast; ring
  have hoff : ((m >>> 1 : Nat) : Int) = ((m / 2 : Nat) : Int) := by
    rw [Nat.shiftRight_eq_div_pow, pow_one]
  simp only [predict_coeff, hM, hoff]
  generalize hk : i + j + (-((m / 2 : Nat) : Int) + 1) = k
  cases cyc with
  | true =>
    simp only [if_true, wrap_coeff, hnZ, mul_neg_iff_of_pos k _ hQ, mul_ge_iff_of_pos k M _ hQ]
    by_cases h1 : k < 0
    · refine ⟨k + M, by rw [if_pos h1]; ring, by simp, fun _ hi1 hi2 hj1 hj2 hm => ?_⟩
      omega
    · by_cases h2 : k ≥ M
      · refine ⟨k - M, by rw [if_neg h1, if_pos h2]; ring, by simp,
          fun _ hi1 hi2 hj1 hj2 hm => ?_⟩
        omega
      · exact ⟨k, by rw [if_neg h1, if_neg h2], by simp, fun _ _ _ _ _ _ => by omega⟩
  | false =>
    simp only [Bool.false_eq_true, if_false, clamp_coeff, hnZ, mul_neg_iff_of_pos k _ hQ,
      mul_ge_iff_of_pos k M _ hQ]
    by_cases h1 : k < 0
    · exact ⟨0, by rw [if_pos h1]; ring, fun _ hM1 => by omega, by simp⟩
    · by_cases h2 : k ≥ M
      · exact ⟨M - 1, by rw [if_neg h1, if_pos h2], fun _ hM1 => by omega, by simp⟩
      · exact ⟨k, by rw [if_neg h1, if_neg h2], fun _ _ => by omega, by simp⟩

/-- Every `update` tap is an odd multiple `(2c+1) * 2^level`; `c` lies in
`[0, max_i)` in non-cyclic mode, and in cyclic mode when the mask has at most
`2 * max_i` entries. -/
theorem update_coeff_spec (n m level M : Nat) (cyc : Bool) (hn : n = M * 2 ^ (level + 1))
    (i j : Int) :
    ∃ c : Int, update_coeff n m level cyc i j = (2 * c + 1) * 2 ^ level ∧
      (cyc = false → 1 ≤ M → 0 ≤ c ∧ c < M) ∧
      (cyc = true → 0 ≤ i → i < M → 0 ≤ j → j < m → m ≤ 2 * M → 0 ≤ c ∧ c < M) := by
  have hP : (0 : Int) < 2 ^ level := by positivity
  have hM : n >>> (level + 1) = M := shiftRight_of_eq_mul n M level hn
  have hnZ : (n : Int) = (2 * (M : Int)) * 2 ^ level := by rw [hn]; push_cast; ring
  have hoff : ((m >>> 1 : Nat) : Int) = ((m / 2 : Nat) : Int) := by
    rw [Nat.shiftRight_eq_div_pow, pow_one]
  simp only [update_coeff, hM, hoff]
  generalize hk : i + j + (-((m / 2 : Nat) : Int) + 1) = k
  cases cyc with
  | true =>
    simp only [if_true, wrap_coeff, hnZ, mul_neg_iff_of_pos _ _ hP, mul_ge_iff_of_pos _ _ _ hP]
    by_cases h1 : k * 2 - 1 < 0
    · refine ⟨k - 1 + M, by rw [if_pos h1]; ring, by simp, fun _ hi1 hi2 hj1 hj2 hm => ?_⟩
      omega
    · by_cases h2 : k * 2 - 1 ≥ 2 * M
      · refine ⟨k - 1 - M, by rw [if_neg h1, if_pos h2]; ring, by simp,
          fun _ hi1 hi2 hj1 hj2 hm => ?_⟩
        omega
      · exact ⟨k - 1, by rw [if_neg h1, if_neg h2]; ring, by simp,
          fun _ _ _ _ _ _ => by omega⟩
  | false =>
    simp only [Bool.false_eq_true, if_false, clamp_coeff, hnZ, mul_neg_iff_of_pos _ _ hP,
      mul_ge_iff_of_pos _ _ _ hP]
    by_cases h1 : k * 2 - 1 < 0
    · exact ⟨0, by rw [if_pos h1]; ring, fun _ hM1 => by omega, by simp⟩
    · by_cases h2 : k * 2 - 1 ≥ 2 * M
      · exact ⟨M - 1, by rw [if_neg h1, if_pos h2]; ring, fun _ hM1 => by omega, by simp⟩
      · exact ⟨k - 1, by rw [if_neg h1, if_neg h2]; ring, fun _ _ => by omega, by simp⟩

/-- An odd multiple of `2^level` never coincides with an even one, also after
multiplication by a positive stride. -/
theorem odd_ne_even (level stride : Nat) (hs : 1 ≤ stride) (c b : Int) :
    c * 2 ^ (level + 1) * (stride : Int) ≠ (2 * b + 1) * 2 ^ level * (stride : Int) := by
  intro h
  have hP : (0 : Int) < 2 ^ level * (stride : Int) := by positivity
  have h2 : (2 * c - (2 * b + 1)) * (2 ^ level * (stride : Int)) = 0 := by
    rw [pow_succ] at h
    linear_combination h
  rcases mul_eq_zero.mp h2 with h3 | h3
  · omega
  · omega

theorem mul_left_inj_pos (level stride : Nat) (hs : 1 ≤ stride) (a b : Int)
    (h : a * 2 ^ level * (stride : Int) = b * 2 ^ level * (stride : Int)) : a = b := by
  have hP : (0 : Int) < 2 ^ level * (stride : Int) := by positivity
  have h2 : (a - b) * (2 ^ level * (stride : Int)) = 0 := by linear_combination h
  rcases mul_eq_zero.mp h2 with h3 | h3
  · omega
  · omega


theorem pos_bound {K : Type} (x : List K) (n stride : Nat)
    (hbuf : ∀ idx : Nat, idx < n → idx * stride < x.length) (idx : Int)
    (h0 : 0 ≤ idx) (h1 : idx < n) :
    0 ≤ idx * (stride : Int) ∧ idx * (stride : Int) < x.length := by
  obtain ⟨k, rfl⟩ := Int.eq_ofNat_of_zero_le h0
  have hk : k < n := by exact_mod_cast h1
  have := hbuf k hk
  constructor
  · positivity
  · exact_mod_cast this

section Passes

variable {K : Type} [Field K]

/-- A predict-style pass followed by the pass with the inverse operation
restores the buffer; the pass itself never leaves the storage. -/
theorem predict_pass (op op' : K → K → K) (hop : ∀ x u, op' (op x u) u = x)
    (x : List K) (n : Nat) (mask : List K) (level stride : Nat) (cyc : Bool) (M : Nat)
    (hs : 1 ≤ stride) (hn : n = M * 2 ^ (level + 1))
    (hbuf : ∀ idx : Nat, idx < n → idx * stride < x.length)
    (hm : cyc = true → mask.length ≤ 2 * M) :
    ∃ y, for_loop (lift_body op stride mask (predict_coeff n mask.length level cyc)
          (predict_target level)) M 1 M 0 x = some y ∧
      y.length = x.length ∧
      for_loop (lift_body op' stride mask (predict_coeff n mask.length level cyc)
          (predict_target level)) M 1 M 0 y = some x := by
  have hnZ : (n : Int) = (M : Int) * 2 ^ (level + 1) := by rw [hn]; push_cast; ring
  have hP : (0 : Int) < 2 ^ level := by positivity
  obtain ⟨y, hy⟩ := for_loop_isSome op stride mask (predict_coeff n mask.length level cyc)
    (predict_target level) M 1 one_pos M 0 x (by omega) (by
      intro a ha1 ha2
      constructor
      · apply pos_bound x n stride hbuf
        · unfold predict_target; positivity
        · unfold predict_target
          rw [hnZ, pow_succ]
          nlinarith
      · intro j hj1 hj2
        obtain ⟨c, hc, hc1, hc2⟩ := predict_coeff_spec n mask.length level M cyc hn a j
        rw [hc]
        have hcb : 0 ≤ c ∧ c < M := by
          cases cyc with
          | true => exact hc2 rfl ha1 ha2 hj1 hj2 (hm rfl)
          | false => exact hc1 rfl (by omega)
        apply pos_bound x n stride hbuf
        · exact mul_nonneg hcb.1 (by positivity)
        · rw [hnZ]
          exact mul_lt_mul_of_pos_right hcb.2 (by positivity))
  refine ⟨y, hy, (for_loop_preserve op stride mask _ _ M 1 zero_le_one M 0 x y hy).1, ?_⟩
  refine for_loop_roundtrip op op' hop stride mask _ _ M 1 one_pos M 0 x y ?_ ?_ hy
  · intro a b j _ _ _ _ _ _
    obtain ⟨c, hc, -, -⟩ := predict_coeff_spec n mask.length level M cyc hn a j
    rw [hc]
    unfold predict_target
    have := odd_ne_even level stride hs c b
    intro e
    apply this
    rw [e]; ring
  · intro a b _ _ _ _ hab e
    unfold predict_target at e
    have := mul_left_inj_pos level stride hs _ _ e
    omega

/-- An update-style pass followed by the pass with the inverse operation
restores the buffer; the pass itself never leaves the storage. -/
theorem update_pass (op op' : K → K → K) (hop : ∀ x u, op' (op x u) u = x)
    (x : List K) (n : Nat) (mask : List K) (level stride : Nat) (cyc : Bool) (M : Nat)
    (hs : 1 ≤ stride) (hn : n = M * 2 ^ (level + 1))
    (hbuf : ∀ idx : Nat, idx < n → idx * stride < x.length)
    (hm : cyc = true → mask.length ≤ 2 * M) :
    ∃ y, for_loop (lift_body op stride mask (update_coeff n mask.length level cyc)
          (update_target level)) M 1 M (update_start cyc) x = some y ∧
      y.length = x.length ∧
      for_loop (lift_body op' stride mask (update_coeff n mask.length level cyc)
          (update_target level)) M 1 M (update_start cyc) y = some x := by
  have hnZ : (n : Int) = (M : Int) * 2 ^ (level + 1) := by rw [hn]; push_cast; ring
  have hP : (0 : Int) < 2 ^ level := by positivity
  have hst : 0 ≤ update_start cyc := by unfold update_start; split <;> omega
  obtain ⟨y, hy⟩ := for_loop_isSome op stride mask (update_coeff n mask.length level cyc)
    (update_target level) M 1 one_pos M (update_start cyc) x (by omega) (by
      intro a ha1 ha2
      have ha0 : 0 ≤ a := le_trans hst ha1
      constructor
      · apply pos_bound x n stride hbuf
        · unfold update_target; positivity
        · unfold update_target
          rw [hnZ]
          exact mul_lt_mul_of_pos_right ha2 (by positivity)
      · intro j hj1 hj2
        obtain ⟨c, hc, hc1, hc2⟩ := update_coeff_spec n mask.length level M cyc hn a j
        rw [hc]
        have hcb : 0 ≤ c ∧ c < M := by
          cases cyc with
          | true => exact hc2 rfl ha0 ha2 hj1 hj2 (hm rfl)
          | false => exact hc1 rfl (by omega)
        apply pos_bound x n stride hbuf
        · exact mul_nonneg (by omega) (by positivity)
        · rw [hnZ, pow_succ]
          nlinarith)
  refine ⟨y, hy, (for_loop_preserve op stride mask _ _ M 1 zero_le_one M _ x y hy).1, ?_⟩
  refine for_loop_roundtrip op op' hop stride mask _ _ M 1 one_pos M _ x y ?_ ?_ hy
  · intro a b j _ _ _ _ _ _
    obtain ⟨c, hc, -, -⟩ := update_coeff_spec n mask.length level M cyc hn a j
    rw [hc]
    unfold update_target
    exact (odd_ne_even level stride hs b c).symm
  · intro a b _ _ _ _ hab e
    unfold update_target at e
    exact hab (mul_left_inj_pos (level + 1) stride hs _ _ e)


theorem scale_body_fun (f : K → K) (stride : Nat) :
    scale_body f stride = lift_body (fun x _ => f x) stride [] (fun _ _ => 0) (fun a => a) := by
  funext i s
  exact scale_body_eq_lift_body f stride i s

/-- A scale loop over targets inside `[0, n)` never leaves the storage, and the
loop with the inverse operation restores the buffer. -/
theorem scale_pass (f f' : K → K) (hf : ∀ v, f' (f v) = v) (x : List K) (n stride : Nat)
    (hs : 1 ≤ stride) (hbuf : ∀ idx : Nat, idx < n → idx * stride < x.length)
    (start stop step : Int) (hstep : 0 < step) (h0 : 0 ≤ start) (h1 : stop ≤ n) :
    ∃ y, for_loop (scale_body f stride) stop step n start x = some y ∧
      y.length = x.length ∧
      for_loop (scale_body f' stride) stop step n start y = some x := by
  rw [scale_body_fun, scale_body_fun]
  obtain ⟨y, hy⟩ := for_loop_isSome (fun x _ => f x) stride [] (fun _ _ => 0) (fun a => a)
    stop step hstep n start x (by nlinarith) (by
      intro a ha1 ha2
      refine ⟨pos_bound x n stride hbuf a (by omega) (by omega), fun j hj1 hj2 => ?_⟩
      simp only [List.length_nil, Nat.cast_zero] at hj2
      omega)
  refine ⟨y, hy, (for_loop_preserve _ stride [] _ _ stop step (le_of_lt hstep) n start x y hy).1,
    ?_⟩
  refine for_loop_roundtrip (fun x _ => f x) (fun x _ => f' x) (fun v _ => hf v) stride []
    _ _ stop step hstep n start x y ?_ ?_ hy
  · intro a b j _ _ _ _ hj1 hj2
    simp only [List.length_nil, Nat.cast_zero] at hj2
    omega
  · intro a b _ _ _ _ hab e
    apply hab
    have hS : (0 : Int) < stride := by exact_mod_cast hs
    exact mul_right_cancel₀ (ne_of_gt hS) e

/-- Pointwise description of a scale loop: the visited cells
`(start + k*step) * stride` are replaced by their image under `f`, every other
cell is kept. -/
theorem scale_loop_spec (f : K → K) (stride : Nat) (hs : 1 ≤ stride) (stop step : Int)
    (hstep : 0 < step) :
    ∀ (fuel : Nat) (i0 : Int) (s y : List K), 0 ≤ i0 →
      for_loop (scale_body f stride) stop step fuel i0 s = some y →
      (∀ k : Nat, i0 + k * step < stop →
        rd y ((i0 + k * step) * stride) = (rd s ((i0 + k * step) * stride)).map f) ∧
      (∀ q : Int, (∀ k : Nat, i0 + k * step < stop → q ≠ (i0 + k * step) * stride) →
        rd y q = rd s q) := by
  have hS : (0 : Int) < stride := by exact_mod_cast hs
  intro fuel
  induction fuel with
  | zero =>
    intro i0 s y _ h
    simp only [for_loop] at h
    split at h
    · exact absurd h (by simp)
    · rename_i hlt
      cases h
      refine ⟨fun k hk => ?_, fun _ _ => rfl⟩
      have : 0 ≤ (k : Int) * step := by positivity
      omega
  | succ fuel ih =>
    intro i0 s y hi0 h
    simp only [for_loop] at h
    by_cases hlt : i0 < stop
    · simp only [hlt, if_true] at h
      rcases hb : scale_body f stride i0 s with _ | s1
      · simp [hb] at h
      simp only [hb, Option.some_bind] at h
      rw [scale_body_eq_lift_body, lift_body_eq_some_iff] at hb
      obtain ⟨acc, old, -, hold, hs1⟩ := hb
      obtain ⟨ih1, ih2⟩ := ih (i0 + step) s1 y (by omega) h
      have hpos : 0 ≤ i0 * (stride : Int) := by positivity
      have hin := (rd_isSome_iff s _).mp (by rw [hold]; rfl)
      have e1 : ((i0 * (stride : Int)).toNat : Int) = i0 * stride := by omega
      have hlen : (i0 * (stride : Int)).toNat < s.length := by omega
      have hfar : ∀ k : Nat, (i0 + step + k * step) * (stride : Int) ≠ i0 * stride := by
        intro k e
        have hk : 0 ≤ (k : Int) * step := by positivity
        have : i0 + step + k * step = i0 := mul_right_cancel₀ (ne_of_gt hS) e
        omega
      constructor
      · intro k hk
        rcases k with _ | k
        · simp only [Nat.cast_zero, zero_mul, add_zero]
          rw [ih2 _ (fun k' _ => (hfar k').symm), hs1, rd_set, if_pos ⟨e1.symm, hlen⟩, hold]
          rfl
        · have e2 : i0 + ((k + 1 : Nat) : Int) * step = i0 + step + k * step := by
            push_cast; ring
          rw [e2] at hk ⊢
          rw [ih1 k hk, hs1, rd_set_ne _ _ _ _ (by rw [e1]; exact hfar k)]
      · intro q hq
        rw [ih2 q (fun k hk => by
          have e2 : i0 + ((k + 1 : Nat) : Int) * step = i0 + step + k * step := by
            push_cast; ring
          have := hq (k + 1) (by rw [e2]; exact hk)
          rwa [e2] at this), hs1]
        apply rd_set_ne
        rw [e1]
        have := hq 0 (by simpa using hlt)
        simpa using this
    · simp only [hlt, if_false] at h
      cases h
      refine ⟨fun k hk => ?_, fun _ _ => rfl⟩
      have : 0 ≤ (k : Int) * step := by positivity
      omega

end Passes

end lifting

/-! ## Every primitive is undone by its inverse -/

section Primitives

variable {K : Type} [Field K]

open lifting

theorem mask_bound (n level m : Nat) (hdiv : 2 ^ (level + 1) ∣ n) (h : m * 2 ^ level ≤ n) :
    m ≤ 2 * (n / 2 ^ (level + 1)) := by
  have hn : n = n / 2 ^ (level + 1) * 2 ^ (level + 1) := (Nat.div_mul_cancel hdiv).symm
  have hP : 0 < 2 ^ level := Nat.pow_pos (by norm_num)
  rw [pow_succ] at hn
  apply Nat.le_of_mul_le_mul_right _ hP
  calc m * 2 ^ level ≤ n := h
    _ = n / (2 ^ level * 2) * (2 ^ level * 2) := hn
    _ = 2 * (n / 2 ^ (level + 1)) * 2 ^ level := by rw [pow_succ]; ring

theorem undoes_predict_gen (op op' : K → K → K) (hop : ∀ x u, op' (op x u) u = x)
    (len n level stride : Nat) (mask : List K) (cyc : Bool) (hs : 1 ≤ stride)
    (hdiv : 2 ^ (level + 1) ∣ n) (hbuf : ∀ idx : Nat, idx < n → idx * stride < len)
    (hm : cyc = true → mask.length * 2 ^ level ≤ n) :
    Undoes len
      (fun x => for_loop (lift_body op stride mask (predict_coeff n mask.length level cyc)
        (predict_target level)) (n >>> (level + 1) : Nat) 1 (n >>> (level + 1)) 0 x)
      (fun y => for_loop (lift_body op' stride mask (predict_coeff n mask.length level cyc)
        (predict_target level)) (n >>> (level + 1) : Nat) 1 (n >>> (level + 1)) 0 y) := by
  intro x hx
  have hn : n = n / 2 ^ (level + 1) * 2 ^ (level + 1) := (Nat.div_mul_cancel hdiv).symm
  rw [Nat.shiftRight_eq_div_pow]
  obtain ⟨y, h1, h2, h3⟩ := predict_pass op op' hop x n mask level stride cyc
    (n / 2 ^ (level + 1)) hs hn (by rw [hx]; exact hbuf)
    (fun hc => mask_bound n level _ hdiv (hm hc))
  exact ⟨y, h1, by rw [h2, hx], h3⟩

theorem undoes_update_gen (op op' : K → K → K) (hop : ∀ x u, op' (op x u) u = x)
    (len n level stride : Nat) (mask : List K) (cyc : Bool) (hs : 1 ≤ stride)
    (hdiv : 2 ^ (level + 1) ∣ n) (hbuf : ∀ idx : Nat, idx < n → idx * stride < len)
    (hm : cyc = true → mask.length * 2 ^ level ≤ n) :
    Undoes len
      (fun x => for_loop (lift_body op stride mask (update_coeff n mask.length level cyc)
        (update_target level)) (n >>> (level + 1) : Nat) 1 (n >>> (level + 1))
        (update_start cyc) x)
      (fun y => for_loop (lift_body op' stride mask (update_coeff n mask.length level cyc)
        (update_target level)) (n >>> (level + 1) : Nat) 1 (n >>> (level + 1))
        (update_start cyc) y) := by
  intro x hx
  have hn : n = n / 2 ^ (level + 1) * 2 ^ (level + 1) := (Nat.div_mul_cancel hdiv).symm
  rw [Nat.shiftRight_eq_div_pow]
  obtain ⟨y, h1, h2, h3⟩ := update_pass op op' hop x n mask level stride cyc
    (n / 2 ^ (level + 1)) hs hn (by rw [hx]; exact hbuf)
    (fun hc => mask_bound n level _ hdiv (hm hc))
  exact ⟨y, h1, by rw [h2, hx], h3⟩

theorem undoes_predict (len n level stride : Nat) (mask : List K) (cyc : Bool) (hs : 1 ≤ stride)
    (hdiv : 2 ^ (level + 1) ∣ n) (hbuf : ∀ idx : Nat, idx < n → idx * stride < len)
    (hm : cyc = true → mask.length * 2 ^ level ≤ n) :
    Undoes len (fun x => predict x n mask level stride cyc)
      (fun y => ipredict y n mask level stride cyc) := by
  have h := undoes_predict_gen (fun x p => x - p) (fun x p => x + p)
    (fun x u => sub_add_cancel x u) len n level stride mask cyc hs hdiv hbuf hm
  simpa only [predict, ipredict, is_multiple_of_dvd n level hdiv, Bool.not_true,
    Bool.false_eq_true, if_false] using h

theorem undoes_ipredict (len n level stride : Nat) (mask : List K) (cyc : Bool)
    (hs : 1 ≤ stride) (hdiv : 2 ^ (level + 1) ∣ n)
    (hbuf : ∀ idx : Nat, idx < n → idx * stride < len)
    (hm : cyc = true → mask.length * 2 ^ level ≤ n) :
    Undoes len (fun x => ipredict x n mask level stride cyc)
      (fun y => predict y n mask level stride cyc) := by
  have h := undoes_predict_gen (fun x p => x + p) (fun x p => x - p)
    (fun x u => add_sub_cancel_right x u) len n level stride mask cyc hs hdiv hbuf hm
  simpa only [predict, ipredict, is_multiple_of_dvd n level hdiv, Bool.not_true,
    Bool.false_eq_true, if_false] using h

theorem undoes_update (len n level stride : Nat) (mask : List K) (cyc : Bool) (hs : 1 ≤ stride)
    (hdiv : 2 ^ (level + 1) ∣ n) (hbuf : ∀ idx : Nat, idx < n → idx * stride < len)
    (hm : cyc = true → mask.length * 2 ^ level ≤ n) :
    Undoes len (fun x => update x n mask level stride cyc)
      (fun y => iupdate y n mask level stride cyc) := by
  have h := undoes_update_gen (fun x p => x + p) (fun x p => x - p)
    (fun x u => add_sub_cancel_right x u) len n level stride mask cyc hs hdiv hbuf hm
  simpa only [update, iupdate, is_multiple_of_dvd n level hdiv, Bool.not_true,
    Bool.false_eq_true, if_false] using h

theorem undoes_iupdate (len n level stride : Nat) (mask : List K) (cyc : Bool) (hs : 1 ≤ stride)
    (hdiv : 2 ^ (level + 1) ∣ n) (hbuf : ∀ idx : Nat, idx < n → idx * stride < len)
    (hm : cyc = true → mask.length * 2 ^ level ≤ n) :
    Undoes len (fun x => iupdate x n mask level stride cyc)
      (fun y => update y n mask level stride cyc) := by
  have h := undoes_update_gen (fun x p => x - p) (fun x p => x + p)
    (fun x u => sub_add_cancel x u) len n level stride mask cyc hs hdiv hbuf hm
  simpa only [update, iupdate, is_multiple_of_dvd n level hdiv, Bool.not_true,
    Bool.false_eq_true, if_false] using h

/-- The four scale loops (start `start0 + b*offset`, stop `n - b*offset`, or
`start0` and `n` when cyclic) are undone by the loop with the inverse map. -/
theorem undoes_scale_gen (f f' : K → K) (hf : ∀ v, f' (f v) = v) (len n level stride : Nat)
    (b : Int) (cyc : Bool) (start0 : Int) (h0 : 0 ≤ start0) (hs : 1 ≤ stride)
    (hbuf : ∀ idx : Nat, idx < n → idx * stride < len) (hb : cyc = false → 0 ≤ b) :
    Undoes len
      (fun x => if cyc then
          for_loop (scale_body f stride) n (2 ^ (level + 1)) n start0 x
        else for_loop (scale_body f stride) (n - b * 2 ^ (level + 1)) (2 ^ (level + 1)) n
          (start0 + b * 2 ^ (level + 1)) x)
      (fun y => if cyc then
          for_loop (scale_body f' stride) n (2 ^ (level + 1)) n start0 y
        else for_loop (scale_body f' stride) (n - b * 2 ^ (level + 1)) (2 ^ (level + 1)) n
          (start0 + b * 2 ^ (level + 1)) y) := by
  intro x hx
  have hQ : (0 : Int) < 2 ^ (level + 1) := by positivity
  cases cyc with
  | true =>
    simp only [if_true]
    obtain ⟨y, h1, h2, h3⟩ := scale_pass f f' hf x n stride hs (by rw [hx]; exact hbuf)
      start0 n (2 ^ (level + 1)) hQ h0 le_rfl
    exact ⟨y, h1, by rw [h2, hx], h3⟩
  | false =>
    simp only [Bool.false_eq_true, if_false]
    have hb0 := hb rfl
    have hbq : 0 ≤ b * 2 ^ (level + 1) := mul_nonneg hb0 (le_of_lt hQ)
    obtain ⟨y, h1, h2, h3⟩ := scale_pass f f' hf x n stride hs (by rw [hx]; exact hbuf)
      (start0 + b * 2 ^ (level + 1)) (n - b * 2 ^ (level + 1)) (2 ^ (level + 1)) hQ
      (by omega) (by omega)
    exact ⟨y, h1, by rw [h2, hx], h3⟩

theorem undoes_scale_even (len n level stride : Nat) (s : K) (b : Int) (cyc : Bool)
    (hs0 : s ≠ 0) (hs : 1 ≤ stride) (hdiv : 2 ^ (level + 1) ∣ n)
    (hbuf : ∀ idx : Nat, idx < n → idx * stride < len) (hb : cyc = false → 0 ≤ b) :
    Undoes len (fun x => scale_even x n s level b stride cyc)
      (fun y => iscale_even y n s level b stride cyc) := by
  have h := undoes_scale_gen (fun x => x * s) (fun x => x / s)
    (fun v => mul_div_cancel_right₀ v hs0) len n level stride b cyc 0 le_rfl hs hbuf hb
  simpa only [scale_even, iscale_even, is_multiple_of_dvd n level hdiv, Bool.not_true,
    Bool.false_eq_true, if_false, zero_add] using h

theorem undoes_iscale_even (len n level stride : Nat) (s : K) (b : Int) (cyc : Bool)
    (hs0 : s ≠ 0) (hs : 1 ≤ stride) (hdiv : 2 ^ (level + 1) ∣ n)
    (hbuf : ∀ idx : Nat, idx < n → idx * stride < len) (hb : cyc = false → 0 ≤ b) :
    Undoes len (fun x => iscale_even x n s level b stride cyc)
      (fun y => scale_even y n s level b stride cyc) := by
  have h := undoes_scale_gen (fun x => x / s) (fun x => x * s)
    (fun v => div_mul_cancel₀ v hs0) len n level stride b cyc 0 le_rfl hs hbuf hb
  simpa only [scale_even, iscale_even, is_multiple_of_dvd n level hdiv, Bool.not_true,
    Bool.false_eq_true, if_false, zero_add] using h

theorem undoes_scale_odd (len n level stride : Nat) (s : K) (b : Int) (cyc : Bool)
    (hs0 : s ≠ 0) (hs : 1 ≤ stride) (hdiv : 2 ^ (level + 1) ∣ n)
    (hbuf : ∀ idx : Nat, idx < n → idx * stride < len) (hb : cyc = false → 0 ≤ b) :
    Undoes len (fun x => scale_odd x n s level b stride cyc)
      (fun y => iscale_odd y n s level b stride cyc) := by
  have h := undoes_scale_gen (fun x => x * s) (fun x => x / s)
    (fun v => mul_div_cancel_right₀ v hs0) len n level stride b cyc (2 ^ level)
    (by positivity) hs hbuf hb
  simpa only [scale_odd, iscale_odd, is_multiple_of_dvd n level hdiv, Bool.not_true,
    Bool.false_eq_true, if_false] using h

theorem undoes_iscale_odd (len n level stride : Nat) (s : K) (b : Int) (cyc : Bool)
    (hs0 : s ≠ 0) (hs : 1 ≤ stride) (hdiv : 2 ^ (level + 1) ∣ n)
    (hbuf : ∀ idx : Nat, idx < n → idx * stride < len) (hb : cyc = false → 0 ≤ b) :
    Undoes len (fun x => iscale_odd x n s level b stride cyc)
      (fun y => scale_odd y n s level b stride cyc) := by
  have h := undoes_scale_gen (fun x => x / s) (fun x => x * s)
    (fun v => div_mul_cancel₀ v hs0) len n level stride b cyc (2 ^ level)
    (by positivity) hs hbuf hb
  simpa only [scale_odd, iscale_odd, is_multiple_of_dvd n level hdiv, Bool.not_true,
    Bool.false_eq_true, if_false] using h

end Primitives

theorem Undoes.comp {K : Type} {len : Nat} {f g f' g' : List K → Option (List K)}
    (h : Undoes len f g) (h' : Undoes len f' g') :
    Undoes len (fun x => (f x).bind f') (fun y => (g' y).bind g) := by
  intro x hx
  obtain ⟨y, hy1, hy2, hy3⟩ := h x hx
  obtain ⟨z, hz1, hz2, hz3⟩ := h' y hy2
  exact ⟨z, by simp [hy1, hz1], hz2, by simp [hz3, hy3]⟩

theorem Undoes.id {K : Type} (len : Nat) :
    Undoes len (fun x : List K => some x) (fun y => some y) :=
  fun x hx => ⟨x, rfl, hx, rfl⟩

/-! ## Custom step lists -/

theorem run_steps_append {K : Type} (body : List K → Nat → Nat → lifting_step K → Option (List K))
    (n level : Nat) :
    ∀ (l1 l2 : List (lifting_step K)) (x : List K),
      run_steps body n level (l1 ++ l2) x =
        (run_steps body n level l1 x).bind (run_steps body n level l2)
  | [], _, _ => by simp [run_steps]
  | s :: l1, l2, x => by
    simp only [List.cons_append, run_steps]
    rcases body x n level s with _ | y
    · rfl
    · simp only [Option.some_bind]
      exact run_steps_append body n level l1 l2 y

theorem run_steps_singleton {K : Type} (body : List K → Nat → Nat → lifting_step K → Option (List K))
    (n level : Nat) (s : lifting_step K) (x : List K) :
    run_steps body n level [s] x = body x n level s := by
  simp only [run_steps]
  rcases body x n level s with _ | y <;> rfl

section Custom

variable {K : Type} [Field K]

open lifting

/-- One custom step is undone by its inverse step when its scale factor, if it
has one, is nonzero. -/
theorem undoes_custom_step (n level : Nat) (s : lifting_step K)
    (hdiv : 2 ^ (level + 1) ∣ n) (hs0 : s.type = .lst_predict ∨ s.type = .lst_update ∨
      s.mask.head? ≠ some 0) :
    Undoes n (fun x => forward_custom_step x n level s)
      (fun y => inverse_custom_step y n level s) := by
  have hbuf : ∀ idx : Nat, idx < n → idx * 1 < n := fun idx h => by omega
  obtain ⟨ty, mask⟩ := s
  cases ty with
  | lst_predict =>
    exact undoes_predict n n level 1 mask false le_rfl hdiv hbuf (by simp)
  | lst_update =>
    exact undoes_update n n level 1 mask false le_rfl hdiv hbuf (by simp)
  | lst_scale_even =>
    cases mask with
    | nil => exact Undoes.id n
    | cons front rest =>
      have hf : front ≠ 0 := by
        rcases hs0 with h | h | h
        · cases h
        · cases h
        · intro e; apply h; simp [e]
      exact undoes_scale_even n n level 1 front 1 false hf le_rfl hdiv hbuf (by simp)
  | lst_scale_odd =>
    cases mask with
    | nil => exact Undoes.id n
    | cons front rest =>
      have hf : front ≠ 0 := by
        rcases hs0 with h | h | h
        · cases h
        · cases h
        · intro e; apply h; simp [e]
      exact undoes_scale_odd n n level 1 front 1 false hf le_rfl hdiv hbuf (by simp)

theorem undoes_run_steps (n level : Nat) (hdiv : 2 ^ (level + 1) ∣ n) :
    ∀ steps : List (lifting_step K),
      (∀ s ∈ steps, s.type = .lst_predict ∨ s.type = .lst_update ∨ s.mask.head? ≠ some 0) →
      Undoes n (run_steps forward_custom_step n level steps)
        (run_steps inverse_custom_step n level steps.reverse)
  | [], _ => by
    simpa [run_steps] using Undoes.id (K := K) n
  | s :: rest, h => by
    have h1 := undoes_custom_step n level s hdiv (h s (List.mem_cons_self _ _))
    have h2 := undoes_run_steps n level hdiv rest (fun t ht => h t (List.mem_cons_of_mem _ ht))
    have h3 := Undoes.comp h1 h2
    intro x hx
    obtain ⟨y, hy1, hy2, hy3⟩ := h3 x hx
    refine ⟨y, ?_, hy2, ?_⟩
    · simpa [run_steps] using hy1
    · rw [List.reverse_cons, run_steps_append]
      have e : run_steps inverse_custom_step n level [s] =
          fun z => inverse_custom_step z n level s := by
        funext z; exact run_steps_singleton _ _ _ _ _
      rw [e]
      exact hy3

theorem biorthogonal_step_eq_dual (x : List K) (n level : Nat) (s : lifting_step K) :
    inverse_custom_biorthogonal_step x n level s = inverse_custom_step x n level (dual_step s) := by
  obtain ⟨ty, mask⟩ := s
  cases ty <;> cases mask <;> rfl

theorem run_steps_map_dual (n level : Nat) :
    ∀ (steps : List (lifting_step K)) (x : List K),
      run_steps inverse_custom_biorthogonal_step n level steps x =
        run_steps inverse_custom_step n level (steps.map dual_step) x
  | [], _ => rfl
  | s :: rest, x => by
    simp only [run_steps, List.map_cons, biorthogonal_step_eq_dual]
    rcases inverse_custom_step x n level (dual_step s) with _ | y
    · rfl
    · simp only [Option.some_bind]
      exact run_steps_map_dual n level rest y

end Custom


/-! ## Pointwise description of the scale primitives -/

section ScaleSpec

variable {K : Type} [Field K]

open lifting

theorem scale_loop_isSome (f : K → K) (x : List K) (n stride : Nat)
    (hbuf : ∀ idx : Nat, idx < n → idx * stride < x.length)
    (start stop step : Int) (hstep : 0 < step) (h0 : 0 ≤ start) (h1 : stop ≤ n) :
    ∃ y, for_loop (scale_body f stride) stop step n start x = some y ∧
      y.length = x.length := by
  rw [scale_body_fun]
  obtain ⟨y, hy⟩ := for_loop_isSome (fun x _ => f x) stride [] (fun _ _ => 0) (fun a => a)
    stop step hstep n start x (by nlinarith) (by
      intro a ha1 ha2
      refine ⟨pos_bound x n stride hbuf a (by omega) (by omega), fun j hj1 hj2 => ?_⟩
      simp only [List.length_nil, Nat.cast_zero] at hj2
      omega)
  exact ⟨y, hy, (for_loop_preserve _ stride [] _ _ stop step (le_of_lt hstep) n start x y hy).1⟩

/-- The scale loop that starts at `start0 + lo*2^(level+1)` and stops below
`n - lo*2^(level+1)` replaces exactly the cells `(start0 + k*2^(level+1)) * stride`
with `lo ≤ k` and `k + lo < n / 2^(level+1)`. -/
theorem scale_spec_gen (f : K → K) (x : List K) (n level stride M : Nat) (lo : Int)
    (hlo : 0 ≤ lo) (start0 : Nat) (h0 : start0 < 2 ^ (level + 1)) (hs : 1 ≤ stride)
    (hn : n = M * 2 ^ (level + 1)) (hbuf : ∀ idx : Nat, idx < n → idx * stride < x.length) :
    ∃ y, for_loop (scale_body f stride) (n - lo * 2 ^ (level + 1)) (2 ^ (level + 1)) n
        (start0 + lo * 2 ^ (level + 1)) x = some y ∧
      y.length = x.length ∧
      (∀ k : Nat, lo ≤ k → k + lo < M →
        y[(start0 + k * 2 ^ (level + 1)) * stride]? =
          (x[(start0 + k * 2 ^ (level + 1)) * stride]?).map f) ∧
      (∀ p : Nat, (∀ k : Nat, lo ≤ k → k + lo < M →
          p ≠ (start0 + k * 2 ^ (level + 1)) * stride) → y[p]? = x[p]?) := by
  have hQ : (0 : Int) < 2 ^ (level + 1) := by positivity
  have hnZ : (n : Int) = (M : Int) * 2 ^ (level + 1) := by rw [hn]; push_cast; ring
  have h0Z : (start0 : Int) < 2 ^ (level + 1) := by exact_mod_cast h0
  have hloQ : 0 ≤ lo * 2 ^ (level + 1) := mul_nonneg hlo (le_of_lt hQ)
  obtain ⟨y, hy, hlen⟩ := scale_loop_isSome f x n stride hbuf
    (start0 + lo * 2 ^ (level + 1)) (n - lo * 2 ^ (level + 1)) (2 ^ (level + 1)) hQ
    (by omega) (by omega)
  obtain ⟨h1, h2⟩ := scale_loop_spec f stride hs (n - lo * 2 ^ (level + 1)) (2 ^ (level + 1))
    hQ n (start0 + lo * 2 ^ (level + 1)) x y (by omega) hy
  -- a visited index `start0 + (lo + j) * Q` is below the stop iff `lo + j + lo < M`
  have hvis : ∀ a : Int, (start0 : Int) + a * 2 ^ (level + 1) < n - lo * 2 ^ (level + 1) ↔
      a + lo < M := by
    intro a
    rw [hnZ]
    constructor
    · intro h
      by_contra hc
      have : ((M : Int) - lo) * 2 ^ (level + 1) ≤ a * 2 ^ (level + 1) :=
        mul_le_mul_of_nonneg_right (by omega) (le_of_lt hQ)
      nlinarith
    · intro h
      have : (a + 1) * 2 ^ (level + 1) ≤ ((M : Int) - lo) * 2 ^ (level + 1) :=
        mul_le_mul_of_nonneg_right (by omega) (le_of_lt hQ)
      nlinarith
  refine ⟨y, hy, hlen, ?_, ?_⟩
  · intro k hk1 hk2
    have e : (start0 : Int) + lo * 2 ^ (level + 1) + ((k - lo).toNat : Int) * 2 ^ (level + 1) =
        start0 + k * 2 ^ (level + 1) := by
      have : (((k : Int) - lo).toNat : Int) = k - lo := by omega
      rw [this]; ring
    have := h1 ((k : Int) - lo).toNat (by rw [e]; exact (hvis k).mpr hk2)
    rw [e] at this
    have e2 : ((start0 : Int) + k * 2 ^ (level + 1)) * (stride : Int) =
        (((start0 + k * 2 ^ (level + 1)) * stride : Nat) : Int) := by push_cast; ring
    rw [e2, rd_natCast, rd_natCast] at this
    exact this
  · intro p hp
    rw [← rd_natCast, ← rd_natCast]
    apply h2
    intro j hj
    have e : (start0 : Int) + lo * 2 ^ (level + 1) + (j : Int) * 2 ^ (level + 1) =
        start0 + ((lo + j).toNat : Int) * 2 ^ (level + 1) := by
      have : (((lo + j).toNat : Nat) : Int) = lo + j := by omega
      rw [this]; ring
    rw [e] at hj ⊢
    have hk := (hvis _).mp hj
    have := hp (lo + j).toNat (by omega) hk
    intro e3
    apply this
    have e4 : ((start0 : Int) + ((lo + j).toNat : Int) * 2 ^ (level + 1)) * (stride : Int) =
        (((start0 + (lo + j).toNat * 2 ^ (level + 1)) * stride : Nat) : Int) := by
      push_cast; ring
    rw [e4] at e3
    exact_mod_cast e3

end ScaleSpec

/-! ## The catalog schemes are undone by their inverses -/

section Catalog

variable {K : Type} [Field K]

open lifting

theorem mask_le_four (n level m : Nat) (cyc : Bool) (hm4 : cyc = true → 4 * 2 ^ level ≤ n)
    (h : m ≤ 4) : cyc = true → m * 2 ^ level ≤ n :=
  fun hc => le_trans (Nat.mul_le_mul_right _ h) (hm4 hc)

theorem d4_even_ne_zero [CharZero K] (sqrt3 : K) (h3 : sqrt3 * sqrt3 = 3) :
    get_even_scaling_factor_daubechies_d4 sqrt3 ≠ 0 := by
  unfold get_even_scaling_factor_daubechies_d4
  intro h
  have h1 : sqrt3 = 1 := by
    have := div_eq_zero_iff.mp h
    rcases this with h2 | h2
    · exact sub_eq_zero.mp h2
    · norm_num at h2
  rw [h1] at h3
  norm_num at h3

theorem d4_odd_ne_zero [CharZero K] (sqrt3 : K) (h3 : sqrt3 * sqrt3 = 3) :
    get_odd_scaling_factor_daubechies_d4 sqrt3 ≠ 0 := by
  unfold get_odd_scaling_factor_daubechies_d4
  intro h
  have h1 : sqrt3 = -1 := by
    have := div_eq_zero_iff.mp h
    rcases this with h2 | h2
    · exact eq_neg_of_add_eq_zero_left h2
    · norm_num at h2
  rw [h1] at h3
  norm_num at h3

theorem undoes_chaikin [CharZero K]
    (len n level stride : Nat) (cyc : Bool) (hs : 1 ≤ stride)
    (hdiv : 2 ^ (level + 1) ∣ n) (hbuf : ∀ idx : Nat, idx < n → idx * stride < len)
    (hm4 : cyc = true → 4 * 2 ^ level ≤ n) :
    Undoes len (fun x : List K => forward_chaikin x n level stride cyc)
      (fun y => inverse_chaikin y n level stride cyc) := by
  have h1 := undoes_update (K := K) len n level stride get_update_mask_chaikin cyc hs hdiv hbuf
    (mask_le_four n level (List.length (get_update_mask_chaikin : List K)) cyc hm4
      (Nat.le_of_ble_eq_true rfl))
  have h2 := undoes_scale_even (K := K) len n level stride get_even_scaling_factor_chaikin 1 cyc
    (by unfold get_even_scaling_factor_chaikin; norm_num) hs hdiv hbuf (by intro _; decide)
  have h3 := undoes_predict (K := K) len n level stride get_prediction_mask_chaikin cyc hs hdiv hbuf
    (mask_le_four n level (List.length (get_prediction_mask_chaikin : List K)) cyc hm4
      (Nat.le_of_ble_eq_true rfl))
  have h4 := undoes_update (K := K) len n level stride get_second_update_mask_chaikin cyc hs hdiv hbuf
    (mask_le_four n level (List.length (get_second_update_mask_chaikin : List K)) cyc hm4
      (Nat.le_of_ble_eq_true rfl))
  intro x hx
  obtain ⟨y, a, b, c⟩ := (Undoes.comp h1 (Undoes.comp h2 (Undoes.comp h3 (h4)))) x hx
  exact ⟨y, a, b, by simpa only [inverse_chaikin, Option.bind_assoc] using c⟩

theorem undoes_cubic_bspline_wavelets [CharZero K]
    (len n level stride : Nat) (cyc : Bool) (hs : 1 ≤ stride)
    (hdiv : 2 ^ (level + 1) ∣ n) (hbuf : ∀ idx : Nat, idx < n → idx * stride < len)
    (hm4 : cyc = true → 4 * 2 ^ level ≤ n) :
    Undoes len (fun x : List K => forward_cubic_bspline_wavelets x n level stride cyc)
      (fun y => inverse_cubic_bspline_wavelets y n level stride cyc) := by
  have h1 := undoes_scale_even (K := K) len n level stride get_even_scaling_factor_cubic_bspline_wavelets 1 cyc
    (by unfold get_even_scaling_factor_cubic_bspline_wavelets; norm_num) hs hdiv hbuf (by intro _; decide)
  have h2 := undoes_update (K := K) len n level stride get_first_update_mask_cubic_bspline_wavelets cyc hs hdiv hbuf
    (mask_le_four n level (List.length (get_first_update_mask_cubic_bspline_wavelets : List K)) cyc hm4
      (Nat.le_of_ble_eq_true rfl))
  have h3 := undoes_predict (K := K) len n level stride get_prediction_mask_cubic_bspline_wavelets cyc hs hdiv hbuf
    (mask_le_four n level (List.length (get_prediction_mask_cubic_bspline_wavelets : List K)) cyc hm4
      (Nat.le_of_ble_eq_true rfl))
  have h4 := undoes_update (K := K) len n level stride get_second_update_mask_cubic_bspline_wavelets cyc hs hdiv hbuf
    (mask_le_four n level (List.length (get_second_update_mask_cubic_bspline_wavelets : List K)) cyc hm4
      (Nat.le_of_ble_eq_true rfl))
  intro x hx
  obtain ⟨y, a, b, c⟩ := (Undoes.comp h1 (Undoes.comp h2 (Undoes.comp h3 (h4)))) x hx
  exact ⟨y, a, b, by simpa only [inverse_cubic_bspline_wavelets, Option.bind_assoc] using c⟩

theorem undoes_cubic_bsplines [CharZero K]
    (len n level stride : Nat) (cyc : Bool) (hs : 1 ≤ stride)
    (hdiv : 2 ^ (level + 1) ∣ n) (hbuf : ∀ idx : Nat, idx < n → idx * stride < len)
    (hm4 : cyc = true → 4 * 2 ^ level ≤ n) :
    Undoes len (fun x : List K => forward_cubic_bsplines x n level stride cyc)
      (fun y => inverse_cubic_bsplines y n level stride cyc) := by
  have h1 := undoes_update (K := K) len n level stride get_update_mask_cubic_bsplines cyc hs hdiv hbuf
    (mask_le_four n level (List.length (get_update_mask_cubic_bsplines : List K)) cyc hm4
      (Nat.le_of_ble_eq_true rfl))
  have h2 := undoes_scale_even (K := K) len n level stride get_even_scaling_factor_cubic_bsplines 1 cyc
    (by unfold get_even_scaling_factor_cubic_bsplines; norm_num) hs hdiv hbuf (by intro _; decide)
  have h3 := undoes_predict (K := K) len n level stride get_prediction_mask_cubic_bsplines cyc hs hdiv hbuf
    (mask_le_four n level (List.length (get_prediction_mask_cubic_bsplines : List K)) cyc hm4
      (Nat.le_of_ble_eq_true rfl))
  intro x hx
  obtain ⟨y, a, b, c⟩ := (Undoes.comp h1 (Undoes.comp h2 (h3))) x hx
  exact ⟨y, a, b, by simpa only [inverse_cubic_bsplines, Option.bind_assoc] using c⟩

theorem undoes_four_point [CharZero K]
    (len n level stride : Nat) (cyc : Bool) (hs : 1 ≤ stride)
    (hdiv : 2 ^ (level + 1) ∣ n) (hbuf : ∀ idx : Nat, idx < n → idx * stride < len)
    (hm4 : cyc = true → 4 * 2 ^ level ≤ n) :
    Undoes len (fun x : List K => forward_4_point x n level stride cyc)
      (fun y => inverse_4_point y n level stride cyc) := by
  have h1 := undoes_predict (K := K) len n level stride get_prediction_mask_4_point cyc hs hdiv hbuf
    (mask_le_four n level (List.length (get_prediction_mask_4_point : List K)) cyc hm4
      (Nat.le_of_ble_eq_true rfl))
  have h2 := undoes_update (K := K) len n level stride get_update_mask_4_point cyc hs hdiv hbuf
    (mask_le_four n level (List.length (get_update_mask_4_point : List K)) cyc hm4
      (Nat.le_of_ble_eq_true rfl))
  intro x hx
  obtain ⟨y, a, b, c⟩ := (Undoes.comp h1 (h2)) x hx
  exact ⟨y, a, b, by simpa only [inverse_4_point, Option.bind_assoc] using c⟩

theorem undoes_cdf_5_3 [CharZero K]
    (len n level stride : Nat) (cyc : Bool) (hs : 1 ≤ stride)
    (hdiv : 2 ^ (level + 1) ∣ n) (hbuf : ∀ idx : Nat, idx < n → idx * stride < len)
    (hm4 : cyc = true → 4 * 2 ^ level ≤ n) :
    Undoes len (fun x : List K => forward_cdf_5_3 x n level stride cyc)
      (fun y => inverse_cdf_5_3 y n level stride cyc) := by
  have h1 := undoes_predict (K := K) len n level stride get_prediction_mask_cdf_5_3 cyc hs hdiv hbuf
    (mask_le_four n level (List.length (get_prediction_mask_cdf_5_3 : List K)) cyc hm4
      (Nat.le_of_ble_eq_true rfl))
  have h2 := undoes_update (K := K) len n level stride get_update_mask_cdf_5_3 cyc hs hdiv hbuf
    (mask_le_four n level (List.length (get_update_mask_cdf_5_3 : List K)) cyc hm4
      (Nat.le_of_ble_eq_true rfl))
  intro x hx
  obtain ⟨y, a, b, c⟩ := (Undoes.comp h1 (h2)) x hx
  exact ⟨y, a, b, by simpa only [inverse_cdf_5_3, Option.bind_assoc] using c⟩

theorem undoes_daubechies_d4 [CharZero K] (sqrt3 : K) (hsq : sqrt3 * sqrt3 = 3)
    (len n level stride : Nat) (cyc : Bool) (hs : 1 ≤ stride)
    (hdiv : 2 ^ (level + 1) ∣ n) (hbuf : ∀ idx : Nat, idx < n → idx * stride < len)
    (hm4 : cyc = true → 4 * 2 ^ level ≤ n) :
    Undoes len (fun x : List K => forward_daubechies_d4 sqrt3 x n level stride cyc)
      (fun y => inverse_daubechies_d4 sqrt3 y n level stride cyc) := by
  have h1 := undoes_update (K := K) len n level stride (get_first_update_mask_daubechies_d4 sqrt3) cyc hs hdiv hbuf
    (mask_le_four n level (List.length ((get_first_update_mask_daubechies_d4 sqrt3) : List K)) cyc hm4
      (Nat.le_of_ble_eq_true rfl))
  have h2 := undoes_predict (K := K) len n level stride (get_prediction_mask_daubechies_d4 sqrt3) cyc hs hdiv hbuf
    (mask_le_four n level (List.length ((get_prediction_mask_daubechies_d4 sqrt3) : List K)) cyc hm4
      (Nat.le_of_ble_eq_true rfl))
  have h3 := undoes_update (K := K) len n level stride get_second_update_mask_daubechies_d4 cyc hs hdiv hbuf
    (mask_le_four n level (List.length (get_second_update_mask_daubechies_d4 : List K)) cyc hm4
      (Nat.le_of_ble_eq_true rfl))
  have h4 := undoes_scale_even (K := K) len n level stride (get_even_scaling_factor_daubechies_d4 sqrt3) 0 cyc
    (d4_even_ne_zero sqrt3 hsq) hs hdiv hbuf (by intro _; decide)
  have h5 := undoes_scale_odd (K := K) len n level stride (get_odd_scaling_factor_daubechies_d4 sqrt3) 0 cyc
    (d4_odd_ne_zero sqrt3 hsq) hs hdiv hbuf (by intro _; decide)
  intro x hx
  obtain ⟨y, a, b, c⟩ := (Undoes.comp h1 (Undoes.comp h2 (Undoes.comp h3 (Undoes.comp h4 (h5))))) x hx
  exact ⟨y, a, b, by simpa only [inverse_daubechies_d4, Option.bind_assoc] using c⟩

theorem undoes_haar [CharZero K]
    (len n level stride : Nat) (cyc : Bool) (hs : 1 ≤ stride)
    (hdiv : 2 ^ (level + 1) ∣ n) (hbuf : ∀ idx : Nat, idx < n → idx * stride < len)
    (hm4 : cyc = true → 4 * 2 ^ level ≤ n) :
    Undoes len (fun x : List K => forward_haar x n level stride cyc)
      (fun y => inverse_haar y n level stride cyc) := by
  have h1 := undoes_predict (K := K) len n level stride get_prediction_mask_haar cyc hs hdiv hbuf
    (mask_le_four n level (List.length (get_prediction_mask_haar : List K)) cyc hm4
      (Nat.le_of_ble_eq_true rfl))
  have h2 := undoes_update (K := K) len n level stride get_update_mask_haar cyc hs hdiv hbuf
    (mask_le_four n level (List.length (get_update_mask_haar : List K)) cyc hm4
      (Nat.le_of_ble_eq_true rfl))
  intro x hx
  obtain ⟨y, a, b, c⟩ := (Undoes.comp h1 (h2)) x hx
  exact ⟨y, a, b, by simpa only [inverse_haar, Option.bind_assoc] using c⟩

theorem undoes_cdf_9_7 [CharZero K]
    (len n level stride : Nat) (cyc : Bool) (hs : 1 ≤ stride)
    (hdiv : 2 ^ (level + 1) ∣ n) (hbuf : ∀ idx : Nat, idx < n → idx * stride < len)
    (hm4 : cyc = true → 4 * 2 ^ level ≤ n) :
    Undoes len (fun x : List K => forward_cdf_9_7 x n level stride cyc)
      (fun y => inverse_cdf_9_7 y n level stride cyc) := by
  have h1 := undoes_predict (K := K) len n level stride get_first_prediction_mask_cdf_9_7 cyc hs hdiv hbuf
    (mask_le_four n level (List.length (get_first_prediction_mask_cdf_9_7 : List K)) cyc hm4
      (Nat.le_of_ble_eq_true rfl))
  have h2 := undoes_update (K := K) len n level stride get_first_update_mask_cdf_9_7 cyc hs hdiv hbuf
    (mask_le_four n level (List.length (get_first_update_mask_cdf_9_7 : List K)) cyc hm4
      (Nat.le_of_ble_eq_true rfl))
  have h3 := undoes_predict (K := K) len n level stride get_second_prediction_mask_cdf_9_7 cyc hs hdiv hbuf
    (mask_le_four n level (List.length (get_second_prediction_mask_cdf_9_7 : List K)) cyc hm4
      (Nat.le_of_ble_eq_true rfl))
  have h4 := undoes_update (K := K) len n level stride get_second_update_mask_cdf_9_7 cyc hs hdiv hbuf
    (mask_le_four n level (List.length (get_second_update_mask_cdf_9_7 : List K)) cyc hm4
      (Nat.le_of_ble_eq_true rfl))
  have h5 := undoes_scale_odd (K := K) len n level stride get_odd_scaling_factor_cdf_9_7 0 cyc
    (by unfold get_odd_scaling_factor_cdf_9_7; norm_num) hs hdiv hbuf (by intro _; decide)
  have h6 := undoes_scale_even (K := K) len n level stride get_even_scaling_factor_cdf_9_7 0 cyc
    (by unfold get_even_scaling_factor_cdf_9_7; norm_num) hs hdiv hbuf (by intro _; decide)
  intro x hx
  obtain ⟨y, a, b, c⟩ := (Undoes.comp h1 (Undoes.comp h2 (Undoes.comp h3 (Undoes.comp h4 (Undoes.comp h5 (h6)))))) x hx
  exact ⟨y, a, b, by simpa only [inverse_cdf_9_7, Option.bind_assoc] using c⟩

theorem undoes_jamlet_linear [CharZero K]
    (len n level stride : Nat) (cyc : Bool) (hs : 1 ≤ stride)
    (hdiv : 2 ^ (level + 1) ∣ n) (hbuf : ∀ idx : Nat, idx < n → idx * stride < len)
    (hm4 : cyc = true → 4 * 2 ^ level ≤ n) :
    Undoes len (fun x : List K => forward_jamlet_linear x n level stride cyc)
      (fun y => inverse_jamlet_linear y n level stride cyc) := by
  have h1 := undoes_predict (K := K) len n level stride get_prediction_mask_jamlet_linear cyc hs hdiv hbuf
    (mask_le_four n level (List.length (get_prediction_mask_jamlet_linear : List K)) cyc hm4
      (Nat.le_of_ble_eq_true rfl))
  have h2 := undoes_update (K := K) len n level stride get_update_mask_jamlet_linear cyc hs hdiv hbuf
    (mask_le_four n level (List.length (get_update_mask_jamlet_linear : List K)) cyc hm4
      (Nat.le_of_ble_eq_true rfl))
  intro x hx
  obtain ⟨y, a, b, c⟩ := (Undoes.comp h1 (h2)) x hx
  exact ⟨y, a, b, by simpa only [inverse_jamlet_linear, Option.bind_assoc] using c⟩

theorem undoes_jamlet_quadratic [CharZero K]
    (len n level stride : Nat) (cyc : Bool) (hs : 1 ≤ stride)
    (hdiv : 2 ^ (level + 1) ∣ n) (hbuf : ∀ idx : Nat, idx < n → idx * stride < len)
    (hm4 : cyc = true → 4 * 2 ^ level ≤ n) :
    Undoes len (fun x : List K => forward_jamlet_quadratic x n level stride cyc)
      (fun y => inverse_jamlet_quadratic y n level stride cyc) := by
  have h1 := undoes_update (K := K) len n level stride get_first_update_mask_jamlet_quadratic cyc hs hdiv hbuf
    (mask_le_four n level (List.length (get_first_update_mask_jamlet_quadratic : List K)) cyc hm4
      (Nat.le_of_ble_eq_true rfl))
  have h2 := undoes_scale_even (K := K) len n level stride get_even_scaling_factor_jamlet_quadratic 1 cyc
    (by unfold get_even_scaling_factor_jamlet_quadratic; norm_num) hs hdiv hbuf (by intro _; decide)
  have h3 := undoes_predict (K := K) len n level stride get_prediction_mask_jamlet_quadratic cyc hs hdiv hbuf
    (mask_le_four n level (List.length (get_prediction_mask_jamlet_quadratic : List K)) cyc hm4
      (Nat.le_of_ble_eq_true rfl))
  have h4 := undoes_update (K := K) len n level stride get_second_update_mask_jamlet_quadratic cyc hs hdiv hbuf
    (mask_le_four n level (List.length (get_second_update_mask_jamlet_quadratic : List K)) cyc hm4
      (Nat.le_of_ble_eq_true rfl))
  intro x hx
  obtain ⟨y, a, b, c⟩ := (Undoes.comp h1 (Undoes.comp h2 (Undoes.comp h3 (h4)))) x hx
  exact ⟨y, a, b, by simpa only [inverse_jamlet_quadratic, Option.bind_assoc] using c⟩

theorem undoes_jamlet_cubic [CharZero K]
    (len n level stride : Nat) (cyc : Bool) (hs : 1 ≤ stride)
    (hdiv : 2 ^ (level + 1) ∣ n) (hbuf : ∀ idx : Nat, idx < n → idx * stride < len)
    (hm4 : cyc = true → 4 * 2 ^ level ≤ n) :
    Undoes len (fun x : List K => forward_jamlet_cubic x n level stride cyc)
      (fun y => inverse_jamlet_cubic y n level stride cyc) := by
  have h1 := undoes_scale_even (K := K) len n level stride get_even_scaling_factor_jamlet_cubic 1 cyc
    (by unfold get_even_scaling_factor_jamlet_cubic; norm_num) hs hdiv hbuf (by intro _; decide)
  have h2 := undoes_update (K := K) len n level stride get_first_update_mask_jamlet_cubic cyc hs hdiv hbuf
    (mask_le_four n level (List.length (get_first_update_mask_jamlet_cubic : List K)) cyc hm4
      (Nat.le_of_ble_eq_true rfl))
  have h3 := undoes_predict (K := K) len n level stride get_prediction_mask_jamlet_cubic cyc hs hdiv hbuf
    (mask_le_four n level (List.length (get_prediction_mask_jamlet_cubic : List K)) cyc hm4
      (Nat.le_of_ble_eq_true rfl))
  have h4 := undoes_update (K := K) len n level stride get_second_update_mask_jamlet_cubic cyc hs hdiv hbuf
    (mask_le_four n level (List.length (get_second_update_mask_jamlet_cubic : List K)) cyc hm4
      (Nat.le_of_ble_eq_true rfl))
  intro x hx
  obtain ⟨y, a, b, c⟩ := (Undoes.comp h1 (Undoes.comp h2 (Undoes.comp h3 (h4)))) x hx
  exact ⟨y, a, b, by simpa only [inverse_jamlet_cubic, Option.bind_assoc] using c⟩

theorem undoes_jamlet_4_point [CharZero K]
    (len n level stride : Nat) (cyc : Bool) (hs : 1 ≤ stride)
    (hdiv : 2 ^ (level + 1) ∣ n) (hbuf : ∀ idx : Nat, idx < n → idx * stride < len)
    (hm4 : cyc = true → 4 * 2 ^ level ≤ n) :
    Undoes len (fun x : List K => forward_jamlet_4_point x n level stride cyc)
      (fun y => inverse_jamlet_4_point y n level stride cyc) := by
  have h1 := undoes_predict (K := K) len n level stride get_prediction_mask_jamlet_4_point cyc hs hdiv hbuf
    (mask_le_four n level (List.length (get_prediction_mask_jamlet_4_point : List K)) cyc hm4
      (Nat.le_of_ble_eq_true rfl))
  have h2 := undoes_update (K := K) len n level stride get_update_mask_jamlet_4_point cyc hs hdiv hbuf
    (mask_le_four n level (List.length (get_update_mask_jamlet_4_point : List K)) cyc hm4
      (Nat.le_of_ble_eq_true rfl))
  intro x hx
  obtain ⟨y, a, b, c⟩ := (Undoes.comp h1 (h2)) x hx
  exact ⟨y, a, b, by simpa only [inverse_jamlet_4_point, Option.bind_assoc] using c⟩

end Catalog

/-! ## Several levels -/

theorem levels_up_snoc {K : Type} (f : List K → Nat → Option (List K)) :
    ∀ (c lev : Nat) (x : List K),
      levels_up f (c + 1) lev x = (levels_up f c lev x).bind fun z => f z (lev + c)
  | 0, lev, x => by
    cases h : f x lev <;> simp [levels_up, h]
  | c + 1, lev, x => by
    have e : lev + 1 + c = lev + (c + 1) := by omega
    cases h : f x lev with
    | none => simp [levels_up, h]
    | some y =>
      have ih := levels_up_snoc f c (lev + 1) y
      rw [e] at ih
      rw [levels_up, h, Option.some_bind, ih]
      conv_rhs => rw [levels_up, h, Option.some_bind]

theorem undoes_levels {K : Type} (len : Nat) (f g : List K → Nat → Option (List K)) :
    ∀ c : Nat, (∀ lev, lev < c → Undoes len (fun x => f x lev) (fun y => g y lev)) →
      Undoes len (levels_up f c 0) (levels_down g c)
  | 0, _ => by
    simpa [levels_up, levels_down] using Undoes.id (K := K) len
  | c + 1, h => by
    have ih := undoes_levels len f g c (fun lev hl => h lev (by omega))
    have hc := h c (by omega)
    intro x hx
    obtain ⟨y, a, b, d⟩ := (Undoes.comp ih hc) x hx
    refine ⟨y, ?_, b, ?_⟩
    · rw [levels_up_snoc]
      simpa using a
    · simpa [levels_down] using d

section Dispatch

variable {K : Type} [Field K] [CharZero K]

open lifting

theorem undoes_scheme (sqrt3 : K) (hsq : sqrt3 * sqrt3 = 3) (s : scheme) (hs : s ≠ .custom)
    (custom_steps : List (lifting_step K)) (len n level stride : Nat) (cyc : Bool)
    (hstride : 1 ≤ stride) (hdiv : 2 ^ (level + 1) ∣ n)
    (hbuf : ∀ idx : Nat, idx < n → idx * stride < len)
    (hm4 : cyc = true → 4 * 2 ^ level ≤ n) :
    Undoes len (fun x => forward_scheme sqrt3 s custom_steps x n level stride cyc)
      (fun y => inverse_scheme sqrt3 s custom_steps y n level stride cyc) := by
  cases s with
  | jamlet_linear => exact undoes_jamlet_linear len n level stride cyc hstride hdiv hbuf hm4
  | jamlet_quadratic =>
    exact undoes_jamlet_quadratic len n level stride cyc hstride hdiv hbuf hm4
  | jamlet_cubic => exact undoes_jamlet_cubic len n level stride cyc hstride hdiv hbuf hm4
  | jamlet_4_point => exact undoes_jamlet_4_point len n level stride cyc hstride hdiv hbuf hm4
  | cdf_5_3 => exact undoes_cdf_5_3 len n level stride cyc hstride hdiv hbuf hm4
  | cdf_9_7 => exact undoes_cdf_9_7 len n level stride cyc hstride hdiv hbuf hm4
  | chaikin => exact undoes_chaikin len n level stride cyc hstride hdiv hbuf hm4
  | cubic_bsplines => exact undoes_cubic_bsplines len n level stride cyc hstride hdiv hbuf hm4
  | cubic_bspline_wavelets =>
    exact undoes_cubic_bspline_wavelets len n level stride cyc hstride hdiv hbuf hm4
  | daubechies_d4 =>
    exact undoes_daubechies_d4 sqrt3 hsq len n level stride cyc hstride hdiv hbuf hm4
  | four_point => exact undoes_four_point len n level stride cyc hstride hdiv hbuf hm4
  | haar => exact undoes_haar len n level stride cyc hstride hdiv hbuf hm4
  | custom => exact absurd rfl hs

theorem get_width_ge (s : scheme) : 4 ≤ get_width s := by
  cases s <;> simp [get_width]

end Dispatch

/-! ## From statements to steps -/

theorem push_to_back_snoc {D : Type} (rules : List (lifting_step D)) (r : lifting_step D)
    (v : D) :
    push_to_back (rules ++ [r]) v = rules ++ [{ type := r.type, mask := r.mask ++ [v] }] := by
  induction rules with
  | nil => rfl
  | cons a rest ih =>
    cases rest with
    | nil => rfl
    | cons b rest2 =>
      have e : push_to_back (a :: b :: rest2 ++ [r]) v =
          a :: push_to_back (b :: rest2 ++ [r]) v := rfl
      rw [e, ih]
      rfl

theorem foldl_push_to_back_snoc {D : Type} (vs : List D) :
    ∀ (rules : List (lifting_step D)) (r : lifting_step D),
      vs.foldl push_to_back (rules ++ [r]) =
        rules ++ [{ type := r.type, mask := r.mask ++ vs }] := by
  induction vs with
  | nil => intro rules r; simp
  | cons v vs ih =>
    intro rules r
    rw [List.foldl_cons, push_to_back_snoc, ih]
    simp

theorem foldl_push_to_back_nil {D : Type} (vs : List D) :
    vs.foldl push_to_back ([] : List (lifting_step D)) = [] := by
  induction vs with
  | nil => rfl
  | cons v vs ih => simpa [push_to_back] using ih

theorem tag_type_of_is_tag (name : String) (h : is_tag name = true) :
    ∃ ty, tag_type name = some ty := by
  unfold is_tag at h
  unfold tag_type
  simp only [Bool.or_eq_true, beq_iff_eq] at h
  rcases h with ((h | h) | h) | h
  · exact ⟨_, by rw [if_pos h]⟩
  · by_cases h1 : name = "predict"
    · exact ⟨_, by rw [if_pos h1]⟩
    · exact ⟨_, by rw [if_neg h1, if_pos h]⟩
  · by_cases h1 : name = "predict"
    · exact ⟨_, by rw [if_pos h1]⟩
    · by_cases h2 : name = "update"
      · exact ⟨_, by rw [if_neg h1, if_pos h2]⟩
      · exact ⟨_, by rw [if_neg h1, if_neg h2, if_pos h]⟩
  · by_cases h1 : name = "predict"
    · exact ⟨_, by rw [if_pos h1]⟩
    · by_cases h2 : name = "update"
      · exact ⟨_, by rw [if_neg h1, if_pos h2]⟩
      · by_cases h3 : name = "scale_even"
        · exact ⟨_, by rw [if_neg h1, if_neg h2, if_pos h3]⟩
        · exact ⟨_, by rw [if_neg h1, if_neg h2, if_neg h3, if_pos h]⟩

/-- Every tag statement that `make_program` produces carries one of the four
tag names. -/
theorem make_program_loop_tags {D : Type} (to_double : String → D) :
    ∀ (fuel : Nat) (tokes : tokens) (stms : List (Statement D)),
      make_program_loop to_double fuel tokes = .ok stms →
      ∀ t, Statement.tag t ∈ stms → is_tag t.name = true := by
  intro fuel
  induction fuel with
  | zero =>
    intro tokes stms h t ht
    cases tokes with
    | nil =>
      simp only [make_program_loop] at h
      cases h
      exact absurd ht (List.not_mem_nil _)
    | cons a rest => simp [make_program_loop] at h
  | succ fuel ih =>
    intro tokes stms h t ht
    cases tokes with
    | nil =>
      simp only [make_program_loop] at h
      cases h
      exact absurd ht (List.not_mem_nil _)
    | cons a rest =>
      simp only [make_program_loop] at h
      rcases hs : make_statement to_double (a :: rest) with f | ⟨stm, tokes1⟩
      · simp [hs] at h
      simp only [hs] at h
      rcases hr : require tokes1 ";" with f | tokes2
      · simp [hr] at h
      simp only [hr] at h
      rcases hl : make_program_loop to_double fuel tokes2 with f | stms2
      · simp [hl] at h
      simp only [hl] at h
      cases h
      rcases List.mem_cons.mp ht with ht | ht
      · -- the statement just made
        subst ht
        simp only [make_statement] at hs
        by_cases hc : a.type = .T_ID ∧ is_tag (current (a :: rest)) = true
        · simp only [hc, and_self, if_true, make_tag, take] at hs
          cases hs
          exact hc.2
        · rw [if_neg hc] at hs
          rcases he : make_expression to_double (parse_fuel (a :: rest)) (a :: rest) with
            f | ⟨e, r⟩
          · simp [he] at hs
          · simp [he] at hs
      · exact ih tokes2 stms2 hl t ht

section ParseLemmas

variable {D : Type} [Field D]

/-- The loop of `parse` that ends without an exception has evaluated every
expression statement and has built the steps of the specification. -/
theorem build_rules_spec (m : cmath D) :
    ∀ (stmts : List (Statement D)) (rules out : List (lifting_step D)),
      (∀ t, Statement.tag t ∈ stmts → is_tag t.name = true) →
      build_rules m stmts rules = (out, none) →
      (∀ e, Statement.expression e ∈ stmts → ∃ v, get_value m e = .ok v) ∧
        out = (leading_values m stmts).foldl push_to_back rules ++ steps_of_statements m stmts := by
  intro stmts
  induction stmts with
  | nil =>
    intro rules out _ h
    simp only [build_rules, Prod.mk.injEq, and_true] at h
    subst h
    exact ⟨fun e he => absurd he (List.not_mem_nil _), by simp [leading_values, steps_of_statements]⟩
  | cons stm rest ih =>
    intro rules out htag h
    have htag' : ∀ t, Statement.tag t ∈ rest → is_tag t.name = true :=
      fun t ht => htag t (List.mem_cons_of_mem _ ht)
    cases stm with
    | tag t =>
      obtain ⟨ty, hty⟩ := tag_type_of_is_tag t.name (htag t (List.mem_cons_self _ _))
      simp only [build_rules, hty] at h
      obtain ⟨h1, h2⟩ := ih _ out htag' h
      refine ⟨fun e he => ?_, ?_⟩
      · rcases List.mem_cons.mp he with he | he
        · cases he
        · exact h1 e he
      · rw [h2, foldl_push_to_back_snoc]
        simp [leading_values, steps_of_statements, hty]
    | expression e =>
      simp only [build_rules] at h
      by_cases hemp : rules.isEmpty = true
      · simp [hemp] at h
      · simp only [hemp, Bool.false_eq_true, if_false] at h
        rcases hv : get_value m e with f | v
        · simp [hv] at h
        · simp only [hv] at h
          obtain ⟨h1, h2⟩ := ih _ out htag' h
          refine ⟨fun e' he' => ?_, ?_⟩
          · rcases List.mem_cons.mp he' with he' | he'
            · cases he'
              exact ⟨v, hv⟩
            · exact h1 e' he'
          · rw [h2]
            simp [leading_values, steps_of_statements, statement_value, hv]

end ParseLemmas

/-! ## Evaluation agrees with the arithmetic of the grammar -/

section EvalSpec

variable {D : Type} [Field D]

theorem apply_sign_eq_signed (sign : Char) (v : D) : apply_sign sign v = signed sign v := rfl

theorem call_value_c_funcs (m : cmath D) (name : String) (args : List D) (v : D)
    (h : call_value m name args = some v) :
    ∃ f, c_funcs m name = some f ∧ f args = .ok v := by
  cases args with
  | nil => simp [call_value] at h
  | cons a rest =>
    cases rest with
    | nil =>
      simp only [call_value] at h
      split_ifs at h with h1 h2 h3 h4 h5 h6 h7
      · cases h; subst h1; exact ⟨c_unary m.sqrt, rfl, rfl⟩
      · cases h; subst h2; exact ⟨c_unary m.sin, rfl, rfl⟩
      · cases h; subst h3; exact ⟨c_unary m.cos, rfl, rfl⟩
      · cases h; subst h4; exact ⟨c_unary m.exp, rfl, rfl⟩
      · cases h; subst h5; exact ⟨c_unary m.log, rfl, rfl⟩
      · cases h; subst h6; exact ⟨c_unary m.log2, rfl, rfl⟩
      · cases h; subst h7; exact ⟨c_unary m.abs, rfl, rfl⟩
    | cons b rest2 =>
      cases rest2 with
      | nil =>
        simp only [call_value] at h
        split_ifs at h with h1
        cases h; subst h1; exact ⟨c_pow m, rfl, rfl⟩
      | cons c rest3 => simp [call_value] at h

theorem apply_fop_multiplicative (m : cmath D) (fop : String) (g : D → D → D) (a b : D)
    (h : multiplicative_op fop = some g) : apply_fop m fop a b = .ok (g a b) := by
  unfold multiplicative_op at h
  split_ifs at h with h1 h2
  · cases h; subst h1; rfl
  · cases h; subst h2; rfl

theorem apply_fop_additive (m : cmath D) (fop : String) (g : D → D → D) (a b : D)
    (h : additive_op fop = some g) : apply_fop m fop a b = .ok (g a b) := by
  unfold additive_op at h
  split_ifs at h with h1 h2
  · cases h; subst h1; rfl
  · cases h; subst h2; rfl

mutual

theorem get_value_factor_of_arith (m : cmath D) :
    ∀ (f : Factor D) (v : D), arith_factor m f = some v → get_value_factor m f = .ok v
  | .number sign value _, v, h => by
    simp only [arith_factor, Option.some.injEq] at h
    simp only [get_value_factor, apply_sign_eq_signed, h]
  | .expression sign e _, v, h => by
    simp only [arith_factor] at h
    rcases he : arith_value m e with _ | w
    · simp [he] at h
    · simp only [he, Option.some.injEq] at h
      simp only [get_value_factor, get_value_of_arith m e w he, apply_sign_eq_signed, h]
  | .funccall sign name exprs _ _, v, h => by
    simp only [arith_factor] at h
    rcases he : arith_values m exprs with _ | args
    · simp [he] at h
    · simp only [he] at h
      rcases hc : call_value m name args with _ | w
      · simp [hc] at h
      · simp only [hc, Option.some.injEq] at h
        obtain ⟨g, hg1, hg2⟩ := call_value_c_funcs m name args w hc
        simp only [get_value_factor, get_values_of_arith m exprs args he, hg1, hg2,
          apply_sign_eq_signed, h]

theorem term_value_loop_of_arith (m : cmath D) :
    ∀ (operands : List (Factor D)) (fops : List String) (value : D) (vs : List D) (r : D),
      arith_factors m operands = some vs → left_assoc multiplicative_op value vs fops = some r →
      term_value_loop m value operands fops = .ok r
  | [], fops, value, vs, r, h1, h2 => by
    simp only [arith_factors, Option.some.injEq] at h1
    subst h1
    cases fops with
    | nil =>
      simp only [left_assoc, Option.some.injEq] at h2
      simp [term_value_loop, h2]
    | cons f fs => simp [left_assoc] at h2
  | operand :: operands, fops, value, vs, r, h1, h2 => by
    simp only [arith_factors] at h1
    rcases hf : arith_factor m operand with _ | v
    · simp [hf] at h1
    rcases hfs : arith_factors m operands with _ | vs1
    · simp [hf, hfs] at h1
    simp only [hf, hfs, Option.some.injEq] at h1
    subst h1
    cases fops with
    | nil => simp [left_assoc] at h2
    | cons fop fops =>
      simp only [left_assoc] at h2
      rcases hg : (multiplicative_op fop : Option (D → D → D)) with _ | g
      · simp [hg] at h2
      · simp only [hg] at h2
        simp only [term_value_loop, get_value_factor_of_arith m operand v hf,
          apply_fop_multiplicative m fop g value v hg]
        exact term_value_loop_of_arith m operands fops (g value v) vs1 r hfs h2

theorem get_value_term_of_arith (m : cmath D) :
    ∀ (t : Term D) (v : D), arith_term m t = some v → get_value_term m t = .ok v
  | ⟨[], _, _⟩, v, h => by simp [arith_term] at h
  | ⟨first :: operands, fops, _⟩, v, h => by
    simp only [arith_term] at h
    rcases hf : arith_factor m first with _ | v0
    · simp [hf] at h
    rcases hfs : arith_factors m operands with _ | vs
    · simp [hf, hfs] at h
    simp only [hf, hfs] at h
    simp only [get_value_term, get_value_factor_of_arith m first v0 hf]
    exact term_value_loop_of_arith m operands fops v0 vs v hfs h

theorem expression_value_loop_of_arith (m : cmath D) :
    ∀ (operands : List (Term D)) (fops : List String) (value : D) (vs : List D) (r : D),
      arith_terms m operands = some vs → left_assoc additive_op value vs fops = some r →
      expression_value_loop m value operands fops = .ok r
  | [], fops, value, vs, r, h1, h2 => by
    simp only [arith_terms, Option.some.injEq] at h1
    subst h1
    cases fops with
    | nil =>
      simp only [left_assoc, Option.some.injEq] at h2
      simp [expression_value_loop, h2]
    | cons f fs => simp [left_assoc] at h2
  | operand :: operands, fops, value, vs, r, h1, h2 => by
    simp only [arith_terms] at h1
    rcases hf : arith_term m operand with _ | v
    · simp [hf] at h1
    rcases hfs : arith_terms m operands with _ | vs1
    · simp [hf, hfs] at h1
    simp only [hf, hfs, Option.some.injEq] at h1
    subst h1
    cases fops with
    | nil => simp [left_assoc] at h2
    | cons fop fops =>
      simp only [left_assoc] at h2
      rcases hg : (additive_op fop : Option (D → D → D)) with _ | g
      · simp [hg] at h2
      · simp only [hg] at h2
        simp only [expression_value_loop, get_value_term_of_arith m operand v hf,
          apply_fop_additive m fop g value v hg]
        exact expression_value_loop_of_arith m operands fops (g value v) vs1 r hfs h2

theorem get_value_of_arith (m : cmath D) :
    ∀ (e : Expression D) (v : D), arith_value m e = some v → get_value m e = .ok v
  | ⟨[], _, _⟩, v, h => by simp [arith_value] at h
  | ⟨first :: operands, fops, _⟩, v, h => by
    simp only [arith_value] at h
    rcases hf : arith_term m first with _ | v0
    · simp [hf] at h
    rcases hfs : arith_terms m operands with _ | vs
    · simp [hf, hfs] at h
    simp only [hf, hfs] at h
    simp only [get_value, get_value_term_of_arith m first v0 hf]
    exact expression_value_loop_of_arith m operands fops v0 vs v hfs h

theorem get_values_of_arith (m : cmath D) :
    ∀ (es : List (Expression D)) (vs : List D),
      arith_values m es = some vs → get_values m es = .ok vs
  | [], vs, h => by
    simp only [arith_values, Option.some.injEq] at h
    simp [get_values, h]
  | e :: es, vs, h => by
    simp only [arith_values] at h
    rcases he : arith_value m e with _ | v
    · simp [he] at h
    rcases hes : arith_values m es with _ | vs1
    · simp [he, hes] at h
    simp only [he, hes, Option.some.injEq] at h
    simp only [get_values, get_value_of_arith m e v he, get_values_of_arith m es vs1 hes, h]

end

end EvalSpec

/-! ## Shape of what the expression parser returns -/

theorem sign_ok_get (s : String) (h : s = "+" ∨ s = "-") : sign_ok (s.get 0) = true := by
  rcases h with rfl | rfl <;> decide

theorem fops_ok_cons (a b f : String) (fops : List String) (h : f = a ∨ f = b)
    (hs : fops_ok a b fops = true) : fops_ok a b (f :: fops) = true := by
  simp only [fops_ok, List.all_cons, Bool.and_eq_true, Bool.or_eq_true, beq_iff_eq] at hs ⊢
  exact ⟨h, hs⟩

theorem parser_wf {D : Type} (td : String → D) : ∀ fuel : Nat,
    (∀ tokes e rest, make_expression td fuel tokes = .ok (e, rest) → wf_expression e = true) ∧
    (∀ tokes ops fops rest, expression_loop td fuel tokes = .ok (ops, fops, rest) →
      ops.length = fops.length ∧ fops_ok "+" "-" fops = true ∧ wf_terms ops = true) ∧
    (∀ tokes t rest, make_term td fuel tokes = .ok (t, rest) → wf_term t = true) ∧
    (∀ tokes ops fops rest, term_loop td fuel tokes = .ok (ops, fops, rest) →
      ops.length = fops.length ∧ fops_ok "*" "/" fops = true ∧ wf_factors ops = true) ∧
    (∀ tokes f rest, make_factor td fuel tokes = .ok (f, rest) → wf_factor f = true) ∧
    (∀ t tokes name exprs ln rest,
      make_funccall td fuel t tokes = .ok ((name, exprs, ln), rest) →
      is_fun name = true ∧ wf_expressions exprs = true) ∧
    (∀ tokes es rest, funccall_loop td fuel tokes = .ok (es, rest) →
      wf_expressions es = true)
  | 0 => by
    refine ⟨?_, ?_, ?_, ?_, ?_, ?_, ?_⟩ <;> intros <;>
      simp_all [make_expression, expression_loop, make_term, term_loop, make_factor,
        make_funccall, funccall_loop]
  | fuel + 1 => by
    obtain ⟨ih1, ih2, ih3, ih4, ih5, ih6, ih7⟩ := parser_wf td fuel
    refine ⟨?_, ?_, ?_, ?_, ?_, ?_, ?_⟩
    · intro tokes e rest h
      cases tokes with
      | nil => simp [make_expression] at h
      | cons t ts =>
        simp only [make_expression] at h
        split at h
        · cases h
        · rename_i first tokes1 h1
          split at h
          · cases h
          · rename_i operands fops tokes2 h2
            simp only [Except.ok.injEq, Prod.mk.injEq] at h
            obtain ⟨rfl, rfl⟩ := h
            have a := ih3 _ _ _ h1
            obtain ⟨b1, b2, b3⟩ := ih2 _ _ _ _ h2
            simp [wf_expression, wf_terms, a, b1, b2, b3]
    · intro tokes ops fops rest h
      simp only [expression_loop] at h
      split_ifs at h with hc
      · cases tokes with
        | nil => simp at h
        | cons t tokes1 =>
          simp only at h
          split at h
          · cases h
          · rename_i operand tokes2 h1
            split at h
            · cases h
            · rename_i operands fops1 tokes3 h2
              simp only [Except.ok.injEq, Prod.mk.injEq] at h
              obtain ⟨rfl, rfl, rfl⟩ := h
              have a := ih3 _ _ _ h1
              obtain ⟨b1, b2, b3⟩ := ih2 _ _ _ _ h2
              refine ⟨by simp [b1], fops_ok_cons _ _ _ _ hc b2, by simp [wf_terms, a, b3]⟩
      · simp only [Except.ok.injEq, Prod.mk.injEq] at h
        obtain ⟨rfl, rfl, rfl⟩ := h
        exact ⟨rfl, rfl, rfl⟩
    · intro tokes e rest h
      cases tokes with
      | nil => simp [make_term] at h
      | cons t ts =>
        simp only [make_term] at h
        split at h
        · cases h
        · rename_i first tokes1 h1
          split at h
          · cases h
          · rename_i operands fops tokes2 h2
            simp only [Except.ok.injEq, Prod.mk.injEq] at h
            obtain ⟨rfl, rfl⟩ := h
            have a := ih5 _ _ _ h1
            obtain ⟨b1, b2, b3⟩ := ih4 _ _ _ _ h2
            simp [wf_term, wf_factors, a, b1, b2, b3]
    · intro tokes ops fops rest h
      simp only [term_loop] at h
      split_ifs at h with hc
      · cases tokes with
        | nil => simp at h
        | cons t tokes1 =>
          simp only at h
          split at h
          · cases h
          · rename_i operand tokes2 h1
            split at h
            · cases h
            · rename_i operands fops1 tokes3 h2
              simp only [Except.ok.injEq, Prod.mk.injEq] at h
              obtain ⟨rfl, rfl, rfl⟩ := h
              have a := ih5 _ _ _ h1
              obtain ⟨b1, b2, b3⟩ := ih4 _ _ _ _ h2
              refine ⟨by simp [b1], fops_ok_cons _ _ _ _ hc b2, by simp [wf_factors, a, b3]⟩
      · simp only [Except.ok.injEq, Prod.mk.injEq] at h
        obtain ⟨rfl, rfl, rfl⟩ := h
        exact ⟨rfl, rfl, rfl⟩
    · intro tokes f rest h
      simp only [make_factor] at h
      split at h
      · cases h
      · rename_i toke0 tokes0 h0
        split at h
        · cases h
        · rename_i sign toke tokes1 hs
          have hsign : sign_ok sign = true := by
            split_ifs at hs with hc
            · split at hs
              · cases hs
              · simp only [Except.ok.injEq, Prod.mk.injEq] at hs
                rw [← hs.1]
                exact sign_ok_get _ hc
            · simp only [Except.ok.injEq, Prod.mk.injEq] at hs
              rw [← hs.1]; rfl
          split at h
          · split at h
            · cases h
            · rename_i e tokes2 h1
              split at h
              · cases h
              · simp only [Except.ok.injEq, Prod.mk.injEq] at h
                obtain ⟨rfl, rfl⟩ := h
                simp [wf_factor, hsign, ih1 _ _ _ h1]
          · simp only [Except.ok.injEq, Prod.mk.injEq] at h
            obtain ⟨rfl, rfl⟩ := h
            simp [wf_factor, hsign]
          · simp only [Except.ok.injEq, Prod.mk.injEq] at h
            obtain ⟨rfl, rfl⟩ := h
            simp [wf_factor, hsign]
          · split at h
            · cases h
            · rename_i name exprs ln tokes2 h1
              simp only [Except.ok.injEq, Prod.mk.injEq] at h
              obtain ⟨rfl, rfl⟩ := h
              obtain ⟨a, b⟩ := ih6 _ _ _ _ _ _ h1
              simp [wf_factor, hsign, a, b]
          · simp [throw_parse_error] at h
            split_ifs at h
    · intro t tokes name exprs ln rest h
      simp only [make_funccall] at h
      split at h
      · simp [throw_parse_error] at h
        split_ifs at h
      · rename_i hf
        split at h
        · cases h
        · rename_i tokes1 h1
          split at h
          · split at h
            · cases h
            · rename_i e tokes2 h2
              split at h
              · cases h
              · rename_i es tokes3 h3
                split at h
                · cases h
                · simp only [Except.ok.injEq, Prod.mk.injEq] at h
                  obtain ⟨⟨rfl, rfl, rfl⟩, rfl⟩ := h
                  exact ⟨by simpa using hf, by simp [wf_expressions, ih1 _ _ _ h2, ih7 _ _ _ h3]⟩
          · split at h
            · cases h
            · simp only [Except.ok.injEq, Prod.mk.injEq] at h
              obtain ⟨⟨rfl, rfl, rfl⟩, rfl⟩ := h
              exact ⟨by simpa using hf, rfl⟩
    · intro tokes es rest h
      simp only [funccall_loop] at h
      split_ifs at h with hc
      · split at h
        · cases h
        · rename_i tokes1 h1
          split at h
          · cases h
          · rename_i e tokes2 h2
            split at h
            · cases h
            · rename_i es1 tokes3 h3
              simp only [Except.ok.injEq, Prod.mk.injEq] at h
              obtain ⟨rfl, rfl⟩ := h
              simp [wf_expressions, ih1 _ _ _ h2, ih7 _ _ _ h3]
      · simp only [Except.ok.injEq, Prod.mk.injEq] at h
        obtain ⟨rfl, rfl⟩ := h
        rfl

/-! ## The arithmetic value exists for well-shaped expressions -/

theorem call_value_isSome {D : Type} (m : cmath D) (name : String) (args : List D)
    (hf : is_fun name = true) (hl : args.length = arity name) :
    ∃ v, call_value m name args = some v := by
  simp only [is_fun, Bool.or_eq_true, beq_iff_eq] at hf
  rcases hf with (((((rfl | rfl) | rfl) | rfl) | rfl) | rfl) | rfl
  · obtain ⟨a, rfl⟩ := List.length_eq_one.mp (by simpa [arity] using hl)
    exact ⟨_, rfl⟩
  · obtain ⟨a, b, rfl⟩ := List.length_eq_two.mp (by simpa [arity] using hl)
    exact ⟨_, rfl⟩
  · obtain ⟨a, rfl⟩ := List.length_eq_one.mp (by simpa [arity] using hl)
    exact ⟨_, rfl⟩
  · obtain ⟨a, rfl⟩ := List.length_eq_one.mp (by simpa [arity] using hl)
    exact ⟨_, rfl⟩
  · obtain ⟨a, rfl⟩ := List.length_eq_one.mp (by simpa [arity] using hl)
    exact ⟨_, rfl⟩
  · obtain ⟨a, rfl⟩ := List.length_eq_one.mp (by simpa [arity] using hl)
    exact ⟨_, rfl⟩
  · obtain ⟨a, rfl⟩ := List.length_eq_one.mp (by simpa [arity] using hl)
    exact ⟨_, rfl⟩

section ArithTotal

variable {D : Type} [Field D]

theorem left_assoc_additive_isSome :
    ∀ (vs : List D) (fops : List String) (value : D), vs.length = fops.length →
      fops_ok "+" "-" fops = true → ∃ r, left_assoc additive_op value vs fops = some r
  | [], [], value, _, _ => ⟨value, rfl⟩
  | [], _ :: _, _, h, _ => by simp at h
  | _ :: _, [], _, h, _ => by simp at h
  | v :: vs, fop :: fops, value, h, hf => by
    simp only [fops_ok, List.all_cons, Bool.and_eq_true, Bool.or_eq_true, beq_iff_eq] at hf
    have hl : vs.length = fops.length := by simpa using h
    rcases hf.1 with rfl | rfl
    · exact left_assoc_additive_isSome vs fops (value + v) hl hf.2
    · exact left_assoc_additive_isSome vs fops (value - v) hl hf.2

theorem left_assoc_multiplicative_isSome :
    ∀ (vs : List D) (fops : List String) (value : D), vs.length = fops.length →
      fops_ok "*" "/" fops = true → ∃ r, left_assoc multiplicative_op value vs fops = some r
  | [], [], value, _, _ => ⟨value, rfl⟩
  | [], _ :: _, _, h, _ => by simp at h
  | _ :: _, [], _, h, _ => by simp at h
  | v :: vs, fop :: fops, value, h, hf => by
    simp only [fops_ok, List.all_cons, Bool.and_eq_true, Bool.or_eq_true, beq_iff_eq] at hf
    have hl : vs.length = fops.length := by simpa using h
    rcases hf.1 with rfl | rfl
    · exact left_assoc_multiplicative_isSome vs fops (value * v) hl hf.2
    · exact left_assoc_multiplicative_isSome vs fops (value / v) hl hf.2

mutual

theorem arith_factor_isSome (m : cmath D) :
    ∀ (f : Factor D), wf_factor f = true → arity_ok_factor f = true →
      ∃ v, arith_factor m f = some v
  | .number sign value _, _, _ => ⟨_, rfl⟩
  | .expression sign e _, hw, ha => by
    simp only [wf_factor, Bool.and_eq_true] at hw
    simp only [arity_ok_factor] at ha
    obtain ⟨v, hv⟩ := arith_value_isSome m e hw.2 ha
    exact ⟨signed sign v, by simp only [arith_factor, hv]⟩
  | .funccall sign name exprs _ _, hw, ha => by
    simp only [wf_factor, Bool.and_eq_true] at hw
    simp only [arity_ok_factor, Bool.and_eq_true, beq_iff_eq] at ha
    obtain ⟨args, hargs, hlen⟩ := arith_values_isSome m exprs hw.2 ha.1
    obtain ⟨v, hv⟩ := call_value_isSome m name args hw.1.2 (hlen.trans ha.2)
    exact ⟨signed sign v, by simp only [arith_factor, hargs, hv]⟩

theorem arith_factors_isSome (m : cmath D) :
    ∀ (fs : List (Factor D)), wf_factors fs = true → arity_ok_factors fs = true →
      ∃ vs, arith_factors m fs = some vs ∧ vs.length = fs.length
  | [], _, _ => ⟨[], rfl, rfl⟩
  | f :: fs, hw, ha => by
    simp only [wf_factors, Bool.and_eq_true] at hw
    simp only [arity_ok_factors, Bool.and_eq_true] at ha
    obtain ⟨v, hv⟩ := arith_factor_isSome m f hw.1 ha.1
    obtain ⟨vs, hvs, hl⟩ := arith_factors_isSome m fs hw.2 ha.2
    exact ⟨v :: vs, by simp only [arith_factors, hv, hvs], by simp [hl]⟩

theorem arith_term_isSome (m : cmath D) :
    ∀ (t : Term D), wf_term t = true → arity_ok_term t = true → ∃ v, arith_term m t = some v
  | ⟨[], fops, _⟩, hw, _ => by simp [wf_term] at hw
  | ⟨first :: operands, fops, _⟩, hw, ha => by
    simp only [wf_term, Bool.and_eq_true, beq_iff_eq, wf_factors] at hw
    simp only [arity_ok_term, arity_ok_factors, Bool.and_eq_true] at ha
    obtain ⟨v, hv⟩ := arith_factor_isSome m first hw.2.1 ha.1
    obtain ⟨vs, hvs, hl⟩ := arith_factors_isSome m operands hw.2.2 ha.2
    have hlen : vs.length = fops.length := by
      have := hw.1.1
      simp only [List.length_cons, add_left_inj] at this
      omega
    obtain ⟨r, hr⟩ := left_assoc_multiplicative_isSome vs fops v hlen hw.1.2
    exact ⟨r, by simp only [arith_term, hv, hvs, hr]⟩

theorem arith_terms_isSome (m : cmath D) :
    ∀ (ts : List (Term D)), wf_terms ts = true → arity_ok_terms ts = true →
      ∃ vs, arith_terms m ts = some vs ∧ vs.length = ts.length
  | [], _, _ => ⟨[], rfl, rfl⟩
  | t :: ts, hw, ha => by
    simp only [wf_terms, Bool.and_eq_true] at hw
    simp only [arity_ok_terms, Bool.and_eq_true] at ha
    obtain ⟨v, hv⟩ := arith_term_isSome m t hw.1 ha.1
    obtain ⟨vs, hvs, hl⟩ := arith_terms_isSome m ts hw.2 ha.2
    exact ⟨v :: vs, by simp only [arith_terms, hv, hvs], by simp [hl]⟩

theorem arith_value_isSome (m : cmath D) :
    ∀ (e : Expression D), wf_expression e = true → arity_ok_expression e = true →
      ∃ v, arith_value m e = some v
  | ⟨[], fops, _⟩, hw, _ => by simp [wf_expression] at hw
  | ⟨first :: operands, fops, _⟩, hw, ha => by
    simp only [wf_expression, Bool.and_eq_true, beq_iff_eq, wf_terms] at hw
    simp only [arity_ok_expression, arity_ok_terms, Bool.and_eq_true] at ha
    obtain ⟨v, hv⟩ := arith_term_isSome m first hw.2.1 ha.1
    obtain ⟨vs, hvs, hl⟩ := arith_terms_isSome m operands hw.2.2 ha.2
    have hlen : vs.length = fops.length := by
      have := hw.1.1
      simp only [List.length_cons, add_left_inj] at this
      omega
    obtain ⟨r, hr⟩ := left_assoc_additive_isSome vs fops v hlen hw.1.2
    exact ⟨r, by simp only [arith_value, hv, hvs, hr]⟩

theorem arith_values_isSome (m : cmath D) :
    ∀ (es : List (Expression D)), wf_expressions es = true → arity_ok_expressions es = true →
      ∃ vs, arith_values m es = some vs ∧ vs.length = es.length
  | [], _, _ => ⟨[], rfl, rfl⟩
  | e :: es, hw, ha => by
    simp only [wf_expressions, Bool.and_eq_true] at hw
    simp only [arity_ok_expressions, Bool.and_eq_true] at ha
    obtain ⟨v, hv⟩ := arith_value_isSome m e hw.1 ha.1
    obtain ⟨vs, hvs, hl⟩ := arith_values_isSome m es hw.2 ha.2
    exact ⟨v :: vs, by simp only [arith_values, hv, hvs], by simp [hl]⟩

end

end ArithTotal

/-! ## Evaluating a parsed expression throws no `std::logic_error` -/

section NoLogicError

variable {D : Type} [Field D]

theorem c_funcs_of_is_fun (m : cmath D) (name : String) (h : is_fun name = true) :
    ∃ f, c_funcs m name = some f ∧ ∀ v w, f v ≠ .error (.logic_error w) := by
  simp only [is_fun, Bool.or_eq_true, beq_iff_eq] at h
  have hu : ∀ (g : D → D) (v : List D) (w : String),
      c_unary g v ≠ .error (.logic_error w) := by
    intro g v w
    cases v <;> simp [c_unary]
  have hp : ∀ (v : List D) (w : String), c_pow m v ≠ .error (.logic_error w) := by
    intro v w
    rcases v with _ | ⟨a, _ | ⟨b, r⟩⟩ <;> simp [c_pow]
  rcases h with (((((rfl | rfl) | rfl) | rfl) | rfl) | rfl) | rfl
  · exact ⟨c_unary m.sqrt, rfl, hu _⟩
  · exact ⟨c_pow m, rfl, hp⟩
  · exact ⟨c_unary m.sin, rfl, hu _⟩
  · exact ⟨c_unary m.log, rfl, hu _⟩
  · exact ⟨c_unary m.exp, rfl, hu _⟩
  · exact ⟨c_unary m.log2, rfl, hu _⟩
  · exact ⟨c_unary m.abs, rfl, hu _⟩

theorem apply_fop_ok_of_additive (m : cmath D) (fop : String) (a b : D)
    (h : fop = "+" ∨ fop = "-") : ∃ r, apply_fop m fop a b = .ok r := by
  rcases h with rfl | rfl
  · exact ⟨a + b, rfl⟩
  · exact ⟨a - b, rfl⟩

theorem apply_fop_ok_of_multiplicative (m : cmath D) (fop : String) (a b : D)
    (h : fop = "*" ∨ fop = "/") : ∃ r, apply_fop m fop a b = .ok r := by
  rcases h with rfl | rfl
  · exact ⟨a * b, rfl⟩
  · exact ⟨a / b, rfl⟩

mutual

theorem get_value_factor_no_logic_error (m : cmath D) :
    ∀ (f : Factor D), wf_factor f = true → ∀ w, get_value_factor m f ≠ .error (.logic_error w)
  | .number sign value _, _, w => by simp [get_value_factor]
  | .expression sign e _, hw, w => by
    simp only [wf_factor, Bool.and_eq_true] at hw
    have ih := get_value_no_logic_error m e hw.2 w
    simp only [get_value_factor]
    split
    · rename_i f hf
      intro hc
      simp only [Except.error.injEq] at hc
      exact ih (hc ▸ hf)
    · simp
  | .funccall sign name exprs _ _, hw, w => by
    simp only [wf_factor, Bool.and_eq_true] at hw
    have ih := get_values_no_logic_error m exprs hw.2 w
    obtain ⟨g, hg1, hg2⟩ := c_funcs_of_is_fun m name hw.1.2
    simp only [get_value_factor, hg1]
    split
    · rename_i f hf
      intro hc
      simp only [Except.error.injEq] at hc
      exact ih (hc ▸ hf)
    · rename_i v hv
      split
      · rename_i f hf
        intro hc
        simp only [Except.error.injEq] at hc
        exact hg2 v w (hc ▸ hf)
      · simp

theorem get_values_no_logic_error (m : cmath D) :
    ∀ (es : List (Expression D)), wf_expressions es = true →
      ∀ w, get_values m es ≠ .error (.logic_error w)
  | [], _, w => by simp [get_values]
  | e :: es, hw, w => by
    simp only [wf_expressions, Bool.and_eq_true] at hw
    have ih1 := get_value_no_logic_error m e hw.1 w
    have ih2 := get_values_no_logic_error m es hw.2 w
    simp only [get_values]
    split
    · rename_i f hf
      intro hc
      simp only [Except.error.injEq] at hc
      exact ih1 (hc ▸ hf)
    · split
      · rename_i f hf
        intro hc
        simp only [Except.error.injEq] at hc
        exact ih2 (hc ▸ hf)
      · simp

theorem term_value_loop_no_logic_error (m : cmath D) :
    ∀ (operands : List (Factor D)) (fops : List String) (value : D),
      wf_factors operands = true → fops_ok "*" "/" fops = true →
      ∀ w, term_value_loop m value operands fops ≠ .error (.logic_error w)
  | [], [], value, _, _, w => by simp [term_value_loop]
  | _ :: _, [], value, _, _, w => by simp [term_value_loop]
  | [], _ :: _, value, _, _, w => by simp [term_value_loop]
  | operand :: operands, fop :: fops, value, hw, hf, w => by
    simp only [wf_factors, Bool.and_eq_true] at hw
    simp only [fops_ok, List.all_cons, Bool.and_eq_true, Bool.or_eq_true, beq_iff_eq] at hf
    have ih1 := get_value_factor_no_logic_error m operand hw.1 w
    simp only [term_value_loop]
    split
    · rename_i f hf1
      intro hc
      simp only [Except.error.injEq] at hc
      exact ih1 (hc ▸ hf1)
    · rename_i v2 hv2
      obtain ⟨r, hr⟩ := apply_fop_ok_of_multiplicative m fop value v2 hf.1
      simp only [hr]
      exact term_value_loop_no_logic_error m operands fops r hw.2 hf.2 w

theorem get_value_term_no_logic_error (m : cmath D) :
    ∀ (t : Term D), wf_term t = true → ∀ w, get_value_term m t ≠ .error (.logic_error w)
  | ⟨[], _, _⟩, _, w => by simp [get_value_term]
  | ⟨first :: operands, fops, _⟩, hw, w => by
    simp only [wf_term, Bool.and_eq_true, wf_factors] at hw
    have ih1 := get_value_factor_no_logic_error m first hw.2.1 w
    simp only [get_value_term]
    split
    · rename_i f hf1
      intro hc
      simp only [Except.error.injEq] at hc
      exact ih1 (hc ▸ hf1)
    · exact term_value_loop_no_logic_error m operands fops _ hw.2.2 hw.1.2 w

theorem expression_value_loop_no_logic_error (m : cmath D) :
    ∀ (operands : List (Term D)) (fops : List String) (value : D),
      wf_terms operands = true → fops_ok "+" "-" fops = true →
      ∀ w, expression_value_loop m value operands fops ≠ .error (.logic_error w)
  | [], [], value, _, _, w => by simp [expression_value_loop]
  | _ :: _, [], value, _, _, w => by simp [expression_value_loop]
  | [], _ :: _, value, _, _, w => by simp [expression_value_loop]
  | operand :: operands, fop :: fops, value, hw, hf, w => by
    simp only [wf_terms, Bool.and_eq_true] at hw
    simp only [fops_ok, List.all_cons, Bool.and_eq_true, Bool.or_eq_true, beq_iff_eq] at hf
    have ih1 := get_value_term_no_logic_error m operand hw.1 w
    simp only [expression_value_loop]
    split
    · rename_i f hf1
      intro hc
      simp only [Except.error.injEq] at hc
      exact ih1 (hc ▸ hf1)
    · rename_i v2 hv2
      obtain ⟨r, hr⟩ := apply_fop_ok_of_additive m fop value v2 hf.1
      simp only [hr]
      exact expression_value_loop_no_logic_error m operands fops r hw.2 hf.2 w

theorem get_value_no_logic_error (m : cmath D) :
    ∀ (e : Expression D), wf_expression e = true → ∀ w, get_value m e ≠ .error (.logic_error w)
  | ⟨[], _, _⟩, _, w => by simp [get_value]
  | ⟨first :: operands, fops, _⟩, hw, w => by
    simp only [wf_expression, Bool.and_eq_true, wf_terms] at hw
    have ih1 := get_value_term_no_logic_error m first hw.2.1 w
    simp only [get_value]
    split
    · rename_i f hf1
      intro hc
      simp only [Except.error.injEq] at hc
      exact ih1 (hc ▸ hf1)
    · exact expression_value_loop_no_logic_error m operands fops _ hw.2.2 hw.1.2 w

end

end NoLogicError

theorem make_program_loop_wf {D : Type} (td : String → D) :
    ∀ (fuel : Nat) (tokes : tokens) (stmts : List (Statement D)),
      make_program_loop td fuel tokes = .ok stmts →
      ∀ e, Statement.expression e ∈ stmts → wf_expression e = true := by
  intro fuel
  induction fuel with
  | zero =>
    intro tokes stmts h e he
    cases tokes with
    | nil =>
      simp only [make_program_loop, Except.ok.injEq] at h
      subst h
      cases he
    | cons t rest => simp [make_program_loop] at h
  | succ fuel ih =>
    intro tokes stmts h e he
    cases tokes with
    | nil =>
      simp only [make_program_loop, Except.ok.injEq] at h
      subst h
      cases he
    | cons t rest =>
      simp only [make_program_loop] at h
      split at h
      · cases h
      · rename_i stm tokes1 h1
        split at h
        · cases h
        · rename_i tokes2 h2
          split at h
          · cases h
          · rename_i stms h3
            simp only [Except.ok.injEq] at h
            subst h
            rcases List.mem_cons.mp he with he | he
            · subst he
              simp only [make_statement] at h1
              split_ifs at h1
              · split at h1
                · cases h1
                · cases h1
              · split at h1
                · cases h1
                · rename_i e1 rest1 h4
                  simp only [Except.ok.injEq, Prod.mk.injEq, Statement.expression.injEq] at h1
                  obtain ⟨rfl, rfl⟩ := h1
                  exact (parser_wf td _).1 _ _ _ h4
            · exact ih _ _ h3 e he

theorem build_rules_logic_error {D : Type} [Field D] (m : cmath D) :
    ∀ (stmts : List (Statement D)) (rules out : List (lifting_step D)) (w : String),
      (∀ e, Statement.expression e ∈ stmts → wf_expression e = true) →
      build_rules m stmts rules = (out, some (.logic_error w)) → out = [] := by
  intro stmts
  induction stmts with
  | nil =>
    intro rules out w _ h
    simp [build_rules] at h
  | cons stm rest ih =>
    intro rules out w hwf h
    have hwf1 : ∀ e, Statement.expression e ∈ rest → wf_expression e = true :=
      fun e he => hwf e (List.mem_cons_of_mem _ he)
    cases stm with
    | tag t =>
      simp only [build_rules] at h
      split at h
      · exact ih _ out w hwf1 h
      · exact ih _ out w hwf1 h
    | expression e =>
      simp only [build_rules] at h
      split_ifs at h with hemp
      · simp only [Prod.mk.injEq] at h
        rw [← h.1]
        simpa using hemp
      · split at h
        · rename_i f hf
          simp only [Prod.mk.injEq, Option.some.injEq] at h
          exact absurd (h.2 ▸ hf)
            (get_value_no_logic_error m e (hwf e (List.mem_cons_self _ _)) w)
        · exact ih _ out w hwf1 h

theorem parse_error_rules_empty {D : Type} [Field D] (tokenize : String → Except Failure tokens)
    (td : String → D) (m : cmath D) (script : String) (out : parse_output D)
    (h : parse tokenize td m script = .ok out) (he : out.error ≠ none) : out.rules = [] := by
  simp only [parse] at h
  split at h
  · simp only [Except.ok.injEq] at h; subst h; rfl
  · cases h
  · rename_i tokes ht
    split at h
    · simp only [Except.ok.injEq] at h; subst h; rfl
    · cases h
    · rename_i prog hp
      have hwf : ∀ e, Statement.expression e ∈ prog.statements → wf_expression e = true := by
        simp only [make_program] at hp
        split at hp
        · cases hp
        · rename_i stms hs
          simp only [Except.ok.injEq] at hp
          subst hp
          exact make_program_loop_wf td _ _ _ hs
      split at h
      · rename_i rules w hb
        simp only [Except.ok.injEq] at h; subst h
        exact build_rules_logic_error m _ _ _ w hwf hb
      · cases h
      · simp only [Except.ok.injEq] at h; subst h
        exact absurd rfl he

/-! ## Reading a result through `toOption` -/

theorem ok_of_toOption_map {ε α β : Type} (x : Except ε α) (f : α → β) (y : β)
    (h : x.toOption.map f = some y) : ∃ p, x = .ok p ∧ f p = y := by
  cases x with
  | error e => simp [Except.toOption] at h
  | ok p => exact ⟨p, rfl, by simpa [Except.toOption] using h⟩

/-! ## The sums of `sumruleorder` -/

section SobolevLemmas

variable {K : Type} [LinearOrderedField K]

theorem sum_loop_eq (n : Nat) (term : Nat → K) (init : K) :
    sum_loop n term init = init + ∑ j in Finset.range n, term j := by
  induction n with
  | zero => simp [sum_loop]
  | succ n ih =>
    have e : sum_loop (n + 1) term init = sum_loop n term init + term n := by
      simp [sum_loop, List.range_succ, List.foldl_append]
    rw [e, ih, Finset.sum_range_succ, add_assoc]

theorem PP_cons (a : K) (p : List K) (k : Nat) :
    PP (a :: p) k = a / 2 + ELp k * PP p k := by
  simp only [PP, sum_loop_eq, zero_add, List.length_cons, Finset.sum_range_succ', P,
    List.getD_cons_succ, List.getD_cons_zero, pow_zero, one_mul, Finset.mul_sum]
  rw [add_comm]
  congr 1
  apply Finset.sum_congr rfl
  intro j _
  ring

theorem PP_zero (p : List K) : PP p 0 = p.sum / 2 := by
  induction p with
  | nil => simp [PP, sum_loop]
  | cons a p ih => rw [PP_cons, ih]; simp [ELp]; ring

theorem PP_one (p : List K) : PP p 1 = p.alternatingSum / 2 := by
  induction p with
  | nil => simp [PP, sum_loop]
  | cons a p ih => rw [PP_cons, ih, List.alternatingSum_cons]; simp [ELp]; ring

theorem order_loop_bounds (p : List K) (error : K) :
    ∀ (ss : List Nat) (st : order_state K) (SLO : Int),
      SLO ≤ order_loop p error ss st SLO ∧ order_loop p error ss st SLO ≤ SLO + ss.length
  | [], st, SLO => by simp [order_loop]
  | s :: rest, st, SLO => by
    simp only [order_loop]
    split_ifs
    · simp only [le_refl, List.length_cons, Nat.cast_add, Nat.cast_one, true_and]
      omega
    · have h := order_loop_bounds p error rest (order_pass p s st).1 (SLO + 1)
      simp only [List.length_cons, Nat.cast_add, Nat.cast_one]
      omega

theorem takeWhile_length_of_gt (tol r : K) (rs : List K) (h : |r| > tol) :
    (((r :: rs).takeWhile fun r => decide (|r| ≤ tol)).length : Int) = 0 := by
  have : ¬ |r| ≤ tol := not_le.mpr h
  simp [List.takeWhile_cons, this]

theorem takeWhile_length_of_not_gt (tol r : K) (rs : List K) (h : ¬ |r| > tol) :
    (((r :: rs).takeWhile fun r => decide (|r| ≤ tol)).length : Int) =
      1 + ((rs.takeWhile fun r => decide (|r| ≤ tol)).length : Int) := by
  have : |r| ≤ tol := not_lt.mp h
  simp [List.takeWhile_cons, this]
  ring

theorem order_loop_eq_takeWhile (p : List K) (error : K) :
    ∀ (ss : List Nat) (st : order_state K) (SLO : Int),
      order_loop p error ss st SLO =
        SLO + ((residuals_from p ss st).takeWhile fun r => decide (|r| ≤ error)).length
  | [], st, SLO => by simp [order_loop, residuals_from]
  | s :: rest, st, SLO => by
    simp only [order_loop, residuals_from]
    split_ifs with h
    · rw [takeWhile_length_of_gt _ _ _ h, add_zero]
    · rw [takeWhile_length_of_not_gt _ _ _ h, order_loop_eq_takeWhile p error rest]
      ring

theorem sumruleorder_accepted (p : List K)
    (h0 : ¬ |PP p 0 - 1| > 1 / 10 ^ 4) (h1 : ¬ |PP p 1| > 1 / 10 ^ 8) :
    sumruleorder p = .ok (accepted_order (1 / 10 ^ 8) p, PP p 0) := by
  simp only [sumruleorder, if_neg h0, if_neg h1, accepted_order, sum_rule_residuals]
  generalize (1 / 10 ^ 8 : K) = tol
  split_ifs with h
  · rw [takeWhile_length_of_gt _ _ _ h, add_zero]
  · rw [takeWhile_length_of_not_gt _ _ _ h, order_loop_eq_takeWhile]
    congr 2
    ring

end SobolevLemmas

theorem PP_one_range {K : Type} [LinearOrderedField K] (p : List K) :
    PP p 1 = (∑ j in Finset.range p.length, (-1) ^ j * p.getD j 0) / 2 := by
  simp only [PP, sum_loop_eq, zero_add, P, Finset.sum_div, ELp]
  apply Finset.sum_congr rfl
  intro j _
  simp
  ring

/-! ## The parser consumes tokens and its fuel suffices -/

theorem require_length (tokes rest : tokens) (s : String) (h : require tokes s = .ok rest) :
    rest.length + 1 = tokes.length := by
  cases tokes with
  | nil =>
    simp only [require, throw_parse_error] at h
    split_ifs at h
  | cons t ts =>
    simp only [require, throw_parse_error] at h
    split_ifs at h
    simp only [Except.ok.injEq] at h
    subst h
    rfl

theorem take_length (tokes rest : tokens) (t : token) (h : take tokes = .ok (t, rest)) :
    rest.length + 1 = tokes.length := by
  cases tokes with
  | nil =>
    simp only [take, throw_parse_error] at h
    split_ifs at h
  | cons t ts =>
    simp only [take, Except.ok.injEq, Prod.mk.injEq] at h
    rw [← h.2]
    rfl

theorem parser_consumes {D : Type} (td : String → D) : ∀ fuel : Nat,
    (∀ tokes e rest, make_expression td fuel tokes = .ok (e, rest) →
      rest.length < tokes.length) ∧
    (∀ tokes ops fops rest, expression_loop td fuel tokes = .ok (ops, fops, rest) →
      rest.length ≤ tokes.length) ∧
    (∀ tokes t rest, make_term td fuel tokes = .ok (t, rest) → rest.length < tokes.length) ∧
    (∀ tokes ops fops rest, term_loop td fuel tokes = .ok (ops, fops, rest) →
      rest.length ≤ tokes.length) ∧
    (∀ tokes f rest, make_factor td fuel tokes = .ok (f, rest) → rest.length < tokes.length) ∧
    (∀ t tokes r rest, make_funccall td fuel t tokes = .ok (r, rest) →
      rest.length < tokes.length) ∧
    (∀ tokes es rest, funccall_loop td fuel tokes = .ok (es, rest) →
      rest.length ≤ tokes.length)
  | 0 => by
    refine ⟨?_, ?_, ?_, ?_, ?_, ?_, ?_⟩ <;> intros <;>
      simp_all [make_expression, expression_loop, make_term, term_loop, make_factor,
        make_funccall, funccall_loop]
  | fuel + 1 => by
    obtain ⟨ih1, ih2, ih3, ih4, ih5, ih6, ih7⟩ := parser_consumes td fuel
    refine ⟨?_, ?_, ?_, ?_, ?_, ?_, ?_⟩
    · intro tokes e rest h
      cases tokes with
      | nil => simp [make_expression] at h
      | cons t ts =>
        simp only [make_expression] at h
        split at h
        · cases h
        · rename_i first tokes1 h1
          split at h
          · cases h
          · rename_i operands fops tokes2 h2
            simp only [Except.ok.injEq, Prod.mk.injEq] at h
            obtain ⟨_, rfl⟩ := h
            have a := ih3 _ _ _ h1
            have b := ih2 _ _ _ _ h2
            omega
    · intro tokes ops fops rest h
      simp only [expression_loop] at h
      split_ifs at h with hc
      · cases tokes with
        | nil => simp at h
        | cons t tokes1 =>
          simp only at h
          split at h
          · cases h
          · rename_i operand tokes2 h1
            split at h
            · cases h
            · rename_i operands fops1 tokes3 h2
              simp only [Except.ok.injEq, Prod.mk.injEq] at h
              obtain ⟨_, _, rfl⟩ := h
              have a := ih3 _ _ _ h1
              have b := ih2 _ _ _ _ h2
              simp only [List.length_cons]
              omega
      · simp only [Except.ok.injEq, Prod.mk.injEq] at h
        obtain ⟨_, _, rfl⟩ := h
        exact le_refl _
    · intro tokes e rest h
      cases tokes with
      | nil => simp [make_term] at h
      | cons t ts =>
        simp only [make_term] at h
        split at h
        · cases h
        · rename_i first tokes1 h1
          split at h
          · cases h
          · rename_i operands fops tokes2 h2
            simp only [Except.ok.injEq, Prod.mk.injEq] at h
            obtain ⟨_, rfl⟩ := h
            have a := ih5 _ _ _ h1
            have b := ih4 _ _ _ _ h2
            omega
    · intro tokes ops fops rest h
      simp only [term_loop] at h
      split_ifs at h with hc
      · cases tokes with
        | nil => simp at h
        | cons t tokes1 =>
          simp only at h
          split at h
          · cases h
          · rename_i operand tokes2 h1
            split at h
            · cases h
            · rename_i operands fops1 tokes3 h2
              simp only [Except.ok.injEq, Prod.mk.injEq] at h
              obtain ⟨_, _, rfl⟩ := h
              have a := ih5 _ _ _ h1
              have b := ih4 _ _ _ _ h2
              simp only [List.length_cons]
              omega
      · simp only [Except.ok.injEq, Prod.mk.injEq] at h
        obtain ⟨_, _, rfl⟩ := h
        exact le_refl _
    · intro tokes f rest h
      simp only [make_factor] at h
      split at h
      · cases h
      · rename_i toke0 tokes0 h0
        have l0 := take_length _ _ _ h0
        split at h
        · cases h
        · rename_i sign toke tokes1 hs
          have l1 : tokes1.length ≤ tokes0.length := by
            split_ifs at hs with hc
            · split at hs
              · cases hs
              · rename_i toke1 tokes1a h1
                simp only [Except.ok.injEq, Prod.mk.injEq] at hs
                have := take_length _ _ _ h1
                rw [← hs.2.2]
                omega
            · simp only [Except.ok.injEq, Prod.mk.injEq] at hs
              rw [← hs.2.2]
          split at h
          · split at h
            · cases h
            · rename_i e tokes2 h1
              split at h
              · cases h
              · rename_i tokes3 h3
                simp only [Except.ok.injEq, Prod.mk.injEq] at h
                obtain ⟨_, rfl⟩ := h
                have a := ih1 _ _ _ h1
                have b := require_length _ _ _ h3
                omega
          · simp only [Except.ok.injEq, Prod.mk.injEq] at h
            obtain ⟨_, rfl⟩ := h
            omega
          · simp only [Except.ok.injEq, Prod.mk.injEq] at h
            obtain ⟨_, rfl⟩ := h
            omega
          · split at h
            · cases h
            · rename_i name exprs ln tokes2 h1
              simp only [Except.ok.injEq, Prod.mk.injEq] at h
              obtain ⟨_, rfl⟩ := h
              have a := ih6 _ _ _ _ h1
              omega
          · simp [throw_parse_error] at h
            split_ifs at h
    · intro t tokes r rest h
      simp only [make_funccall] at h
      split at h
      · simp [throw_parse_error] at h
        split_ifs at h
      · split at h
        · cases h
        · rename_i tokes1 h1
          have l1 := require_length _ _ _ h1
          split at h
          · split at h
            · cases h
            · rename_i e tokes2 h2
              split at h
              · cases h
              · rename_i es tokes3 h3
                split at h
                · cases h
                · rename_i tokes4 h4
                  simp only [Except.ok.injEq, Prod.mk.injEq] at h
                  obtain ⟨_, rfl⟩ := h
                  have a := ih1 _ _ _ h2
                  have b := ih7 _ _ _ h3
                  have c := require_length _ _ _ h4
                  omega
          · split at h
            · cases h
            · rename_i tokes2 h2
              simp only [Except.ok.injEq, Prod.mk.injEq] at h
              obtain ⟨_, rfl⟩ := h
              have c := require_length _ _ _ h2
              omega
    · intro tokes es rest h
      simp only [funccall_loop] at h
      split_ifs at h with hc
      · split at h
        · cases h
        · rename_i tokes1 h1
          have l1 : tokes1.length ≤ tokes.length := by
            cases tokes with
            | nil => simp [advance] at h1
            | cons t ts =>
              simp only [advance, Except.ok.injEq] at h1
              subst h1
              simp
          split at h
          · cases h
          · rename_i e tokes2 h2
            split at h
            · cases h
            · rename_i es1 tokes3 h3
              simp only [Except.ok.injEq, Prod.mk.injEq] at h
              obtain ⟨_, rfl⟩ := h
              have a := ih1 _ _ _ h2
              have b := ih7 _ _ _ h3
              omega
      · simp only [Except.ok.injEq, Prod.mk.injEq] at h
        obtain ⟨_, rfl⟩ := h
        exact le_refl _

theorem throw_parse_error_ne_out_of_fuel {α : Type} (line_nr : Int) (message : String) :
    (throw_parse_error line_nr message : Except Failure α) ≠ .error .out_of_fuel := by
  simp only [throw_parse_error]
  split_ifs <;> simp

theorem require_ne_out_of_fuel (tokes : tokens) (s : String) :
    require tokes s ≠ .error .out_of_fuel := by
  cases tokes with
  | nil => exact throw_parse_error_ne_out_of_fuel _ _
  | cons t ts =>
    simp only [require]
    split_ifs
    · exact throw_parse_error_ne_out_of_fuel _ _
    · simp

theorem take_ne_out_of_fuel (tokes : tokens) : take tokes ≠ .error .out_of_fuel := by
  cases tokes with
  | nil => exact throw_parse_error_ne_out_of_fuel _ _
  | cons t ts => simp [take]

theorem parser_fuel_suffices {D : Type} (td : String → D) : ∀ fuel : Nat,
    (∀ tokes, 4 * tokes.length + 3 ≤ fuel →
      make_expression td fuel tokes ≠ .error .out_of_fuel) ∧
    (∀ tokes, 4 * tokes.length + 4 ≤ fuel →
      expression_loop td fuel tokes ≠ .error .out_of_fuel) ∧
    (∀ tokes, 4 * tokes.length + 2 ≤ fuel → make_term td fuel tokes ≠ .error .out_of_fuel) ∧
    (∀ tokes, 4 * tokes.length + 4 ≤ fuel → term_loop td fuel tokes ≠ .error .out_of_fuel) ∧
    (∀ tokes, 4 * tokes.length + 1 ≤ fuel → make_factor td fuel tokes ≠ .error .out_of_fuel) ∧
    (∀ t tokes, 4 * tokes.length + 4 ≤ fuel →
      make_funccall td fuel t tokes ≠ .error .out_of_fuel) ∧
    (∀ tokes, 4 * tokes.length + 4 ≤ fuel →
      funccall_loop td fuel tokes ≠ .error .out_of_fuel)
  | 0 => by
    refine ⟨?_, ?_, ?_, ?_, ?_, ?_, ?_⟩ <;> intros <;> omega
  | fuel + 1 => by
    obtain ⟨ih1, ih2, ih3, ih4, ih5, ih6, ih7⟩ := parser_fuel_suffices td fuel
    obtain ⟨c1, c2, c3, c4, c5, c6, c7⟩ := parser_consumes td fuel
    refine ⟨?_, ?_, ?_, ?_, ?_, ?_, ?_⟩
    · intro tokes hf hc
      cases tokes with
      | nil => simp [make_expression] at hc
      | cons t ts =>
        simp only [make_expression] at hc
        split at hc
        · rename_i f h1
          simp only [Except.error.injEq] at hc
          subst hc
          exact ih3 _ (by omega) h1
        · rename_i first tokes1 h1
          have a := c3 _ _ _ h1
          split at hc
          · rename_i f h2
            simp only [Except.error.injEq] at hc
            subst hc
            exact ih2 _ (by omega) h2
          · cases hc
    · intro tokes hf hc
      simp only [expression_loop] at hc
      split_ifs at hc with hop
      cases tokes with
      | nil => simp at hc
      | cons t tokes1 =>
        simp only [List.length_cons] at hf
        simp only at hc
        split at hc
        · rename_i f h1
          simp only [Except.error.injEq] at hc
          subst hc
          exact ih3 _ (by omega) h1
        · rename_i operand tokes2 h1
          have a := c3 _ _ _ h1
          split at hc
          · rename_i f h2
            simp only [Except.error.injEq] at hc
            subst hc
            exact ih2 _ (by omega) h2
          · cases hc
    · intro tokes hf hc
      cases tokes with
      | nil => simp [make_term] at hc
      | cons t ts =>
        simp only [make_term] at hc
        split at hc
        · rename_i f h1
          simp only [Except.error.injEq] at hc
          subst hc
          exact ih5 _ (by omega) h1
        · rename_i first tokes1 h1
          have a := c5 _ _ _ h1
          split at hc
          · rename_i f h2
            simp only [Except.error.injEq] at hc
            subst hc
            exact ih4 _ (by omega) h2
          · cases hc
    · intro tokes hf hc
      simp only [term_loop] at hc
      split_ifs at hc with hop
      cases tokes with
      | nil => simp at hc
      | cons t tokes1 =>
        simp only [List.length_cons] at hf
        simp only at hc
        split at hc
        · rename_i f h1
          simp only [Except.error.injEq] at hc
          subst hc
          exact ih5 _ (by omega) h1
        · rename_i operand tokes2 h1
          have a := c5 _ _ _ h1
          split at hc
          · rename_i f h2
            simp only [Except.error.injEq] at hc
            subst hc
            exact ih4 _ (by omega) h2
          · cases hc
    · intro tokes hf hc
      simp only [make_factor] at hc
      split at hc
      · rename_i f h0
        simp only [Except.error.injEq] at hc
        subst hc
        exact take_ne_out_of_fuel _ h0
      · rename_i toke0 tokes0 h0
        have l0 := take_length _ _ _ h0
        split at hc
        · rename_i f hs
          simp only [Except.error.injEq] at hc
          subst hc
          split_ifs at hs
          split at hs
          · rename_i f1 h1
            simp only [Except.error.injEq] at hs
            subst hs
            exact take_ne_out_of_fuel _ h1
          · cases hs
        · rename_i sign toke tokes1 hs
          have l1 : tokes1.length ≤ tokes0.length := by
            split_ifs at hs with hsg
            · split at hs
              · cases hs
              · rename_i toke1 tokes1a h1
                simp only [Except.ok.injEq, Prod.mk.injEq] at hs
                have := take_length _ _ _ h1
                rw [← hs.2.2]
                omega
            · simp only [Except.ok.injEq, Prod.mk.injEq] at hs
              rw [← hs.2.2]
          split at hc
          · split at hc
            · rename_i f h1
              simp only [Except.error.injEq] at hc
              subst hc
              exact ih1 _ (by omega) h1
            · rename_i e tokes2 h1
              split at hc
              · rename_i f h3
                simp only [Except.error.injEq] at hc
                subst hc
                exact require_ne_out_of_fuel _ _ h3
              · cases hc
          · cases hc
          · cases hc
          · split at hc
            · rename_i f h1
              simp only [Except.error.injEq] at hc
              subst hc
              exact ih6 _ _ (by omega) h1
            · cases hc
          · exact throw_parse_error_ne_out_of_fuel _ _ hc
    · intro t tokes hf hc
      simp only [make_funccall] at hc
      split at hc
      · exact throw_parse_error_ne_out_of_fuel _ _ hc
      · split at hc
        · rename_i f h1
          simp only [Except.error.injEq] at hc
          subst hc
          exact require_ne_out_of_fuel _ _ h1
        · rename_i tokes1 h1
          have l1 := require_length _ _ _ h1
          split at hc
          · split at hc
            · rename_i f h2
              simp only [Except.error.injEq] at hc
              subst hc
              exact ih1 _ (by omega) h2
            · rename_i e tokes2 h2
              have a := c1 _ _ _ h2
              split at hc
              · rename_i f h3
                simp only [Except.error.injEq] at hc
                subst hc
                exact ih7 _ (by omega) h3
              · rename_i es tokes3 h3
                split at hc
                · rename_i f h4
                  simp only [Except.error.injEq] at hc
                  subst hc
                  exact require_ne_out_of_fuel _ _ h4
                · cases hc
          · split at hc
            · rename_i f h2
              simp only [Except.error.injEq] at hc
              subst hc
              exact require_ne_out_of_fuel _ _ h2
            · cases hc
    · intro tokes hf hc
      simp only [funccall_loop] at hc
      split_ifs at hc with hop
      split at hc
      · rename_i f h1
        cases tokes with
        | nil => simp only [advance, Except.error.injEq] at h1; subst h1; cases hc
        | cons t ts => simp [advance] at h1
      · rename_i tokes1 h1
        have l1 : tokes1.length + 1 = tokes.length := by
          cases tokes with
          | nil => simp [advance] at h1
          | cons t ts =>
            simp only [advance, Except.ok.injEq] at h1
            subst h1
            rfl
        split at hc
        · rename_i f h2
          simp only [Except.error.injEq] at hc
          subst hc
          exact ih1 _ (by omega) h2
        · rename_i e tokes2 h2
          have a := c1 _ _ _ h2
          split at hc
          · rename_i f h3
            simp only [Except.error.injEq] at hc
            subst hc
            exact ih7 _ (by omega) h3
          · cases hc

theorem make_statement_consumes {D : Type} (td : String → D) (tokes rest : tokens)
    (stm : Statement D) (h : make_statement td tokes = .ok (stm, rest)) :
    rest.length < tokes.length := by
  cases tokes with
  | nil =>
    simp only [make_statement, throw_parse_error] at h
    split_ifs at h
  | cons t ts =>
    simp only [make_statement] at h
    split_ifs at h
    · simp only [make_tag, take, Except.ok.injEq, Prod.mk.injEq] at h
      rw [← h.2]
      simp
    · split at h
      · cases h
      · rename_i e rest1 h1
        simp only [Except.ok.injEq, Prod.mk.injEq] at h
        rw [← h.2]
        exact (parser_consumes td _).1 _ _ _ h1

theorem make_statement_ne_out_of_fuel {D : Type} (td : String → D) (tokes : tokens) :
    make_statement td tokes ≠ .error .out_of_fuel := by
  cases tokes with
  | nil => exact throw_parse_error_ne_out_of_fuel _ _
  | cons t ts =>
    intro hc
    simp only [make_statement] at hc
    split_ifs at hc
    · simp [make_tag, take] at hc
    · split at hc
      · rename_i f h1
        simp only [Except.error.injEq] at hc
        subst hc
        exact (parser_fuel_suffices td _).1 _ (by simp only [parse_fuel]; omega) h1
      · cases hc

theorem make_program_loop_ne_out_of_fuel {D : Type} (td : String → D) :
    ∀ (fuel : Nat) (tokes : tokens), tokes.length ≤ fuel →
      make_program_loop td fuel tokes ≠ .error .out_of_fuel := by
  intro fuel
  induction fuel with
  | zero =>
    intro tokes hl
    cases tokes with
    | nil => simp [make_program_loop]
    | cons t ts => simp at hl
  | succ fuel ih =>
    intro tokes hl hc
    cases tokes with
    | nil => simp [make_program_loop] at hc
    | cons t ts =>
      simp only [make_program_loop] at hc
      split at hc
      · rename_i f h1
        simp only [Except.error.injEq] at hc
        subst hc
        exact make_statement_ne_out_of_fuel td _ h1
      · rename_i stm tokes1 h1
        have a := make_statement_consumes td _ _ _ h1
        split at hc
        · rename_i f h2
          simp only [Except.error.injEq] at hc
          subst hc
          exact require_ne_out_of_fuel _ _ h2
        · rename_i tokes2 h2
          have b := require_length _ _ _ h2
          split at hc
          · rename_i f h3
            simp only [Except.error.injEq] at hc
            subst hc
            exact ih tokes2 (by omega) h3
          · cases hc

theorem make_program_ne_out_of_fuel {D : Type} (td : String → D) (tokes : tokens) :
    make_program td tokes ≠ .error .out_of_fuel := by
  intro hc
  simp only [make_program] at hc
  split at hc
  · rename_i f h1
    simp only [Except.error.injEq] at hc
    subst hc
    exact make_program_loop_ne_out_of_fuel td _ _ (le_refl _) h1
  · cases hc

section FuelValue

variable {D : Type} [Field D]

theorem c_funcs_ne_out_of_fuel (m : cmath D) (name : String) (f : List D → Except Failure D)
    (h : c_funcs m name = some f) (v : List D) : f v ≠ .error .out_of_fuel := by
  have h1 : c_add v ≠ .error .out_of_fuel := by
    rcases v with _ | ⟨a, _ | ⟨b, r⟩⟩ <;> simp [c_add]
  have h2 : c_sub v ≠ .error .out_of_fuel := by
    rcases v with _ | ⟨a, _ | ⟨b, r⟩⟩ <;> simp [c_sub]
  have h3 : c_mul v ≠ .error .out_of_fuel := by
    rcases v with _ | ⟨a, _ | ⟨b, r⟩⟩ <;> simp [c_mul]
  have h4 : c_div v ≠ .error .out_of_fuel := by
    rcases v with _ | ⟨a, _ | ⟨b, r⟩⟩ <;> simp [c_div]
  have h5 : c_pow m v ≠ .error .out_of_fuel := by
    rcases v with _ | ⟨a, _ | ⟨b, r⟩⟩ <;> simp [c_pow]
  have hu : ∀ g : D → D, c_unary g v ≠ .error .out_of_fuel := by
    intro g
    cases v <;> simp [c_unary]
  unfold c_funcs at h
  by_cases c0 : name = "+"
  · rw [if_pos c0] at h; cases h; exact h1
  rw [if_neg c0] at h
  by_cases c1 : name = "-"
  · rw [if_pos c1] at h; cases h; exact h2
  rw [if_neg c1] at h
  by_cases c2 : name = "*"
  · rw [if_pos c2] at h; cases h; exact h3
  rw [if_neg c2] at h
  by_cases c3 : name = "/"
  · rw [if_pos c3] at h; cases h; exact h4
  rw [if_neg c3] at h
  by_cases c4 : name = "sqrt"
  · rw [if_pos c4] at h; cases h; exact hu _
  rw [if_neg c4] at h
  by_cases c5 : name = "pow"
  · rw [if_pos c5] at h; cases h; exact h5
  rw [if_neg c5] at h
  by_cases c6 : name = "sin"
  · rw [if_pos c6] at h; cases h; exact hu _
  rw [if_neg c6] at h
  by_cases c7 : name = "cos"
  · rw [if_pos c7] at h; cases h; exact hu _
  rw [if_neg c7] at h
  by_cases c8 : name = "exp"
  · rw [if_pos c8] at h; cases h; exact hu _
  rw [if_neg c8] at h
  by_cases c9 : name = "log"
  · rw [if_pos c9] at h; cases h; exact hu _
  rw [if_neg c9] at h
  by_cases c10 : name = "log2"
  · rw [if_pos c10] at h; cases h; exact hu _
  rw [if_neg c10] at h
  by_cases c11 : name = "abs"
  · rw [if_pos c11] at h; cases h; exact hu _
  rw [if_neg c11] at h
  cases h

theorem apply_fop_ne_out_of_fuel (m : cmath D) (fop : String) (a b : D) :
    apply_fop m fop a b ≠ .error .out_of_fuel := by
  simp only [apply_fop]
  split
  · simp
  · rename_i f hf
    exact c_funcs_ne_out_of_fuel m fop f hf _

mutual

theorem get_value_factor_ne_out_of_fuel (m : cmath D) :
    ∀ (f : Factor D), get_value_factor m f ≠ .error .out_of_fuel
  | .number sign value _ => by simp [get_value_factor]
  | .expression sign e _ => by
    have ih := get_value_ne_out_of_fuel m e
    simp only [get_value_factor]
    split
    · rename_i f hf
      intro hc
      simp only [Except.error.injEq] at hc
      exact ih (hc ▸ hf)
    · simp
  | .funccall sign name exprs _ _ => by
    have ih := get_values_ne_out_of_fuel m exprs
    simp only [get_value_factor]
    split
    · rename_i f hf
      intro hc
      simp only [Except.error.injEq] at hc
      exact ih (hc ▸ hf)
    · rename_i v hv
      split
      · simp
      · rename_i g hg
        split
        · rename_i f hf
          intro hc
          simp only [Except.error.injEq] at hc
          exact c_funcs_ne_out_of_fuel m name g hg v (hc ▸ hf)
        · simp

theorem get_values_ne_out_of_fuel (m : cmath D) :
    ∀ (es : List (Expression D)), get_values m es ≠ .error .out_of_fuel
  | [] => by simp [get_values]
  | e :: es => by
    have ih1 := get_value_ne_out_of_fuel m e
    have ih2 := get_values_ne_out_of_fuel m es
    simp only [get_values]
    split
    · rename_i f hf
      intro hc
      simp only [Except.error.injEq] at hc
      exact ih1 (hc ▸ hf)
    · split
      · rename_i f hf
        intro hc
        simp only [Except.error.injEq] at hc
        exact ih2 (hc ▸ hf)
      · simp

theorem term_value_loop_ne_out_of_fuel (m : cmath D) :
    ∀ (operands : List (Factor D)) (fops : List String) (value : D),
      term_value_loop m value operands fops ≠ .error .out_of_fuel
  | [], [], value => by simp [term_value_loop]
  | _ :: _, [], value => by simp [term_value_loop]
  | [], _ :: _, value => by simp [term_value_loop]
  | operand :: operands, fop :: fops, value => by
    have ih1 := get_value_factor_ne_out_of_fuel m operand
    simp only [term_value_loop]
    split
    · rename_i f hf1
      intro hc
      simp only [Except.error.injEq] at hc
      exact ih1 (hc ▸ hf1)
    · rename_i v2 hv2
      split
      · rename_i f hf2
        intro hc
        simp only [Except.error.injEq] at hc
        exact apply_fop_ne_out_of_fuel m fop value v2 (hc ▸ hf2)
      · exact term_value_loop_ne_out_of_fuel m operands fops _

theorem get_value_term_ne_out_of_fuel (m : cmath D) :
    ∀ (t : Term D), get_value_term m t ≠ .error .out_of_fuel
  | ⟨[], _, _⟩ => by simp [get_value_term]
  | ⟨first :: operands, fops, _⟩ => by
    have ih1 := get_value_factor_ne_out_of_fuel m first
    simp only [get_value_term]
    split
    · rename_i f hf1
      intro hc
      simp only [Except.error.injEq] at hc
      exact ih1 (hc ▸ hf1)
    · exact term_value_loop_ne_out_of_fuel m operands fops _

theorem expression_value_loop_ne_out_of_fuel (m : cmath D) :
    ∀ (operands : List (Term D)) (fops : List String) (value : D),
      expression_value_loop m value operands fops ≠ .error .out_of_fuel
  | [], [], value => by simp [expression_value_loop]
  | _ :: _, [], value => by simp [expression_value_loop]
  | [], _ :: _, value => by simp [expression_value_loop]
  | operand :: operands, fop :: fops, value => by
    have ih1 := get_value_term_ne_out_of_fuel m operand
    simp only [expression_value_loop]
    split
    · rename_i f hf1
      intro hc
      simp only [Except.error.injEq] at hc
      exact ih1 (hc ▸ hf1)
    · rename_i v2 hv2
      split
      · rename_i f hf2
        intro hc
        simp only [Except.error.injEq] at hc
        exact apply_fop_ne_out_of_fuel m fop value v2 (hc ▸ hf2)
      · exact expression_value_loop_ne_out_of_fuel m operands fops _

theorem get_value_ne_out_of_fuel (m : cmath D) :
    ∀ (e : Expression D), get_value m e ≠ .error .out_of_fuel
  | ⟨[], _, _⟩ => by simp [get_value]
  | ⟨first :: operands, fops, _⟩ => by
    have ih1 := get_value_term_ne_out_of_fuel m first
    simp only [get_value]
    split
    · rename_i f hf1
      intro hc
      simp only [Except.error.injEq] at hc
      exact ih1 (hc ▸ hf1)
    · exact expression_value_loop_ne_out_of_fuel m operands fops _

end

theorem build_rules_ne_out_of_fuel (m : cmath D) :
    ∀ (stmts : List (Statement D)) (rules : List (lifting_step D)),
      (build_rules m stmts rules).2 ≠ some .out_of_fuel := by
  intro stmts
  induction stmts with
  | nil => intro rules; simp [build_rules]
  | cons stm rest ih =>
    intro rules
    cases stm with
    | tag t =>
      simp only [build_rules]
      split
      · exact ih _
      · exact ih _
    | expression e =>
      simp only [build_rules]
      split_ifs
      · simp
      · split
        · rename_i f hf
          intro hc
          simp only [Option.some.injEq] at hc
          exact get_value_ne_out_of_fuel m e (hc ▸ hf)
        · exact ih _

theorem parse_ne_out_of_fuel (tokenize : String → Except Failure tokens) (td : String → D)
    (m : cmath D) (script : String) (ht : tokenize script ≠ .error .out_of_fuel) :
    parse tokenize td m script ≠ .error .out_of_fuel := by
  intro hc
  simp only [parse] at hc
  split at hc
  · cases hc
  · rename_i f h1 h2
    simp only [Except.error.injEq] at hc
    subst hc
    exact ht h2
  · rename_i tokes h1
    split at hc
    · cases hc
    · rename_i f h2 h3
      simp only [Except.error.injEq] at hc
      subst hc
      exact make_program_ne_out_of_fuel td _ h3
    · rename_i prog hp
      split at hc
      · cases hc
      · rename_i rules f h2 h3
        simp only [Except.error.injEq] at hc
        subst hc
        exact build_rules_ne_out_of_fuel m prog.statements [] (by rw [h3])
      · cases hc

end FuelValue

theorem make_program_first_statement {D : Type} (td : String → D) (t : token) (more : tokens)
    (prog : Program D) (hp : make_program td (t :: more) = .ok prog)
    (hfirst : ¬ (t.type = .T_ID ∧ is_tag t.value = true)) :
    ∃ e rest, prog.statements = .expression e :: rest := by
  simp only [make_program, List.length_cons, make_program_loop] at hp
  split at hp
  · cases hp
  · rename_i stms hs
    simp only [Except.ok.injEq] at hp
    subst hp
    split at hs
    · cases hs
    · rename_i stm tokes1 h1
      split at hs
      · cases hs
      · split at hs
        · cases hs
        · rename_i stms1 h3
          simp only [Except.ok.injEq] at hs
          subst hs
          simp only [make_statement, current, if_neg hfirst] at h1
          split at h1
          · cases h1
          · rename_i e rest1 h4
            simp only [Except.ok.injEq, Prod.mk.injEq] at h1
            exact ⟨e, stms1, by rw [← h1.1]⟩

/-! ## The catalog schemes undo their inverses -/

section Redo

variable {K : Type} [Field K]

open lifting

theorem undoes_inverse_chaikin [CharZero K]
    (len n level stride : Nat) (cyc : Bool) (hs : 1 ≤ stride)
    (hdiv : 2 ^ (level + 1) ∣ n) (hbuf : ∀ idx : Nat, idx < n → idx * stride < len)
    (hm4 : cyc = true → 4 * 2 ^ level ≤ n) :
    Undoes len (fun x : List K => inverse_chaikin x n level stride cyc)
      (fun y => forward_chaikin y n level stride cyc) := by
  have h1 := undoes_iupdate (K := K) len n level stride get_update_mask_chaikin cyc hs hdiv hbuf
    (mask_le_four n level (List.length (get_update_mask_chaikin : List K)) cyc hm4
      (Nat.le_of_ble_eq_true rfl))
  have h2 := undoes_iscale_even (K := K) len n level stride get_even_scaling_factor_chaikin 1 cyc
    (by unfold get_even_scaling_factor_chaikin; norm_num) hs hdiv hbuf (by intro _; decide)
  have h3 := undoes_ipredict (K := K) len n level stride get_prediction_mask_chaikin cyc hs hdiv hbuf
    (mask_le_four n level (List.length (get_prediction_mask_chaikin : List K)) cyc hm4
      (Nat.le_of_ble_eq_true rfl))
  have h4 := undoes_iupdate (K := K) len n level stride get_second_update_mask_chaikin cyc hs hdiv hbuf
    (mask_le_four n level (List.length (get_second_update_mask_chaikin : List K)) cyc hm4
      (Nat.le_of_ble_eq_true rfl))
  intro x hx
  obtain ⟨y, a, b, c⟩ := (Undoes.comp h4 (Undoes.comp h3 (Undoes.comp h2 (h1)))) x hx
  exact ⟨y, a, b, by simpa only [forward_chaikin, Option.bind_assoc] using c⟩

theorem undoes_inverse_cubic_bspline_wavelets [CharZero K]
    (len n level stride : Nat) (cyc : Bool) (hs : 1 ≤ stride)
    (hdiv : 2 ^ (level + 1) ∣ n) (hbuf : ∀ idx : Nat, idx < n → idx * stride < len)
    (hm4 : cyc = true → 4 * 2 ^ level ≤ n) :
    Undoes len (fun x : List K => inverse_cubic_bspline_wavelets x n level stride cyc)
      (fun y => forward_cubic_bspline_wavelets y n level stride cyc) := by
  have h1 := undoes_iscale_even (K := K) len n level stride get_even_scaling_factor_cubic_bspline_wavelets 1 cyc
    (by unfold get_even_scaling_factor_cubic_bspline_wavelets; norm_num) hs hdiv hbuf (by intro _; decide)
  have h2 := undoes_iupdate (K := K) len n level stride get_first_update_mask_cubic_bspline_wavelets cyc hs hdiv hbuf
    (mask_le_four n level (List.length (get_first_update_mask_cubic_bspline_wavelets : List K)) cyc hm4
      (Nat.le_of_ble_eq_true rfl))
  have h3 := undoes_ipredict (K := K) len n level stride get_prediction_mask_cubic_bspline_wavelets cyc hs hdiv hbuf
    (mask_le_four n level (List.length (get_prediction_mask_cubic_bspline_wavelets : List K)) cyc hm4
      (Nat.le_of_ble_eq_true rfl))
  have h4 := undoes_iupdate (K := K) len n level stride get_second_update_mask_cubic_bspline_wavelets cyc hs hdiv hbuf
    (mask_le_four n level (List.length (get_second_update_mask_cubic_bspline_wavelets : List K)) cyc hm4
      (Nat.le_of_ble_eq_true rfl))
  intro x hx
  obtain ⟨y, a, b, c⟩ := (Undoes.comp h4 (Undoes.comp h3 (Undoes.comp h2 (h1)))) x hx
  exact ⟨y, a, b, by simpa only [forward_cubic_bspline_wavelets, Option.bind_assoc] using c⟩

theorem undoes_inverse_cubic_bsplines [CharZero K]
    (len n level stride : Nat) (cyc : Bool) (hs : 1 ≤ stride)
    (hdiv : 2 ^ (level + 1) ∣ n) (hbuf : ∀ idx : Nat, idx < n → idx * stride < len)
    (hm4 : cyc = true → 4 * 2 ^ level ≤ n) :
    Undoes len (fun x : List K => inverse_cubic_bsplines x n level stride cyc)
      (fun y => forward_cubic_bsplines y n level stride cyc) := by
  have h1 := undoes_iupdate (K := K) len n level stride get_update_mask_cubic_bsplines cyc hs hdiv hbuf
    (mask_le_four n level (List.length (get_update_mask_cubic_bsplines : List K)) cyc hm4
      (Nat.le_of_ble_eq_true rfl))
  have h2 := undoes_iscale_even (K := K) len n level stride get_even_scaling_factor_cubic_bsplines 1 cyc
    (by unfold get_even_scaling_factor_cubic_bsplines; norm_num) hs hdiv hbuf (by intro _; decide)
  have h3 := undoes_ipredict (K := K) len n level stride get_prediction_mask_cubic_bsplines cyc hs hdiv hbuf
    (mask_le_four n level (List.length (get_prediction_mask_cubic_bsplines : List K)) cyc hm4
      (Nat.le_of_ble_eq_true rfl))
  intro x hx
  obtain ⟨y, a, b, c⟩ := (Undoes.comp h3 (Undoes.comp h2 (h1))) x hx
  exact ⟨y, a, b, by simpa only [forward_cubic_bsplines, Option.bind_assoc] using c⟩

theorem undoes_inverse_four_point [CharZero K]
    (len n level stride : Nat) (cyc : Bool) (hs : 1 ≤ stride)
    (hdiv : 2 ^ (level + 1) ∣ n) (hbuf : ∀ idx : Nat, idx < n → idx * stride < len)
    (hm4 : cyc = true → 4 * 2 ^ level ≤ n) :
    Undoes len (fun x : List K => inverse_4_point x n level stride cyc)
      (fun y => forward_4_point y n level stride cyc) := by
  have h1 := undoes_ipredict (K := K) len n level stride get_prediction_mask_4_point cyc hs hdiv hbuf
    (mask_le_four n level (List.length (get_prediction_mask_4_point : List K)) cyc hm4
      (Nat.le_of_ble_eq_true rfl))
  have h2 := undoes_iupdate (K := K) len n level stride get_update_mask_4_point cyc hs hdiv hbuf
    (mask_le_four n level (List.length (get_update_mask_4_point : List K)) cyc hm4
      (Nat.le_of_ble_eq_true rfl))
  intro x hx
  obtain ⟨y, a, b, c⟩ := (Undoes.comp h2 (h1)) x hx
  exact ⟨y, a, b, by simpa only [forward_4_point, Option.bind_assoc] using c⟩

theorem undoes_inverse_cdf_5_3 [CharZero K]
    (len n level stride : Nat) (cyc : Bool) (hs : 1 ≤ stride)
    (hdiv : 2 ^ (level + 1) ∣ n) (hbuf : ∀ idx : Nat, idx < n → idx * stride < len)
    (hm4 : cyc = true → 4 * 2 ^ level ≤ n) :
    Undoes len (fun x : List K => inverse_cdf_5_3 x n level stride cyc)
      (fun y => forward_cdf_5_3 y n level stride cyc) := by
  have h1 := undoes_ipredict (K := K) len n level stride get_prediction_mask_cdf_5_3 cyc hs hdiv hbuf
    (mask_le_four n level (List.length (get_prediction_mask_cdf_5_3 : List K)) cyc hm4
      (Nat.le_of_ble_eq_true rfl))
  have h2 := undoes_iupdate (K := K) len n level stride get_update_mask_cdf_5_3 cyc hs hdiv hbuf
    (mask_le_four n level (List.length (get_update_mask_cdf_5_3 : List K)) cyc hm4
      (Nat.le_of_ble_eq_true rfl))
  intro x hx
  obtain ⟨y, a, b, c⟩ := (Undoes.comp h2 (h1)) x hx
  exact ⟨y, a, b, by simpa only [forward_cdf_5_3, Option.bind_assoc] using c⟩

theorem undoes_inverse_daubechies_d4 [CharZero K] (sqrt3 : K) (hsq : sqrt3 * sqrt3 = 3)
    (len n level stride : Nat) (cyc : Bool) (hs : 1 ≤ stride)
    (hdiv : 2 ^ (level + 1) ∣ n) (hbuf : ∀ idx : Nat, idx < n → idx * stride < len)
    (hm4 : cyc = true → 4 * 2 ^ level ≤ n) :
    Undoes len (fun x : List K => inverse_daubechies_d4 sqrt3 x n level stride cyc)
      (fun y => forward_daubechies_d4 sqrt3 y n level stride cyc) := by
  have h1 := undoes_iupdate (K := K) len n level stride (get_first_update_mask_daubechies_d4 sqrt3) cyc hs hdiv hbuf
    (mask_le_four n level (List.length ((get_first_update_mask_daubechies_d4 sqrt3) : List K)) cyc hm4
      (Nat.le_of_ble_eq_true rfl))
  have h2 := undoes_ipredict (K := K) len n level stride (get_prediction_mask_daubechies_d4 sqrt3) cyc hs hdiv hbuf
    (mask_le_four n level (List.length ((get_prediction_mask_daubechies_d4 sqrt3) : List K)) cyc hm4
      (Nat.le_of_ble_eq_true rfl))
  have h3 := undoes_iupdate (K := K) len n level stride get_second_update_mask_daubechies_d4 cyc hs hdiv hbuf
    (mask_le_four n level (List.length (get_second_update_mask_daubechies_d4 : List K)) cyc hm4
      (Nat.le_of_ble_eq_true rfl))
  have h4 := undoes_iscale_even (K := K) len n level stride (get_even_scaling_factor_daubechies_d4 sqrt3) 0 cyc
    (d4_even_ne_zero sqrt3 hsq) hs hdiv hbuf (by intro _; decide)
  have h5 := undoes_iscale_odd (K := K) len n level stride (get_odd_scaling_factor_daubechies_d4 sqrt3) 0 cyc
    (d4_odd_ne_zero sqrt3 hsq) hs hdiv hbuf (by intro _; decide)
  intro x hx
  obtain ⟨y, a, b, c⟩ := (Undoes.comp h5 (Undoes.comp h4 (Undoes.comp h3 (Undoes.comp h2 (h1))))) x hx
  exact ⟨y, a, b, by simpa only [forward_daubechies_d4, Option.bind_assoc] using c⟩

theorem undoes_inverse_haar [CharZero K]
    (len n level stride : Nat) (cyc : Bool) (hs : 1 ≤ stride)
    (hdiv : 2 ^ (level + 1) ∣ n) (hbuf : ∀ idx : Nat, idx < n → idx * stride < len)
    (hm4 : cyc = true → 4 * 2 ^ level ≤ n) :
    Undoes len (fun x : List K => inverse_haar x n level stride cyc)
      (fun y => forward_haar y n level stride cyc) := by
  have h1 := undoes_ipredict (K := K) len n level stride get_prediction_mask_haar cyc hs hdiv hbuf
    (mask_le_four n level (List.length (get_prediction_mask_haar : List K)) cyc hm4
      (Nat.le_of_ble_eq_true rfl))
  have h2 := undoes_iupdate (K := K) len n level stride get_update_mask_haar cyc hs hdiv hbuf
    (mask_le_four n level (List.length (get_update_mask_haar : List K)) cyc hm4
      (Nat.le_of_ble_eq_true rfl))
  intro x hx
  obtain ⟨y, a, b, c⟩ := (Undoes.comp h2 (h1)) x hx
  exact ⟨y, a, b, by simpa only [forward_haar, Option.bind_assoc] using c⟩

theorem undoes_inverse_cdf_9_7 [CharZero K]
    (len n level stride : Nat) (cyc : Bool) (hs : 1 ≤ stride)
    (hdiv : 2 ^ (level + 1) ∣ n) (hbuf : ∀ idx : Nat, idx < n → idx * stride < len)
    (hm4 : cyc = true → 4 * 2 ^ level ≤ n) :
    Undoes len (fun x : List K => inverse_cdf_9_7 x n level stride cyc)
      (fun y => forward_cdf_9_7 y n level stride cyc) := by
  have h1 := undoes_ipredict (K := K) len n level stride get_first_prediction_mask_cdf_9_7 cyc hs hdiv hbuf
    (mask_le_four n level (List.length (get_first_prediction_mask_cdf_9_7 : List K)) cyc hm4
      (Nat.le_of_ble_eq_true rfl))
  have h2 := undoes_iupdate (K := K) len n level stride get_first_update_mask_cdf_9_7 cyc hs hdiv hbuf
    (mask_le_four n level (List.length (get_first_update_mask_cdf_9_7 : List K)) cyc hm4
      (Nat.le_of_ble_eq_true rfl))
  have h3 := undoes_ipredict (K := K) len n level stride get_second_prediction_mask_cdf_9_7 cyc hs hdiv hbuf
    (mask_le_four n level (List.length (get_second_prediction_mask_cdf_9_7 : List K)) cyc hm4
      (Nat.le_of_ble_eq_true rfl))
  have h4 := undoes_iupdate (K := K) len n level stride get_second_update_mask_cdf_9_7 cyc hs hdiv hbuf
    (mask_le_four n level (List.length (get_second_update_mask_cdf_9_7 : List K)) cyc hm4
      (Nat.le_of_ble_eq_true rfl))
  have h5 := undoes_iscale_odd (K := K) len n level stride get_odd_scaling_factor_cdf_9_7 0 cyc
    (by unfold get_odd_scaling_factor_cdf_9_7; norm_num) hs hdiv hbuf (by intro _; decide)
  have h6 := undoes_iscale_even (K := K) len n level stride get_even_scaling_factor_cdf_9_7 0 cyc
    (by unfold get_even_scaling_factor_cdf_9_7; norm_num) hs hdiv hbuf (by intro _; decide)
  intro x hx
  obtain ⟨y, a, b, c⟩ := (Undoes.comp h6 (Undoes.comp h5 (Undoes.comp h4 (Undoes.comp h3 (Undoes.comp h2 (h1)))))) x hx
  exact ⟨y, a, b, by simpa only [forward_cdf_9_7, Option.bind_assoc] using c⟩

theorem undoes_inverse_jamlet_linear [CharZero K]
    (len n level stride : Nat) (cyc : Bool) (hs : 1 ≤ stride)
    (hdiv : 2 ^ (level + 1) ∣ n) (hbuf : ∀ idx : Nat, idx < n → idx * stride < len)
    (hm4 : cyc = true → 4 * 2 ^ level ≤ n) :
    Undoes len (fun x : List K => inverse_jamlet_linear x n level stride cyc)
      (fun y => forward_jamlet_linear y n level stride cyc) := by
  have h1 := undoes_ipredict (K := K) len n level stride get_prediction_mask_jamlet_linear cyc hs hdiv hbuf
    (mask_le_four n level (List.length (get_prediction_mask_jamlet_linear : List K)) cyc hm4
      (Nat.le_of_ble_eq_true rfl))
  have h2 := undoes_iupdate (K := K) len n level stride get_update_mask_jamlet_linear cyc hs hdiv hbuf
    (mask_le_four n level (List.length (get_update_mask_jamlet_linear : List K)) cyc hm4
      (Nat.le_of_ble_eq_true rfl))
  intro x hx
  obtain ⟨y, a, b, c⟩ := (Undoes.comp h2 (h1)) x hx
  exact ⟨y, a, b, by simpa only [forward_jamlet_linear, Option.bind_assoc] using c⟩

theorem undoes_inverse_jamlet_quadratic [CharZero K]
    (len n level stride : Nat) (cyc : Bool) (hs : 1 ≤ stride)
    (hdiv : 2 ^ (level + 1) ∣ n) (hbuf : ∀ idx : Nat, idx < n → idx * stride < len)
    (hm4 : cyc = true → 4 * 2 ^ level ≤ n) :
    Undoes len (fun x : List K => inverse_jamlet_quadratic x n level stride cyc)
      (fun y => forward_jamlet_quadratic y n level stride cyc) := by
  have h1 := undoes_iupdate (K := K) len n level stride get_first_update_mask_jamlet_quadratic cyc hs hdiv hbuf
    (mask_le_four n level (List.length (get_first_update_mask_jamlet_quadratic : List K)) cyc hm4
      (Nat.le_of_ble_eq_true rfl))
  have h2 := undoes_iscale_even (K := K) len n level stride get_even_scaling_factor_jamlet_quadratic 1 cyc
    (by unfold get_even_scaling_factor_jamlet_quadratic; norm_num) hs hdiv hbuf (by intro _; decide)
  have h3 := undoes_ipredict (K := K) len n level stride get_prediction_mask_jamlet_quadratic cyc hs hdiv hbuf
    (mask_le_four n level (List.length (get_prediction_mask_jamlet_quadratic : List K)) cyc hm4
      (Nat.le_of_ble_eq_true rfl))
  have h4 := undoes_iupdate (K := K) len n level stride get_second_update_mask_jamlet_quadratic cyc hs hdiv hbuf
    (mask_le_four n level (List.length (get_second_update_mask_jamlet_quadratic : List K)) cyc hm4
      (Nat.le_of_ble_eq_true rfl))
  intro x hx
  obtain ⟨y, a, b, c⟩ := (Undoes.comp h4 (Undoes.comp h3 (Undoes.comp h2 (h1)))) x hx
  exact ⟨y, a, b, by simpa only [forward_jamlet_quadratic, Option.bind_assoc] using c⟩

theorem undoes_inverse_jamlet_cubic [CharZero K]
    (len n level stride : Nat) (cyc : Bool) (hs : 1 ≤ stride)
    (hdiv : 2 ^ (level + 1) ∣ n) (hbuf : ∀ idx : Nat, idx < n → idx * stride < len)
    (hm4 : cyc = true → 4 * 2 ^ level ≤ n) :
    Undoes len (fun x : List K => inverse_jamlet_cubic x n level stride cyc)
      (fun y => forward_jamlet_cubic y n level stride cyc) := by
  have h1 := undoes_iscale_even (K := K) len n level stride get_even_scaling_factor_jamlet_cubic 1 cyc
    (by unfold get_even_scaling_factor_jamlet_cubic; norm_num) hs hdiv hbuf (by intro _; decide)
  have h2 := undoes_iupdate (K := K) len n level stride get_first_update_mask_jamlet_cubic cyc hs hdiv hbuf
    (mask_le_four n level (List.length (get_first_update_mask_jamlet_cubic : List K)) cyc hm4
      (Nat.le_of_ble_eq_true rfl))
  have h3 := undoes_ipredict (K := K) len n level stride get_prediction_mask_jamlet_cubic cyc hs hdiv hbuf
    (mask_le_four n level (List.length (get_prediction_mask_jamlet_cubic : List K)) cyc hm4
      (Nat.le_of_ble_eq_true rfl))
  have h4 := undoes_iupdate (K := K) len n level stride get_second_update_mask_jamlet_cubic cyc hs hdiv hbuf
    (mask_le_four n level (List.length (get_second_update_mask_jamlet_cubic : List K)) cyc hm4
      (Nat.le_of_ble_eq_true rfl))
  intro x hx
  obtain ⟨y, a, b, c⟩ := (Undoes.comp h4 (Undoes.comp h3 (Undoes.comp h2 (h1)))) x hx
  exact ⟨y, a, b, by simpa only [forward_jamlet_cubic, Option.bind_assoc] using c⟩

theorem undoes_inverse_jamlet_4_point [CharZero K]
    (len n level stride : Nat) (cyc : Bool) (hs : 1 ≤ stride)
    (hdiv : 2 ^ (level + 1) ∣ n) (hbuf : ∀ idx : Nat, idx < n → idx * stride < len)
    (hm4 : cyc = true → 4 * 2 ^ level ≤ n) :
    Undoes len (fun x : List K => inverse_jamlet_4_point x n level stride cyc)
      (fun y => forward_jamlet_4_point y n level stride cyc) := by
  have h1 := undoes_ipredict (K := K) len n level stride get_prediction_mask_jamlet_4_point cyc hs hdiv hbuf
    (mask_le_four n level (List.length (get_prediction_mask_jamlet_4_point : List K)) cyc hm4
      (Nat.le_of_ble_eq_true rfl))
  have h2 := undoes_iupdate (K := K) len n level stride get_update_mask_jamlet_4_point cyc hs hdiv hbuf
    (mask_le_four n level (List.length (get_update_mask_jamlet_4_point : List K)) cyc hm4
      (Nat.le_of_ble_eq_true rfl))
  intro x hx
  obtain ⟨y, a, b, c⟩ := (Undoes.comp h2 (h1)) x hx
  exact ⟨y, a, b, by simpa only [forward_jamlet_4_point, Option.bind_assoc] using c⟩

end Redo

/-! ## Pointwise description of `compress` and `smooth` -/

theorem getElem?_set_of_ne_mul {K : Type} {x : List K} {stride i0 i : Nat} (v : K) (hs : 1 ≤ stride)
    (hi : i0 < i) : (x.set (i0 * stride) v)[i * stride]? = x[i * stride]? := by
  rw [List.getElem?_set_ne]
  intro e
  have : i0 * stride < i * stride := Nat.mul_lt_mul_of_pos_right hi (by omega)
  omega

section ThresholdLemmas

variable {K : Type} [LinearOrderedField K]

theorem compress_hits_set {x : List K} {threshold : K} {mask stride i0 i : Nat} (v : K)
    (hs : 1 ≤ stride) (hi : i0 < i) :
    compress_hits (x.set (i0 * stride) v) threshold mask stride i =
      compress_hits x threshold mask stride i := by
  simp only [compress_hits, getElem?_set_of_ne_mul v hs hi]

theorem compress_loop_spec (threshold : K) (mask stride : Nat) (hs : 1 ≤ stride) :
    ∀ (count i0 : Nat) (x : List K) (c0 : Nat),
      (∀ i, i0 ≤ i → i < i0 + count → i * stride < x.length) →
      ∃ y c, lifting.compress_loop threshold mask stride count i0 x c0 = some (y, c) ∧
        y.length = x.length ∧
        (∀ i, i0 ≤ i → i < i0 + count → i &&& mask ≠ 0 →
          y[i * stride]? = (x[i * stride]?).map fun v => if |v| < threshold then 0 else v) ∧
        (∀ p, (∀ i, i0 ≤ i → i < i0 + count → i &&& mask ≠ 0 → p ≠ i * stride) →
          y[p]? = x[p]?) ∧
        c = c0 + ((List.range' i0 count).filter (compress_hits x threshold mask stride)).length
  | 0, i0, x, c0, _ => by
    refine ⟨x, c0, rfl, rfl, ?_, fun _ _ => rfl, by simp⟩
    intro i h1 h2
    omega
  | count + 1, i0, x, c0, hbuf => by
    have hb0 : i0 * stride < x.length := hbuf i0 le_rfl (by omega)
    have hx0 : x[i0 * stride]? = some x[i0 * stride] := List.getElem?_eq_getElem hb0
    have hrd : rd x ((i0 * stride : Nat) : Int) = some x[i0 * stride] := by
      rw [rd_natCast, hx0]
    by_cases hd : i0 &&& mask ≠ 0
    · by_cases ht : |x[i0 * stride]| < threshold
      · -- the sample is zeroed
        have hwr : wr x ((i0 * stride : Nat) : Int) 0 = some (x.set (i0 * stride) 0) := by
          rw [wr_of_rd hrd, Int.toNat_ofNat]
        obtain ⟨y, c, h1, h2, h3, h4, h5⟩ := compress_loop_spec threshold mask stride hs count
          (i0 + 1) (x.set (i0 * stride) 0) (c0 + 1) (fun i hi1 hi2 => by
            rw [List.length_set]; exact hbuf i (by omega) (by omega))
        refine ⟨y, c, ?_, by rw [h2, List.length_set], ?_, ?_, ?_⟩
        · simp only [lifting.compress_loop, if_pos hd, hrd, Option.some_bind, if_pos ht, hwr]
          exact h1
        · intro i hi1 hi2 hi3
          rcases Nat.eq_or_lt_of_le hi1 with e | hlt
          · subst e
            rw [h4 _ (fun i hi1 hi2 _ e => by
              have : i0 * stride < i * stride := Nat.mul_lt_mul_of_pos_right (by omega) (by omega)
              omega)]
            simp [hx0, ht, hb0]
          · rw [h3 i (by omega) (by omega) hi3, getElem?_set_of_ne_mul 0 hs hlt]
        · intro p hp
          rw [h4 p (fun i hi1 hi2 hi3 => hp i (by omega) (by omega) hi3)]
          exact List.getElem?_set_ne (fun e => hp i0 le_rfl (by omega) hd e.symm)
        · rw [h5, List.range'_succ, List.filter_cons]
          have hhit : compress_hits x threshold mask stride i0 = true := by
            simp [compress_hits, hd, hx0, ht]
          have hrest : (List.range' (i0 + 1) count).filter
              (compress_hits (x.set (i0 * stride) 0) threshold mask stride) =
              (List.range' (i0 + 1) count).filter (compress_hits x threshold mask stride) := by
            apply List.filter_congr
            intro i hi
            have := (List.mem_range'_1.mp hi).1
            exact compress_hits_set 0 hs (by omega)
          rw [hhit, hrest]
          simp only [if_true, List.length_cons]
          omega
      · -- the sample stays
        obtain ⟨y, c, h1, h2, h3, h4, h5⟩ := compress_loop_spec threshold mask stride hs count
          (i0 + 1) x c0 (fun i hi1 hi2 => hbuf i (by omega) (by omega))
        refine ⟨y, c, ?_, h2, ?_, ?_, ?_⟩
        · simp only [lifting.compress_loop, if_pos hd, hrd, Option.some_bind, if_neg ht]
          exact h1
        · intro i hi1 hi2 hi3
          rcases Nat.eq_or_lt_of_le hi1 with e | hlt
          · subst e
            rw [h4 _ (fun i hi1 hi2 _ e => by
              have : i0 * stride < i * stride := Nat.mul_lt_mul_of_pos_right (by omega) (by omega)
              omega)]
            simp [hx0, ht]
          · exact h3 i (by omega) (by omega) hi3
        · intro p hp
          exact h4 p (fun i hi1 hi2 hi3 => hp i (by omega) (by omega) hi3)
        · rw [h5, List.range'_succ, List.filter_cons]
          have hhit : compress_hits x threshold mask stride i0 = false := by
            simp [compress_hits, hx0, ht]
          rw [hhit]
          simp
    · -- not a detail coefficient
      obtain ⟨y, c, h1, h2, h3, h4, h5⟩ := compress_loop_spec threshold mask stride hs count
        (i0 + 1) x c0 (fun i hi1 hi2 => hbuf i (by omega) (by omega))
      refine ⟨y, c, ?_, h2, ?_, ?_, ?_⟩
      · simp only [lifting.compress_loop, if_neg hd]
        exact h1
      · intro i hi1 hi2 hi3
        rcases Nat.eq_or_lt_of_le hi1 with e | hlt
        · subst e; exact absurd hi3 hd
        · exact h3 i (by omega) (by omega) hi3
      · intro p hp
        exact h4 p (fun i hi1 hi2 hi3 => hp i (by omega) (by omega) hi3)
      · rw [h5, List.range'_succ, List.filter_cons]
        have hhit : compress_hits x threshold mask stride i0 = false := by
          simp only [compress_hits, Bool.and_eq_false_imp, decide_eq_true_eq]
          intro h; exact absurd h hd
        rw [hhit]
        simp

theorem smooth_loop_spec (threshold : K) (mask stride : Nat) (hs : 1 ≤ stride) :
    ∀ (count i0 : Nat) (x : List K),
      (∀ i, i0 ≤ i → i < i0 + count → i * stride < x.length) →
      ∃ y, lifting.smooth_loop threshold mask stride count i0 x = some y ∧
        y.length = x.length ∧
        (∀ i, i0 ≤ i → i < i0 + count → i &&& mask ≠ 0 →
          y[i * stride]? = (x[i * stride]?).map (lifting.smooth_value threshold)) ∧
        (∀ p, (∀ i, i0 ≤ i → i < i0 + count → i &&& mask ≠ 0 → p ≠ i * stride) →
          y[p]? = x[p]?)
  | 0, i0, x, _ => by
    refine ⟨x, rfl, rfl, ?_, fun _ _ => rfl⟩
    intro i h1 h2
    omega
  | count + 1, i0, x, hbuf => by
    have hb0 : i0 * stride < x.length := hbuf i0 le_rfl (by omega)
    have hx0 : x[i0 * stride]? = some x[i0 * stride] := List.getElem?_eq_getElem hb0
    have hrd : rd x ((i0 * stride : Nat) : Int) = some x[i0 * stride] := by
      rw [rd_natCast, hx0]
    by_cases hd : i0 &&& mask ≠ 0
    · have hwr : wr x ((i0 * stride : Nat) : Int) (lifting.smooth_value threshold x[i0 * stride]) =
          some (x.set (i0 * stride) (lifting.smooth_value threshold x[i0 * stride])) := by
        rw [wr_of_rd hrd, Int.toNat_ofNat]
      obtain ⟨y, h1, h2, h3, h4⟩ := smooth_loop_spec threshold mask stride hs count
        (i0 + 1) (x.set (i0 * stride) (lifting.smooth_value threshold x[i0 * stride]))
        (fun i hi1 hi2 => by rw [List.length_set]; exact hbuf i (by omega) (by omega))
      refine ⟨y, ?_, by rw [h2, List.length_set], ?_, ?_⟩
      · simp only [lifting.smooth_loop, if_pos hd, hrd, Option.some_bind, hwr]
        exact h1
      · intro i hi1 hi2 hi3
        rcases Nat.eq_or_lt_of_le hi1 with e | hlt
        · subst e
          rw [h4 _ (fun i hi1 hi2 _ e => by
            have : i0 * stride < i * stride := Nat.mul_lt_mul_of_pos_right (by omega) (by omega)
            omega)]
          simp [hx0, hb0]
        · rw [h3 i (by omega) (by omega) hi3, getElem?_set_of_ne_mul _ hs hlt]
      · intro p hp
        rw [h4 p (fun i hi1 hi2 hi3 => hp i (by omega) (by omega) hi3)]
        exact List.getElem?_set_ne (fun e => hp i0 le_rfl (by omega) hd e.symm)
    · obtain ⟨y, h1, h2, h3, h4⟩ := smooth_loop_spec threshold mask stride hs count
        (i0 + 1) x (fun i hi1 hi2 => hbuf i (by omega) (by omega))
      refine ⟨y, ?_, h2, ?_, ?_⟩
      · simp only [lifting.smooth_loop, if_neg hd]
        exact h1
      · intro i hi1 hi2 hi3
        rcases Nat.eq_or_lt_of_le hi1 with e | hlt
        · subst e; exact absurd hi3 hd
        · exact h3 i (by omega) (by omega) hi3
      · intro p hp
        exact h4 p (fun i hi1 hi2 hi3 => hp i (by omega) (by omega) hi3)

end ThresholdLemmas

/-! ## Every transform returns in non-cyclic mode -/

theorem Undoes.total {K : Type} {len : Nat} {f g : List K → Option (List K)}
    (h : Undoes len f g) : Total len f := by
  intro x hx
  obtain ⟨y, h1, h2, -⟩ := h x hx
  exact ⟨y, h1, h2⟩

theorem total_comp {K : Type} {len : Nat} {f g : List K → Option (List K)}
    (hf : Total len f) (hg : Total len g) : Total len (fun x => (f x).bind g) := by
  intro x hx
  obtain ⟨y, h1, h2⟩ := hf x hx
  obtain ⟨z, h3, h4⟩ := hg y h2
  exact ⟨z, by simp [h1, h3], h4⟩

theorem levels_up_total {K : Type} (len : Nat) (f : List K → Nat → Option (List K)) :
    ∀ (c lev : Nat), (∀ l, lev ≤ l → l < lev + c → Total len (fun x => f x l)) →
      Total len (levels_up f c lev)
  | 0, _, _ => fun x hx => ⟨x, rfl, hx⟩
  | c + 1, lev, h => by
    intro x hx
    obtain ⟨y, h1, h2⟩ := h lev le_rfl (by omega) x hx
    obtain ⟨z, h3, h4⟩ := levels_up_total len f c (lev + 1)
      (fun l hl1 hl2 => h l (by omega) (by omega)) y h2
    exact ⟨z, by simp [levels_up, h1, h3], h4⟩

theorem levels_down_total {K : Type} (len : Nat) (f : List K → Nat → Option (List K)) :
    ∀ (c : Nat), (∀ l, l < c → Total len (fun x => f x l)) → Total len (levels_down f c)
  | 0, _ => fun x hx => ⟨x, rfl, hx⟩
  | c + 1, h => by
    intro x hx
    obtain ⟨y, h1, h2⟩ := h c (by omega) x hx
    obtain ⟨z, h3, h4⟩ := levels_down_total len f c (fun l hl => h l (by omega)) y h2
    exact ⟨z, by simp [levels_down, h1, h3], h4⟩

theorem total_run_steps {K : Type} (body : List K → Nat → Nat → lifting_step K → Option (List K))
    (n level : Nat) (hbody : ∀ s, Total n (fun x => body x n level s)) :
    ∀ steps : List (lifting_step K), Total n (run_steps body n level steps)
  | [] => fun x hx => ⟨x, rfl, hx⟩
  | s :: rest => by
    intro x hx
    obtain ⟨y, h1, h2⟩ := hbody s x hx
    obtain ⟨z, h3, h4⟩ := total_run_steps body n level hbody rest y h2
    exact ⟨z, by simp [run_steps, h1, h3], h4⟩

section TotalSteps

variable {K : Type} [Field K]

open lifting

theorem total_scale (f : K → K) (n level : Nat) (b : Int) (hb : 0 ≤ b) (start0 : Int)
    (h0 : 0 ≤ start0) :
    Total n (fun x => for_loop (scale_body f 1) (n - b * 2 ^ (level + 1)) (2 ^ (level + 1)) n
      (start0 + b * 2 ^ (level + 1)) x) := by
  intro x hx
  have hQ : (0 : Int) < 2 ^ (level + 1) := by positivity
  have hbQ : 0 ≤ b * 2 ^ (level + 1) := mul_nonneg hb (le_of_lt hQ)
  obtain ⟨y, h1, h2⟩ := scale_loop_isSome f x n 1 (fun idx hi => by omega)
    (start0 + b * 2 ^ (level + 1)) (n - b * 2 ^ (level + 1)) (2 ^ (level + 1)) hQ
    (by omega) (by omega)
  exact ⟨y, h1, by rw [h2, hx]⟩

theorem total_scale_even (n level : Nat) (s : K) (b : Int) (hb : 0 ≤ b)
    (hdiv : 2 ^ (level + 1) ∣ n) : Total n (fun x => scale_even x n s level b 1 false) := by
  have h := total_scale (fun x : K => x * s) n level b hb 0 le_rfl
  simpa only [scale_even, is_multiple_of_dvd n level hdiv, Bool.not_true,
    Bool.false_eq_true, if_false, zero_add] using h

theorem total_scale_odd (n level : Nat) (s : K) (b : Int) (hb : 0 ≤ b)
    (hdiv : 2 ^ (level + 1) ∣ n) : Total n (fun x => scale_odd x n s level b 1 false) := by
  have h := total_scale (fun x : K => x * s) n level b hb (2 ^ level) (by positivity)
  simpa only [scale_odd, is_multiple_of_dvd n level hdiv, Bool.not_true,
    Bool.false_eq_true, if_false] using h

theorem total_iscale_even (n level : Nat) (s : K) (b : Int) (hb : 0 ≤ b)
    (hdiv : 2 ^ (level + 1) ∣ n) : Total n (fun x => iscale_even x n s level b 1 false) := by
  have h := total_scale (fun x : K => x / s) n level b hb 0 le_rfl
  simpa only [iscale_even, is_multiple_of_dvd n level hdiv, Bool.not_true,
    Bool.false_eq_true, if_false, zero_add] using h

theorem total_iscale_odd (n level : Nat) (s : K) (b : Int) (hb : 0 ≤ b)
    (hdiv : 2 ^ (level + 1) ∣ n) : Total n (fun x => iscale_odd x n s level b 1 false) := by
  have h := total_scale (fun x : K => x / s) n level b hb (2 ^ level) (by positivity)
  simpa only [iscale_odd, is_multiple_of_dvd n level hdiv, Bool.not_true,
    Bool.false_eq_true, if_false] using h

theorem total_predict (n level : Nat) (mask : List K) (hdiv : 2 ^ (level + 1) ∣ n) :
    Total n (fun x => predict x n mask level 1 false) :=
  (undoes_predict n n level 1 mask false le_rfl hdiv (fun idx h => by omega) (by simp)).total

theorem total_ipredict (n level : Nat) (mask : List K) (hdiv : 2 ^ (level + 1) ∣ n) :
    Total n (fun x => ipredict x n mask level 1 false) :=
  (undoes_ipredict n n level 1 mask false le_rfl hdiv (fun idx h => by omega) (by simp)).total

theorem total_update (n level : Nat) (mask : List K) (hdiv : 2 ^ (level + 1) ∣ n) :
    Total n (fun x => update x n mask level 1 false) :=
  (undoes_update n n level 1 mask false le_rfl hdiv (fun idx h => by omega) (by simp)).total

theorem total_iupdate (n level : Nat) (mask : List K) (hdiv : 2 ^ (level + 1) ∣ n) :
    Total n (fun x => iupdate x n mask level 1 false) :=
  (undoes_iupdate n n level 1 mask false le_rfl hdiv (fun idx h => by omega) (by simp)).total

theorem total_forward_daubechies_d4 (sqrt3 : K) (n level : Nat) (hdiv : 2 ^ (level + 1) ∣ n) :
    Total n (fun x => forward_daubechies_d4 sqrt3 x n level 1 false) :=
  total_comp (total_update n level _ hdiv) (total_comp (total_predict n level _ hdiv)
    (total_comp (total_update n level _ hdiv) (total_comp
      (total_scale_even n level _ 0 le_rfl hdiv) (total_scale_odd n level _ 0 le_rfl hdiv))))

theorem total_inverse_daubechies_d4 (sqrt3 : K) (n level : Nat) (hdiv : 2 ^ (level + 1) ∣ n) :
    Total n (fun x => inverse_daubechies_d4 sqrt3 x n level 1 false) :=
  total_comp (total_iscale_odd n level _ 0 le_rfl hdiv) (total_comp
    (total_iscale_even n level _ 0 le_rfl hdiv) (total_comp (total_iupdate n level _ hdiv)
      (total_comp (total_ipredict n level _ hdiv) (total_iupdate n level _ hdiv))))

theorem total_forward_custom_step (n level : Nat) (s : lifting_step K)
    (hdiv : 2 ^ (level + 1) ∣ n) : Total n (fun x => forward_custom_step x n level s) := by
  obtain ⟨ty, mask⟩ := s
  cases ty with
  | lst_predict => exact total_predict n level mask hdiv
  | lst_update => exact total_update n level mask hdiv
  | lst_scale_even =>
    cases mask with
    | nil => exact fun x hx => ⟨x, rfl, hx⟩
    | cons front rest =>
      exact total_scale_even n level front 1 (by decide) hdiv
  | lst_scale_odd =>
    cases mask with
    | nil => exact fun x hx => ⟨x, rfl, hx⟩
    | cons front rest =>
      exact total_scale_odd n level front 1 (by decide) hdiv

theorem total_inverse_custom_step (n level : Nat) (s : lifting_step K)
    (hdiv : 2 ^ (level + 1) ∣ n) : Total n (fun x => inverse_custom_step x n level s) := by
  obtain ⟨ty, mask⟩ := s
  cases ty with
  | lst_predict => exact total_ipredict n level mask hdiv
  | lst_update => exact total_iupdate n level mask hdiv
  | lst_scale_even =>
    cases mask with
    | nil => exact fun x hx => ⟨x, rfl, hx⟩
    | cons front rest =>
      exact total_iscale_even n level front 1 (by decide) hdiv
  | lst_scale_odd =>
    cases mask with
    | nil => exact fun x hx => ⟨x, rfl, hx⟩
    | cons front rest =>
      exact total_iscale_odd n level front 1 (by decide) hdiv

theorem total_forward_custom (n level : Nat) (hdiv : 2 ^ (level + 1) ∣ n)
    (custom_steps : List (lifting_step K)) :
    Total n (fun x => forward_custom x n level custom_steps) :=
  total_run_steps forward_custom_step n level
    (fun s => total_forward_custom_step n level s hdiv) custom_steps

theorem total_inverse_custom (n level : Nat) (hdiv : 2 ^ (level + 1) ∣ n)
    (custom_steps : List (lifting_step K)) :
    Total n (fun x => inverse_custom x n level custom_steps) :=
  total_run_steps inverse_custom_step n level
    (fun s => total_inverse_custom_step n level s hdiv) custom_steps.reverse

end TotalSteps

section TotalSchemes

variable {K : Type} [Field K] [CharZero K]

open lifting

theorem undoes_inverse_scheme (sqrt3 : K) (hsq : sqrt3 * sqrt3 = 3) (s : scheme)
    (hs : s ≠ .custom) (custom_steps : List (lifting_step K)) (len n level stride : Nat)
    (cyc : Bool) (hstride : 1 ≤ stride) (hdiv : 2 ^ (level + 1) ∣ n)
    (hbuf : ∀ idx : Nat, idx < n → idx * stride < len)
    (hm4 : cyc = true → 4 * 2 ^ level ≤ n) :
    Undoes len (fun x => inverse_scheme sqrt3 s custom_steps x n level stride cyc)
      (fun y => forward_scheme sqrt3 s custom_steps y n level stride cyc) := by
  cases s with
  | jamlet_linear => exact undoes_inverse_jamlet_linear len n level stride cyc hstride hdiv hbuf hm4
  | jamlet_quadratic =>
    exact undoes_inverse_jamlet_quadratic len n level stride cyc hstride hdiv hbuf hm4
  | jamlet_cubic => exact undoes_inverse_jamlet_cubic len n level stride cyc hstride hdiv hbuf hm4
  | jamlet_4_point =>
    exact undoes_inverse_jamlet_4_point len n level stride cyc hstride hdiv hbuf hm4
  | cdf_5_3 => exact undoes_inverse_cdf_5_3 len n level stride cyc hstride hdiv hbuf hm4
  | cdf_9_7 => exact undoes_inverse_cdf_9_7 len n level stride cyc hstride hdiv hbuf hm4
  | chaikin => exact undoes_inverse_chaikin len n level stride cyc hstride hdiv hbuf hm4
  | cubic_bsplines =>
    exact undoes_inverse_cubic_bsplines len n level stride cyc hstride hdiv hbuf hm4
  | cubic_bspline_wavelets =>
    exact undoes_inverse_cubic_bspline_wavelets len n level stride cyc hstride hdiv hbuf hm4
  | daubechies_d4 =>
    exact undoes_inverse_daubechies_d4 sqrt3 hsq len n level stride cyc hstride hdiv hbuf hm4
  | four_point => exact undoes_inverse_four_point len n level stride cyc hstride hdiv hbuf hm4
  | haar => exact undoes_inverse_haar len n level stride cyc hstride hdiv hbuf hm4
  | custom => exact absurd rfl hs

theorem total_forward_scheme (sqrt3 : K) (s : scheme)
    (custom_steps : List (lifting_step K)) (n level : Nat) (hdiv : 2 ^ (level + 1) ∣ n) :
    Total n (fun x => forward_scheme sqrt3 s custom_steps x n level 1 false) := by
  have hbuf : ∀ idx : Nat, idx < n → idx * 1 < n := fun idx h => by omega
  have hm4 : false = true → 4 * 2 ^ level ≤ n := by simp
  cases s with
  | jamlet_linear => exact (undoes_jamlet_linear n n level 1 false le_rfl hdiv hbuf hm4).total
  | jamlet_quadratic =>
    exact (undoes_jamlet_quadratic n n level 1 false le_rfl hdiv hbuf hm4).total
  | jamlet_cubic => exact (undoes_jamlet_cubic n n level 1 false le_rfl hdiv hbuf hm4).total
  | jamlet_4_point => exact (undoes_jamlet_4_point n n level 1 false le_rfl hdiv hbuf hm4).total
  | cdf_5_3 => exact (undoes_cdf_5_3 n n level 1 false le_rfl hdiv hbuf hm4).total
  | cdf_9_7 => exact (undoes_cdf_9_7 n n level 1 false le_rfl hdiv hbuf hm4).total
  | chaikin => exact (undoes_chaikin n n level 1 false le_rfl hdiv hbuf hm4).total
  | cubic_bsplines => exact (undoes_cubic_bsplines n n level 1 false le_rfl hdiv hbuf hm4).total
  | cubic_bspline_wavelets =>
    exact (undoes_cubic_bspline_wavelets n n level 1 false le_rfl hdiv hbuf hm4).total
  | daubechies_d4 => exact total_forward_daubechies_d4 sqrt3 n level hdiv
  | four_point => exact (undoes_four_point n n level 1 false le_rfl hdiv hbuf hm4).total
  | haar => exact (undoes_haar n n level 1 false le_rfl hdiv hbuf hm4).total
  | custom => exact total_forward_custom n level hdiv custom_steps

theorem total_inverse_scheme (sqrt3 : K) (s : scheme)
    (custom_steps : List (lifting_step K)) (n level : Nat) (hdiv : 2 ^ (level + 1) ∣ n) :
    Total n (fun x => inverse_scheme sqrt3 s custom_steps x n level 1 false) := by
  have hbuf : ∀ idx : Nat, idx < n → idx * 1 < n := fun idx h => by omega
  have hm4 : false = true → 4 * 2 ^ level ≤ n := by simp
  cases s with
  | jamlet_linear =>
    exact (undoes_inverse_jamlet_linear n n level 1 false le_rfl hdiv hbuf hm4).total
  | jamlet_quadratic =>
    exact (undoes_inverse_jamlet_quadratic n n level 1 false le_rfl hdiv hbuf hm4).total
  | jamlet_cubic =>
    exact (undoes_inverse_jamlet_cubic n n level 1 false le_rfl hdiv hbuf hm4).total
  | jamlet_4_point =>
    exact (undoes_inverse_jamlet_4_point n n level 1 false le_rfl hdiv hbuf hm4).total
  | cdf_5_3 => exact (undoes_inverse_cdf_5_3 n n level 1 false le_rfl hdiv hbuf hm4).total
  | cdf_9_7 => exact (undoes_inverse_cdf_9_7 n n level 1 false le_rfl hdiv hbuf hm4).total
  | chaikin => exact (undoes_inverse_chaikin n n level 1 false le_rfl hdiv hbuf hm4).total
  | cubic_bsplines =>
    exact (undoes_inverse_cubic_bsplines n n level 1 false le_rfl hdiv hbuf hm4).total
  | cubic_bspline_wavelets =>
    exact (undoes_inverse_cubic_bspline_wavelets n n level 1 false le_rfl hdiv hbuf hm4).total
  | daubechies_d4 => exact total_inverse_daubechies_d4 sqrt3 n level hdiv
  | four_point => exact (undoes_inverse_four_point n n level 1 false le_rfl hdiv hbuf hm4).total
  | haar => exact (undoes_inverse_haar n n level 1 false le_rfl hdiv hbuf hm4).total
  | custom => exact total_inverse_custom n level hdiv custom_steps

end TotalSchemes

theorem undoes_levels_down {K : Type} (len : Nat) (f g : List K → Nat → Option (List K)) :
    ∀ c : Nat, (∀ lev, lev < c → Undoes len (fun x => g x lev) (fun y => f y lev)) →
      Undoes len (levels_down g c) (levels_up f c 0)
  | 0, _ => by
    simpa [levels_up, levels_down] using Undoes.id (K := K) len
  | c + 1, h => by
    have ih := undoes_levels_down len f g c (fun lev hl => h lev (by omega))
    have hc := h c (by omega)
    intro x hx
    obtain ⟨y, a, b, d⟩ := (Undoes.comp hc ih) x hx
    refine ⟨y, ?_, b, ?_⟩
    · simpa [levels_down] using a
    · rw [levels_up_snoc]
      simpa using d

/-! ## Thresholding and the basis functions of a model -/

theorem shift_one_of_lt (L : Nat) (h : L < 64) : shift_one (L : Int) = some (2 ^ L) := by
  have e : ((L : Int) % 2 ^ 64).toNat = L := by
    norm_num
    omega
  unfold shift_one
  rw [e, if_pos h]

theorem shift_one_of_neg (k : Int) (h1 : -64 ≤ k) (h2 : k < 0) : shift_one k = none := by
  have e : ¬ (k % 2 ^ 64).toNat < 64 := by
    norm_num
    omega
  unfold shift_one
  rw [if_neg e]

theorem unit_impulse_eq {K : Type} [Field K] (n idx : Nat) (h : idx < n) :
    (unit_impulse n idx : Option (List K)) = some ((List.replicate n 0).set idx 1) := by
  unfold unit_impulse
  rw [wr_eq_some_iff]
  simp [h]

theorem compress_spec {K : Type} [LinearOrderedField K] (x : List K)
    (n levels stride : Nat) (threshold : K) (hstride : 1 ≤ stride) (hlevels : levels < 64)
    (hbuf : ∀ idx : Nat, idx < n → idx * stride < x.length) :
    ∃ y compressed, lifting.compress x n threshold levels stride = some (y, compressed) ∧
      y.length = x.length ∧
      (∀ i, i < n → i % 2 ^ levels ≠ 0 →
        y[i * stride]? = (x[i * stride]?).map fun v => if |v| < threshold then 0 else v) ∧
      (∀ p, (∀ i, i < n → i % 2 ^ levels ≠ 0 → p ≠ i * stride) → y[p]? = x[p]?) ∧
      compressed =
        ((List.range n).filter (compress_hits x threshold (2 ^ levels - 1) stride)).length ∧
      compressed ≤ n ∧ 0 ≤ (compressed : K) / n ∧ (compressed : K) / n ≤ 1 := by
  obtain ⟨y, c, h1, h2, h3, h4, h5⟩ := compress_loop_spec threshold (2 ^ levels - 1) stride
    hstride n 0 x 0 (fun i _ hi => hbuf i (by omega))
  have hc : c ≤ n := by
    rw [h5, zero_add]
    exact le_trans (List.length_filter_le _ _) (by simp)
  refine ⟨y, c, ?_, h2, ?_, ?_, ?_, hc, by positivity, ?_⟩
  · simp only [lifting.compress, if_neg (not_le.mpr hlevels)]
    exact h1
  · intro i hi hd
    exact h3 i (Nat.zero_le _) (by omega) (by rwa [Nat.and_pow_two_sub_one_eq_mod])
  · intro p hp
    exact h4 p (fun i _ hi hd => hp i (by omega) (by rwa [Nat.and_pow_two_sub_one_eq_mod] at hd))
  · rw [h5, zero_add, List.range_eq_range']
  · rcases Nat.eq_zero_or_pos n with h0 | h0
    · subst h0; simp
    · rw [div_le_one (by exact_mod_cast h0)]
      exact_mod_cast hc

theorem compress_model_spec {K : Type} [LinearOrderedField K] (sqrt3 threshold : K) (s : scheme)
    (custom_steps : List (lifting_step K)) (m : model K) (levels : Nat) (hlevels : levels < 64)
    (hm : m.levels = levels) (hlen : m.values.length = 2 ^ levels) :
    ∃ m1 ratio, compress sqrt3 m threshold s custom_steps = some (m1, ratio) ∧
      m1.levels = m.levels ∧ m1.values.length = m.values.length ∧ 0 ≤ ratio ∧ ratio ≤ 1 := by
  have hdiv : ∀ lev, lev < levels → 2 ^ (lev + 1) ∣ 2 ^ levels :=
    fun lev hl => Nat.pow_dvd_pow 2 (by omega)
  obtain ⟨v1, hv1, hl1⟩ := levels_up_total (2 ^ levels)
    (fun x lev => forward_scheme sqrt3 s custom_steps x (2 ^ levels) lev 1 false) levels 0
    (fun l _ hl => total_forward_scheme sqrt3 s custom_steps (2 ^ levels) l
      (hdiv l (by omega))) m.values hlen
  obtain ⟨v2, c2, k1, k2, -, -, -, -, k7, k8⟩ := compress_spec v1 (2 ^ levels) levels 1
    threshold le_rfl hlevels (fun idx hi => by rw [hl1]; omega)
  obtain ⟨v3, hv3, hl3⟩ := levels_down_total (2 ^ levels)
    (fun x lev => inverse_scheme sqrt3 s custom_steps x (2 ^ levels) lev 1 false) levels
    (fun l hl => total_inverse_scheme sqrt3 s custom_steps (2 ^ levels) l (hdiv l hl))
    v2 (by rw [k2, hl1])
  have e1 : ((levels : Int) % 2 ^ 64).toNat = levels := by
    norm_num
    omega
  refine ⟨{ levels := m.levels, values := v3 }, (c2 : K) / ((2 ^ levels : Nat) : K), ?_, rfl,
    by rw [hl3, hlen], k7, k8⟩
  simp only [compress, hm, shift_one_of_lt levels hlevels, Option.some_bind, forward_all_levels,
    inverse_all_levels, Int.toNat_ofNat, hv1, e1, k1, hv3, Option.map_some']

theorem smooth_value_spec {K : Type} [LinearOrderedField K] (threshold d : K)
    (ht : 0 ≤ threshold) :
    |lifting.smooth_value threshold d| ≤ |d| ∧
      (lifting.smooth_value threshold d = 0 ∨
        (0 < lifting.smooth_value threshold d ∧ 0 < d) ∨
        (lifting.smooth_value threshold d < 0 ∧ d < 0)) ∧
      (threshold = 0 → lifting.smooth_value threshold d = d) := by
  unfold lifting.smooth_value
  by_cases h1 : d > threshold
  · rw [if_pos h1]
    have hd : 0 < d := lt_of_le_of_lt ht h1
    have hr : 0 < d - threshold := sub_pos.mpr h1
    refine ⟨?_, Or.inr (Or.inl ⟨hr, hd⟩), fun h0 => by rw [h0, sub_zero]⟩
    rw [abs_of_pos hr, abs_of_pos hd]
    linarith
  · rw [if_neg h1]
    by_cases h2 : d < -threshold
    · rw [if_pos h2]
      have hd : d < 0 := lt_of_lt_of_le h2 (neg_nonpos.mpr ht)
      have hr : d + threshold < 0 := by linarith
      refine ⟨?_, Or.inr (Or.inr ⟨hr, hd⟩), fun h0 => by rw [h0, add_zero]⟩
      rw [abs_of_neg hr, abs_of_neg hd]
      linarith
    · rw [if_neg h2]
      refine ⟨by simp, Or.inl rfl, fun h0 => ?_⟩
      subst h0
      have a : d ≤ 0 := not_lt.mp h1
      have b : 0 ≤ d := by simpa using not_lt.mp h2
      exact le_antisymm b a

theorem smooth_spec {K : Type} [LinearOrderedField K] (x : List K)
    (n levels stride : Nat) (threshold : K) (hstride : 1 ≤ stride) (hlevels : levels < 64)
    (hbuf : ∀ idx : Nat, idx < n → idx * stride < x.length) :
    ∃ y, lifting.smooth x n threshold levels stride = some y ∧ y.length = x.length ∧
      (∀ i, i < n → i % 2 ^ levels ≠ 0 →
        y[i * stride]? = (x[i * stride]?).map (lifting.smooth_value threshold)) ∧
      (∀ p, (∀ i, i < n → i % 2 ^ levels ≠ 0 → p ≠ i * stride) → y[p]? = x[p]?) := by
  obtain ⟨y, h1, h2, h3, h4⟩ := smooth_loop_spec threshold (2 ^ levels - 1) stride
    hstride n 0 x (fun i _ hi => hbuf i (by omega))
  refine ⟨y, ?_, h2, ?_, ?_⟩
  · simp only [lifting.smooth, if_neg (not_le.mpr hlevels)]
    exact h1
  · intro i hi hd
    exact h3 i (Nat.zero_le _) (by omega) (by rwa [Nat.and_pow_two_sub_one_eq_mod])
  · intro p hp
    exact h4 p (fun i _ hi hd => hp i (by omega) (by rwa [Nat.and_pow_two_sub_one_eq_mod] at hd))

theorem get_width_le (s : scheme) : get_width s ≤ 5 := by
  cases s <;> simp [get_width]

/-! ## Linearity of the inverse transform in the samples -/

section Linearity

variable {K : Type} [Field K]

theorem comb_length (a b : K) (x x' : List K) (h : x.length = x'.length) :
    (comb a b x x').length = x.length := by
  simp [comb, h]

theorem rd_comb (a b : K) (x x' : List K) (q : Int) :
    rd (comb a b x x') q = (rd x q).bind fun u => (rd x' q).map fun v => a * u + b * v := by
  unfold rd comb
  split
  · rw [List.getElem?_zipWith]
    rcases x[q.toNat]? with _ | u
    · rfl
    · rcases x'[q.toNat]? with _ | v <;> rfl
  · rfl

theorem comb_set (a b : K) :
    ∀ (x x' : List K) (p : Nat) (v v' : K),
      (comb a b x x').set p (a * v + b * v') = comb a b (x.set p v) (x'.set p v')
  | [], _, _, _, _ => by simp [comb]
  | _ :: _, [], _, _, _ => by simp [comb]
  | _ :: _, _ :: _, 0, _, _ => by simp [comb]
  | _ :: x, _ :: x', p + 1, v, v' => by
    have := comb_set a b x x' p v v'
    simp only [comb] at this ⊢
    simp [this]

theorem stencil_comb (a b : K) (x x' : List K) (stride : Nat) (coeff : Int → Int) :
    ∀ (ms : List K) (j : Int) (acc acc' r r' : K),
      stencil x stride coeff ms j acc = some r →
      stencil x' stride coeff ms j acc' = some r' →
      stencil (comb a b x x') stride coeff ms j (a * acc + b * acc') = some (a * r + b * r')
  | [], _, acc, acc', r, r', h, h' => by
    simp only [stencil, Option.some.injEq] at h h' ⊢
    rw [h, h']
  | m :: ms, j, acc, acc', r, r', h, h' => by
    simp only [stencil] at h h' ⊢
    rcases hv : rd x (coeff j * stride) with _ | v
    · simp [hv] at h
    rcases hv' : rd x' (coeff j * stride) with _ | v'
    · simp [hv'] at h'
    simp only [hv, hv', Option.some_bind] at h h'
    rw [rd_comb, hv, hv']
    simp only [Option.some_bind, Option.map_some']
    have e : a * acc + b * acc' + m * (a * v + b * v') =
        a * (acc + m * v) + b * (acc' + m * v') := by ring
    rw [e]
    exact stencil_comb a b x x' stride coeff ms (j + 1) _ _ r r' h h'

theorem lift_body_comb (a b : K) (op : K → K → K)
    (hop : ∀ u w u' w', op (a * u + b * u') (a * w + b * w') = a * op u w + b * op u' w')
    (stride : Nat) (mask : List K) (coeff : Int → Int → Int) (tgt : Int → Int) (i : Int)
    (x x' y y' : List K)
    (h : lift_body op stride mask coeff tgt i x = some y)
    (h' : lift_body op stride mask coeff tgt i x' = some y') :
    lift_body op stride mask coeff tgt i (comb a b x x') = some (comb a b y y') := by
  obtain ⟨acc, old, h1, h2, rfl⟩ := (lift_body_eq_some_iff _ _ _ _ _ _ _ _).mp h
  obtain ⟨acc', old', h1', h2', rfl⟩ := (lift_body_eq_some_iff _ _ _ _ _ _ _ _).mp h'
  rw [lift_body_eq_some_iff]
  refine ⟨a * acc + b * acc', a * old + b * old', ?_, ?_, ?_⟩
  · have := stencil_comb a b x x' stride (coeff i) mask 0 0 0 acc acc' h1 h1'
    simpa using this
  · rw [rd_comb, h2, h2']
    rfl
  · rw [hop, comb_set]

theorem for_loop_comb (a b : K) (body : Int → List K → Option (List K))
    (hbody : ∀ i x x' y y', body i x = some y → body i x' = some y' →
      body i (comb a b x x') = some (comb a b y y'))
    (stop step : Int) :
    ∀ (fuel : Nat) (i0 : Int) (x x' y y' : List K),
      for_loop body stop step fuel i0 x = some y →
      for_loop body stop step fuel i0 x' = some y' →
      for_loop body stop step fuel i0 (comb a b x x') = some (comb a b y y')
  | 0, i0, x, x', y, y', h, h' => by
    simp only [for_loop] at h h' ⊢
    split at h
    · exact absurd h (by simp)
    · rename_i hlt
      rw [if_neg hlt] at h' ⊢
      cases h
      cases h'
      rfl
  | fuel + 1, i0, x, x', y, y', h, h' => by
    simp only [for_loop] at h h' ⊢
    by_cases hlt : i0 < stop
    · rw [if_pos hlt] at h h' ⊢
      rcases hb : body i0 x with _ | x1
      · simp [hb] at h
      rcases hb' : body i0 x' with _ | x1'
      · simp [hb'] at h'
      simp only [hb, hb', Option.some_bind] at h h'
      rw [hbody i0 x x' x1 x1' hb hb', Option.some_bind]
      exact for_loop_comb a b body hbody stop step fuel (i0 + step) x1 x1' y y' h h'
    · rw [if_neg hlt] at h h' ⊢
      cases h
      cases h'
      rfl

theorem linear_comp {f g : List K → Option (List K)} (hf : Linear f) (hg : Linear g) :
    Linear (fun x => (f x).bind g) := by
  intro a b x x' y y' h h'
  rcases h1 : f x with _ | z
  · simp [h1] at h
  rcases h1' : f x' with _ | z'
  · simp [h1'] at h'
  simp only [h1, h1', Option.some_bind] at h h'
  simp only [hf a b x x' z z' h1 h1', Option.some_bind]
  exact hg a b z z' y y' h h'

theorem linear_lift_loop (op : K → K → K)
    (hop : ∀ (a b u w u' w' : K),
      op (a * u + b * u') (a * w + b * w') = a * op u w + b * op u' w')
    (stride : Nat) (mask : List K) (coeff : Int → Int → Int) (tgt : Int → Int)
    (stop step : Int) (fuel : Nat) (i0 : Int) :
    Linear (for_loop (lift_body op stride mask coeff tgt) stop step fuel i0) := by
  intro a b x x' y y' h h'
  exact for_loop_comb a b _ (fun i x x' y y' => lift_body_comb a b op (hop a b) stride mask
    coeff tgt i x x' y y') stop step fuel i0 x x' y y' h h'

open lifting

theorem linear_scale_loop (f : K → K)
    (hf : ∀ (a b u u' : K), f (a * u + b * u') = a * f u + b * f u')
    (stride : Nat) (stop step : Int) (fuel : Nat) (i0 : Int) :
    Linear (for_loop (scale_body f stride) stop step fuel i0) := by
  rw [scale_body_fun]
  exact linear_lift_loop _ (fun a b u _ u' _ => hf a b u u') stride [] _ _ stop step fuel i0

theorem linear_ipredict (n : Nat) (mask : List K) (level stride : Nat) (cyc : Bool) :
    Linear (fun x => ipredict x n mask level stride cyc) := by
  unfold ipredict
  split
  · intro a b x x' y y' h
    simp at h
  · exact linear_lift_loop _ (fun a b u w u' w' => by ring) _ _ _ _ _ _ _ _

theorem linear_iupdate (n : Nat) (mask : List K) (level stride : Nat) (cyc : Bool) :
    Linear (fun x => iupdate x n mask level stride cyc) := by
  unfold iupdate
  split
  · intro a b x x' y y' h
    simp at h
  · exact linear_lift_loop _ (fun a b u w u' w' => by ring) _ _ _ _ _ _ _ _

theorem linear_iscale_even (n : Nat) (s : K) (level : Nat) (b : Int) (stride : Nat)
    (cyc : Bool) : Linear (fun x => iscale_even x n s level b stride cyc) := by
  unfold iscale_even
  split
  · intro a b x x' y y' h
    simp at h
  · simp only
    split <;> exact linear_scale_loop _ (fun a b u u' => by ring) _ _ _ _ _

theorem linear_iscale_odd (n : Nat) (s : K) (level : Nat) (b : Int) (stride : Nat)
    (cyc : Bool) : Linear (fun x => iscale_odd x n s level b stride cyc) := by
  unfold iscale_odd
  split
  · intro a b x x' y y' h
    simp at h
  · simp only
    split <;> exact linear_scale_loop _ (fun a b u u' => by ring) _ _ _ _ _

theorem linear_inverse_custom_step (n level : Nat) (s : lifting_step K) :
    Linear (fun x => inverse_custom_step x n level s) := by
  unfold inverse_custom_step
  rcases s with ⟨t, mask⟩
  cases t
  · exact linear_ipredict n mask level 1 false
  · exact linear_iupdate n mask level 1 false
  · rcases mask with _ | ⟨front, rest⟩
    · intro a b x x' y y' h h'
      cases h
      cases h'
      rfl
    · exact linear_iscale_even n front level 1 1 false
  · rcases mask with _ | ⟨front, rest⟩
    · intro a b x x' y y' h h'
      cases h
      cases h'
      rfl
    · exact linear_iscale_odd n front level 1 1 false

theorem linear_run_steps (body : List K → Nat → Nat → lifting_step K → Option (List K))
    (n level : Nat) (hbody : ∀ s, Linear (fun x => body x n level s)) :
    ∀ steps : List (lifting_step K), Linear (run_steps body n level steps)
  | [] => by
    intro a b x x' y y' h h'
    cases h
    cases h'
    rfl
  | s :: rest => by
    have := linear_comp (hbody s) (linear_run_steps body n level hbody rest)
    intro a b x x' y y' h h'
    exact this a b x x' y y' h h'

theorem linear_inverse_custom (n level : Nat) (steps : List (lifting_step K)) :
    Linear (fun x => inverse_custom x n level steps) :=
  linear_run_steps inverse_custom_step n level (linear_inverse_custom_step n level) _

theorem accumulate_eq_sum (x : List K) : accumulate x = x.sum := by
  unfold accumulate
  rw [List.sum_eq_foldl]

theorem sum_comb (a b : K) :
    ∀ x x' : List K, x.length = x'.length → (comb a b x x').sum = a * x.sum + b * x'.sum
  | [], [], _ => by simp [comb]
  | [], _ :: _, h => by simp at h
  | _ :: _, [], h => by simp at h
  | u :: x, v :: x', h => by
    have := sum_comb a b x x' (by simpa using h)
    simp only [comb] at this
    simp only [comb, List.zipWith_cons_cons, List.sum_cons, this]
    ring

theorem accumulate_comb (a b : K) (x x' : List K) (h : x.length = x'.length) :
    accumulate (comb a b x x') = a * accumulate x + b * accumulate x' := by
  rw [accumulate_eq_sum, accumulate_eq_sum, accumulate_eq_sum, sum_comb a b x x' h]

end Linearity

/-! ## Cell-by-cell description of `iupdate` on the probe -/

section Closed

variable {K : Type} [Field K]

theorem for_loop_target (op : K → K → K) (stride : Nat) (mask : List K)
    (coeff : Int → Int → Int) (tgt : Int → Int) (stop : Int) :
    ∀ (fuel : Nat) (i0 : Int) (s y : List K),
      (∀ a b j : Int, i0 ≤ a → a < stop → i0 ≤ b → b < stop → 0 ≤ j → j < mask.length →
        coeff a j * stride ≠ tgt b * stride) →
      (∀ a b : Int, i0 ≤ a → a < stop → i0 ≤ b → b < stop → a ≠ b →
        tgt a * stride ≠ tgt b * stride) →
      for_loop (lift_body op stride mask coeff tgt) stop 1 fuel i0 s = some y →
      ∀ a : Int, i0 ≤ a → a < stop →
        ∃ acc old, stencil s stride (coeff a) mask 0 0 = some acc ∧
          rd s (tgt a * stride) = some old ∧ rd y (tgt a * stride) = some (op old acc) := by
  intro fuel
  induction fuel with
  | zero =>
    intro i0 s y _ _ h a ha1 ha2
    simp only [for_loop] at h
    rw [if_pos (by omega)] at h
    exact absurd h (by simp)
  | succ fuel ih =>
    intro i0 s y hdis hinj h a ha1 ha2
    simp only [for_loop] at h
    have hlt : i0 < stop := by omega
    rw [if_pos hlt] at h
    rcases hb : lift_body op stride mask coeff tgt i0 s with _ | s1
    · simp [hb] at h
    simp only [hb, Option.some_bind] at h
    obtain ⟨acc, old, hacc, hold, hs1⟩ := (lift_body_eq_some_iff _ _ _ _ _ _ _ _).mp hb
    have hpos : 0 ≤ tgt i0 * (stride : Int) := ((rd_isSome_iff s _).mp (by rw [hold]; rfl)).1
    obtain ⟨-, hpres⟩ := for_loop_preserve op stride mask coeff tgt stop 1 zero_le_one fuel
      (i0 + 1) s1 y h
    by_cases hai : a = i0
    · subst hai
      refine ⟨acc, old, hacc, hold, ?_⟩
      rw [hpres _ (fun c hc1 hc2 => hinj a c le_rfl hlt (by omega) hc2 (by omega)), hs1, rd_set]
      have hin := ((rd_isSome_iff s _).mp (by rw [hold]; rfl))
      have h1 : tgt a * (stride : Int) = ((tgt a * (stride : Int)).toNat : Int) := by omega
      have h2 : (tgt a * (stride : Int)).toNat < s.length := by omega
      rw [if_pos ⟨h1, h2⟩]
    · obtain ⟨acc1, old1, k1, k2, k3⟩ := ih (i0 + 1) s1 y
        (fun a b j ha1 ha2 hb1 hb2 => hdis a b j (by omega) ha2 (by omega) hb2)
        (fun a b ha1 ha2 hb1 hb2 => hinj a b (by omega) ha2 (by omega) hb2) h a (by omega) ha2
      refine ⟨acc1, old1, ?_, ?_, k3⟩
      · rw [← k1, hs1]
        apply stencil_congr
        intro k hk1 hk2
        symm
        apply rd_set_ne
        have := hdis a i0 k (by omega) ha2 le_rfl hlt hk1 (by omega)
        omega
      · rw [← k2, hs1]
        symm
        apply rd_set_ne
        have := hinj a i0 (by omega) ha2 le_rfl hlt hai
        omega

open lifting

/-- The non-cyclic `iupdate` at level 0 and stride 1 on 32 samples, cell by
cell: the even cells `2a`, `1 ≤ a < 16`, lose their stencil, all other cells
stay. -/
theorem iupdate_closed (x y mask : List K) (hx : x.length = 32)
    (h : iupdate x 32 mask 0 1 false = some y) :
    y.length = 32 ∧
      (∀ q : Int, (∀ a : Int, 1 ≤ a → a < 16 → q ≠ 2 * a) → rd y q = rd x q) ∧
      ∀ a : Int, 1 ≤ a → a < 16 →
        ∃ acc old, stencil x 1 (update_coeff 32 mask.length 0 false a) mask 0 0 = some acc ∧
          rd x (2 * a) = some old ∧ rd y (2 * a) = some (old - acc) := by
  have hmul : is_multiple_of_power_of_two 32 0 = true := by decide
  have hsh : (32 >>> (0 + 1) : Nat) = 16 := by decide
  simp only [iupdate, hmul, Bool.not_true, Bool.false_eq_true, if_false, hsh, update_start] at h
  have htg : ∀ a : Int, update_target 0 a * ((1 : Nat) : Int) = 2 * a := by
    intro a
    simp only [update_target]
    push_cast
    ring
  obtain ⟨hl, hp⟩ := for_loop_preserve _ 1 mask _ _ _ 1 zero_le_one _ _ x y h
  refine ⟨by rw [hl, hx], ?_, ?_⟩
  · intro q hq
    apply hp
    intro a ha1 ha2
    rw [htg]
    exact hq a ha1 (by exact_mod_cast ha2)
  · intro a ha1 ha2
    have := for_loop_target _ 1 mask _ _ _ _ _ x y ?_ ?_ h a ha1 (by exact_mod_cast ha2)
    · simpa only [htg] using this
    · intro a b j _ _ _ _ _ _
      obtain ⟨c, hc, -, -⟩ := update_coeff_spec 32 mask.length 0 16 false (by decide) a j
      rw [hc, htg]
      push_cast
      omega
    · intro a b _ _ _ _ hab
      rw [htg, htg]
      omega

theorem update_coeff_odd (m : Nat) (a j : Int) :
    ∃ c : Int, update_coeff 32 m 0 false a j = 2 * c + 1 ∧ 0 ≤ c ∧ c < 16 := by
  obtain ⟨c, hc, h1, -⟩ := update_coeff_spec 32 m 0 16 false (by decide) a j
  obtain ⟨h2, h3⟩ := h1 rfl (by decide)
  exact ⟨c, by rw [hc]; ring, h2, by exact_mod_cast h3⟩

theorem iupdate_total32 (x mask : List K) (hx : x.length = 32) :
    ∃ y, iupdate x 32 mask 0 1 false = some y ∧ y.length = 32 :=
  total_iupdate 32 0 mask (by decide) x hx

theorem stencil_zero (s : List K) (stride : Nat) (coeff : Int → Int) :
    ∀ (ms : List K) (j : Int) (acc : K),
      (∀ k : Int, j ≤ k → k < j + ms.length → rd s (coeff k * stride) = some 0) →
      stencil s stride coeff ms j acc = some acc
  | [], _, _, _ => rfl
  | m :: ms, j, acc, h => by
    have h0 := h j le_rfl (by simp only [List.length_cons]; push_cast; omega)
    simp only [stencil, h0, Option.some_bind, mul_zero, add_zero]
    refine stencil_zero s stride coeff ms (j + 1) acc (fun k hk1 hk2 => h k (by omega) ?_)
    simp only [List.length_cons]; push_cast; omega

/-- An `iupdate` leaves a buffer whose odd cells are all zero as it is. -/
theorem iupdate_of_odd_zero (x mask : List K) (hx : x.length = 32)
    (hodd : ∀ c : Int, 0 ≤ c → c < 16 → rd x (2 * c + 1) = some 0) :
    iupdate x 32 mask 0 1 false = some x := by
  obtain ⟨y, hy, -⟩ := iupdate_total32 x mask hx
  obtain ⟨-, h2, h3⟩ := iupdate_closed x y mask hx hy
  rw [hy]
  congr 1
  apply rd_ext
  intro q
  by_cases hq : ∀ a : Int, 1 ≤ a → a < 16 → q ≠ 2 * a
  · exact h2 q hq
  · push_neg at hq
    obtain ⟨a, ha1, ha2, rfl⟩ := hq
    obtain ⟨acc, old, k1, k2, k3⟩ := h3 a ha1 ha2
    rw [stencil_zero x 1 _ mask 0 0 (fun k _ _ => by
      obtain ⟨c, hc, c1, c2⟩ := update_coeff_odd mask.length a k
      rw [hc]
      simpa using hodd c c1 c2)] at k1
    cases k1
    rw [k3, k2, sub_zero]

theorem rd_probe (idx : Nat) (q : Int) :
    rd (probe idx : List K) q =
      if 0 ≤ q ∧ q < 32 then some (if q = idx then 1 else 0) else none := by
  unfold probe
  rw [rd_set]
  by_cases h : 0 ≤ q ∧ q < 32
  · rw [if_pos h]
    by_cases e : q = idx
    · rw [if_pos e, if_pos ⟨e, by simp; omega⟩]
    · rw [if_neg e, if_neg (fun c => e c.1)]
      unfold rd
      rw [if_pos h.1, List.getElem?_replicate, if_pos (by omega)]
  · rw [if_neg h, if_neg (fun c => h ⟨by omega, by have := c.2; simp at this; omega⟩)]
    unfold rd
    split
    · rw [List.getElem?_replicate, if_neg (by omega)]
    · rfl

theorem probe_length (idx : Nat) : (probe idx : List K).length = 32 := by
  simp [probe]

/-- The primal probe is a fixed point of every `iupdate`. -/
theorem iupdate_probe_16 (mask : List K) :
    iupdate (probe 16 : List K) 32 mask 0 1 false = some (probe 16) := by
  apply iupdate_of_odd_zero _ _ (probe_length 16)
  intro c c1 c2
  rw [rd_probe, if_pos ⟨by omega, by omega⟩, if_neg (by push_cast; omega)]

end Closed

section Identity

variable {K : Type} [Field K]

open lifting

theorem update_coeff_two_four (a : Int) :
    update_coeff 32 2 0 false a 0 = update_coeff 32 4 0 false a 1 ∧
      update_coeff 32 2 0 false a 1 = update_coeff 32 4 0 false a 2 := by
  have h2 : (2 >>> 1 : Nat) = 1 := by decide
  have h4 : (4 >>> 1 : Nat) = 2 := by decide
  constructor <;> simp only [update_coeff, h2, h4] <;> congr 1 <;> push_cast <;> ring_nf

theorem stencil_four (s : List K) (c : Int → Int) (m0 m1 m2 m3 acc : K)
    (h : stencil s 1 c [m0, m1, m2, m3] 0 0 = some acc) :
    ∃ v0 v1 v2 v3, rd s (c 0) = some v0 ∧ rd s (c 1) = some v1 ∧ rd s (c 2) = some v2 ∧
      rd s (c 3) = some v3 ∧ acc = m0 * v0 + m1 * v1 + m2 * v2 + m3 * v3 := by
  simp only [stencil, Nat.cast_one, mul_one, Option.bind_eq_some, zero_add] at h
  obtain ⟨v0, h0, v1, h1, v2, h2, v3, h3, e⟩ := h
  norm_num at h1 h2 h3
  exact ⟨v0, v1, v2, v3, h0, h1, h2, h3, (Option.some.inj e).symm⟩

theorem stencil_two (s : List K) (c : Int → Int) (m0 m1 acc : K)
    (h : stencil s 1 c [m0, m1] 0 0 = some acc) :
    ∃ v0 v1, rd s (c 0) = some v0 ∧ rd s (c 1) = some v1 ∧ acc = m0 * v0 + m1 * v1 := by
  simp only [stencil, Nat.cast_one, mul_one, Option.bind_eq_some, zero_add] at h
  obtain ⟨v0, h0, v1, h1, e⟩ := h
  exact ⟨v0, v1, h0, h1, (Option.some.inj e).symm⟩

/-- The `iupdate` with the mask `[α, β, β, α]` is the combination with the
weights `1 - β` and `β` of the `iupdate` with `[α, 0, 0, α]` applied to the
buffer itself and to the buffer after an `iupdate` with `[1, 1]`. -/
theorem iupdate_identity (x : List K) (hx : x.length = 32) (α β : K) :
    ∃ yA yB z yC, iupdate x 32 [α, β, β, α] 0 1 false = some yA ∧
      iupdate x 32 [α, 0, 0, α] 0 1 false = some yB ∧
      iupdate x 32 [1, 1] 0 1 false = some z ∧
      iupdate z 32 [α, 0, 0, α] 0 1 false = some yC ∧
      yA.length = 32 ∧ yB.length = 32 ∧ yC.length = 32 ∧
      yA = comb (1 - β) β yB yC := by
  obtain ⟨yA, hA, lA⟩ := iupdate_total32 x [α, β, β, α] hx
  obtain ⟨yB, hB, lB⟩ := iupdate_total32 x [α, 0, 0, α] hx
  obtain ⟨z, hZ, lZ⟩ := iupdate_total32 x [1, 1] hx
  obtain ⟨yC, hC, lC⟩ := iupdate_total32 z [α, 0, 0, α] lZ
  refine ⟨yA, yB, z, yC, hA, hB, hZ, hC, lA, lB, lC, ?_⟩
  obtain ⟨-, fA, tA⟩ := iupdate_closed x yA _ hx hA
  obtain ⟨-, fB, tB⟩ := iupdate_closed x yB _ hx hB
  obtain ⟨-, fZ, tZ⟩ := iupdate_closed x z _ hx hZ
  obtain ⟨-, fC, tC⟩ := iupdate_closed z yC _ lZ hC
  -- the odd cells of `z` are those of `x`
  have hodd : ∀ (m : Nat) (a j : Int),
      rd z (update_coeff 32 m 0 false a j) = rd x (update_coeff 32 m 0 false a j) := by
    intro m a j
    obtain ⟨c, hc, -, -⟩ := update_coeff_odd m a j
    rw [hc]
    exact fZ _ (fun b _ _ => by omega)
  apply rd_ext
  intro q
  rw [rd_comb]
  by_cases hq : ∀ a : Int, 1 ≤ a → a < 16 → q ≠ 2 * a
  · rw [fA q hq, fB q hq, fC q hq, fZ q hq]
    rcases rd x q with _ | u
    · rfl
    · simp only [Option.some_bind, Option.map_some']
      congr 1
      ring
  · push_neg at hq
    obtain ⟨a, ha1, ha2, rfl⟩ := hq
    obtain ⟨accA, oldA, a1, a2, a3⟩ := tA a ha1 ha2
    obtain ⟨accB, oldB, b1, b2, b3⟩ := tB a ha1 ha2
    obtain ⟨accZ, oldZ, z1, z2, z3⟩ := tZ a ha1 ha2
    obtain ⟨accC, oldC, c1, c2, c3⟩ := tC a ha1 ha2
    obtain ⟨v0, v1, v2, v3, p0, p1, p2, p3, eA⟩ := stencil_four x _ _ _ _ _ _ a1
    obtain ⟨w0, w1, w2, w3, q0, q1, q2, q3, eB⟩ := stencil_four x _ _ _ _ _ _ b1
    obtain ⟨r0, r1, s0, s1, eZ⟩ := stencil_two x _ _ _ _ z1
    obtain ⟨t0, t1, t2, t3, u0, u1, u2, u3, eC⟩ := stencil_four z _ _ _ _ _ _ c1
    simp only [List.length_cons, List.length_nil, Nat.reduceAdd, zero_add] at p0 p1 p2 p3
    simp only [List.length_cons, List.length_nil, Nat.reduceAdd, zero_add] at q0 q1 q2 q3
    simp only [List.length_cons, List.length_nil, Nat.reduceAdd, zero_add] at s0 s1 u0 u1 u2 u3
    rw [hodd] at u0 u1 u2 u3
    rw [(update_coeff_two_four a).1] at s0
    rw [(update_coeff_two_four a).2] at s1
    rw [p0] at q0 u0
    rw [p1] at q1 u1 s0
    rw [p2] at q2 u2 s1
    rw [p3] at q3 u3
    cases q0; cases q1; cases q2; cases q3
    cases u0; cases u1; cases u2; cases u3
    cases s0; cases s1
    rw [a2] at b2 z2
    cases b2
    cases z2
    rw [z3] at c2
    cases c2
    rw [a3, b3, c3]
    simp only [Option.some_bind, Option.map_some']
    congr 1
    rw [eA, eB, eZ, eC]
    ring

end Identity

/-! ## The Analyzer front end -/

theorem dropWhile_replicate_append {K : Type} (p : K → Bool) (a : K) (ha : p a = true) (l : List K) :
    ∀ k : Nat, (List.replicate k a ++ l).dropWhile p = l.dropWhile p
  | 0 => rfl
  | k + 1 => by
    rw [List.replicate_succ, List.cons_append, List.dropWhile_cons_of_pos ha]
    exact dropWhile_replicate_append p a ha l k

theorem rdropWhile_append_replicate {K : Type} (p : K → Bool) (a : K) (ha : p a = true) (l : List K)
    (k : Nat) : (l ++ List.replicate k a).rdropWhile p = l.rdropWhile p := by
  unfold List.rdropWhile
  rw [List.reverse_append, List.reverse_replicate, dropWhile_replicate_append p a ha]

theorem rdropWhile_append_rtakeWhile {K : Type} (p : K → Bool) (l : List K) :
    l.rdropWhile p ++ l.rtakeWhile p = l := by
  unfold List.rdropWhile List.rtakeWhile
  rw [← List.reverse_append, List.takeWhile_append_dropWhile, List.reverse_reverse]

theorem eq_replicate_of_forall {K : Type} (a : K) (l : List K) (h : ∀ b ∈ l, b = a) :
    l = List.replicate l.length a :=
  List.eq_replicate_iff.mpr ⟨rfl, h⟩

section AnalyzerLemmas

variable {K : Type} [LinearOrderedField K]

theorem sumruleorder_cases (p : List K) :
    (∃ SLO P0, sumruleorder p = .ok (SLO, P0)) ∨
      ∃ what, sumruleorder p = .error (.logic_error what) := by
  unfold sumruleorder
  simp only
  split_ifs
  · exact Or.inr ⟨_, rfl⟩
  · exact Or.inr ⟨_, rfl⟩
  · exact Or.inl ⟨_, _, rfl⟩
  · exact Or.inl ⟨_, _, rfl⟩

theorem sumruleorder_nil : ∃ what, sumruleorder ([] : List K) = .error (.logic_error what) := by
  refine ⟨"P0 does not satisfy condition E", ?_⟩
  have h : |PP ([] : List K) 0 - 1| > 1 / 10 ^ 4 := by
    rw [PP_zero]
    norm_num
  simp only [sumruleorder, if_pos h]

theorem compute_smoothness_eq (eigen_part : List K → Int → double_value K) (samples : List K)
    (scale : K) :
    compute_smoothness eigen_part samples scale =
      match sumruleorder ((pop_trailing_zeros (erase_leading_zeros samples)).map
          fun p => p * scale) with
      | .ok (SLO, _) =>
        .ok (eigen_part ((pop_trailing_zeros (erase_leading_zeros samples)).map
          fun p => p * scale) SLO)
      | .error _ => .ok .nan := by
  unfold compute_smoothness sobsmthest
  simp only
  rcases sumruleorder_cases ((pop_trailing_zeros (erase_leading_zeros samples)).map
    fun p => p * scale) with ⟨SLO, P0, h⟩ | ⟨what, h⟩
  · rw [h]
  · rw [h]

theorem compute_smoothness_ok (eigen_part : List K → Int → double_value K) (samples : List K)
    (scale : K) : ∃ v, compute_smoothness eigen_part samples scale = .ok v := by
  rw [compute_smoothness_eq]
  split
  · exact ⟨_, rfl⟩
  · exact ⟨_, rfl⟩

/-- Every sample list is a run of zeros, the trimmed list, and a run of zeros;
the trimmed list is empty or starts and ends with a nonzero sample. -/
theorem trim_decomposition (samples : List K) :
    ∃ k1 k2 : Nat,
      samples = List.replicate k1 0 ++ pop_trailing_zeros (erase_leading_zeros samples) ++
        List.replicate k2 0 ∧
      (pop_trailing_zeros (erase_leading_zeros samples) = [] ∨
        ((pop_trailing_zeros (erase_leading_zeros samples)).head? ≠ some 0 ∧
          (pop_trailing_zeros (erase_leading_zeros samples)).getLast? ≠ some 0)) := by
  unfold pop_trailing_zeros erase_leading_zeros
  generalize hz : (fun v : K => decide (v = 0)) = z
  have hz0 : ∀ v : K, z v = true → v = 0 := by
    intro v hv
    rw [← hz] at hv
    simpa using hv
  refine ⟨(samples.takeWhile z).length, ((samples.dropWhile z).rtakeWhile z).length, ?_, ?_⟩
  · rw [← eq_replicate_of_forall 0 _ (fun b hb => hz0 b (List.mem_takeWhile_imp hb)),
      ← eq_replicate_of_forall 0 _ (fun b hb => hz0 b (List.mem_rtakeWhile_imp hb)),
      List.append_assoc, rdropWhile_append_rtakeWhile, List.takeWhile_append_dropWhile]
  · by_cases hT : (samples.dropWhile z).rdropWhile z = []
    · exact Or.inl hT
    · refine Or.inr ⟨?_, ?_⟩
      · obtain ⟨t, ht⟩ := List.rdropWhile_prefix (p := z) (l := samples.dropWhile z)
        have hd := List.head?_dropWhile_not z samples
        rcases hT2 : (samples.dropWhile z).rdropWhile z with _ | ⟨c, cs⟩
        · exact absurd hT2 hT
        · rw [hT2] at ht
          rw [← ht] at hd
          simp only [List.cons_append, List.head?_cons] at hd ⊢
          intro e
          have e2 : c = 0 := Option.some.inj e
          rw [e2, ← hz] at hd
          simp at hd
      · have hl := List.rdropWhile_last_not (p := z) (l := samples.dropWhile z) hT
        rw [List.getLast?_eq_getLast _ hT]
        intro e
        have e2 := Option.some.inj e
        rw [e2, ← hz] at hl
        simp at hl

/-- Trimming a run of zeros, a list `core` and a run of zeros gives `core` when
`core` is empty or starts and ends with a nonzero sample. -/
theorem trim_of_core (core : List K) (k1 k2 : Nat)
    (h : core = [] ∨ (core.head? ≠ some 0 ∧ core.getLast? ≠ some 0)) :
    pop_trailing_zeros (erase_leading_zeros (List.replicate k1 0 ++ core ++ List.replicate k2 0)) =
      core := by
  unfold pop_trailing_zeros erase_leading_zeros
  have hp : (fun v : K => decide (v = 0)) 0 = true := by simp
  rw [List.append_assoc, dropWhile_replicate_append _ 0 hp]
  rcases h with rfl | ⟨h1, h2⟩
  · rw [List.nil_append]
    have := dropWhile_replicate_append (fun v : K => decide (v = 0)) 0 hp [] k2
    rw [List.append_nil] at this
    rw [this]
    rfl
  · rcases core with _ | ⟨c, cs⟩
    · have := dropWhile_replicate_append (fun v : K => decide (v = 0)) 0 hp [] k2
      rw [List.append_nil] at this
      rw [List.nil_append, this]
      rfl
    · have hc : c ≠ 0 := fun e => h1 (by rw [e]; rfl)
      rw [List.cons_append, List.dropWhile_cons_of_neg (by simpa using hc), ← List.cons_append,
        rdropWhile_append_replicate _ 0 hp]
      rw [List.rdropWhile_eq_self_iff]
      intro hl
      rw [List.getLast?_eq_getLast _ hl] at h2
      simpa using fun e => h2 (by rw [e])

/-- An all-zero sample list is trimmed to the empty mask and gives NaN. -/
theorem compute_smoothness_zero (eigen_part : List K → Int → double_value K)
    (samples : List K) (scale : K) (h : ∀ v ∈ samples, v = 0) :
    compute_smoothness eigen_part samples scale = .ok .nan := by
  rw [compute_smoothness_eq]
  have e : erase_leading_zeros samples = [] := by
    unfold erase_leading_zeros
    rw [List.dropWhile_eq_nil_iff]
    intro v hv
    simpa using h v hv
  obtain ⟨what, hw⟩ := sumruleorder_nil (K := K)
  rw [e]
  simp only [pop_trailing_zeros, List.rdropWhile_nil, List.map_nil, hw]

end AnalyzerLemmas

/-! ## The constructor -/

theorem set_back_mask_snoc {K : Type} (pre : List (lifting_step K)) (t : lifting_step_type)
    (m mask : List K) :
    set_back_mask (pre ++ [⟨t, m⟩]) mask =
      pre ++ [⟨t, mask⟩] := by
  simp [set_back_mask]

section ProbeLemmas

variable {K : Type} [Field K]

open lifting

theorem inverse_custom_snoc (x : List K) (n level : Nat) (pre : List (lifting_step K))
    (s : lifting_step K) :
    inverse_custom x n level (pre ++ [s]) =
      (inverse_custom_step x n level s).bind fun y => inverse_custom y n level pre := by
  unfold inverse_custom
  rw [List.reverse_append, List.reverse_singleton, List.singleton_append]
  rfl

theorem total_inverse_custom_biorthogonal (n level : Nat) (hdiv : 2 ^ (level + 1) ∣ n)
    (custom_steps : List (lifting_step K)) :
    Total n (fun x => inverse_custom_biorthogonal x n level custom_steps) := by
  intro x hx
  simp only [inverse_custom_biorthogonal, run_steps_map_dual]
  exact total_run_steps inverse_custom_step n level
    (fun s => total_inverse_custom_step n level s hdiv) _ x hx

theorem current_sum_total (steps : List (lifting_step K)) :
    ∃ r, inverse_custom (probe 17) 32 0 steps = some r ∧ r.length = 32 ∧
      current_sum steps = some (accumulate r) := by
  obtain ⟨r, h1, h2⟩ := total_inverse_custom 32 0 (by decide) steps (probe 17) (probe_length 17)
  exact ⟨r, h1, h2, by simp only [current_sum, h1, Option.map_some']⟩

theorem after_update_sum_total (steps : List (lifting_step K)) :
    ∃ z r, iupdate (probe 17) 32 [1, 1] 0 1 false = some z ∧ z.length = 32 ∧
      inverse_custom z 32 0 steps = some r ∧ r.length = 32 ∧
      after_update_sum steps = some (accumulate r) := by
  obtain ⟨z, h1, h2⟩ := iupdate_total32 (probe 17 : List K) [1, 1] (probe_length 17)
  obtain ⟨r, h3, h4⟩ := total_inverse_custom 32 0 (by decide) steps z h2
  exact ⟨z, r, h1, h2, h3, h4, by
    simp only [after_update_sum, h1, Option.some_bind, h3, Option.map_some']⟩

theorem compute_vanishing_moment_total (steps : List (lifting_step K)) :
    ∃ c a, current_sum steps = some c ∧ after_update_sum steps = some a ∧
      compute_vanishing_moment steps = some (-c / (a - c)) := by
  obtain ⟨r, -, -, h1⟩ := current_sum_total steps
  obtain ⟨z, r2, -, -, -, -, h2⟩ := after_update_sum_total steps
  exact ⟨_, _, h1, h2, by
    simp only [compute_vanishing_moment, h1, h2, Option.some_bind, Option.map_some']⟩

/-- With the trailing update mask `[α, β, β, α]` the sum of the probe response
is `current + β * (after - current)`, where `current` and `after` are the two
sums `compute_vanishing_moment` forms with the mask `[α, 0, 0, α]`. -/
theorem probe_sum_affine (pre : List (lifting_step K)) (α β : K) :
    ∃ c a r, current_sum (pre ++ [⟨.lst_update, [α, 0, 0, α]⟩]) = some c ∧
      after_update_sum (pre ++ [⟨.lst_update, [α, 0, 0, α]⟩]) = some a ∧
      inverse_custom (probe 17) 32 0 (pre ++ [⟨.lst_update, [α, β, β, α]⟩]) =
        some r ∧
      accumulate r = c + β * (a - c) := by
  obtain ⟨yA, yB, z, yC, hA, hB, hZ, hC, lA, lB, lC, e⟩ :=
    iupdate_identity (probe 17 : List K) (probe_length 17) α β
  obtain ⟨rB, hrB, lrB⟩ := total_inverse_custom 32 0 (by decide) pre yB lB
  obtain ⟨rC, hrC, lrC⟩ := total_inverse_custom 32 0 (by decide) pre yC lC
  have hrA := linear_inverse_custom 32 0 pre (1 - β) β yB yC rB rC hrB hrC
  rw [← e] at hrA
  refine ⟨accumulate rB, accumulate rC, comb (1 - β) β rB rC, ?_, ?_, ?_, ?_⟩
  · simp only [current_sum, inverse_custom_snoc, inverse_custom_step, hB, Option.some_bind, hrB,
      Option.map_some']
  · simp only [after_update_sum, hZ, Option.some_bind, inverse_custom_snoc, inverse_custom_step,
      hC, hrC, Option.map_some']
  · simp only [inverse_custom_snoc, inverse_custom_step, hA, Option.some_bind]
    exact hrA
  · rw [accumulate_comb _ _ _ _ (by rw [lrB, lrC])]
    ring

end ProbeLemmas

section ConstructorLemmas

variable {K : Type} [LinearOrderedField K]

theorem _compute_smoothness_ok (eigen_part : List K → Int → double_value K)
    (steps : List (lifting_step K)) :
    ∃ s d sob sob_dual, primal_samples steps = some s ∧ dual_samples steps = some d ∧
      compute_smoothness eigen_part s 1 = .ok sob ∧
      compute_smoothness eigen_part d 2 = .ok sob_dual ∧
      _compute_smoothness eigen_part steps = .ok (sob, sob_dual) := by
  obtain ⟨s, h1, -⟩ := total_inverse_custom 32 0 (by decide) steps (probe 16) (probe_length 16)
  obtain ⟨d, h2, -⟩ := total_inverse_custom_biorthogonal 32 0 (by decide) steps (probe 16)
    (probe_length 16)
  obtain ⟨sob, h3⟩ := compute_smoothness_ok eigen_part s 1
  obtain ⟨sob_dual, h4⟩ := compute_smoothness_ok eigen_part d 2
  refine ⟨s, d, sob, sob_dual, h1, h2, h3, h4, ?_⟩
  have e1 : primal_samples steps = some s := h1
  have e2 : dual_samples steps = some d := h2
  simp only [_compute_smoothness, e1, e2, defined, h3, h4]

theorem do_construction_eq (eigen_part : List K → Int → double_value K) (alpha : K)
    (pre : List (lifting_step K)) (m : List K) (hm : m.length = 4) :
    do_construction eigen_part alpha (pre ++ [⟨.lst_update, m⟩]) =
      match defined (compute_vanishing_moment
          (pre ++ [⟨.lst_update, [alpha, 0, 0, alpha]⟩])) with
      | .error e => .error e
      | .ok vm =>
        match _compute_smoothness eigen_part
            (pre ++ [⟨.lst_update, [alpha, vm, vm, alpha]⟩]) with
        | .error e => .error e
        | .ok (sob, sob_dual) =>
          .ok (pre ++ [⟨.lst_update, [alpha, vm, vm, alpha]⟩], sob, sob_dual) := by
  obtain ⟨a, b, c, d, rfl⟩ : ∃ a b c d, m = [a, b, c, d] := by
    rcases m with _ | ⟨a, _ | ⟨b, _ | ⟨c, _ | ⟨d, _ | ⟨e, r⟩⟩⟩⟩⟩
    all_goals first
      | exact ⟨_, _, _, _, rfl⟩
      | (simp at hm)
  have hl : (pre ++ [(⟨.lst_update, [a, b, c, d]⟩ : lifting_step K)]).getLast? =
      some ⟨.lst_update, [a, b, c, d]⟩ := by simp
  simp only [do_construction, hl, ne_eq, not_true_eq_false, if_false, List.length_cons,
    List.length_nil, Nat.reduceAdd, Nat.lt_irrefl, List.set_cons_zero, List.set_cons_succ,
    set_back_mask_snoc]

/-- On the list `construct_stable_wavelet` works on, `do_construction` returns:
the trailing mask becomes `[α, β, β, α]` with `β = -current / (after - current)`,
whatever the mask held before. -/
theorem do_construction_ok (eigen_part : List K → Int → double_value K) (alpha : K)
    (pre : List (lifting_step K)) (m : List K) (hm : m.length = 4) :
    ∃ c a sob sob_dual,
      current_sum (pre ++ [⟨.lst_update, [alpha, 0, 0, alpha]⟩]) = some c ∧
      after_update_sum (pre ++ [⟨.lst_update, [alpha, 0, 0, alpha]⟩]) =
        some a ∧
      _compute_smoothness eigen_part
          (pre ++ [⟨.lst_update, [alpha, -c / (a - c), -c / (a - c), alpha]⟩]) =
        .ok (sob, sob_dual) ∧
      do_construction eigen_part alpha (pre ++ [⟨.lst_update, m⟩]) =
        .ok (pre ++ [⟨.lst_update, [alpha, -c / (a - c), -c / (a - c), alpha]⟩], sob, sob_dual) := by
  obtain ⟨c, a, h1, h2, h3⟩ := compute_vanishing_moment_total
    (pre ++ [⟨.lst_update, [alpha, 0, 0, alpha]⟩])
  obtain ⟨-, -, sob, sob_dual, -, -, -, -, h4⟩ := _compute_smoothness_ok eigen_part
    (pre ++ [⟨.lst_update, [alpha, -c / (a - c), -c / (a - c), alpha]⟩])
  refine ⟨c, a, sob, sob_dual, h1, h2, h4, ?_⟩
  rw [do_construction_eq eigen_part alpha pre m hm, h3]
  simp only [defined, h4]

theorem do_construction_candidate (eigen_part : List K → Int → double_value K) (alpha : K)
    (pre : List (lifting_step K)) (m : List K) (hm : m.length = 4) :
    do_construction eigen_part alpha (pre ++ [⟨.lst_update, m⟩]) =
      candidate eigen_part pre alpha := by
  unfold candidate
  rw [do_construction_eq eigen_part alpha pre m hm,
    do_construction_eq eigen_part alpha pre _ (by simp)]

end ConstructorLemmas

section Sweep

variable {K : Type} [LinearOrderedField K]

theorem double_value.gt_irrefl (a : double_value K) : a.gt a = false := by
  cases a <;> simp [double_value.gt]

theorem double_value.gt_trans (a b c : double_value K) (h1 : a.gt b = true)
    (h2 : b.gt c = true) : a.gt c = true := by
  cases a <;> cases b <;> cases c <;> simp [double_value.gt] at h1 h2 ⊢
  exact lt_trans h2 h1

theorem double_value.gt_of_not_gt (a b c : double_value K) (h1 : a.gt b = true)
    (h2 : c.gt b = false) (h3 : c.eq_self = true) : a.gt c = true := by
  cases a <;> cases b <;> cases c <;> simp [double_value.gt, double_value.eq_self] at h1 h2 h3 ⊢
  exact lt_of_le_of_lt h2 h1

theorem double_value.not_gt_of_not_gt (a b c : double_value K) (h1 : b.gt c = true)
    (h2 : a.gt c = false) : a.gt b = false := by
  by_contra h
  have h3 : a.gt b = true := by simpa using h
  have := double_value.gt_trans a b c h3 h1
  rw [h2] at this
  exact absurd this (by simp)

theorem alpha_of_zero : (alpha_of 0 : K) = -2 := by
  simp [alpha_of]

theorem alpha_of_succ (k : Nat) : (alpha_of (k + 1) : K) = alpha_of k + 1 / 10 ^ 4 := by
  simp only [alpha_of]
  push_cast
  ring

theorem alpha_of_le_two (k : Nat) : (alpha_of k : K) ≤ 2 ↔ k ≤ 40000 := by
  unfold alpha_of
  rw [← le_sub_iff_add_le', div_le_iff₀ (by positivity)]
  have e : ((2 : K) - -2) * 10 ^ 4 = ((40000 : Nat) : K) := by norm_num
  rw [e, Nat.cast_le]

theorem alpha_of_ge (k : Nat) : (-2 : K) ≤ alpha_of k := by
  unfold alpha_of
  have : (0 : K) ≤ (k : K) / 10 ^ 4 := by positivity
  linarith

theorem candidate_ok (eigen_part : List K → Int → double_value K) (pre : List (lifting_step K))
    (alpha : K) :
    ∃ c a sob sob_dual,
      current_sum (pre ++ [⟨.lst_update, [alpha, 0, 0, alpha]⟩]) = some c ∧
      after_update_sum (pre ++ [⟨.lst_update, [alpha, 0, 0, alpha]⟩]) = some a ∧
      _compute_smoothness eigen_part
          (pre ++ [⟨.lst_update, [alpha, -c / (a - c), -c / (a - c), alpha]⟩]) =
        .ok (sob, sob_dual) ∧
      candidate eigen_part pre alpha =
        .ok (pre ++ [⟨.lst_update, [alpha, -c / (a - c), -c / (a - c), alpha]⟩], sob, sob_dual) :=
  do_construction_ok eigen_part alpha pre _ (by simp)

theorem sweep_spec (eigen_part : List K → Int → double_value K) (pre : List (lifting_step K)) :
    ∀ (fuel k : Nat), k + fuel = 40001 → ∀ (m : List K) (best : K) (d : double_value K),
      m.length = 4 → sweep_invariant eigen_part pre k best d →
      ∃ m1 best1 d1,
        sweep eigen_part fuel (alpha_of k) (pre ++ [⟨.lst_update, m⟩]) best d =
          .ok (pre ++ [⟨.lst_update, m1⟩], best1, d1) ∧
        m1.length = 4 ∧ sweep_invariant eigen_part pre 40001 best1 d1 := by
  intro fuel
  induction fuel with
  | zero =>
    intro k hk m best d hm hinv
    have hk2 : k = 40001 := by omega
    subst hk2
    have hgt : ¬ (alpha_of 40001 : K) ≤ 2 := by
      rw [alpha_of_le_two]
      omega
    exact ⟨m, best, d, by simp only [sweep, if_neg hgt], hm, hinv⟩
  | succ fuel ih =>
    intro k hk m best d hm hinv
    have hle : (alpha_of k : K) ≤ 2 := (alpha_of_le_two k).mpr (by omega)
    obtain ⟨c, a, sob, dual, -, -, -, hc⟩ := candidate_ok eigen_part pre (alpha_of k : K)
    have hdo := do_construction_candidate eigen_part (alpha_of k : K) pre m hm
    rw [hc] at hdo
    have hsob : candidate_sob eigen_part pre k = sob := by
      simp only [candidate_sob, hc]
    have hdual : candidate_dual eigen_part pre k = dual := by
      simp only [candidate_dual, hc]
    have helig : eligible eigen_part pre k = (dual.eq_self && sob.eq_self) := by
      simp only [eligible, hsob, hdual]
    simp only [sweep, if_pos hle, hdo, ← alpha_of_succ]
    by_cases h1 : (dual.eq_self && sob.eq_self) = true
    · by_cases h2 : dual.gt d = true
      · rw [if_pos h1, if_pos h2]
        apply ih (k + 1) (by omega) _ _ _ (by simp)
        refine Or.inr ⟨k, by omega, rfl, hdual.symm, by rw [helig]; exact h1, ?_, ?_, ?_⟩
        · rw [hdual]
          rcases hinv with ⟨e1, -, -⟩ | ⟨w, -, -, e2, -, e4, -, -⟩
          · rw [← e1]; exact h2
          · rw [e2] at h2
            exact double_value.gt_trans _ _ _ h2 e4
        · intro j hj hej
          rcases Nat.lt_succ_iff_lt_or_eq.mp hj with hlt | rfl
          · rw [hdual]
            rcases hinv with ⟨e1, -, e3⟩ | ⟨w, -, -, e2, -, -, e5, -⟩
            · exact double_value.not_gt_of_not_gt _ _ _ (by rw [← e1]; exact h2) (e3 j hlt hej)
            · exact double_value.not_gt_of_not_gt _ _ _ (by rw [← e2]; exact h2) (e5 j hlt hej)
          · exact double_value.gt_irrefl _
        · intro j hj hej
          have hjs : (candidate_dual eigen_part pre j).eq_self = true := by
            simp only [eligible, Bool.and_eq_true] at hej
            exact hej.1
          rw [hdual]
          rcases hinv with ⟨e1, -, e3⟩ | ⟨w, -, -, e2, -, -, e5, -⟩
          · exact double_value.gt_of_not_gt _ _ _ (by rw [← e1]; exact h2) (e3 j hj hej) hjs
          · exact double_value.gt_of_not_gt _ _ _ (by rw [← e2]; exact h2) (e5 j hj hej) hjs
      · rw [if_pos h1, if_neg h2]
        apply ih (k + 1) (by omega) _ _ _ (by simp)
        have h2f : dual.gt d = false := by simpa using h2
        rcases hinv with ⟨e1, e2, e3⟩ | ⟨w, e0, e1, e2, e3, e4, e5, e6⟩
        · refine Or.inl ⟨e1, e2, ?_⟩
          intro j hj hej
          rcases Nat.lt_succ_iff_lt_or_eq.mp hj with hlt | rfl
          · exact e3 j hlt hej
          · rw [hdual, ← e1]; exact h2f
        · refine Or.inr ⟨w, by omega, e1, e2, e3, e4, ?_, e6⟩
          intro j hj hej
          rcases Nat.lt_succ_iff_lt_or_eq.mp hj with hlt | rfl
          · exact e5 j hlt hej
          · rw [hdual, ← e2]; exact h2f
    · rw [if_neg h1]
      apply ih (k + 1) (by omega) _ _ _ (by simp)
      have hne : ¬ eligible eigen_part pre k = true := by rw [helig]; exact h1
      rcases hinv with ⟨e1, e2, e3⟩ | ⟨w, e0, e1, e2, e3, e4, e5, e6⟩
      · refine Or.inl ⟨e1, e2, ?_⟩
        intro j hj hej
        rcases Nat.lt_succ_iff_lt_or_eq.mp hj with hlt | rfl
        · exact e3 j hlt hej
        · exact absurd hej hne
      · refine Or.inr ⟨w, by omega, e1, e2, e3, e4, ?_, e6⟩
        intro j hj hej
        rcases Nat.lt_succ_iff_lt_or_eq.mp hj with hlt | rfl
        · exact e5 j hlt hej
        · exact absurd hej hne

/-- The winner of `construct_stable_wavelet`: the call returns what
`do_construction` returns for the `w`-th `alpha`, where either no eligible
candidate has a dual smoothness above the initial `-1e12` and `w = 0`, or `w`
is the earliest eligible candidate of maximal dual smoothness. -/
theorem construct_spec (eigen_part : List K → Int → double_value K)
    (pre : List (lifting_step K)) :
    ∃ w, w ≤ 40000 ∧
      construct_stable_wavelet eigen_part pre = candidate eigen_part pre (alpha_of w) ∧
      ((w = 0 ∧ ∀ j, j ≤ 40000 → eligible eigen_part pre j = true →
          (candidate_dual eigen_part pre j).gt sentinel = false) ∨
        (eligible eigen_part pre w = true ∧
          (candidate_dual eigen_part pre w).gt sentinel = true ∧
          (∀ j, j ≤ 40000 → eligible eigen_part pre j = true →
            (candidate_dual eigen_part pre j).gt (candidate_dual eigen_part pre w) = false) ∧
          ∀ j, j < w → eligible eigen_part pre j = true →
            (candidate_dual eigen_part pre w).gt (candidate_dual eigen_part pre j) = true)) := by
  obtain ⟨m1, best1, d1, h1, h2, h3⟩ := sweep_spec eigen_part pre 40001 0 rfl
    (List.replicate 4 0) (alpha_of 0) sentinel (by simp)
    (Or.inl ⟨rfl, rfl, fun j hj => absurd hj (by omega)⟩)
  rw [alpha_of_zero] at h1
  have hc : construct_stable_wavelet eigen_part pre = candidate eigen_part pre best1 := by
    have h1' : sweep eigen_part 40001 (-2)
        (pre ++ [{ type := .lst_update, mask := List.replicate 4 0 }]) (-2)
        (.finite (-1000000000000)) = .ok (pre ++ [⟨.lst_update, m1⟩], best1, d1) := h1
    simp only [construct_stable_wavelet, h1']
    exact do_construction_candidate eigen_part best1 pre m1 h2
  rcases h3 with ⟨-, e2, e3⟩ | ⟨w, e0, e1, -, e3, e4, e5, e6⟩
  · exact ⟨0, by omega, by rw [hc, e2], Or.inl ⟨rfl, fun j hj => e3 j (by omega)⟩⟩
  · exact ⟨w, by omega, by rw [hc, e1], Or.inr ⟨e3, e4, fun j hj => e5 j (by omega), e6⟩⟩

end Sweep

section CounterLemmas

variable {K : Type} [LinearOrderedField K]

theorem sumruleorder_rejects (p : List K)
    (h : |p.sum / 2 - 1| > 1 / 10 ^ 4 ∨
      |(∑ j in Finset.range p.length, (-1) ^ j * p.getD j 0) / 2| > 1 / 10 ^ 8) :
    ∃ what, sumruleorder p = .error (.logic_error what) := by
  rw [← PP_zero, ← PP_one_range] at h
  by_cases h0 : |PP p 0 - 1| > 1 / 10 ^ 4
  · exact ⟨"P0 does not satisfy condition E", by simp only [sumruleorder, if_pos h0]⟩
  · rcases h with h | h
    · exact absurd h h0
    · exact ⟨"Mask does not satisfy the sum rule of order 1", by
        simp only [sumruleorder, if_neg h0, if_pos h]⟩

theorem probe_16_eq : (probe 16 : List K) = List.replicate 16 0 ++ [1] ++ List.replicate 15 0 :=
  rfl

theorem compute_smoothness_probe_16 (eigen_part : List K → Int → double_value K) :
    compute_smoothness eigen_part (probe 16) 1 = .ok .nan := by
  rw [compute_smoothness_eq, probe_16_eq, trim_of_core [1] 16 15 (Or.inr ⟨by simp, by simp⟩)]
  obtain ⟨what, hw⟩ := sumruleorder_rejects ([(1 : K)].map fun p => p * 1) (Or.inl (by
    simp only [List.map_cons, List.map_nil, List.sum_cons, List.sum_nil]
    rw [abs_sub_comm, abs_of_pos] <;> norm_num))
  rw [hw]

/-- With no step before the appended update step the primal smoothness is NaN
for every `alpha`: the `iupdate` leaves the unit impulse at 16 as it is, and
the one-entry mask `[1]` fails condition E. -/
theorem candidate_sob_nil (eigen_part : List K → Int → double_value K) (k : Nat) :
    candidate_sob eigen_part [] k = .nan := by
  obtain ⟨c, a, sob, dual, -, -, h3, h4⟩ := candidate_ok eigen_part [] (alpha_of k : K)
  obtain ⟨s, d, sob1, dual1, k1, -, k3, -, k5⟩ := _compute_smoothness_ok eigen_part
    ([] ++ [(⟨.lst_update, [alpha_of k, -c / (a - c), -c / (a - c), alpha_of k]⟩ :
      lifting_step K)])
  rw [h3] at k5
  have e1 : sob = sob1 := by
    have := Except.ok.inj k5
    exact (Prod.mk.inj this).1
  have e2 : s = probe 16 := by
    have hp : primal_samples ([] ++ [(⟨.lst_update,
        [alpha_of k, -c / (a - c), -c / (a - c), alpha_of k]⟩ : lifting_step K)]) =
        some (probe 16) := by
      simp only [primal_samples, inverse_custom_snoc, inverse_custom_step, iupdate_probe_16,
        Option.some_bind]
      rfl
    rw [hp] at k1
    exact (Option.some.inj k1).symm
  rw [e2, compute_smoothness_probe_16] at k3
  simp only [candidate_sob, h4, e1]
  exact (Except.ok.inj k3).symm

theorem eligible_nil (eigen_part : List K → Int → double_value K) (k : Nat) :
    eligible eigen_part [] k = false := by
  simp [eligible, candidate_sob_nil, double_value.eq_self]

theorem construct_nil (eigen_part : List K → Int → double_value K) :
    construct_stable_wavelet eigen_part [] = candidate eigen_part [] (-2) := by
  obtain ⟨w, -, h1, h2⟩ := construct_spec eigen_part []
  rcases h2 with ⟨rfl, -⟩ | ⟨h3, -⟩
  · rw [h1, alpha_of_zero]
  · rw [eligible_nil] at h3
    exact absurd h3 (by simp)

end CounterLemmas

theorem candidate_nil_rat (eigen_part : List ℚ → Int → double_value ℚ) :
    candidate eigen_part [] (-2) =
      .ok ([⟨.lst_update, [-2, 5 / 2, 5 / 2, -2]⟩], .nan, .nan) := by
  have hvm : compute_vanishing_moment
      ([] ++ [(⟨.lst_update, [-2, 0, 0, -2]⟩ : lifting_step ℚ)]) = some (5 / 2) := by decide!
  have hp : primal_samples ([] ++ [(⟨.lst_update, [-2, 5 / 2, 5 / 2, -2]⟩ : lifting_step ℚ)]) =
      some (probe 16) := by decide!
  have hd : dual_samples ([] ++ [(⟨.lst_update, [-2, 5 / 2, 5 / 2, -2]⟩ : lifting_step ℚ)]) =
      some [0, 0, 0, 0, 0, 0, 0, 0, 0, 0, 0, 0, 0, -2, 0, 5 / 2, 1, 5 / 2, 0, -2, 0, 0, 0, 0, 0, 0,
        0, 0, 0, 0, 0, 0] := by decide!
  have hs : sumruleorder ((pop_trailing_zeros (erase_leading_zeros
      ([0, 0, 0, 0, 0, 0, 0, 0, 0, 0, 0, 0, 0, -2, 0, 5 / 2, 1, 5 / 2, 0, -2, 0, 0, 0, 0, 0, 0,
        0, 0, 0, 0, 0, 0] : List ℚ))).map fun p => p * 2) =
      .error (.logic_error "P0 does not satisfy condition E") := by decide!
  unfold candidate
  rw [do_construction_eq eigen_part (-2) [] _ (by simp), hvm]
  simp only [defined, _compute_smoothness, hp, hd, compute_smoothness_probe_16]
  simp only [compute_smoothness_eq, hs, List.nil_append]

/-! ## Cell-by-cell description of the predict and update passes -/

section PassClosed

variable {K : Type} [Field K]

open lifting

theorem stencil_eq_sum (s : List K) (stride : Nat) (coeff : Int → Int) :
    ∀ (ms : List K) (j : Int) (acc r : K), stencil s stride coeff ms j acc = some r →
      r = acc + ∑ k in Finset.range ms.length,
        ms.getD k 0 * s.getD (coeff (j + k) * stride).toNat 0
  | [], _, acc, r, h => by
    simp only [stencil, Option.some.injEq] at h
    simp [h]
  | m :: ms, j, acc, r, h => by
    simp only [stencil] at h
    rcases hv : rd s (coeff j * stride) with _ | v
    · simp [hv] at h
    simp only [hv, Option.some_bind] at h
    have ih := stencil_eq_sum s stride coeff ms (j + 1) _ r h
    have hg : s.getD (coeff j * stride).toNat 0 = v := by
      obtain ⟨h0, h1⟩ := (rd_eq_some_iff s _ v).mp hv
      rw [List.getD_eq_getElem?_getD, h1]
      rfl
    rw [ih, List.length_cons, Finset.sum_range_succ']
    simp only [List.getD_cons_succ, List.getD_cons_zero, Nat.cast_zero, add_zero, hg,
      Nat.cast_add, Nat.cast_one]
    have e : ∀ k : Nat, j + 1 + (k : Int) = j + ((k : Int) + 1) := fun k => by ring
    simp only [e]
    ring

theorem update_closed (op : K → K → K) (x y mask : List K) (n level stride M : Nat) (cyc : Bool)
    (hs : 1 ≤ stride) (hn : n = M * 2 ^ (level + 1))
    (h : for_loop (lift_body op stride mask (update_coeff n mask.length level cyc)
      (update_target level)) M 1 M (update_start cyc) x = some y) :
    y.length = x.length ∧
      (∀ q : Int, (∀ a : Int, update_start cyc ≤ a → a < M →
        q ≠ update_target level a * stride) → rd y q = rd x q) ∧
      ∀ a : Int, update_start cyc ≤ a → a < M →
        ∃ acc old, stencil x stride (update_coeff n mask.length level cyc a) mask 0 0 =
            some acc ∧
          rd x (update_target level a * stride) = some old ∧
          rd y (update_target level a * stride) = some (op old acc) := by
  obtain ⟨hl, hp⟩ := for_loop_preserve op stride mask _ _ M 1 zero_le_one M _ x y h
  refine ⟨hl, hp, ?_⟩
  refine for_loop_target op stride mask _ _ M M _ x y ?_ ?_ h
  · intro a b j _ _ _ _ _ _
    obtain ⟨c, hc, -, -⟩ := update_coeff_spec n mask.length level M cyc hn a j
    rw [hc]
    unfold update_target
    exact (odd_ne_even level stride hs b c).symm
  · intro a b _ _ _ _ hab e
    unfold update_target at e
    exact hab (mul_left_inj_pos (level + 1) stride hs _ _ e)

theorem predict_closed (op : K → K → K) (x y mask : List K) (n level stride M : Nat)
    (cyc : Bool) (hs : 1 ≤ stride) (hn : n = M * 2 ^ (level + 1))
    (h : for_loop (lift_body op stride mask (predict_coeff n mask.length level cyc)
      (predict_target level)) M 1 M 0 x = some y) :
    y.length = x.length ∧
      (∀ q : Int, (∀ a : Int, 0 ≤ a → a < M →
        q ≠ predict_target level a * stride) → rd y q = rd x q) ∧
      ∀ a : Int, 0 ≤ a → a < M →
        ∃ acc old, stencil x stride (predict_coeff n mask.length level cyc a) mask 0 0 =
            some acc ∧
          rd x (predict_target level a * stride) = some old ∧
          rd y (predict_target level a * stride) = some (op old acc) := by
  obtain ⟨hl, hp⟩ := for_loop_preserve op stride mask _ _ M 1 zero_le_one M _ x y h
  refine ⟨hl, hp, ?_⟩
  refine for_loop_target op stride mask _ _ M M _ x y ?_ ?_ h
  · intro a b j _ _ _ _ _ _
    obtain ⟨c, hc, -, -⟩ := predict_coeff_spec n mask.length level M cyc hn a j
    rw [hc]
    unfold predict_target
    have := odd_ne_even level stride hs c b
    intro e
    apply this
    rw [e]; ring
  · intro a b _ _ _ _ hab e
    unfold predict_target at e
    have := mul_left_inj_pos level stride hs _ _ e
    omega

theorem update_returns (op : K → K → K) (x mask : List K) (n level stride M : Nat)
    (cyc : Bool) (hn : n = M * 2 ^ (level + 1))
    (hbuf : ∀ idx : Nat, idx < n → idx * stride < x.length)
    (hm : cyc = true → mask.length ≤ 2 * M) :
    ∃ y, for_loop (lift_body op stride mask (update_coeff n mask.length level cyc)
      (update_target level)) M 1 M (update_start cyc) x = some y := by
  have hnZ : (n : Int) = (M : Int) * 2 ^ (level + 1) := by rw [hn]; push_cast; ring
  have hP : (0 : Int) < 2 ^ level := by positivity
  have hst : 0 ≤ update_start cyc := by unfold update_start; split <;> omega
  refine for_loop_isSome op stride mask (update_coeff n mask.length level cyc)
    (update_target level) M 1 one_pos M (update_start cyc) x (by omega) ?_
  intro a ha1 ha2
  have ha0 : 0 ≤ a := le_trans hst ha1
  constructor
  · apply pos_bound x n stride hbuf
    · unfold update_target; positivity
    · unfold update_target
      rw [hnZ]
      exact mul_lt_mul_of_pos_right ha2 (by positivity)
  · intro j hj1 hj2
    obtain ⟨c, hc, hc1, hc2⟩ := update_coeff_spec n mask.length level M cyc hn a j
    rw [hc]
    have hcb : 0 ≤ c ∧ c < M := by
      cases cyc with
      | true => exact hc2 rfl ha0 ha2 hj1 hj2 (hm rfl)
      | false => exact hc1 rfl (by omega)
    apply pos_bound x n stride hbuf
    · exact mul_nonneg (by omega) (by positivity)
    · rw [hnZ, pow_succ]
      nlinarith

theorem predict_returns (op : K → K → K) (x mask : List K) (n level stride M : Nat)
    (cyc : Bool) (hn : n = M * 2 ^ (level + 1))
    (hbuf : ∀ idx : Nat, idx < n → idx * stride < x.length)
    (hm : cyc = true → mask.length ≤ 2 * M) :
    ∃ y, for_loop (lift_body op stride mask (predict_coeff n mask.length level cyc)
      (predict_target level)) M 1 M 0 x = some y := by
  have hnZ : (n : Int) = (M : Int) * 2 ^ (level + 1) := by rw [hn]; push_cast; ring
  have hP : (0 : Int) < 2 ^ level := by positivity
  refine for_loop_isSome op stride mask (predict_coeff n mask.length level cyc)
    (predict_target level) M 1 one_pos M 0 x (by omega) ?_
  intro a ha1 ha2
  constructor
  · apply pos_bound x n stride hbuf
    · unfold predict_target; positivity
    · unfold predict_target
      rw [hnZ, pow_succ]
      nlinarith
  · intro j hj1 hj2
    obtain ⟨c, hc, hc1, hc2⟩ := predict_coeff_spec n mask.length level M cyc hn a j
    rw [hc]
    have hcb : 0 ≤ c ∧ c < M := by
      cases cyc with
      | true => exact hc2 rfl ha1 ha2 hj1 hj2 (hm rfl)
      | false => exact hc1 rfl (by omega)
    apply pos_bound x n stride hbuf
    · exact mul_nonneg hcb.1 (by positivity)
    · rw [hnZ]
      exact mul_lt_mul_of_pos_right hcb.2 (by positivity)

/-- The update loop with the operation `op`, cell by cell: the even sample
number `k` (from 0 in cyclic mode, from 1 otherwise) becomes `op` of its old
value and the response `Σ_j mask[j] * x[tap j]`; every other cell stays. -/
theorem update_response (op : K → K → K) (x mask : List K) (n level stride : Nat) (cyc : Bool)
    (hs : 1 ≤ stride) (hdiv : 2 ^ (level + 1) ∣ n)
    (hbuf : ∀ idx : Nat, idx < n → idx * stride < x.length)
    (hm : cyc = true → mask.length * 2 ^ level ≤ n) :
    ∃ y, for_loop (lift_body op stride mask (update_coeff n mask.length level cyc)
        (update_target level)) (n >>> (level + 1) : Nat) 1 (n >>> (level + 1))
        (update_start cyc) x = some y ∧ y.length = x.length ∧
      (∀ k : Nat, (if cyc then 0 else 1) ≤ k → k < n / 2 ^ (level + 1) →
        ∃ old : K, x[k * 2 ^ (level + 1) * stride]? = some old ∧
          y[k * 2 ^ (level + 1) * stride]? = some (op old
            (∑ j in Finset.range mask.length, mask.getD j 0 *
              x.getD (update_coeff n mask.length level cyc k j * stride).toNat 0))) ∧
      ∀ p : Nat, (∀ k : Nat, (if cyc then 0 else 1) ≤ k → k < n / 2 ^ (level + 1) →
        p ≠ k * 2 ^ (level + 1) * stride) → y[p]? = x[p]? := by
  have hn : n = n / 2 ^ (level + 1) * 2 ^ (level + 1) := (Nat.div_mul_cancel hdiv).symm
  rw [Nat.shiftRight_eq_div_pow]
  obtain ⟨y, hy⟩ := update_returns op x mask n level stride (n / 2 ^ (level + 1)) cyc hn hbuf
    (fun hc => mask_bound n level _ hdiv (hm hc))
  obtain ⟨h1, h2, h3⟩ := update_closed op x y mask n level stride _ cyc hs hn hy
  have hstart : update_start cyc = ((if cyc then 0 else 1 : Nat) : Int) := by
    unfold update_start
    cases cyc <;> simp
  have htg : ∀ k : Nat, update_target level (k : Int) * (stride : Int) =
      ((k * 2 ^ (level + 1) * stride : Nat) : Int) := by
    intro k
    simp only [update_target]
    push_cast
    ring
  refine ⟨y, hy, h1, ?_, ?_⟩
  · intro k hk1 hk2
    obtain ⟨acc, old, a1, a2, a3⟩ := h3 (k : Int) (by rw [hstart]; exact_mod_cast hk1)
      (by exact_mod_cast hk2)
    rw [htg, rd_natCast] at a2 a3
    have e := stencil_eq_sum x stride _ mask 0 0 acc a1
    simp only [zero_add] at e
    exact ⟨old, a2, by rw [a3, e]⟩
  · intro p hp
    have := h2 (p : Int) (fun a ha1 ha2 => by
      have ha0 : 0 ≤ a := by
        rw [hstart] at ha1
        exact le_trans (by positivity) ha1
      obtain ⟨k, rfl⟩ := Int.eq_ofNat_of_zero_le ha0
      rw [htg]
      have := hp k (by rw [hstart] at ha1; exact_mod_cast ha1) (by exact_mod_cast ha2)
      exact_mod_cast this)
    rwa [rd_natCast, rd_natCast] at this

/-- The predict loop with the operation `op`, cell by cell: the odd sample
number `k` becomes `op` of its old value and the response
`Σ_j mask[j] * x[tap j]`; every other cell stays. -/
theorem predict_response (op : K → K → K) (x mask : List K) (n level stride : Nat) (cyc : Bool)
    (hs : 1 ≤ stride) (hdiv : 2 ^ (level + 1) ∣ n)
    (hbuf : ∀ idx : Nat, idx < n → idx * stride < x.length)
    (hm : cyc = true → mask.length * 2 ^ level ≤ n) :
    ∃ y, for_loop (lift_body op stride mask (predict_coeff n mask.length level cyc)
        (predict_target level)) (n >>> (level + 1) : Nat) 1 (n >>> (level + 1)) 0 x = some y ∧
      y.length = x.length ∧
      (∀ k : Nat, k < n / 2 ^ (level + 1) →
        ∃ old : K, x[(2 * k + 1) * 2 ^ level * stride]? = some old ∧
          y[(2 * k + 1) * 2 ^ level * stride]? = some (op old
            (∑ j in Finset.range mask.length, mask.getD j 0 *
              x.getD (predict_coeff n mask.length level cyc k j * stride).toNat 0))) ∧
      ∀ p : Nat, (∀ k : Nat, k < n / 2 ^ (level + 1) →
        p ≠ (2 * k + 1) * 2 ^ level * stride) → y[p]? = x[p]? := by
  have hn : n = n / 2 ^ (level + 1) * 2 ^ (level + 1) := (Nat.div_mul_cancel hdiv).symm
  rw [Nat.shiftRight_eq_div_pow]
  obtain ⟨y, hy⟩ := predict_returns op x mask n level stride (n / 2 ^ (level + 1)) cyc hn hbuf
    (fun hc => mask_bound n level _ hdiv (hm hc))
  obtain ⟨h1, h2, h3⟩ := predict_closed op x y mask n level stride _ cyc hs hn hy
  have htg : ∀ k : Nat, predict_target level (k : Int) * (stride : Int) =
      (((2 * k + 1) * 2 ^ level * stride : Nat) : Int) := by
    intro k
    simp only [predict_target]
    push_cast
    ring
  refine ⟨y, hy, h1, ?_, ?_⟩
  · intro k hk2
    obtain ⟨acc, old, a1, a2, a3⟩ := h3 (k : Int) (by positivity) (by exact_mod_cast hk2)
    rw [htg, rd_natCast] at a2 a3
    have e := stencil_eq_sum x stride _ mask 0 0 acc a1
    simp only [zero_add] at e
    exact ⟨old, a2, by rw [a3, e]⟩
  · intro p hp
    have := h2 (p : Int) (fun a ha1 ha2 => by
      obtain ⟨k, rfl⟩ := Int.eq_ofNat_of_zero_le ha1
      rw [htg]
      have := hp k (by exact_mod_cast ha2)
      exact_mod_cast this)
    rwa [rd_natCast, rd_natCast] at this

end PassClosed

/-! ## Frames of the scale passes -/

section GridLemmas

variable {K : Type} [Field K]

open lifting

/-- The four scale loops leave every cell off their grid
`start0 + a * 2^(level+1)` as it is. -/
theorem scale_loops_frame (f : K → K) (x : List K) (n level stride : Nat) (border : Int)
    (cyc : Bool) (start0 : Nat) (h0 : start0 < 2 ^ (level + 1)) (hs : 1 ≤ stride)
    (hdiv : 2 ^ (level + 1) ∣ n) (hbuf : ∀ idx : Nat, idx < n → idx * stride < x.length)
    (hborder : cyc = false → 0 ≤ border) :
    ∃ y, for_loop (scale_body f stride) (n - (if cyc then 0 else border) * 2 ^ (level + 1))
        (2 ^ (level + 1)) n (start0 + (if cyc then 0 else border) * 2 ^ (level + 1)) x =
          some y ∧
      y.length = x.length ∧
      ∀ p : Nat, (∀ a : Nat, p ≠ (start0 + a * 2 ^ (level + 1)) * stride) → y[p]? = x[p]? := by
  have hn : n = n / 2 ^ (level + 1) * 2 ^ (level + 1) := (Nat.div_mul_cancel hdiv).symm
  have hlo : (0 : Int) ≤ if cyc then 0 else border := by
    cases cyc with
    | true => simp
    | false => simpa using hborder rfl
  obtain ⟨y, h1, h2, -, h4⟩ := scale_spec_gen f x n level stride (n / 2 ^ (level + 1))
    (if cyc then 0 else border) hlo start0 h0 hs hn hbuf
  exact ⟨y, h1, h2, fun p hp => h4 p (fun k _ _ => hp k)⟩

end GridLemmas

/-! ## The sum-rule order of a mask with exactly vanishing moments -/

section MomentLemmas

variable {K : Type} [LinearOrderedField K]

theorem foldl_mul_pos (l : List Nat) (hl : ∀ x ∈ l, 0 < x) :
    ∀ acc : Nat, 0 < acc → 0 < l.foldl (fun fact i => fact * i) acc := by
  induction l with
  | nil => intro acc h; simpa using h
  | cons a l ih =>
    intro acc h
    simp only [List.foldl_cons]
    exact ih (fun x hx => hl x (List.mem_cons_of_mem _ hx)) _
      (Nat.mul_pos h (hl a (List.mem_cons_self _ _)))

theorem factorial_pos (f : Nat) : 0 < factorial f := by
  unfold factorial
  apply foldl_mul_pos _ _ 1 Nat.one_pos
  intro x hx
  rw [List.mem_range'_1] at hx
  omega

theorem DP_one_eq (p : List K) (i : Nat) (hi : 1 ≤ i) :
    DP p i 1 = alternating_moment p i / 2 := by
  have h : ¬ (i = 0 ∧ True) := by simp; omega
  simp only [DP, sum_loop_eq, if_neg h, zero_add, P, ELp, alternating_moment, Finset.sum_div]
  apply Finset.sum_congr rfl
  intro j _
  simp
  ring

theorem PP_one_eq_moment (p : List K) : PP p 1 = alternating_moment p 0 / 2 := by
  rw [PP_one_range]
  simp [alternating_moment]

theorem order_pass_residual (p : List K) (s : Nat) (st : order_state K) (hPP : PP p 1 = 0) :
    (order_pass p s st).2 = st.lesssum00r.2 + ∑ ga in Finset.range s,
      lesssum_term p (st.y.set s (sum_loop s (fun ga1 => lesssum_term p st.y s ga1 0)
        st.lesssum00r.1 / (1 - 2 ^ s * PP p 0))) s ga 1 := by
  simp only [order_pass, hPP, mul_zero, add_zero, sum_loop_eq]

theorem order_pass_second (p : List K) (s : Nat) (st : order_state K) (hPP : PP p 1 = 0) :
    (order_pass p s st).1.lesssum00r.2 = (order_pass p s st).2 := by
  simp only [order_pass, hPP, mul_zero, add_zero]

theorem order_pass_y_zero (p : List K) (s : Nat) (st : order_state K) (hs : 1 ≤ s) :
    (order_pass p s st).1.y.getD 0 0 = st.y.getD 0 0 := by
  have h : s ≠ 0 := by omega
  simp only [order_pass, List.getD_eq_getElem?_getD, List.getElem?_set_ne h]

/-- The search over `s` stops exactly at the first non-vanishing moment. -/
theorem order_loop_moment (p : List K) (error : K) (he : 0 ≤ error) (Kord : Nat)
    (hPP : PP p 1 = 0) (hz : ∀ i, 1 ≤ i → i < Kord → DP p i 1 = 0)
    (hK : |DP p Kord 1| > error) :
    ∀ (cnt s0 : Nat) (st : order_state K) (SLO : Int), 1 ≤ s0 → s0 ≤ Kord → Kord < s0 + cnt →
      st.lesssum00r.2 = 0 → st.y.getD 0 0 = 1 →
      order_loop p error (List.range' s0 cnt) st SLO = SLO + ((Kord - s0 : Nat) : Int) := by
  intro cnt
  induction cnt with
  | zero => intro s0 st SLO h1 h2 h3; omega
  | succ cnt ih =>
    intro s0 st SLO h1 h2 h3 hl hy
    rw [List.range'_succ]
    simp only [order_loop]
    have hr := order_pass_residual p s0 st hPP
    rw [hl, zero_add] at hr
    rcases Nat.lt_or_ge s0 Kord with hlt | hge
    · have hzero : (order_pass p s0 st).2 = 0 := by
        rw [hr]
        apply Finset.sum_eq_zero
        intro ga hga
        rw [Finset.mem_range] at hga
        simp only [lesssum_term, hz (s0 - ga) (by omega) (by omega), mul_zero]
      have hn : ¬ |(order_pass p s0 st).2| > error := by
        rw [hzero, abs_zero]
        exact not_lt.mpr he
      rw [if_neg hn, ih (s0 + 1) _ (SLO + 1) (by omega) (by omega) (by omega)
        (by rw [order_pass_second p s0 st hPP, hzero])
        (by rw [order_pass_y_zero p s0 st h1, hy])]
      have e : ((Kord - s0 : Nat) : Int) = ((Kord - (s0 + 1) : Nat) : Int) + 1 := by omega
      rw [e]
      ring
    · have hs : s0 = Kord := by omega
      subst hs
      obtain ⟨s, rfl⟩ : ∃ s, s0 = s + 1 := ⟨s0 - 1, by omega⟩
      have hres : (order_pass p (s + 1) st).2 = (-1) ^ (s + 1) * DP p (s + 1) 1 := by
        rw [hr, Finset.sum_range_succ', Finset.sum_eq_zero, zero_add]
        · have hf : (factorial (s + 1) : K) ≠ 0 :=
            Nat.cast_ne_zero.mpr (Nat.pos_iff_ne_zero.mp (factorial_pos _))
          have h0 : factorial 0 = 1 := rfl
          have hne : s + 1 ≠ 0 := by omega
          have hy0 : (st.y.set (s + 1) (sum_loop (s + 1)
              (fun ga1 => lesssum_term p st.y (s + 1) ga1 0) st.lesssum00r.1 /
                (1 - 2 ^ (s + 1) * PP p 0))).getD 0 0 = 1 := by
            rw [List.getD_eq_getElem?_getD, List.getElem?_set_ne hne,
              ← List.getD_eq_getElem?_getD, hy]
          have hy1 := hy0
          simp only [lesssum_term] at hy1
          simp only [lesssum_term, h0, Nat.cast_one, one_mul, Nat.sub_zero, pow_zero, mul_one,
            hy1, div_self hf]
        · intro ga hga
          rw [Finset.mem_range] at hga
          simp only [lesssum_term, hz (s + 1 - (ga + 1)) (by omega) (by omega), mul_zero]
      have hgt : |(order_pass p (s + 1) st).2| > error := by
        rw [hres, abs_mul, abs_pow, abs_neg, abs_one, one_pow, one_mul]
        exact hK
      rw [if_pos hgt]
      simp

theorem sum00_eq (p : List K) : sum00 p = 2 * (y_order2 p).getD 1 0 * PP p 1 - DP p 1 1 := by
  have h : (y_order2 p).getD 0 0 = 1 := by
    simp [y_order2, List.replicate]
  rw [sum00, h]
  ring

theorem y_order2_zero (p : List K) : (y_order2 p).getD 0 0 = 1 := by
  simp [y_order2, List.replicate]

/-- The order that `sumruleorder` records for a mask with exactly vanishing
alternating moments below `Kord` and a moment of order `Kord` above the
tolerance. -/
theorem sumruleorder_of_moments (p : List K) (Kord : Nat) (h1 : 1 ≤ Kord) (h10 : Kord ≤ 10)
    (hsum : p.sum = 2) (hz : ∀ i, i < Kord → alternating_moment p i = 0)
    (hK : |alternating_moment p Kord| / 2 > 1 / 10 ^ 8) :
    sumruleorder p = .ok ((Kord : Int), 1) := by
  have hP0 : PP p 0 = 1 := by rw [PP_zero, hsum]; norm_num
  have hP1 : PP p 1 = 0 := by rw [PP_one_eq_moment, hz 0 (by omega)]; norm_num
  have hDK : |DP p Kord 1| > 1 / 10 ^ 8 := by
    rw [DP_one_eq p Kord h1, abs_div, abs_two]
    exact hK
  have hDz : ∀ i, 1 ≤ i → i < Kord → DP p i 1 = 0 := by
    intro i hi hlt
    rw [DP_one_eq p i hi, hz i hlt, zero_div]
  have hs : sum00 p = - DP p 1 1 := by
    rw [sum00_eq, hP1]
    ring
  have c0 : ¬ |(1 : K) - 1| > 1 / 10 ^ 4 := by
    rw [sub_self, abs_zero]
    exact not_lt.mpr (by positivity)
  have c1 : ¬ |(0 : K)| > 1 / 10 ^ 8 := by
    rw [abs_zero]
    exact not_lt.mpr (by positivity)
  simp only [sumruleorder, hP0, hP1, if_neg c0, if_neg c1, hs, abs_neg]
  rcases Nat.lt_or_ge 1 Kord with hlt | hge
  · have c2 : ¬ |DP p 1 1| > 1 / 10 ^ 8 := by
      rw [hDz 1 le_rfl hlt, abs_zero]
      exact not_lt.mpr (by positivity)
    rw [if_neg c2, order_loop_moment p (1 / 10 ^ 8) (by positivity) Kord hP1 hDz hDK 9 2 _ 2
      (by omega) (by omega) (by omega) rfl (y_order2_zero p)]
    congr 2
    omega
  · have e : Kord = 1 := by omega
    subst e
    rw [if_pos hDK]
    rfl

end MomentLemmas

/-! ## The eigenvalue selection -/

section SelectionLemmas

theorem bigreig_loop_none {K : Type} (wr : List K) (od : List Nat) :
    ∀ (is : List Nat) (i : Nat), i ∈ is → od.length ≤ i + 1 → bigreig_loop wr od is = none
  | [], _, h, _ => by simp at h
  | j :: rest, i, h, hi => by
    rcases List.mem_cons.mp h with rfl | h'
    · simp only [bigreig_loop, List.getElem?_eq_none hi, Option.none_bind]
    · simp only [bigreig_loop, bigreig_loop_none wr od rest i h' hi, Option.map_none']
      rcases od[j + 1]? with _ | k
      · rfl
      · simp only [Option.some_bind]
        rcases wr[k]? with _ | v <;> rfl

theorem bigreig_loop_some {K : Type} (wr : List K) (od : List Nat)
    (hod : ∀ k ∈ od, k < wr.length) :
    ∀ is : List Nat, (∀ i ∈ is, i + 1 < od.length) →
      ∃ vs, bigreig_loop wr od is = some vs ∧ vs.length = is.length
  | [], _ => ⟨[], rfl, rfl⟩
  | j :: rest, h => by
    obtain ⟨vs, h1, h2⟩ := bigreig_loop_some wr od hod rest
      (fun i hi => h i (List.mem_cons_of_mem _ hi))
    have hj := h j (List.mem_cons_self _ _)
    have hk := hod (od.get ⟨j + 1, hj⟩) (List.get_mem _ _ _)
    refine ⟨wr.get ⟨od.get ⟨j + 1, hj⟩, hk⟩ :: vs, ?_, by simp [h2]⟩
    simp only [bigreig_loop, h1, List.getElem?_eq_getElem hj, Option.some_bind, Option.map_some',
      List.get_eq_getElem]
    rw [List.getElem?_eq_getElem (by simpa using hk)]
    rfl

theorem sumruleorder_le_eleven {K : Type} [LinearOrderedField K] (p : List K) (SLO : Int)
    (P0 : K) (h : sumruleorder p = .ok (SLO, P0)) : SLO ≤ 11 := by
  simp only [sumruleorder] at h
  split_ifs at h
  · simp only [Except.ok.injEq, Prod.mk.injEq] at h
    rw [← h.1]
    decide
  · simp only [Except.ok.injEq, Prod.mk.injEq] at h
    rw [← h.1]
    have hb := order_loop_bounds p (1 / 10 ^ 8) (List.range' 2 9)
      { lesssum00r := (0, 0), y := y_order2 p } 2
    simp only [List.length_range'] at hb
    exact le_trans hb.2 (by decide)

end SelectionLemmas

/-! ## The loops of `transop` -/

section TransopLemmas

variable {K : Type} [Field K]

theorem loop_from_inv {σ : Type} (body : Int → σ → Option σ) :
    ∀ (n : Nat) (I : Nat → σ → Prop) (i0 : Int) (st : σ), I 0 st →
      (∀ (k : Nat) (s : σ), k < n → I k s →
        ∃ s', body (i0 + (k : Int)) s = some s' ∧ I (k + 1) s') →
      ∃ st', loop_from body n i0 st = some st' ∧ I n st'
  | 0, _, _, st, h0, _ => ⟨st, rfl, h0⟩
  | n + 1, I, i0, st, h0, hstep => by
    obtain ⟨s1, a1, a2⟩ := hstep 0 st (by omega) h0
    have a1' : body i0 st = some s1 := by simpa using a1
    obtain ⟨s2, b1, b2⟩ := loop_from_inv body n (fun k s => I (k + 1) s) (i0 + 1) s1 a2
      (fun k s hk hI => by
        obtain ⟨s', c1, c2⟩ := hstep (k + 1) s (by omega) hI
        refine ⟨s', ?_, c2⟩
        rw [← c1]
        congr 1
        push_cast
        ring)
    refine ⟨s2, ?_, b2⟩
    simp only [loop_from, a1', Option.some_bind]
    exact b1

theorem mask_entry_natCast (p : List K) (x : Nat) : mask_entry p (x : Int) = p.getD x 0 := by
  simp [mask_entry, rd_natCast, List.getD_eq_getElem?_getD]

theorem mask_entry_neg (p : List K) (x : Int) (h : x < 0) : mask_entry p x = 0 := by
  simp [mask_entry, rd, not_le.mpr h]

theorem mask_entry_large (p : List K) (x : Int) (h : (p.length : Int) ≤ x) :
    mask_entry p x = 0 := by
  have h0 : 0 ≤ x := le_trans (by omega) h
  have h1 : p.length ≤ x.toNat := by omega
  simp [mask_entry, rd, h0, List.getElem?_eq_none h1]

theorem autocorrelation_sum (p : List K) (N j1 : Nat) (hN : p.length = N + 1) :
    ∑ u in Finset.range (min N j1 + 1 - (j1 - N)),
      mask_entry p ((N : Int) + ((j1 - N + u : Nat) : Int) - j1) * p.getD (j1 - N + u) 0 =
      autocorrelation_spec p j1 := by
  unfold autocorrelation_spec
  rw [hN]
  have h1 := Finset.sum_Ico_eq_sum_range
    (fun l : Nat => mask_entry p ((N : Int) + (l : Int) - j1) * p.getD l 0) (j1 - N)
    (min N j1 + 1)
  simp only at h1
  rw [← h1]
  have h2 : Finset.Ico (j1 - N) (min N j1 + 1) ⊆ Finset.range (N + 1) := by
    intro x hx
    rw [Finset.mem_Ico] at hx
    rw [Finset.mem_range]
    omega
  rw [Finset.sum_subset h2]
  · apply Finset.sum_congr rfl
    intro l _
    congr 2
    push_cast
    ring
  · intro x hx hnot
    rw [Finset.mem_range] at hx
    rw [Finset.mem_Ico] at hnot
    have hcase : (N : Int) + (x : Int) - j1 < 0 ∨ (p.length : Int) ≤ (N : Int) + (x : Int) - j1 := by
      rw [hN]
      omega
    rcases hcase with hc | hc
    · rw [mask_entry_neg p _ hc, zero_mul]
    · rw [mask_entry_large p _ hc, zero_mul]

theorem set_of_getElem_some {α : Type} (a : List α) (q : Nat) (v : α) (h : a[q]? = some v) :
    a.set q v = a := by
  apply List.ext_getElem?
  intro k
  rw [List.getElem?_set]
  split
  · rename_i hk
    subst hk
    split
    · exact h.symm
    · rename_i hlen
      rw [List.getElem?_eq_none (by omega)] at h
      exact absurd h (by simp)
  · rfl

theorem autocorrelation_inner (p : List K) (N j1 : Nat) (hN : p.length = N + 1)
    (hj : j1 ≤ 2 * N) (a : List K) (ha : a.length = 2 * N + 1) (h0 : a[j1]? = some 0) :
    int_loop (autocorrelation_body p N j1) (max 0 ((j1 : Int) - N)) (min (N : Int) j1) a =
      some (a.set j1 (autocorrelation_spec p j1)) := by
  have hcount : (min (N : Int) j1 + 1 - max 0 ((j1 : Int) - N)).toNat =
      min N j1 + 1 - (j1 - N) := by omega
  have hlo : max 0 ((j1 : Int) - N) = ((j1 - N : Nat) : Int) := by omega
  unfold int_loop
  rw [hcount, hlo]
  obtain ⟨a', h1, h2⟩ := loop_from_inv (autocorrelation_body p N j1)
    (min N j1 + 1 - (j1 - N))
    (fun t a' => a' = a.set j1 (∑ u in Finset.range t,
      mask_entry p ((N : Int) + ((j1 - N + u : Nat) : Int) - j1) * p.getD (j1 - N + u) 0))
    ((j1 - N : Nat) : Int) a
    (by simp only [Finset.range_zero, Finset.sum_empty]; exact (set_of_getElem_some a j1 0 h0).symm)
    (by
      intro t s ht hs
      subst hs
      have e1 : (N : Int) + (((j1 - N : Nat) : Int) + (t : Int)) - j1 =
          ((N + (j1 - N + t) - j1 : Nat) : Int) := by omega
      have e2 : ((j1 - N : Nat) : Int) + (t : Int) = ((j1 - N + t : Nat) : Int) := by omega
      have b1 : N + (j1 - N + t) - j1 < p.length := by omega
      have b2 : j1 - N + t < p.length := by omega
      have b3 : j1 < a.length := by omega
      refine ⟨_, ?_, rfl⟩
      simp only [autocorrelation_body]
      rw [e1, e2, rd_natCast, rd_natCast, rd_natCast, List.getElem?_eq_getElem b1,
        List.getElem?_eq_getElem b2, List.getElem?_set_self (by simpa using b3)]
      simp only [Option.some_bind]
      rw [(wr_eq_some_iff _ _ _ _).mpr ⟨⟨by omega, by simp; omega⟩, rfl⟩]
      simp only [Int.toNat_ofNat, List.set_set, Finset.sum_range_succ]
      congr 3
      have e3 : (N : Int) + ((j1 - N + t : Nat) : Int) - j1 =
          ((N + (j1 - N + t) - j1 : Nat) : Int) := by omega
      rw [e3, mask_entry_natCast, List.getD_eq_getElem?_getD, List.getD_eq_getElem?_getD,
        List.getElem?_eq_getElem b1, List.getElem?_eq_getElem b2]
      rfl)
  rw [h1, h2, autocorrelation_sum p N j1 hN]

theorem autocorrelation_eq (p : List K) (N : Nat) (hN : p.length = N + 1) :
    ∃ a, autocorrelation p = some a ∧ a.length = 2 * N + 1 ∧
      ∀ q, q < 2 * N + 1 → a[q]? = some (autocorrelation_spec p q) := by
  have hNi : (p.length : Int) - 1 = (N : Int) := by omega
  unfold autocorrelation
  simp only [hNi]
  unfold int_loop
  have hcount : (2 * (N : Int) + 1 - 0).toNat = 2 * N + 1 := by omega
  have hsize : (2 * (N : Int) + 1).toNat = 2 * N + 1 := by omega
  rw [hcount, hsize]
  obtain ⟨a, h1, h2, h3, -⟩ := loop_from_inv
    (fun j1 a => int_loop (autocorrelation_body p N j1) (max 0 (j1 - N)) (min (N : Int) j1) a)
    (2 * N + 1)
    (fun k a => a.length = 2 * N + 1 ∧ (∀ q, q < k → a[q]? = some (autocorrelation_spec p q)) ∧
      ∀ q, k ≤ q → q < 2 * N + 1 → a[q]? = some 0)
    0 (List.replicate (2 * N + 1) 0)
    ⟨by simp, fun q hq => by omega, fun q _ hq => by simp [List.getElem?_replicate, hq]⟩
    (by
      intro k a hk ⟨c1, c2, c3⟩
      refine ⟨a.set k (autocorrelation_spec p k), ?_, by simpa using c1, ?_, ?_⟩
      · simp only [zero_add]
        exact autocorrelation_inner p N k hN (by omega) a c1 (c3 k le_rfl hk)
      · intro q hq
        rw [List.getElem?_set]
        split
        · rename_i e
          subst e
          rw [if_pos (by omega)]
        · rename_i e
          exact c2 q (by omega)
      · intro q hq1 hq2
        rw [List.getElem?_set_ne (by omega)]
        exact c3 q (by omega) hq2)
  exact ⟨a, h1, h2, h3⟩

theorem map_range_get {α : Type} (f : Nat → α) (n c : Nat) :
    ((List.range n).map f)[c]? = if c < n then some (f c) else none := by
  by_cases hc : c < n
  · rw [if_pos hc, List.getElem?_map, List.getElem?_range hc]
    rfl
  · rw [if_neg hc, List.getElem?_eq_none (by simpa using Nat.le_of_not_lt hc)]

theorem band_entry_zero (a : List K) (N i c : Nat) : band_entry a N i 0 c = 0 := by
  have hn : ¬ (2 * i - 2 * N ≤ c ∧ c < 2 * i - 2 * N + 0) := by omega
  rw [band_entry, if_neg hn]

theorem band_entry_succ (a : List K) (N i t c : Nat) :
    band_entry a N i (t + 1) c =
      if c = 2 * i - 2 * N + t then a.getD (2 * i - c) 0 / 2 else band_entry a N i t c := by
  unfold band_entry
  by_cases h1 : c = 2 * i - 2 * N + t
  · rw [if_pos h1, if_pos (by omega)]
  · rw [if_neg h1]
    by_cases h2 : 2 * i - 2 * N ≤ c ∧ c < 2 * i - 2 * N + t
    · rw [if_pos h2, if_pos (by omega)]
    · rw [if_neg h2, if_neg (by omega)]

theorem band_row_zero (a : List K) (N i : Nat) :
    (List.range (2 * N + 1)).map (band_entry a N i 0) = List.replicate (2 * N + 1) 0 := by
  apply List.ext_getElem?
  intro c
  rw [map_range_get, List.getElem?_replicate, band_entry_zero]

theorem band_row_succ (a : List K) (N i t : Nat) (ht : 2 * i - 2 * N + t < 2 * N + 1) :
    ((List.range (2 * N + 1)).map (band_entry a N i t)).set (2 * i - 2 * N + t)
        (a.getD (2 * i - (2 * i - 2 * N + t)) 0 / 2) =
      (List.range (2 * N + 1)).map (band_entry a N i (t + 1)) := by
  apply List.ext_getElem?
  intro c
  rw [List.getElem?_set, map_range_get, map_range_get, band_entry_succ]
  by_cases hc : 2 * i - 2 * N + t = c
  · subst hc
    simp only [if_true, List.length_map, List.length_range, ht]
  · have hc' : ¬ c = 2 * i - 2 * N + t := fun h => hc h.symm
    simp only [hc, hc', if_false]

theorem transop_inner (N i : Nat) (hi : i < 2 * N + 1) (a : List K)
    (ha : a.length = 2 * N + 1) (T : List (List K)) (hT : T.length = 2 * N + 1)
    (hrow : T[i]? = some (List.replicate (2 * N + 1) 0)) :
    int_loop (transop_body a N N ((1 : Int) + i))
        (max 1 (2 * ((1 : Int) + i - N - 1) + N + 1 - N))
        (min (2 * ((1 : Int) + i - N - 1) + N + N + 1) (2 * (N : Int) + 1)) T =
      some (T.set i ((List.range (2 * N + 1)).map
        (band_entry a N i (min (2 * i) (2 * N) + 1 - (2 * i - 2 * N))))) := by
  have hcount : (min (2 * ((1 : Int) + i - N - 1) + N + N + 1) (2 * (N : Int) + 1) + 1 -
      max 1 (2 * ((1 : Int) + i - N - 1) + N + 1 - N)).toNat =
      min (2 * i) (2 * N) + 1 - (2 * i - 2 * N) := by omega
  have hlo : max 1 (2 * ((1 : Int) + i - N - 1) + N + 1 - N) =
      ((2 * i - 2 * N + 1 : Nat) : Int) := by omega
  unfold int_loop
  rw [hcount, hlo]
  obtain ⟨T', h1, h2⟩ := loop_from_inv (transop_body a N N ((1 : Int) + i))
    (min (2 * i) (2 * N) + 1 - (2 * i - 2 * N))
    (fun t T' => T' = T.set i ((List.range (2 * N + 1)).map (band_entry a N i t)))
    ((2 * i - 2 * N + 1 : Nat) : Int) T
    (by
      show T = T.set i ((List.range (2 * N + 1)).map (band_entry a N i 0))
      rw [band_row_zero]
      exact (set_of_getElem_some T i _ hrow).symm)
    (by
      intro t s ht hs
      subst hs
      have e1 : 2 * ((1 : Int) + i - N - 1) - (((2 * i - 2 * N + 1 : Nat) : Int) + (t : Int)) +
          N + 2 + N - 1 = ((2 * i - (2 * i - 2 * N + t) : Nat) : Int) := by omega
      have e2 : (1 : Int) + i - 1 = ((i : Nat) : Int) := by omega
      have e3 : ((2 * i - 2 * N + 1 : Nat) : Int) + (t : Int) - 1 =
          ((2 * i - 2 * N + t : Nat) : Int) := by omega
      have b1 : 2 * i - (2 * i - 2 * N + t) < a.length := by omega
      have b2 : i < T.length := by omega
      have b3 : 2 * i - 2 * N + t < 2 * N + 1 := by omega
      refine ⟨_, ?_, rfl⟩
      simp only [transop_body, mat_set]
      rw [e1, e2, e3, rd_natCast, rd_natCast, List.getElem?_eq_getElem b1,
        List.getElem?_set_self b2]
      simp only [Option.some_bind]
      rw [(wr_eq_some_iff _ _ _ _).mpr ⟨⟨by omega, by simp; omega⟩, rfl⟩]
      simp only [Option.some_bind]
      rw [(wr_eq_some_iff _ _ _ _).mpr ⟨⟨by omega, by simp; omega⟩, rfl⟩]
      simp only [Int.toNat_ofNat, List.set_set]
      rw [← band_row_succ a N i t b3, List.getD_eq_getElem?_getD, List.getElem?_eq_getElem b1]
      rfl)
  rw [h1, h2]

theorem band_entry_eq_spec (p a : List K) (N i c : Nat) (hN : p.length = N + 1)
    (hc : c < 2 * N + 1)
    (ha : ∀ q, q < 2 * N + 1 → a[q]? = some (autocorrelation_spec p q)) :
    band_entry a N i (min (2 * i) (2 * N) + 1 - (2 * i - 2 * N)) c = transop_spec p i c := by
  unfold band_entry transop_spec
  by_cases h : 2 * i - 2 * N ≤ c ∧ c < 2 * i - 2 * N + (min (2 * i) (2 * N) + 1 - (2 * i - 2 * N))
  · have h' : 0 ≤ 2 * (i : Int) - c ∧ 2 * (i : Int) - c ≤ 2 * ((p.length : Int) - 1) := by
      rw [hN]
      omega
    have e : 2 * (i : Int) - c = ((2 * i - c : Nat) : Int) := by omega
    rw [if_pos h, if_pos h', e, List.getD_eq_getElem?_getD, ha (2 * i - c) (by omega)]
    rfl
  · have h' : ¬ (0 ≤ 2 * (i : Int) - c ∧ 2 * (i : Int) - c ≤ 2 * ((p.length : Int) - 1)) := by
      rw [hN]
      omega
    rw [if_neg h, if_neg h']

theorem transop_eq (p : List K) (N : Nat) (hN : p.length = N + 1) :
    ∃ T, transop p = some T ∧ T.length = 2 * N + 1 ∧
      ∀ i, i < 2 * N + 1 → T[i]? = some ((List.range (2 * N + 1)).map (transop_spec p i)) := by
  have hNi : (p.length : Int) - 1 = (N : Int) := by omega
  have hne : ¬ p.length = 0 := by omega
  obtain ⟨a, a1, a2, a3⟩ := autocorrelation_eq p N hN
  unfold transop
  rw [if_neg hne]
  simp only [hNi, a1, Option.some_bind]
  unfold int_loop
  have hcount : (2 * (N : Int) + 1 + 1 - 1).toNat = 2 * N + 1 := by omega
  have hsize : (2 * (N : Int) + 1).toNat = 2 * N + 1 := by omega
  rw [hcount, hsize]
  obtain ⟨T, h1, h2, h3, -⟩ := loop_from_inv
    (fun i1 T =>
      int_loop (transop_body a N N i1) (max 1 (2 * (i1 - N - 1) + N + 1 - N))
        (min (2 * (i1 - N - 1) + N + N + 1) (2 * (N : Int) + 1)) T)
    (2 * N + 1)
    (fun k T => T.length = 2 * N + 1 ∧
      (∀ r, r < k → T[r]? = some ((List.range (2 * N + 1)).map (transop_spec p r))) ∧
      ∀ r, k ≤ r → r < 2 * N + 1 → T[r]? = some (List.replicate (2 * N + 1) 0))
    1 (List.replicate (2 * N + 1) (List.replicate (2 * N + 1) 0))
    ⟨by simp, fun r hr => by omega, fun r _ hr => by simp [List.getElem?_replicate, hr]⟩
    (by
      intro k T hk ⟨c1, c2, c3⟩
      refine ⟨_, transop_inner N k hk a a2 T c1 (c3 k le_rfl hk), by simpa using c1, ?_, ?_⟩
      · intro r hr
        rw [List.getElem?_set]
        split
        · rename_i e
          subst e
          rw [if_pos (by omega)]
          congr 1
          apply List.map_congr_left
          intro c hc
          rw [List.mem_range] at hc
          exact band_entry_eq_spec p a N k c hN hc a3
        · rename_i e
          exact c2 r (by omega)
      · intro r hr1 hr2
        rw [List.getElem?_set_ne (by omega)]
        exact c3 r (by omega) hr2)
  exact ⟨T, h1, h2, h3⟩

end TransopLemmas

/-! ## Column sums of the transition operator -/

section ColumnSums

variable {K : Type} [LinearOrderedField K]

theorem mask_entry_eq_sum (p : List K) (x : Int) :
    mask_entry p x = ∑ m in Finset.range p.length, if x = (m : Int) then p.getD m 0 else 0 := by
  by_cases h0 : x < 0
  · rw [mask_entry_neg p x h0, Finset.sum_eq_zero]
    intro m _
    rw [if_neg (by omega)]
  · by_cases h1 : (p.length : Int) ≤ x
    · rw [mask_entry_large p x h1, Finset.sum_eq_zero]
      intro m hm
      rw [Finset.mem_range] at hm
      rw [if_neg (by omega)]
    · obtain ⟨k, rfl⟩ : ∃ k : Nat, x = (k : Int) := ⟨x.toNat, by omega⟩
      rw [mask_entry_natCast, Finset.sum_eq_single k]
      · rw [if_pos rfl]
      · intro m _ hne
        rw [if_neg (by omega)]
      · intro hk
        rw [Finset.mem_range] at hk
        omega

theorem parity_count (N c m : Nat) (v : K) (h1 : m ≤ c) (h2 : c ≤ m + 4 * N) :
    (∑ i in Finset.range (2 * N + 1), if (c : Int) - 2 * (i : Int) = (m : Int) then v else 0) =
      if (c + m) % 2 = 0 then v else 0 := by
  by_cases h : (c + m) % 2 = 0
  · rw [if_pos h, Finset.sum_eq_single ((c - m) / 2)]
    · rw [if_pos (by omega)]
    · intro i _ hne
      rw [if_neg (by omega)]
    · intro hk
      rw [Finset.mem_range] at hk
      omega
  · rw [if_neg h, Finset.sum_eq_zero]
    intro i _
    rw [if_neg (by omega)]

theorem parity_indicator (c m : Nat) (v : K) :
    (if (c + m) % 2 = 0 then v else 0) = (1 + (-1) ^ c * (-1) ^ m) / 2 * v := by
  rw [← pow_add]
  rcases Nat.even_or_odd (c + m) with he | ho
  · rw [if_pos (Nat.even_iff.mp he), he.neg_one_pow]
    norm_num
  · rw [if_neg (by rw [Nat.odd_iff] at ho; omega), ho.neg_one_pow]
    norm_num

theorem list_sum_eq_range (p : List K) : p.sum = ∑ m in Finset.range p.length, p.getD m 0 := by
  have h := PP_zero p
  simp only [PP, sum_loop_eq, zero_add, ELp, if_true, one_pow, one_mul, P, ← Finset.sum_div] at h
  have h2 : (2 : K) ≠ 0 := two_ne_zero
  field_simp at h
  simpa [List.getD_eq_getElem?_getD] using h.symm

/-- The sum of the mask entries seen through every second shift is 1. -/
theorem shifted_sum_eq_one (p : List K) (N c : Nat) (hN : p.length = N + 1) (hc1 : N ≤ c)
    (hc2 : c ≤ 4 * N) (hs : p.sum = 2)
    (ha : ∑ j in Finset.range p.length, (-1) ^ j * p.getD j 0 = 0) :
    ∑ i in Finset.range (2 * N + 1), mask_entry p ((c : Int) - 2 * (i : Int)) = 1 := by
  simp only [mask_entry_eq_sum]
  rw [Finset.sum_comm]
  have e : ∀ m ∈ Finset.range p.length,
      (∑ i in Finset.range (2 * N + 1),
        if (c : Int) - 2 * (i : Int) = (m : Int) then p.getD m 0 else 0) =
      (1 + (-1) ^ c * (-1) ^ m) / 2 * p.getD m 0 := by
    intro m hm
    rw [Finset.mem_range] at hm
    rw [parity_count N c m _ (by omega) (by omega), parity_indicator]
  rw [Finset.sum_congr rfl e]
  have e2 : ∀ m ∈ Finset.range p.length, (1 + (-1) ^ c * (-1) ^ m) / 2 * p.getD m 0 =
      p.getD m 0 / 2 + (-1) ^ c / 2 * ((-1) ^ m * p.getD m 0) := by
    intro m _
    ring
  rw [Finset.sum_congr rfl e2, Finset.sum_add_distrib, ← Finset.mul_sum, ha, ← Finset.sum_div,
    ← list_sum_eq_range, hs]
  norm_num

theorem transop_spec_eq_sum (p : List K) (N i j : Nat) (hN : p.length = N + 1) :
    transop_spec p i j =
      (∑ l in Finset.range p.length,
        mask_entry p (((N + l + j : Nat) : Int) - 2 * (i : Int)) * p.getD l 0) / 2 := by
  unfold transop_spec
  by_cases h : 0 ≤ 2 * (i : Int) - j ∧ 2 * (i : Int) - j ≤ 2 * ((p.length : Int) - 1)
  · rw [if_pos h]
    unfold autocorrelation_spec
    congr 1
    apply Finset.sum_congr rfl
    intro l _
    congr 2
    rw [hN]
    push_cast
    ring
  · rw [if_neg h, Finset.sum_eq_zero, zero_div]
    intro l hl
    rw [Finset.mem_range] at hl
    have hcase : ((N + l + j : Nat) : Int) - 2 * (i : Int) < 0 ∨
        (p.length : Int) ≤ ((N + l + j : Nat) : Int) - 2 * (i : Int) := by
      rw [hN] at h hl ⊢
      omega
    rcases hcase with hc | hc
    · rw [mask_entry_neg p _ hc, zero_mul]
    · rw [mask_entry_large p _ hc, zero_mul]

theorem sum_map_range (f : Nat → K) (n : Nat) :
    ((List.range n).map f).sum = ∑ i in Finset.range n, f i := by
  induction n with
  | zero => simp
  | succ n ih => rw [List.range_succ, List.map_append, List.sum_append, ih,
      Finset.sum_range_succ]; simp

/-- Every column of the specified matrix sums to 1 for an admissible mask. -/
theorem column_sum_eq_one (p : List K) (N j : Nat) (hN : p.length = N + 1)
    (hj : j < 2 * N + 1) (hs : p.sum = 2)
    (ha : ∑ j in Finset.range p.length, (-1) ^ j * p.getD j 0 = 0) :
    ∑ i in Finset.range (2 * N + 1), transop_spec p i j = 1 := by
  have e : ∀ i ∈ Finset.range (2 * N + 1), transop_spec p i j =
      (∑ l in Finset.range p.length,
        mask_entry p (((N + l + j : Nat) : Int) - 2 * (i : Int)) * p.getD l 0) / 2 := by
    intro i _
    exact transop_spec_eq_sum p N i j hN
  rw [Finset.sum_congr rfl e, ← Finset.sum_div, Finset.sum_comm]
  have e2 : ∀ l ∈ Finset.range p.length,
      (∑ i in Finset.range (2 * N + 1),
        mask_entry p (((N + l + j : Nat) : Int) - 2 * (i : Int)) * p.getD l 0) = p.getD l 0 := by
    intro l hl
    rw [Finset.mem_range] at hl
    rw [← Finset.sum_mul, shifted_sum_eq_one p N (N + l + j) hN (by omega) (by omega) hs ha,
      one_mul]
  rw [Finset.sum_congr rfl e2, ← list_sum_eq_range, hs]
  norm_num

theorem transop_columns (p : List K) (N : Nat) (hN : p.length = N + 1) (hs : p.sum = 2)
    (ha : ∑ j in Finset.range p.length, (-1) ^ j * p.getD j 0 = 0) :
    ∃ T, transop p = some T ∧ T.length = 2 * N + 1 ∧
      ∀ j, j < 2 * N + 1 → (T.map fun row => row.getD j 0).sum = 1 := by
  obtain ⟨T, h1, h2, h3⟩ := transop_eq p N hN
  refine ⟨T, h1, h2, ?_⟩
  intro j hj
  have hT : T = (List.range (2 * N + 1)).map
      (fun i => (List.range (2 * N + 1)).map (transop_spec p i)) := by
    apply List.ext_getElem?
    intro i
    rw [map_range_get]
    by_cases hi : i < 2 * N + 1
    · rw [if_pos hi, h3 i hi]
    · rw [if_neg hi, List.getElem?_eq_none (by omega)]
  have hcol : (T.map fun row => row.getD j 0) =
      (List.range (2 * N + 1)).map (fun i => transop_spec p i j) := by
    rw [hT, List.map_map]
    apply List.map_congr_left
    intro i _
    simp only [Function.comp, List.getD_eq_getElem?_getD, map_range_get, if_pos hj,
      Option.getD_some]
  rw [hcol, sum_map_range]
  exact column_sum_eq_one p N j hN hj hs ha

end ColumnSums

/-! ## Cells a pass neither reads nor writes -/

section IgnoresBasics

theorem ignores_comp {K : Type} {f g : List K → Option (List K)} {p : Nat} (hf : Ignores f p)
    (hg : Ignores g p) : Ignores (fun x => (f x).bind g) p := by
  intro x c
  simp only [hf x c]
  rcases f x with _ | y
  · rfl
  · simp only [Option.map_some', Option.some_bind]
    exact hg y c

theorem ignores_none {K : Type} (p : Nat) :
    Ignores (fun _ : List K => (none : Option (List K))) p :=
  fun _ _ => rfl

end IgnoresBasics

section IgnoresLemmas

variable {K : Type} [Field K]

open lifting

theorem for_loop_ignores (op : K → K → K) (stride : Nat) (mask : List K)
    (coeff : Int → Int → Int) (tgt : Int → Int) (stop step : Int) (p : Nat)
    (G : Int → Prop) (hG : ∀ a, G a → G (a + step))
    (hne : ∀ a, G a → (p : Int) ≠ tgt a * stride ∧
      ∀ j : Int, 0 ≤ j → j < mask.length → (p : Int) ≠ coeff a j * stride) :
    ∀ (fuel : Nat) (i0 : Int), G i0 →
      Ignores (for_loop (lift_body op stride mask coeff tgt) stop step fuel i0) p := by
  intro fuel
  induction fuel with
  | zero =>
    intro i0 _ s v
    simp only [for_loop]
    split <;> rfl
  | succ fuel ih =>
    intro i0 h0 s v
    simp only [for_loop]
    split
    · obtain ⟨h1, h2⟩ := hne i0 h0
      rw [lift_body_frame op stride mask coeff tgt i0 s p v h1 h2]
      rcases lift_body op stride mask coeff tgt i0 s with _ | s1
      · rfl
      simp only [Option.map_some', Option.some_bind]
      exact ih (i0 + step) (hG i0 h0) s1 v
    · rfl

theorem off_grid_ne (level p : Nat) (hp : ¬ 2 ^ level ∣ p) (k : Int) :
    (p : Int) ≠ k * 2 ^ level := by
  intro e
  apply hp
  have h : ((2 ^ level : Nat) : Int) ∣ (p : Int) := ⟨k, by rw [e]; push_cast; ring⟩
  exact Int.natCast_dvd_natCast.mp h

theorem ignores_predict_loop (op : K → K → K) (n : Nat) (mask : List K) (level : Nat)
    (cyc : Bool) (hdiv : 2 ^ (level + 1) ∣ n) (p : Nat) (hp : ¬ 2 ^ level ∣ p)
    (stop : Int) (fuel : Nat) (i0 : Int) :
    Ignores (for_loop (lift_body op 1 mask (predict_coeff n mask.length level cyc)
      (predict_target level)) stop 1 fuel i0) p := by
  have hn : n = n / 2 ^ (level + 1) * 2 ^ (level + 1) := (Nat.div_mul_cancel hdiv).symm
  apply for_loop_ignores op 1 mask _ _ stop 1 p (fun _ => True) (fun _ _ => trivial) _ fuel i0
    trivial
  intro a _
  constructor
  · have := off_grid_ne level p hp (a * 2 + 1)
    simpa [predict_target] using this
  · intro j _ _
    obtain ⟨c, hc, -⟩ := predict_coeff_spec n mask.length level _ cyc hn a j
    rw [hc]
    have := off_grid_ne level p hp (c * 2)
    intro e
    apply this
    rw [e, pow_succ]
    push_cast
    ring

theorem ignores_update_loop (op : K → K → K) (n : Nat) (mask : List K) (level : Nat)
    (cyc : Bool) (hdiv : 2 ^ (level + 1) ∣ n) (p : Nat) (hp : ¬ 2 ^ level ∣ p)
    (stop : Int) (fuel : Nat) (i0 : Int) :
    Ignores (for_loop (lift_body op 1 mask (update_coeff n mask.length level cyc)
      (update_target level)) stop 1 fuel i0) p := by
  have hn : n = n / 2 ^ (level + 1) * 2 ^ (level + 1) := (Nat.div_mul_cancel hdiv).symm
  apply for_loop_ignores op 1 mask _ _ stop 1 p (fun _ => True) (fun _ _ => trivial) _ fuel i0
    trivial
  intro a _
  constructor
  · have := off_grid_ne level p hp (a * 2)
    intro e
    apply this
    rw [e, update_target, pow_succ]
    push_cast
    ring
  · intro j _ _
    obtain ⟨c, hc, -⟩ := update_coeff_spec n mask.length level _ cyc hn a j
    rw [hc]
    have := off_grid_ne level p hp (2 * c + 1)
    simpa using this

theorem ignores_scale_loop (f : K → K) (level : Nat) (p : Nat) (hp : ¬ 2 ^ level ∣ p)
    (stop : Int) (fuel : Nat) (i0 : Int) (h0 : (2 ^ level : Int) ∣ i0) :
    Ignores (for_loop (scale_body f 1) stop (2 ^ (level + 1)) fuel i0) p := by
  rw [scale_body_fun]
  apply for_loop_ignores _ 1 [] _ _ stop _ p (fun a => (2 ^ level : Int) ∣ a) _ _ fuel i0 h0
  · intro a ha
    exact dvd_add ha ⟨2, by rw [pow_succ]⟩
  · intro a ha
    constructor
    · obtain ⟨k, hk⟩ := ha
      have := off_grid_ne level p hp k
      intro e
      apply this
      rw [e, hk]
      push_cast
      ring
    · intro j h1 h2
      simp at h2
      omega

theorem ignores_predict (n : Nat) (mask : List K) (level : Nat) (cyc : Bool)
    (hdiv : 2 ^ (level + 1) ∣ n) (p : Nat) (hp : ¬ 2 ^ level ∣ p) :
    Ignores (fun x => predict x n mask level 1 cyc) p := by
  unfold predict
  split
  · exact ignores_none p
  · exact ignores_predict_loop _ n mask level cyc hdiv p hp _ _ _

theorem ignores_update (n : Nat) (mask : List K) (level : Nat) (cyc : Bool)
    (hdiv : 2 ^ (level + 1) ∣ n) (p : Nat) (hp : ¬ 2 ^ level ∣ p) :
    Ignores (fun x => update x n mask level 1 cyc) p := by
  unfold update
  split
  · exact ignores_none p
  · exact ignores_update_loop _ n mask level cyc hdiv p hp _ _ _

theorem ignores_scale_even (n : Nat) (s : K) (level : Nat) (b : Int) (cyc : Bool) (p : Nat)
    (hp : ¬ 2 ^ level ∣ p) : Ignores (fun x => scale_even x n s level b 1 cyc) p := by
  unfold scale_even
  split
  · exact ignores_none p
  · simp only
    split
    · exact ignores_scale_loop _ level p hp _ _ _ (dvd_zero _)
    · exact ignores_scale_loop _ level p hp _ _ _ ⟨b * 2, by rw [pow_succ]; ring⟩

theorem ignores_scale_odd (n : Nat) (s : K) (level : Nat) (b : Int) (cyc : Bool) (p : Nat)
    (hp : ¬ 2 ^ level ∣ p) : Ignores (fun x => scale_odd x n s level b 1 cyc) p := by
  unfold scale_odd
  split
  · exact ignores_none p
  · simp only
    split
    · exact ignores_scale_loop _ level p hp _ _ _ (dvd_refl _)
    · exact ignores_scale_loop _ level p hp _ _ _ ⟨1 + b * 2, by rw [pow_succ]; ring⟩

theorem ignores_forward_scheme (sqrt3 : K) (s : scheme) (hs : s ≠ .custom)
    (custom_steps : List (lifting_step K)) (n level : Nat) (hdiv : 2 ^ (level + 1) ∣ n)
    (p : Nat) (hp : ¬ 2 ^ level ∣ p) :
    Ignores (fun x => forward_scheme sqrt3 s custom_steps x n level 1 false) p := by
  have hP := fun mask : List K => ignores_predict n mask level false hdiv p hp
  have hU := fun mask : List K => ignores_update n mask level false hdiv p hp
  have hE := fun (c : K) (b : Int) => ignores_scale_even n c level b false p hp
  have hO := fun (c : K) (b : Int) => ignores_scale_odd n c level b false p hp
  cases s with
  | custom => exact absurd rfl hs
  | jamlet_linear => exact ignores_comp (hP _) (hU _)
  | jamlet_quadratic =>
    exact ignores_comp (hU _) (ignores_comp (hE _ _) (ignores_comp (hP _) (hU _)))
  | jamlet_cubic =>
    exact ignores_comp (hE _ _) (ignores_comp (hU _) (ignores_comp (hP _) (hU _)))
  | jamlet_4_point => exact ignores_comp (hP _) (hU _)
  | cdf_5_3 => exact ignores_comp (hP _) (hU _)
  | cdf_9_7 =>
    exact ignores_comp (hP _) (ignores_comp (hU _) (ignores_comp (hP _)
      (ignores_comp (hU _) (ignores_comp (hO _ _) (hE _ _)))))
  | chaikin =>
    exact ignores_comp (hU _) (ignores_comp (hE _ _) (ignores_comp (hP _) (hU _)))
  | cubic_bsplines => exact ignores_comp (hU _) (ignores_comp (hE _ _) (hP _))
  | cubic_bspline_wavelets =>
    exact ignores_comp (hE _ _) (ignores_comp (hU _) (ignores_comp (hP _) (hU _)))
  | daubechies_d4 =>
    exact ignores_comp (hU _) (ignores_comp (hP _) (ignores_comp (hU _)
      (ignores_comp (hE _ _) (hO _ _))))
  | four_point => exact ignores_comp (hP _) (hU _)
  | haar => exact ignores_comp (hP _) (hU _)

end IgnoresLemmas

section ZeroFrom

variable {K : Type} [Field K]

theorem zero_from_length (keep : Nat → Bool) :
    ∀ (count i : Nat) (x : List K), (zero_from keep count i x).length = x.length
  | 0, _, _ => rfl
  | count + 1, i, x => by
    rw [zero_from, zero_from_length keep count (i + 1)]
    split <;> simp

theorem zero_from_get (keep : Nat → Bool) :
    ∀ (count i : Nat) (x : List K) (q : Nat),
      (zero_from keep count i x)[q]? =
        if i ≤ q ∧ q < i + count ∧ keep q = false then (x[q]?).map (fun _ => (0 : K))
        else x[q]?
  | 0, i, x, q => by
    have h : ¬ (i ≤ q ∧ q < i + 0 ∧ keep q = false) := by omega
    rw [zero_from, if_neg h]
  | count + 1, i, x, q => by
    rw [zero_from, zero_from_get keep count (i + 1)]
    by_cases hk : keep i = true
    · rw [if_pos hk]
      by_cases hq : i + 1 ≤ q ∧ q < i + 1 + count ∧ keep q = false
      · rw [if_pos hq, if_pos ⟨by omega, by omega, hq.2.2⟩]
      · rw [if_neg hq]
        by_cases hq2 : i ≤ q ∧ q < i + (count + 1) ∧ keep q = false
        · have e : q = i := by
            by_contra hne
            exact hq ⟨by omega, by omega, hq2.2.2⟩
          rw [e, hk] at hq2
          exact absurd hq2.2.2 (by simp)
        · rw [if_neg hq2]
    · rw [if_neg hk]
      have hk' : keep i = false := by simpa using hk
      by_cases hq : i + 1 ≤ q ∧ q < i + 1 + count ∧ keep q = false
      · rw [if_pos hq, if_pos ⟨by omega, by omega, hq.2.2⟩, List.getElem?_set_ne (by omega)]
      · rw [if_neg hq]
        by_cases hq2 : i ≤ q ∧ q < i + (count + 1) ∧ keep q = false
        · have e : q = i := by
            by_contra hne
            exact hq ⟨by omega, by omega, hq2.2.2⟩
          rw [if_pos hq2, e, List.getElem?_set]
          simp only [if_true]
          by_cases hl : i < x.length
          · rw [if_pos hl, List.getElem?_eq_getElem hl]
            rfl
          · rw [if_neg hl, List.getElem?_eq_none (by omega)]
            rfl
        · rw [if_neg hq2, List.getElem?_set_ne]
          intro e
          apply hq2
          rw [← e]
          exact ⟨le_rfl, by omega, hk'⟩

theorem zero_from_ignores (keep : Nat → Bool) (f : List K → Option (List K)) :
    ∀ (count i : Nat) (x : List K),
      (∀ p, i ≤ p → p < i + count → keep p = false → Ignores f p) →
      f (zero_from keep count i x) = (f x).map (zero_from keep count i)
  | 0, _, x, _ => by
    simp only [zero_from]
    rcases f x with _ | y <;> rfl
  | count + 1, i, x, h => by
    rw [zero_from, zero_from_ignores keep f count (i + 1) _
      (fun p h1 h2 h3 => h p (by omega) (by omega) h3)]
    by_cases hk : keep i = true
    · rw [if_pos hk]
      rcases f x with _ | y
      · rfl
      · simp only [Option.map_some', zero_from, if_pos hk]
    · rw [if_neg hk, h i le_rfl (by omega) (by simpa using hk) x 0]
      rcases f x with _ | y
      · rfl
      · simp only [Option.map_some', zero_from, if_neg hk]

theorem zero_from_congr (keep keep' : Nat → Bool) :
    ∀ (count i : Nat) (x : List K),
      (∀ p, i ≤ p → p < i + count → keep p = keep' p) →
      zero_from keep count i x = zero_from keep' count i x
  | 0, _, _, _ => rfl
  | count + 1, i, x, h => by
    rw [zero_from, zero_from, h i le_rfl (by omega)]
    exact zero_from_congr keep keep' count (i + 1) _
      (fun p h1 h2 => h p (by omega) (by omega))

theorem zero_from_true (keep : Nat → Bool) :
    ∀ (count i : Nat) (x : List K),
      (∀ p, i ≤ p → p < i + count → keep p = true) → zero_from keep count i x = x
  | 0, _, _, _ => rfl
  | count + 1, i, x, h => by
    rw [zero_from, if_pos (h i le_rfl (by omega))]
    exact zero_from_true keep count (i + 1) x (fun p h1 h2 => h p (by omega) (by omega))

/-- The sum of two maskings of the same buffer with disjoint kept sets keeps
the union. -/
theorem zero_from_add (keep1 keep2 keep : Nat → Bool) (n : Nat) (x : List K)
    (hx : x.length = n)
    (h : ∀ p, p < n → (keep p = (keep1 p || keep2 p)) ∧ ¬ (keep1 p = true ∧ keep2 p = true)) :
    comb 1 1 (zero_from keep1 n 0 x) (zero_from keep2 n 0 x) = zero_from keep n 0 x := by
  apply List.ext_getElem?
  intro q
  unfold comb
  rw [List.getElem?_zipWith, zero_from_get, zero_from_get, zero_from_get]
  by_cases hq : q < n
  · obtain ⟨h1, h2⟩ := h q hq
    have hl : q < x.length := by omega
    rw [List.getElem?_eq_getElem hl]
    rcases e1 : keep1 q <;> rcases e2 : keep2 q <;> rw [e1, e2] at h1 h2 <;>
      simp [e1, e2, h1, hq] at h2 ⊢
  · rw [List.getElem?_eq_none (by omega)]
    simp

end ZeroFrom

/-! ## Spline and wavelet components -/

section ComponentLoops

variable {K : Type} [Field K]

open lifting

theorem wavelet_loop_eq (mask mask2 : Nat) :
    ∀ (count i0 : Nat) (x : List K), i0 + count ≤ x.length →
      wavelet_loop mask mask2 count i0 x =
        some (zero_from (fun i => !decide (i &&& mask = 0) && decide (i &&& mask2 = 0))
          count i0 x)
  | 0, _, _, _ => rfl
  | count + 1, i0, x, h => by
    have hwr : wr x (i0 : Int) 0 = some (x.set i0 0) := by
      rw [(wr_eq_some_iff _ _ _ _).mpr ⟨⟨by omega, by omega⟩, rfl⟩]
      rfl
    have hrec := wavelet_loop_eq mask mask2 count (i0 + 1) (x.set i0 0)
      (by rw [List.length_set]; omega)
    have hrec2 := wavelet_loop_eq mask mask2 count (i0 + 1) x (by omega)
    by_cases h1 : i0 &&& mask = 0
    · have hk : (!decide (i0 &&& mask = 0) && decide (i0 &&& mask2 = 0)) = false := by
        simp [h1]
      rw [wavelet_loop, if_pos h1, hwr, Option.some_bind, hrec, zero_from]
      simp only [hk, Bool.false_eq_true, if_false]
    · by_cases h2 : i0 &&& mask2 ≠ 0
      · have hk : (!decide (i0 &&& mask = 0) && decide (i0 &&& mask2 = 0)) = false := by
          simp [h1, h2]
        rw [wavelet_loop, if_neg h1, if_pos h2, hwr, Option.some_bind, hrec, zero_from]
        simp only [hk, Bool.false_eq_true, if_false]
      · have hk : (!decide (i0 &&& mask = 0) && decide (i0 &&& mask2 = 0)) = true := by
          have h2' : i0 &&& mask2 = 0 := by simpa using h2
          simp [h1, h2']
        rw [wavelet_loop, if_neg h1, if_neg h2, hrec2, zero_from]
        simp only [hk, if_true]

theorem linear_inverse_scheme (sqrt3 : K) (s : scheme) (hs : s ≠ .custom)
    (custom_steps : List (lifting_step K)) (n level : Nat) :
    Linear (fun x => inverse_scheme sqrt3 s custom_steps x n level 1 false) := by
  have hP := fun mask : List K => linear_ipredict n mask level 1 false
  have hU := fun mask : List K => linear_iupdate n mask level 1 false
  have hE := fun (c : K) (b : Int) => linear_iscale_even n c level b 1 false
  have hO := fun (c : K) (b : Int) => linear_iscale_odd n c level b 1 false
  cases s with
  | custom => exact absurd rfl hs
  | jamlet_linear => exact linear_comp (hU _) (hP _)
  | jamlet_quadratic =>
    exact linear_comp (hU _) (linear_comp (hP _) (linear_comp (hE _ _) (hU _)))
  | jamlet_cubic =>
    exact linear_comp (hU _) (linear_comp (hP _) (linear_comp (hU _) (hE _ _)))
  | jamlet_4_point => exact linear_comp (hU _) (hP _)
  | cdf_5_3 => exact linear_comp (hU _) (hP _)
  | cdf_9_7 =>
    exact linear_comp (hE _ _) (linear_comp (hO _ _) (linear_comp (hU _)
      (linear_comp (hP _) (linear_comp (hU _) (hP _)))))
  | chaikin =>
    exact linear_comp (hU _) (linear_comp (hP _) (linear_comp (hE _ _) (hU _)))
  | cubic_bsplines => exact linear_comp (hP _) (linear_comp (hE _ _) (hU _))
  | cubic_bspline_wavelets =>
    exact linear_comp (hU _) (linear_comp (hP _) (linear_comp (hU _) (hE _ _)))
  | daubechies_d4 =>
    exact linear_comp (hO _ _) (linear_comp (hE _ _) (linear_comp (hU _)
      (linear_comp (hP _) (hU _))))
  | four_point => exact linear_comp (hU _) (hP _)
  | haar => exact linear_comp (hU _) (hP _)

theorem linear_levels_down (f : List K → Nat → Option (List K))
    (hf : ∀ lev, Linear (fun x => f x lev)) : ∀ c : Nat, Linear (levels_down f c)
  | 0 => by
    intro a b x x' y y' h h'
    simp only [levels_down] at h h' ⊢
    cases h
    cases h'
    rfl
  | c + 1 => by
    have := linear_comp (hf c) (linear_levels_down f hf c)
    intro a b x x' y y' h h'
    simp only [levels_down] at h h' ⊢
    exact this a b x x' y y' h h'

end ComponentLoops

section ComponentThreshold

variable {K : Type} [LinearOrderedField K]

theorem compress_loop_all (threshold : K) (mask : Nat) (hthr : 0 < threshold) :
    ∀ (count i0 : Nat) (x : List K) (c0 : Nat), i0 + count ≤ x.length →
      (∀ v ∈ x, |v| < threshold) →
      ∃ c, lifting.compress_loop threshold mask 1 count i0 x c0 =
        some (zero_from (fun i => decide (i &&& mask = 0)) count i0 x, c)
  | 0, _, _, c0, _, _ => ⟨c0, rfl⟩
  | count + 1, i0, x, c0, h, hall => by
    have hl : i0 < x.length := by omega
    have hrd : rd x ((i0 * 1 : Nat) : Int) = some x[i0] := by
      rw [Nat.mul_one, rd_natCast, List.getElem?_eq_getElem hl]
    have hwr : wr x ((i0 * 1 : Nat) : Int) 0 = some (x.set i0 0) := by
      rw [wr_of_rd hrd, Int.toNat_ofNat, Nat.mul_one]
    by_cases h1 : i0 &&& mask ≠ 0
    · have h1' : ¬ i0 &&& mask = 0 := h1
      have ht : |x[i0]| < threshold := hall _ (List.getElem_mem _)
      obtain ⟨c, hc⟩ := compress_loop_all threshold mask hthr count (i0 + 1) (x.set i0 0)
        (c0 + 1) (by rw [List.length_set]; omega) (by
          intro v hv
          rcases List.mem_or_eq_of_mem_set hv with hv' | hv'
          · exact hall v hv'
          · rw [hv', abs_zero]
            exact hthr)
      refine ⟨c, ?_⟩
      have hk : decide (i0 &&& mask = 0) = false := by simp [h1']
      rw [lifting.compress_loop, if_pos h1, hrd, Option.some_bind, if_pos ht, hwr,
        Option.some_bind, hc, zero_from]
      simp only [hk, Bool.false_eq_true, if_false]
    · have h1' : i0 &&& mask = 0 := by simpa using h1
      obtain ⟨c, hc⟩ := compress_loop_all threshold mask hthr count (i0 + 1) x c0 (by omega)
        hall
      refine ⟨c, ?_⟩
      have hk : decide (i0 &&& mask = 0) = true := by simp [h1']
      rw [lifting.compress_loop, if_neg h1, hc, zero_from]
      simp only [hk, if_true]

end ComponentThreshold

section Decomposition

variable {K : Type} [LinearOrderedField K]

open lifting

theorem shift_one_by_of_lt (k : Nat) (h : k < 64) : shift_one_by (k : Int) = some (2 ^ k) := by
  unfold shift_one_by
  rw [if_pos ⟨by omega, by omega⟩, Int.toNat_ofNat]

theorem keep_coarser (k p : Nat) (h : p &&& (2 ^ (k + 1) - 1) = 0) : p &&& (2 ^ k - 1) = 0 := by
  rw [Nat.and_pow_two_sub_one_eq_mod] at h ⊢
  have h1 : 2 ^ (k + 1) ∣ p := Nat.dvd_of_mod_eq_zero h
  have h2 : 2 ^ k ∣ 2 ^ (k + 1) := Nat.pow_dvd_pow 2 (by omega)
  exact Nat.mod_eq_zero_of_dvd (dvd_trans h2 h1)

theorem exists_bound (f : Nat → Option (List K)) :
    ∀ L : Nat, ∃ B : K, 0 ≤ B ∧ ∀ S, S ≤ L → ∀ w, f S = some w → ∀ c ∈ w, |c| ≤ B
  | 0 => by
    refine ⟨(((f 0).getD []).map fun c => |c|).sum, ?_, ?_⟩
    · apply List.sum_nonneg
      intro x hx
      obtain ⟨c, -, rfl⟩ := List.mem_map.mp hx
      exact abs_nonneg c
    · intro S hS w hw c hc
      have e : S = 0 := by omega
      subst e
      rw [hw, Option.getD_some]
      apply List.single_le_sum
      · intro x hx
        obtain ⟨c, -, rfl⟩ := List.mem_map.mp hx
        exact abs_nonneg c
      · exact List.mem_map.mpr ⟨c, hc, rfl⟩
  | L + 1 => by
    obtain ⟨B, hB0, hB⟩ := exists_bound f L
    have hnn : ∀ x ∈ ((f (L + 1)).getD []).map (fun c => |c|), (0 : K) ≤ x := by
      intro x hx
      obtain ⟨c, -, rfl⟩ := List.mem_map.mp hx
      exact abs_nonneg c
    refine ⟨B + (((f (L + 1)).getD []).map fun c => |c|).sum,
      add_nonneg hB0 (List.sum_nonneg hnn), ?_⟩
    intro S hS w hw c hc
    rcases Nat.lt_or_ge S (L + 1) with h | h
    · exact le_trans (hB S (by omega) w hw c hc) (le_add_of_nonneg_right (List.sum_nonneg hnn))
    · have e : S = L + 1 := by omega
      subst e
      rw [hw, Option.getD_some]
      exact le_trans (List.single_le_sum (by rw [hw, Option.getD_some] at hnn; exact hnn) _
        (List.mem_map.mpr ⟨c, hc, rfl⟩)) (le_add_of_nonneg_left hB0)

/-- The inverse transform of one level maps the masked transform back to the
masked input. -/
theorem component_step (sqrt3 : K) (hsqrt3 : sqrt3 * sqrt3 = 3) (s : scheme)
    (hs : s ≠ .custom) (custom_steps : List (lifting_step K)) (n k : Nat)
    (hdiv : 2 ^ (k + 1) ∣ n) (A B : List K) (hA : A.length = n)
    (hB : forward_scheme sqrt3 s custom_steps A n k 1 false = some B) :
    inverse_scheme sqrt3 s custom_steps
        (zero_from (fun i => decide (i &&& (2 ^ k - 1) = 0)) n 0 B) n k 1 false =
      some (zero_from (fun i => decide (i &&& (2 ^ k - 1) = 0)) n 0 A) := by
  have h1 := zero_from_ignores (fun i => decide (i &&& (2 ^ k - 1) = 0))
    (fun x => forward_scheme sqrt3 s custom_steps x n k 1 false) n 0 A (by
      intro p _ _ hp
      apply ignores_forward_scheme sqrt3 s hs custom_steps n k hdiv p
      intro hd
      have : p &&& (2 ^ k - 1) = 0 := by
        rw [Nat.and_pow_two_sub_one_eq_mod]
        exact Nat.mod_eq_zero_of_dvd hd
      simp [this] at hp)
  simp only [hB, Option.map_some'] at h1
  obtain ⟨y, a, -, c⟩ := undoes_scheme sqrt3 hsqrt3 s hs custom_steps n n k 1 false le_rfl hdiv
    (fun idx hi => by omega) (fun h => by simp at h)
    (zero_from (fun i => decide (i &&& (2 ^ k - 1) = 0)) n 0 A)
    (by rw [zero_from_length, hA])
  simp only at a c
  rw [h1] at a
  cases a
  exact c

theorem spline_value (infinity sqrt3 : K) (s : scheme) (custom_steps : List (lifting_step K))
    (L l : Nat) (hL : L < 64) (hl : l ≤ L) (values w : List K)
    (hw : levels_up (fun x lev => forward_scheme sqrt3 s custom_steps x (2 ^ L) lev 1 false)
      (L - l) 0 values = some w)
    (hwl : w.length = 2 ^ L) (hinf : ∀ c ∈ w, |c| < infinity) (hpos : 0 < infinity) :
    get_spline_component infinity sqrt3 { levels := L, values := values } l s custom_steps =
      levels_down (fun x lev => inverse_scheme sqrt3 s custom_steps x (2 ^ L) lev 1 false)
        (L - l) (zero_from (fun i => decide (i &&& (2 ^ (L - l) - 1) = 0)) (2 ^ L) 0 w) := by
  have e1 : ((L : Int) - (l : Int)).toNat = L - l := by omega
  have e2 : (((L : Int) - (l : Int)) % 2 ^ 64).toNat = L - l := by
    norm_num
    omega
  have e3 : ¬ 64 ≤ L - l := by omega
  obtain ⟨c, hc⟩ := compress_loop_all infinity (2 ^ (L - l) - 1) hpos (2 ^ L) 0 w 0
    (by omega) hinf
  simp only [get_spline_component, shift_one_of_lt L hL, Option.some_bind, forward_all_levels,
    inverse_all_levels, e1, e2, hw, lifting.compress, if_neg e3, hc]

theorem wavelet_value (sqrt3 : K) (s : scheme) (custom_steps : List (lifting_step K))
    (L l : Nat) (hL : L < 64) (hl : l < L) (values w : List K)
    (hw : levels_up (fun x lev => forward_scheme sqrt3 s custom_steps x (2 ^ L) lev 1 false)
      (L - l) 0 values = some w)
    (hwl : w.length = 2 ^ L) :
    get_wavelet_component sqrt3 { levels := L, values := values } l s custom_steps =
      levels_down (fun x lev => inverse_scheme sqrt3 s custom_steps x (2 ^ L) lev 1 false)
        (L - l) (zero_from (fun i => !decide (i &&& (2 ^ (L - l) - 1) = 0) &&
          decide (i &&& (2 ^ (L - l - 1) - 1) = 0)) (2 ^ L) 0 w) := by
  have e1 : ((L : Int) - (l : Int)).toNat = L - l := by omega
  have e2 : (L : Int) - (l : Int) = ((L - l : Nat) : Int) := by omega
  have e3 : (L : Int) - (l : Int) - 1 = ((L - l - 1 : Nat) : Int) := by omega
  have h1 := shift_one_by_of_lt (L - l) (by omega)
  have h2 := shift_one_by_of_lt (L - l - 1) (by omega)
  rw [← e2] at h1
  rw [← e3] at h2
  simp only [get_wavelet_component, shift_one_of_lt L hL, Option.some_bind, forward_all_levels,
    inverse_all_levels, e1, hw, h1, h2, wavelet_loop_eq _ _ (2 ^ L) 0 w (by omega)]

/-- The components of a model: existence, the step from one level to the next
and the finest level. -/
theorem components_spec (sqrt3 : K) (hsqrt3 : sqrt3 * sqrt3 = 3) (s : scheme)
    (hs : s ≠ .custom) (custom_steps : List (lifting_step K)) (L : Nat) (hL : L < 64)
    (values : List K) (hlen : values.length = 2 ^ L) :
    ∃ B : K, ∀ infinity : K, B < infinity →
      ∃ spline wavelet : Nat → List K,
        (∀ l, l ≤ L → get_spline_component infinity sqrt3 { levels := L, values := values } l s
          custom_steps = some (spline l)) ∧
        (∀ l, l < L → get_wavelet_component sqrt3 { levels := L, values := values } l s
          custom_steps = some (wavelet l)) ∧
        (∀ l, l < L → comb 1 1 (spline l) (wavelet l) = spline (l + 1)) ∧
        spline L = values := by
  have hdiv : ∀ lev, lev < L → 2 ^ (lev + 1) ∣ 2 ^ L :=
    fun lev hlev => Nat.pow_dvd_pow 2 (by omega)
  have hU : ∀ S, S ≤ L → ∃ w,
      levels_up (fun x lev => forward_scheme sqrt3 s custom_steps x (2 ^ L) lev 1 false) S 0
        values = some w ∧ w.length = 2 ^ L := by
    intro S hS
    exact levels_up_total (2 ^ L) _ S 0
      (fun lev _ h2 => total_forward_scheme sqrt3 s custom_steps (2 ^ L) lev
        (hdiv lev (by omega))) values hlen
  have hD : ∀ S, S ≤ L → ∀ x : List K, x.length = 2 ^ L → ∃ y,
      levels_down (fun x lev => inverse_scheme sqrt3 s custom_steps x (2 ^ L) lev 1 false) S x =
        some y ∧ y.length = 2 ^ L := by
    intro S hS
    exact levels_down_total (2 ^ L) _ S
      (fun lev h2 => total_inverse_scheme sqrt3 s custom_steps (2 ^ L) lev
        (hdiv lev (by omega)))
  obtain ⟨B, hB0, hB⟩ := exists_bound
    (fun S => levels_up
      (fun x lev => forward_scheme sqrt3 s custom_steps x (2 ^ L) lev 1 false) S 0 values) L
  refine ⟨B, fun infinity hinf => ?_⟩
  have hpos : 0 < infinity := lt_of_le_of_lt hB0 hinf
  have hsp : ∀ l, l ≤ L → ∃ w y,
      levels_up (fun x lev => forward_scheme sqrt3 s custom_steps x (2 ^ L) lev 1 false)
        (L - l) 0 values = some w ∧ w.length = 2 ^ L ∧
      levels_down (fun x lev => inverse_scheme sqrt3 s custom_steps x (2 ^ L) lev 1 false)
        (L - l) (zero_from (fun i => decide (i &&& (2 ^ (L - l) - 1) = 0)) (2 ^ L) 0 w) =
        some y ∧
      get_spline_component infinity sqrt3 { levels := L, values := values } l s custom_steps =
        some y := by
    intro l hl
    obtain ⟨w, hw, hwl⟩ := hU (L - l) (by omega)
    obtain ⟨y, hy, -⟩ := hD (L - l) (by omega)
      (zero_from (fun i => decide (i &&& (2 ^ (L - l) - 1) = 0)) (2 ^ L) 0 w)
      (by rw [zero_from_length, hwl])
    refine ⟨w, y, hw, hwl, hy, ?_⟩
    rw [spline_value infinity sqrt3 s custom_steps L l hL hl values w hw hwl
      (fun c hc => lt_of_le_of_lt (hB (L - l) (by omega) w hw c hc) hinf) hpos, hy]
  have hwv : ∀ l, l < L → ∃ w y,
      levels_up (fun x lev => forward_scheme sqrt3 s custom_steps x (2 ^ L) lev 1 false)
        (L - l) 0 values = some w ∧
      levels_down (fun x lev => inverse_scheme sqrt3 s custom_steps x (2 ^ L) lev 1 false)
        (L - l) (zero_from (fun i => !decide (i &&& (2 ^ (L - l) - 1) = 0) &&
          decide (i &&& (2 ^ (L - l - 1) - 1) = 0)) (2 ^ L) 0 w) = some y ∧
      get_wavelet_component sqrt3 { levels := L, values := values } l s custom_steps =
        some y := by
    intro l hl
    obtain ⟨w, hw, hwl⟩ := hU (L - l) (by omega)
    obtain ⟨y, hy, -⟩ := hD (L - l) (by omega)
      (zero_from (fun i => !decide (i &&& (2 ^ (L - l) - 1) = 0) &&
          decide (i &&& (2 ^ (L - l - 1) - 1) = 0)) (2 ^ L) 0 w)
      (by rw [zero_from_length, hwl])
    refine ⟨w, y, hw, hy, ?_⟩
    rw [wavelet_value sqrt3 s custom_steps L l hL hl values w hw hwl, hy]
  refine ⟨fun l => (get_spline_component infinity sqrt3 { levels := L, values := values } l s
      custom_steps).getD [],
    fun l => (get_wavelet_component sqrt3 { levels := L, values := values } l s
      custom_steps).getD [], ?_, ?_, ?_, ?_⟩
  · intro l hl
    obtain ⟨w, y, -, -, -, h4⟩ := hsp l hl
    simp only [h4, Option.getD_some]
  · intro l hl
    obtain ⟨w, y, -, -, h4⟩ := hwv l hl
    simp only [h4, Option.getD_some]
  · intro l hl
    obtain ⟨w, y, a1, a2, a3, a4⟩ := hsp l (by omega)
    obtain ⟨w', y', b1, b3, b4⟩ := hwv l hl
    obtain ⟨w2, y2, c1, c2, c3, c4⟩ := hsp (l + 1) (by omega)
    rw [a1] at b1
    cases b1
    simp only [a4, b4, c4, Option.getD_some]
    obtain ⟨k, hk⟩ : ∃ k, L - l = k + 1 := ⟨L - l - 1, by omega⟩
    have hk2 : L - (l + 1) = k := by omega
    rw [hk] at a1 a3 b3
    rw [hk2] at c1 c3
    rw [Nat.add_sub_cancel] at b3
    -- the transform one level finer
    rw [levels_up_snoc, c1, Option.some_bind, Nat.zero_add] at a1
    have hlin := linear_levels_down
      (fun x lev => inverse_scheme sqrt3 s custom_steps x (2 ^ L) lev 1 false)
      (fun lev => linear_inverse_scheme sqrt3 s hs custom_steps (2 ^ L) lev) (k + 1) 1 1 _ _ y y'
      a3 b3
    rw [zero_from_add _ _ (fun i => decide (i &&& (2 ^ k - 1) = 0)) (2 ^ L) w a2 (by
      intro p _
      simp only [Nat.and_pow_two_sub_one_eq_mod]
      by_cases h1 : p % 2 ^ (k + 1) = 0
      · have h2 : p % 2 ^ k = 0 := by
          have := keep_coarser k p (by rwa [Nat.and_pow_two_sub_one_eq_mod])
          rwa [Nat.and_pow_two_sub_one_eq_mod] at this
        simp [h1, h2]
      · by_cases h2 : p % 2 ^ k = 0 <;> simp [h1, h2])] at hlin
    simp only [levels_down] at hlin
    rw [component_step sqrt3 hsqrt3 s hs custom_steps (2 ^ L) k (hdiv k (by omega)) w2 w c2 a1,
      Option.some_bind, c3] at hlin
    cases hlin
    rfl
  · obtain ⟨w, y, a1, a2, a3, a4⟩ := hsp L le_rfl
    simp only [a4, Option.getD_some]
    rw [Nat.sub_self] at a1 a3
    simp only [levels_up, levels_down] at a1 a3
    cases a1
    rw [zero_from_true _ _ _ _ (by intro p _ _; simp)] at a3
    cases a3
    rfl

end Decomposition

/-! ## Claims -/

section Claims

open lifting

/-- C2 (amended). For every stride `≥ 1`, every level, every `n` that is a
multiple of `2^(level+1)`, every buffer that holds the `n` strided samples and
every mask (any values; any length in non-cyclic mode, at most `n / 2^level`
entries in cyclic mode), `predict` returns a buffer on which `ipredict` with the
same arguments returns the original buffer, and likewise `update` / `iupdate`. -/
theorem C2_inverse_lifting_undoes {K : Type} [Field K] (x : List K) (n : Nat) (mask : List K)
    (level stride : Nat) (cyclical : Bool) (hstride : 1 ≤ stride)
    (hdiv : 2 ^ (level + 1) ∣ n) (hbuf : ∀ idx : Nat, idx < n → idx * stride < x.length)
    (hmask : cyclical = true → mask.length * 2 ^ level ≤ n) :
    (∃ y, predict x n mask level stride cyclical = some y ∧
        ipredict y n mask level stride cyclical = some x) ∧
    (∃ y, update x n mask level stride cyclical = some y ∧
        iupdate y n mask level stride cyclical = some x) := by
  obtain ⟨y, h1, -, h2⟩ :=
    undoes_predict x.length n level stride mask cyclical hstride hdiv hbuf hmask x rfl
  obtain ⟨z, h3, -, h4⟩ :=
    undoes_update x.length n level stride mask cyclical hstride hdiv hbuf hmask x rfl
  exact ⟨⟨y, h1, h2⟩, ⟨z, h3, h4⟩⟩

/-- C2 witness: the 4-point mask on eight rational samples, cyclic, level 0. -/
theorem C2_inverse_lifting_undoes_witness :
    (∃ y, predict ([1, 2, 3, 4, 5, 6, 7, 8] : List ℚ) 8 [-1 / 16, 9 / 16, 9 / 16, -1 / 16]
          0 1 true = some y ∧
        ipredict y 8 [-1 / 16, 9 / 16, 9 / 16, -1 / 16] 0 1 true =
          some [1, 2, 3, 4, 5, 6, 7, 8]) ∧
    (∃ y, update ([1, 2, 3, 4, 5, 6, 7, 8] : List ℚ) 8 [-1 / 16, 9 / 16, 9 / 16, -1 / 16]
          0 1 true = some y ∧
        iupdate y 8 [-1 / 16, 9 / 16, 9 / 16, -1 / 16] 0 1 true =
          some [1, 2, 3, 4, 5, 6, 7, 8]) :=
  C2_inverse_lifting_undoes ([1, 2, 3, 4, 5, 6, 7, 8] : List ℚ) 8
    [-1 / 16, 9 / 16, 9 / 16, -1 / 16] 0 1 true (by decide) (by decide)
    (by intro idx h; simp only [List.length_cons, List.length_nil]; omega) (by intro _; decide)

/-- C2 counterexample: (a) cyclic mode, `n = 2`, level 0, a four-entry mask: tap
`j = 3` of target `i = 0` has nominal index 4, one subtraction of `n` leaves 2,
which is outside the two-sample buffer, so `predict` has no defined result;
(b) stride 0, `n = 2`, mask `[1]`: every access hits cell 0 and
`ipredict (predict [5, 7])` is `[0, 7]`, not `[5, 7]`. -/
theorem C2_counterexample :
    ((predict ([1, 2] : List ℚ) 2 [0, 0, 0, 1] 0 1 true).bind
        fun y => ipredict y 2 [0, 0, 0, 1] 0 1 true) = none ∧
    ((predict ([5, 7] : List ℚ) 2 [1] 0 0 false).bind
        fun y => ipredict y 2 [1] 0 0 false) = some [0, 7] := by
  decide!

/-- C3 (amended). For every nonzero factor `s`, every stride `≥ 1`, every
level, every `n` that is a multiple of `2^(level+1)`, every buffer that holds
the `n` strided samples, and every border flag (any value in cyclic mode, a
nonnegative one in non-cyclic mode), `iscale_even` with the same arguments
undoes `scale_even`, and `iscale_odd` undoes `scale_odd`. -/
theorem C3_inverse_scale_undoes {K : Type} [Field K] (x : List K) (n : Nat) (s : K)
    (level : Nat) (only_scale_away_from_border : Int) (stride : Nat) (cyclical : Bool)
    (hs : s ≠ 0) (hstride : 1 ≤ stride) (hdiv : 2 ^ (level + 1) ∣ n)
    (hbuf : ∀ idx : Nat, idx < n → idx * stride < x.length)
    (hborder : cyclical = false → 0 ≤ only_scale_away_from_border) :
    (∃ y, scale_even x n s level only_scale_away_from_border stride cyclical = some y ∧
        iscale_even y n s level only_scale_away_from_border stride cyclical = some x) ∧
    (∃ y, scale_odd x n s level only_scale_away_from_border stride cyclical = some y ∧
        iscale_odd y n s level only_scale_away_from_border stride cyclical = some x) := by
  obtain ⟨y, h1, -, h2⟩ := undoes_scale_even x.length n level stride s
    only_scale_away_from_border cyclical hs hstride hdiv hbuf hborder x rfl
  obtain ⟨z, h3, -, h4⟩ := undoes_scale_odd x.length n level stride s
    only_scale_away_from_border cyclical hs hstride hdiv hbuf hborder x rfl
  exact ⟨⟨y, h1, h2⟩, ⟨z, h3, h4⟩⟩

/-- C3 witness: factor `3/2`, border flag 1, non-cyclic, eight rational samples. -/
theorem C3_inverse_scale_undoes_witness :
    (∃ y, scale_even ([1, 2, 3, 4, 5, 6, 7, 8] : List ℚ) 8 (3 / 2) 0 1 1 false = some y ∧
        iscale_even y 8 (3 / 2) 0 1 1 false = some [1, 2, 3, 4, 5, 6, 7, 8]) ∧
    (∃ y, scale_odd ([1, 2, 3, 4, 5, 6, 7, 8] : List ℚ) 8 (3 / 2) 0 1 1 false = some y ∧
        iscale_odd y 8 (3 / 2) 0 1 1 false = some [1, 2, 3, 4, 5, 6, 7, 8]) :=
  C3_inverse_scale_undoes ([1, 2, 3, 4, 5, 6, 7, 8] : List ℚ) 8 (3 / 2) 0 1 1 false
    (by norm_num) (by decide) (by decide)
    (by intro idx h; simp only [List.length_cons, List.length_nil]; omega) (by intro _; decide)

/-- C3 counterexample: (a) factor 0: `scale_even` turns `[1, 1]` into `[0, 1]`
and `iscale_even` divides 0 by 0, which does not give back 1 (the field
convention `0 / 0 = 0` is used here; IEEE arithmetic gives NaN); (b) border
flag `-1` in non-cyclic mode: the loop starts at index `-2`, outside the buffer. -/
theorem C3_counterexample :
    ((scale_even ([1, 1] : List ℚ) 2 0 0 0 1 true).bind
        fun y => iscale_even y 2 0 0 0 1 true) = some [0, 1] ∧
    scale_even ([1, 1] : List ℚ) 2 2 0 (-1) 1 false = none := by
  decide!

/-- C7 (amended). For `level < 64` the asserted predicate
`is_multiple_of_power_of_two(n, level)` is true if and only if `2^level`
divides `n`; each of the eight primitives evaluates it first and stops (failed
assertion) when it is false. -/
theorem C7_asserted_predicate {K : Type} [Field K] (n level : Nat) (hlevel : level < 64) :
    (is_multiple_of_power_of_two n level = true ↔ 2 ^ level ∣ n) ∧
    (is_multiple_of_power_of_two n level = false →
      ∀ (x mask : List K) (s : K) (b : Int) (stride : Nat) (cyclical : Bool),
        predict x n mask level stride cyclical = none ∧
        update x n mask level stride cyclical = none ∧
        ipredict x n mask level stride cyclical = none ∧
        iupdate x n mask level stride cyclical = none ∧
        scale_even x n s level b stride cyclical = none ∧
        scale_odd x n s level b stride cyclical = none ∧
        iscale_even x n s level b stride cyclical = none ∧
        iscale_odd x n s level b stride cyclical = none) := by
  refine ⟨is_multiple_iff n level hlevel, fun h x mask s b stride cyclical => ?_⟩
  simp [predict, update, ipredict, iupdate, scale_even, scale_odd, iscale_even, iscale_odd, h]

/-- C7 witness: `n = 12`, `level = 2` over the rationals. -/
theorem C7_asserted_predicate_witness :
    (is_multiple_of_power_of_two 12 2 = true ↔ 2 ^ 2 ∣ 12) ∧
    (is_multiple_of_power_of_two 12 2 = false →
      ∀ (x mask : List ℚ) (s : ℚ) (b : Int) (stride : Nat) (cyclical : Bool),
        predict x 12 mask 2 stride cyclical = none ∧
        update x 12 mask 2 stride cyclical = none ∧
        ipredict x 12 mask 2 stride cyclical = none ∧
        iupdate x 12 mask 2 stride cyclical = none ∧
        scale_even x 12 s 2 b stride cyclical = none ∧
        scale_odd x 12 s 2 b stride cyclical = none ∧
        iscale_even x 12 s 2 b stride cyclical = none ∧
        iscale_odd x 12 s 2 b stride cyclical = none) :=
  C7_asserted_predicate 12 2 (by decide)

/-- C7 counterexample: `n = 1`, `level = 0`: the predicate is true although
`2^(0+1) = 2` does not divide 1, and `predict` runs on the one-sample buffer. -/
theorem C7_counterexample :
    is_multiple_of_power_of_two 1 0 = true ∧ ¬ (2 ^ (0 + 1) ∣ 1) ∧
    predict ([7] : List ℚ) 1 [1] 0 1 false = some [7] := by
  decide!

/-- C9. For every step list, level and buffer, `inverse_custom_biorthogonal`
equals `inverse_custom` on the dual step list (tags `Predict` and `Update`
exchanged with masks kept, every scale factor `s` replaced by `1/s`). -/
theorem C9_biorthogonal_inverse_is_inverse_of_dual {K : Type} [Field K] (x : List K)
    (n level : Nat) (custom_steps : List (lifting_step K)) :
    inverse_custom_biorthogonal x n level custom_steps =
      inverse_custom x n level (dual_steps custom_steps) := by
  unfold inverse_custom_biorthogonal inverse_custom dual_steps
  rw [← List.map_reverse]
  exact run_steps_map_dual n level _ x

/-- C4. For every custom step list whose `ScaleEven` / `ScaleOdd` steps have a
nonzero first mask coefficient, every level and every buffer `x` whose length
`n` is a multiple of `2^(level+1)`, `forward_custom` returns a buffer on which
`inverse_custom` returns `x`.  The forward pass applies the first step of the
list first, the inverse pass inverts the first step of the list last, and a
scale step with an empty mask leaves the buffer as it is in both. -/
theorem C4_custom_roundtrip {K : Type} [Field K] (x : List K) (n level : Nat)
    (custom_steps : List (lifting_step K)) (hlen : x.length = n)
    (hdiv : 2 ^ (level + 1) ∣ n)
    (hscale : ∀ s ∈ custom_steps,
      s.type = .lst_scale_even ∨ s.type = .lst_scale_odd → s.mask.head? ≠ some 0) :
    (∃ y, forward_custom x n level custom_steps = some y ∧
        inverse_custom y n level custom_steps = some x) ∧
    (∀ (s : lifting_step K) (rest : List (lifting_step K)) (z : List K),
      forward_custom z n level (s :: rest) =
        (forward_custom_step z n level s).bind fun z1 => forward_custom z1 n level rest) ∧
    (∀ (s : lifting_step K) (rest : List (lifting_step K)) (z : List K),
      inverse_custom z n level (s :: rest) =
        (inverse_custom z n level rest).bind fun z1 => inverse_custom_step z1 n level s) ∧
    (∀ (ty : lifting_step_type) (z : List K),
      ty = .lst_scale_even ∨ ty = .lst_scale_odd →
        forward_custom_step z n level { type := ty, mask := [] } = some z ∧
        inverse_custom_step z n level { type := ty, mask := [] } = some z) := by
  refine ⟨?_, ?_, ?_, ?_⟩
  · have hs : ∀ s ∈ custom_steps,
        s.type = .lst_predict ∨ s.type = .lst_update ∨ s.mask.head? ≠ some 0 := by
      intro s hmem
      have := hscale s hmem
      rcases hty : s.type with _ | _ | _ | _
      · exact Or.inl rfl
      · exact Or.inr (Or.inl rfl)
      · exact Or.inr (Or.inr (this (Or.inl hty)))
      · exact Or.inr (Or.inr (this (Or.inr hty)))
    obtain ⟨y, h1, -, h2⟩ := undoes_run_steps n level hdiv custom_steps hs x hlen
    exact ⟨y, h1, h2⟩
  · intro s rest z
    rfl
  · intro s rest z
    unfold inverse_custom
    rw [List.reverse_cons, run_steps_append]
    congr 1
    funext z1
    exact run_steps_singleton _ _ _ _ _
  · intro ty z hty
    rcases hty with rfl | rfl <;> exact ⟨rfl, rfl⟩

/-- C4 witness: the 4-point predict, a two-tap update and a scale step by 2 on
eight rational samples at level 0. -/
theorem C4_custom_roundtrip_witness :
    (∃ y, forward_custom ([1, 2, 3, 4, 5, 6, 7, 8] : List ℚ) 8 0
          [{ type := .lst_predict, mask := [-1 / 16, 9 / 16, 9 / 16, -1 / 16] },
           { type := .lst_update, mask := [1 / 4, 1 / 4] },
           { type := .lst_scale_even, mask := [2] }] = some y ∧
        inverse_custom y 8 0
          [{ type := .lst_predict, mask := [-1 / 16, 9 / 16, 9 / 16, -1 / 16] },
           { type := .lst_update, mask := [1 / 4, 1 / 4] },
           { type := .lst_scale_even, mask := [2] }] = some [1, 2, 3, 4, 5, 6, 7, 8]) :=
  (C4_custom_roundtrip ([1, 2, 3, 4, 5, 6, 7, 8] : List ℚ) 8 0
    [{ type := .lst_predict, mask := [-1 / 16, 9 / 16, 9 / 16, -1 / 16] },
     { type := .lst_update, mask := [1 / 4, 1 / 4] },
     { type := .lst_scale_even, mask := [2] }] rfl (by decide)
    (by
      intro s hs _
      simp only [List.mem_cons, List.mem_singleton, List.not_mem_nil, or_false] at hs
      rcases hs with rfl | rfl | rfl <;> norm_num)).1

/-- C8. Let `n` be a multiple of `2^(level+1)`, `M = n / 2^(level+1)`, and let
`lo` be 0 in cyclic mode and the border flag in non-cyclic mode.  `scale_even`
multiplies by `s` exactly the samples at the indices `k * 2^(level+1)` with
`lo ≤ k` and `k + lo < M`, `scale_odd` exactly those at
`2^level + k * 2^(level+1)` for the same `k`, and every other cell is kept.
With `lo = 0` (cyclic mode, whatever the flag, or flag 0) these are all
`k < M`; with flag 1 in non-cyclic mode they are all but the first (`k = 0`)
and the last (`k = M - 1`). -/
theorem C8_scale_pointwise {K : Type} [Field K] (x : List K) (n : Nat) (s : K) (level : Nat)
    (border : Int) (stride : Nat) (cyclical : Bool) (hstride : 1 ≤ stride)
    (hdiv : 2 ^ (level + 1) ∣ n) (hbuf : ∀ idx : Nat, idx < n → idx * stride < x.length)
    (hborder : cyclical = false → 0 ≤ border) :
    (∃ y, scale_even x n s level border stride cyclical = some y ∧ y.length = x.length ∧
      (∀ k : Nat, (if cyclical then 0 else border) ≤ k →
          k + (if cyclical then 0 else border) < (n / 2 ^ (level + 1) : Nat) →
        y[k * 2 ^ (level + 1) * stride]? =
          (x[k * 2 ^ (level + 1) * stride]?).map fun v => v * s) ∧
      (∀ p : Nat, (∀ k : Nat, (if cyclical then 0 else border) ≤ k →
          k + (if cyclical then 0 else border) < (n / 2 ^ (level + 1) : Nat) →
          p ≠ k * 2 ^ (level + 1) * stride) → y[p]? = x[p]?)) ∧
    (∃ y, scale_odd x n s level border stride cyclical = some y ∧ y.length = x.length ∧
      (∀ k : Nat, (if cyclical then 0 else border) ≤ k →
          k + (if cyclical then 0 else border) < (n / 2 ^ (level + 1) : Nat) →
        y[(2 ^ level + k * 2 ^ (level + 1)) * stride]? =
          (x[(2 ^ level + k * 2 ^ (level + 1)) * stride]?).map fun v => v * s) ∧
      (∀ p : Nat, (∀ k : Nat, (if cyclical then 0 else border) ≤ k →
          k + (if cyclical then 0 else border) < (n / 2 ^ (level + 1) : Nat) →
          p ≠ (2 ^ level + k * 2 ^ (level + 1)) * stride) → y[p]? = x[p]?)) := by
  have hn : n = n / 2 ^ (level + 1) * 2 ^ (level + 1) := (Nat.div_mul_cancel hdiv).symm
  have hP : 2 ^ level < 2 ^ (level + 1) := Nat.pow_lt_pow_right (by norm_num) (by omega)
  have hlo : (0 : Int) ≤ if cyclical then 0 else border := by
    cases cyclical with
    | true => simp
    | false => simpa using hborder rfl
  have he := scale_spec_gen (fun v => v * s) x n level stride (n / 2 ^ (level + 1))
    (if cyclical then 0 else border) hlo 0 (Nat.pow_pos (by norm_num)) hstride hn hbuf
  have ho := scale_spec_gen (fun v => v * s) x n level stride (n / 2 ^ (level + 1))
    (if cyclical then 0 else border) hlo (2 ^ level) hP hstride hn hbuf
  simp only [scale_even, scale_odd, is_multiple_of_dvd n level hdiv, Bool.not_true,
    Bool.false_eq_true, if_false]
  cases cyclical with
  | true =>
    simp only [if_true, zero_mul, sub_zero, add_zero, Nat.cast_zero, zero_add, Nat.cast_pow,
      Nat.cast_ofNat] at he ho ⊢
    exact ⟨he, ho⟩
  | false =>
    simp only [Bool.false_eq_true, if_false, Nat.cast_zero, zero_add, Nat.cast_pow,
      Nat.cast_ofNat] at he ho ⊢
    exact ⟨he, ho⟩

/-- C8 witness: eight rational samples, level 0, border flag 1, non-cyclic. -/
theorem C8_scale_pointwise_witness :
    (∃ y, scale_even ([1, 2, 3, 4, 5, 6, 7, 8] : List ℚ) 8 3 0 1 1 false = some y ∧
      y.length = ([1, 2, 3, 4, 5, 6, 7, 8] : List ℚ).length ∧
      (∀ k : Nat, (if false then 0 else (1 : Int)) ≤ k →
          k + (if false then 0 else (1 : Int)) < (8 / 2 ^ (0 + 1) : Nat) →
        y[k * 2 ^ (0 + 1) * 1]? =
          (([1, 2, 3, 4, 5, 6, 7, 8] : List ℚ)[k * 2 ^ (0 + 1) * 1]?).map fun v => v * 3) ∧
      (∀ p : Nat, (∀ k : Nat, (if false then 0 else (1 : Int)) ≤ k →
          k + (if false then 0 else (1 : Int)) < (8 / 2 ^ (0 + 1) : Nat) →
          p ≠ k * 2 ^ (0 + 1) * 1) → y[p]? = ([1, 2, 3, 4, 5, 6, 7, 8] : List ℚ)[p]?)) :=
  (C8_scale_pointwise ([1, 2, 3, 4, 5, 6, 7, 8] : List ℚ) 8 3 0 1 1 false (by decide)
    (by decide) (by intro idx h; simp only [List.length_cons, List.length_nil]; omega)
    (by intro _; decide)).1

/-- C1. Exact arithmetic in a field of characteristic zero, `sqrt3` a square
root of 3.  For every catalog scheme `s` (every scheme other than `custom`),
every `L ≥ get_width s`, every buffer `x` of `2^L` samples and both boundary
modes: the forward transform of `s` at the levels `0, 1, ..., L - get_width s`
returns a buffer on which the inverse transform of `s` at the levels
`L - get_width s, ..., 1, 0` returns `x`. -/
theorem C1_catalog_roundtrip {K : Type} [Field K] [CharZero K] (sqrt3 : K)
    (hsqrt3 : sqrt3 * sqrt3 = 3) (s : scheme) (hs : s ≠ .custom)
    (custom_steps : List (lifting_step K)) (L : Nat) (hL : get_width s ≤ L) (x : List K)
    (hx : x.length = 2 ^ L) (cyclical : Bool) :
    ∃ y, forward_levels sqrt3 s custom_steps x (2 ^ L) L 1 cyclical = some y ∧
      inverse_levels sqrt3 s custom_steps y (2 ^ L) L 1 cyclical = some x := by
  have hw := get_width_ge s
  have h := undoes_levels (2 ^ L)
    (fun x lev => forward_scheme sqrt3 s custom_steps x (2 ^ L) lev 1 cyclical)
    (fun y lev => inverse_scheme sqrt3 s custom_steps y (2 ^ L) lev 1 cyclical)
    ((L : Int) - get_width s + 1).toNat (by
      intro lev hlev
      have h4 : lev + 4 ≤ L := by omega
      refine undoes_scheme sqrt3 hsqrt3 s hs custom_steps (2 ^ L) (2 ^ L) lev 1 cyclical le_rfl
        (Nat.pow_dvd_pow 2 (by omega)) (fun idx hi => by omega) (fun _ => ?_)
      calc 4 * 2 ^ lev = 2 ^ (lev + 2) := by rw [pow_add]; ring
        _ ≤ 2 ^ L := Nat.pow_le_pow_right (by norm_num) (by omega))
  obtain ⟨y, a, -, c⟩ := h x hx
  exact ⟨y, a, c⟩

/-- C1 witness: Daubechies D4 over the reals with `sqrt3 = √3`, `L = 4`, the
unit impulse at index 8 of sixteen samples, cyclic mode. -/
theorem C1_catalog_roundtrip_witness :
    ∃ y, forward_levels (Real.sqrt 3) .daubechies_d4 []
        ([0, 0, 0, 0, 0, 0, 0, 0, 1, 0, 0, 0, 0, 0, 0, 0] : List ℝ) (2 ^ 4) (4 : Nat) 1 true =
          some y ∧
      inverse_levels (Real.sqrt 3) .daubechies_d4 [] y (2 ^ 4) (4 : Nat) 1 true =
        some [0, 0, 0, 0, 0, 0, 0, 0, 1, 0, 0, 0, 0, 0, 0, 0] :=
  C1_catalog_roundtrip (Real.sqrt 3) (Real.mul_self_sqrt (by norm_num)) .daubechies_d4
    (by decide) [] 4 (by decide) [0, 0, 0, 0, 0, 0, 0, 0, 1, 0, 0, 0, 0, 0, 0, 0] rfl true

/-- C5. Non-cyclic mode, `n` a multiple of `2^(level+1)`, any mask length and
level, a buffer that holds the `n` strided samples.  (a) `predict`, `update`,
`ipredict` and `iupdate` each return a buffer, i.e. no access leaves the
storage.  (b) For every target number `i` of the `predict` loop and every tap
`j` the tap index lies in `[0, n)`: it is 0 (the first even sample) when the
nominal index `(i + j + offset) << (level+1)` is negative, `n - 2^(level+1)`
(the last even sample) when the nominal index is `≥ n`, and the nominal index
otherwise; the written index lies in `[0, n)`.  (c) The same for the `update`
loop (`i` from 1) with nominal index `(((i + j + offset) << 1) - 1) << level`,
first odd sample `2^level` and last odd sample `n - 2^level`. -/
theorem C5_noncyclic_in_bounds {K : Type} [Field K] (x mask : List K) (n level stride : Nat)
    (hstride : 1 ≤ stride) (hdiv : 2 ^ (level + 1) ∣ n)
    (hbuf : ∀ idx : Nat, idx < n → idx * stride < x.length) :
    ((predict x n mask level stride false).isSome ∧
      (update x n mask level stride false).isSome ∧
      (ipredict x n mask level stride false).isSome ∧
      (iupdate x n mask level stride false).isSome) ∧
    (∀ i j : Int, 0 ≤ i → i < (n >>> (level + 1) : Nat) → 0 ≤ j → j < mask.length →
      (0 ≤ predict_coeff n mask.length level false i j ∧
        predict_coeff n mask.length level false i j < n) ∧
      ((i + j + (-((mask.length >>> 1 : Nat) : Int) + 1)) * 2 ^ (level + 1) < 0 →
        predict_coeff n mask.length level false i j = 0) ∧
      ((i + j + (-((mask.length >>> 1 : Nat) : Int) + 1)) * 2 ^ (level + 1) ≥ n →
        predict_coeff n mask.length level false i j = n - 2 ^ (level + 1)) ∧
      ((0 : Int) ≤ (i + j + (-((mask.length >>> 1 : Nat) : Int) + 1)) * 2 ^ (level + 1) →
        (i + j + (-((mask.length >>> 1 : Nat) : Int) + 1)) * 2 ^ (level + 1) < n →
        predict_coeff n mask.length level false i j =
          (i + j + (-((mask.length >>> 1 : Nat) : Int) + 1)) * 2 ^ (level + 1)) ∧
      (0 ≤ predict_target level i ∧ predict_target level i < n)) ∧
    (∀ i j : Int, 1 ≤ i → i < (n >>> (level + 1) : Nat) → 0 ≤ j → j < mask.length →
      (0 ≤ update_coeff n mask.length level false i j ∧
        update_coeff n mask.length level false i j < n) ∧
      (((i + j + (-((mask.length >>> 1 : Nat) : Int) + 1)) * 2 - 1) * 2 ^ level < 0 →
        update_coeff n mask.length level false i j = 2 ^ level) ∧
      (((i + j + (-((mask.length >>> 1 : Nat) : Int) + 1)) * 2 - 1) * 2 ^ level ≥ n →
        update_coeff n mask.length level false i j = n - 2 ^ level) ∧
      ((0 : Int) ≤ ((i + j + (-((mask.length >>> 1 : Nat) : Int) + 1)) * 2 - 1) * 2 ^ level →
        ((i + j + (-((mask.length >>> 1 : Nat) : Int) + 1)) * 2 - 1) * 2 ^ level < n →
        update_coeff n mask.length level false i j =
          ((i + j + (-((mask.length >>> 1 : Nat) : Int) + 1)) * 2 - 1) * 2 ^ level) ∧
      (0 ≤ update_target level i ∧ update_target level i < n)) := by
  have hn : n = n / 2 ^ (level + 1) * 2 ^ (level + 1) := (Nat.div_mul_cancel hdiv).symm
  have hM : n >>> (level + 1) = n / 2 ^ (level + 1) := Nat.shiftRight_eq_div_pow _ _
  have hnZ : (n : Int) = ((n / 2 ^ (level + 1) : Nat) : Int) * 2 ^ (level + 1) := by
    conv_lhs => rw [hn]
    push_cast; ring
  have hP : (0 : Int) < 2 ^ level := by positivity
  have hQ : (0 : Int) < 2 ^ (level + 1) := by positivity
  have hQP : (2 : Int) ^ (level + 1) = 2 ^ level * 2 := pow_succ 2 level
  refine ⟨⟨?_, ?_, ?_, ?_⟩, ?_, ?_⟩
  · obtain ⟨y, h, -⟩ := undoes_predict x.length n level stride mask false hstride hdiv hbuf
      (by simp) x rfl
    simp [h]
  · obtain ⟨y, h, -⟩ := undoes_update x.length n level stride mask false hstride hdiv hbuf
      (by simp) x rfl
    simp [h]
  · obtain ⟨y, h, -⟩ := undoes_ipredict x.length n level stride mask false hstride hdiv hbuf
      (by simp) x rfl
    simp [h]
  · obtain ⟨y, h, -⟩ := undoes_iupdate x.length n level stride mask false hstride hdiv hbuf
      (by simp) x rfl
    simp [h]
  · intro i j hi0 hi1 hj0 hj1
    rw [hM] at hi1
    simp only [predict_coeff, predict_target, clamp_coeff, Bool.false_eq_true, if_false, hM]
    generalize (i + j + (-((mask.length >>> 1 : Nat) : Int) + 1)) = k
    generalize hMd : ((n / 2 ^ (level + 1) : Nat) : Int) = M at hnZ hi1
    rw [hnZ]
    simp only [mul_neg_iff_of_pos k _ hQ, mul_ge_iff_of_pos k M _ hQ]
    have hk0 : 0 ≤ k * 2 ^ (level + 1) ↔ 0 ≤ k := by
      have := mul_neg_iff_of_pos k _ hQ
      constructor <;> intro h <;> by_contra hc <;> omega
    have hk1 : k * 2 ^ (level + 1) < M * 2 ^ (level + 1) ↔ k < M := by
      have := mul_ge_iff_of_pos k M _ hQ
      constructor <;> intro h <;> by_contra hc <;> omega
    rw [hk0, hk1]
    refine ⟨?_, ?_, ?_, ?_, ?_⟩
    · by_cases h1 : k < 0
      · rw [if_pos h1]
        exact ⟨le_rfl, by nlinarith⟩
      · by_cases h2 : k ≥ M
        · rw [if_neg h1, if_pos h2]
          exact ⟨by nlinarith, by nlinarith⟩
        · rw [if_neg h1, if_neg h2]
          exact ⟨by nlinarith, by nlinarith⟩
    · intro h1
      rw [if_pos h1]
    · intro h2
      have h1 : ¬ k < 0 := by omega
      rw [if_neg h1, if_pos h2]
      ring
    · intro h1 h2
      rw [if_neg (by omega), if_neg (by omega)]
    · rw [hQP]
      exact ⟨by positivity, by nlinarith⟩
  · intro i j hi0 hi1 hj0 hj1
    rw [hM] at hi1
    simp only [update_coeff, update_target, clamp_coeff, Bool.false_eq_true, if_false, hM]
    generalize (i + j + (-((mask.length >>> 1 : Nat) : Int) + 1)) = k
    generalize hMd : ((n / 2 ^ (level + 1) : Nat) : Int) = M at hnZ hi1
    have hnZ2 : (n : Int) = (2 * M) * 2 ^ level := by rw [hnZ, hQP]; ring
    rw [hnZ2]
    simp only [mul_neg_iff_of_pos _ _ hP, mul_ge_iff_of_pos _ (2 * M) _ hP]
    have hk0 : 0 ≤ (k * 2 - 1) * 2 ^ level ↔ 0 ≤ k * 2 - 1 := by
      have := mul_neg_iff_of_pos (k * 2 - 1) _ hP
      constructor <;> intro h <;> by_contra hc <;> omega
    have hk1 : (k * 2 - 1) * 2 ^ level < (2 * M) * 2 ^ level ↔ k * 2 - 1 < 2 * M := by
      have := mul_ge_iff_of_pos (k * 2 - 1) (2 * M) _ hP
      constructor <;> intro h <;> by_contra hc <;> omega
    rw [hk0, hk1]
    refine ⟨?_, ?_, ?_, ?_, ?_⟩
    · by_cases h1 : k * 2 - 1 < 0
      · rw [if_pos h1]
        exact ⟨le_of_lt hP, by nlinarith⟩
      · by_cases h2 : k * 2 - 1 ≥ 2 * M
        · rw [if_neg h1, if_pos h2]
          exact ⟨by nlinarith, by nlinarith⟩
        · rw [if_neg h1, if_neg h2]
          exact ⟨by nlinarith, by nlinarith⟩
    · intro h1
      rw [if_pos h1]
    · intro h2
      have h1 : ¬ k * 2 - 1 < 0 := by omega
      rw [if_neg h1, if_pos h2]
      ring
    · intro h1 h2
      rw [if_neg (by omega), if_neg (by omega)]
    · rw [hQP]
      have h3 : (2 * i) * 2 ^ level < (2 * M) * 2 ^ level :=
        mul_lt_mul_of_pos_right (by omega) hP
      have h4 : 0 ≤ (2 * i) * 2 ^ level := mul_nonneg (by omega) (le_of_lt hP)
      have e : i * (2 ^ level * 2) = (2 * i) * 2 ^ level := by ring
      rw [e]
      exact ⟨h4, h3⟩

/-- C5 witness: the four passes on eight rational samples with the 4-point
mask, level 0, stride 1, non-cyclic. -/
theorem C5_noncyclic_in_bounds_witness :
    (predict ([1, 2, 3, 4, 5, 6, 7, 8] : List ℚ) 8 [-1 / 16, 9 / 16, 9 / 16, -1 / 16]
        0 1 false).isSome ∧
    (update ([1, 2, 3, 4, 5, 6, 7, 8] : List ℚ) 8 [-1 / 16, 9 / 16, 9 / 16, -1 / 16]
        0 1 false).isSome ∧
    (ipredict ([1, 2, 3, 4, 5, 6, 7, 8] : List ℚ) 8 [-1 / 16, 9 / 16, 9 / 16, -1 / 16]
        0 1 false).isSome ∧
    (iupdate ([1, 2, 3, 4, 5, 6, 7, 8] : List ℚ) 8 [-1 / 16, 9 / 16, 9 / 16, -1 / 16]
        0 1 false).isSome :=
  (C5_noncyclic_in_bounds ([1, 2, 3, 4, 5, 6, 7, 8] : List ℚ)
    [-1 / 16, 9 / 16, 9 / 16, -1 / 16] 8 0 1 (by decide) (by decide)
    (by intro idx h; simp only [List.length_cons, List.length_nil]; omega)).1

/-- C6 (the code at the failing input). Cyclic mode, `n = 2`, level 0, a mask
of four entries.  Tap `j = 3` of `predict` target `i = 0` has nominal index 4;
the code subtracts `n` once and reads index 2, not `4 mod 2 = 0`.  Tap `j = 0`
of `update` target `i = 0` has nominal index `-3`; the code adds `n` once and
reads index `-1`, not `-3 mod 2 = 1`.  Both indices are outside `[0, 2)`, and
on a two-sample buffer neither pass has a defined result. -/
theorem C6_cyclic_wrap_leaves_range :
    predict_coeff 2 4 0 true 0 3 = 2 ∧ (4 : Int) % 2 = 0 ∧
    update_coeff 2 4 0 true 0 0 = -1 ∧ (-3 : Int) % 2 = 1 ∧
    predict ([1, 2] : List ℚ) 2 [0, 0, 0, 1] 0 1 true = none ∧
    update ([1, 2] : List ℚ) 2 [1, 0, 0, 0] 0 1 true = none := by
  decide!

/-- C10. Whenever `parse` returns without a caught error, the script was
tokenized and `make_program` produced a program such that: every tag statement
carries one of the names `predict`, `update`, `scale_even`, `scale_odd`; every
expression statement was evaluated; and the returned rules are exactly
`steps_of_statements`: one step per tag statement, in source order, of the
kind the tag names, whose mask is the list of the values of the expression
statements between that tag and the next one, in source order. -/
theorem C10_parse_builds_steps {D : Type} [Field D] (tokenize : String → Except Failure tokens)
    (to_double : String → D) (m : cmath D) (wavelet_rules : String) (out : parse_output D)
    (hparse : parse tokenize to_double m wavelet_rules = .ok out)
    (hok : out.error = none) :
    ∃ (tokes : tokens) (prog : Program D),
      tokenize wavelet_rules = .ok tokes ∧
      make_program to_double tokes = .ok prog ∧
      (∀ t, Statement.tag t ∈ prog.statements → is_tag t.name = true) ∧
      (∀ e, Statement.expression e ∈ prog.statements → ∃ v, get_value m e = .ok v) ∧
      out.rules = steps_of_statements m prog.statements := by
  unfold parse at hparse
  rcases ht : tokenize wavelet_rules with f | tokes
  · rw [ht] at hparse
    cases f <;> simp at hparse
    subst hparse
    simp at hok
  rw [ht] at hparse
  simp only at hparse
  rcases hp : make_program to_double tokes with f | prog
  · rw [hp] at hparse
    cases f <;> simp at hparse
    subst hparse
    simp at hok
  rw [hp] at hparse
  simp only at hparse
  have htags : ∀ t, Statement.tag t ∈ prog.statements → is_tag t.name = true := by
    unfold make_program at hp
    rcases hl : make_program_loop to_double tokes.length tokes with f | stms
    · simp [hl] at hp
    · simp only [hl] at hp
      cases hp
      exact make_program_loop_tags to_double _ _ _ hl
  rcases hb : build_rules m prog.statements [] with ⟨rules, err⟩
  rw [hb] at hparse
  cases err with
  | some f =>
    cases f <;> simp at hparse
    subst hparse
    simp at hok
  | none =>
    simp only at hparse
    cases hparse
    obtain ⟨h1, h2⟩ := build_rules_spec m prog.statements [] rules htags hb
    refine ⟨tokes, prog, rfl, hp, htags, h1, ?_⟩
    rw [h2, foldl_push_to_back_nil]
    rfl

/-- C10 witness: the script of the specification's example, tokenized as
`example_script_tokens` and read over the rationals, parses to exactly
`[Predict [-1/16, 9/16, 9/16, -1/16], Update [1/4, 1/4]]` with no error, and
the theorem applies to it. -/
theorem C10_parse_builds_steps_witness :
    parse (fun _ => .ok example_script_tokens) example_to_double example_cmath
        "predict;\n-1/16; 9/16; 9/16; -1/16;\n\nupdate;\n0.25; 0.25;" =
      .ok { rules := [{ type := .lst_predict, mask := [-1 / 16, 9 / 16, 9 / 16, -1 / 16] },
                      { type := .lst_update, mask := [1 / 4, 1 / 4] }],
            error := none } ∧
    ∃ (tokes : tokens) (prog : Program ℚ),
      (Except.ok example_script_tokens : Except Failure tokens) = .ok tokes ∧
      make_program example_to_double tokes = .ok prog ∧
      (∀ t, Statement.tag t ∈ prog.statements → is_tag t.name = true) ∧
      (∀ e, Statement.expression e ∈ prog.statements →
        ∃ v, get_value example_cmath e = .ok v) ∧
      [{ type := .lst_predict, mask := [-1 / 16, 9 / 16, 9 / 16, -1 / 16] },
        { type := .lst_update, mask := [1 / 4, 1 / 4] }] =
        steps_of_statements example_cmath prog.statements :=
  have h : parse (fun _ => .ok example_script_tokens) example_to_double example_cmath
        "predict;\n-1/16; 9/16; 9/16; -1/16;\n\nupdate;\n0.25; 0.25;" =
      .ok { rules := [{ type := .lst_predict, mask := [-1 / 16, 9 / 16, 9 / 16, -1 / 16] },
                      { type := .lst_update, mask := [1 / 4, 1 / 4] }],
            error := none } := by decide!
  ⟨h, C10_parse_builds_steps (fun _ => .ok example_script_tokens) example_to_double
    example_cmath _ _ h rfl⟩

/-- C11. Code defect shown at the failing input `predict; 1 +`: `parse_multiop`
reads `tokes.back().line_nr` without testing for an empty stack, so
`make_program` has no defined behaviour there and `parse` does not return an
empty step list with a logged message.  The other half of the claim holds:
whenever `parse` returns with a caught `std::logic_error`, the returned step
list is empty.  The fuel of the parser never runs out, so every run of `parse`
on tokens that does not return ends in an operation without defined
behaviour. -/
theorem C11_parse_does_not_return_on_premature_end :
    make_program digits_to_double tokens_end_after_operator = .error .undefined_behaviour ∧
    parse (fun _ => .ok tokens_end_after_operator) digits_to_double example_cmath
        "predict; 1 +" = .error .undefined_behaviour ∧
    (∀ (tokenize : String → Except Failure tokens) (to_double : String → ℚ) (m : cmath ℚ)
        (script : String) (out : parse_output ℚ),
      parse tokenize to_double m script = .ok out → out.error ≠ none → out.rules = []) ∧
    (∀ (tokenize : String → Except Failure tokens) (to_double : String → ℚ) (m : cmath ℚ)
        (script : String) (tokes : tokens), tokenize script = .ok tokes →
      (∃ out, parse tokenize to_double m script = .ok out) ∨
        parse tokenize to_double m script = .error .undefined_behaviour) := by
  have h : is_undefined_behaviour
      (make_program digits_to_double tokens_end_after_operator) = true := by decide!
  have h1 : make_program digits_to_double tokens_end_after_operator =
      .error .undefined_behaviour := by
    revert h
    cases make_program digits_to_double tokens_end_after_operator with
    | ok p => simp [is_undefined_behaviour]
    | error f => cases f <;> simp [is_undefined_behaviour]
  refine ⟨h1, by decide!, fun tokenize to_double m script out h he =>
    parse_error_rules_empty tokenize to_double m script out h he,
    fun tokenize to_double m script tokes ht => ?_⟩
  have hfuel := parse_ne_out_of_fuel tokenize to_double m script (by rw [ht]; simp)
  have hlogic : ∀ w, parse tokenize to_double m script ≠ .error (.logic_error w) := by
    intro w hc
    simp only [parse, ht] at hc
    split at hc
    · cases hc
    · rename_i f hne _
      simp only [Except.error.injEq] at hc
      exact hne w hc
    · split at hc
      · cases hc
      · rename_i f hne _
        simp only [Except.error.injEq] at hc
        exact hne w hc
      · cases hc
  cases hr : parse tokenize to_double m script with
  | ok out => exact Or.inl ⟨out, rfl⟩
  | error f =>
    cases f with
    | logic_error w => exact absurd hr (hlogic w)
    | undefined_behaviour => exact Or.inr rfl
    | out_of_fuel => exact absurd hr hfuel

/-- C12. When the tokens of a script make a program whose first statement
is an expression, which is so whenever the first token does not start a tag,
`parse` catches the error
`error: tag missing (valid tags are update, predict, scale_even, scale_odd)`
and returns an empty step list. -/
theorem C12_expression_before_tag {D : Type} [Field D]
    (tokenize : String → Except Failure tokens) (to_double : String → D) (m : cmath D)
    (wavelet_rules : String) (tokes : tokens) (prog : Program D)
    (ht : tokenize wavelet_rules = .ok tokes)
    (hp : make_program to_double tokes = .ok prog) :
    (∀ e rest, prog.statements = .expression e :: rest →
      parse tokenize to_double m wavelet_rules =
        .ok { rules := [],
              error := some
                "error: tag missing (valid tags are update, predict, scale_even, scale_odd)" }) ∧
    (∀ t more, tokes = t :: more → ¬ (t.type = .T_ID ∧ is_tag t.value = true) →
      (∃ e rest, prog.statements = .expression e :: rest) ∧
      parse tokenize to_double m wavelet_rules =
        .ok { rules := [],
              error := some
                "error: tag missing (valid tags are update, predict, scale_even, scale_odd)" }) := by
  have key : ∀ e rest, prog.statements = .expression e :: rest →
      parse tokenize to_double m wavelet_rules =
        .ok { rules := [],
              error := some
                "error: tag missing (valid tags are update, predict, scale_even, scale_odd)" } := by
    intro e rest hs
    simp only [parse, ht, hp, hs, build_rules, List.isEmpty_nil, if_true]
  refine ⟨key, fun t more htok hfirst => ?_⟩
  subst htok
  obtain ⟨e, rest, hs⟩ := make_program_first_statement to_double t more prog hp hfirst
  exact ⟨⟨e, rest, hs⟩, key e rest hs⟩

/-- C12 witness: the script `0.5;` alone. -/
theorem C12_expression_before_tag_witness :
    parse (fun _ => .ok tokens_number_only) half_to_double example_cmath "0.5;" =
      .ok { rules := [],
            error := some
              "error: tag missing (valid tags are update, predict, scale_even, scale_odd)" } ∧
    ∃ (prog : Program ℚ) (e : Expression ℚ),
      make_program half_to_double tokens_number_only = .ok prog ∧
      prog.statements = [.expression e] ∧ get_value example_cmath e = .ok (1 / 2) := by
  have h0 : (make_program half_to_double tokens_number_only).toOption.map
      (fun prog => match prog.statements with
        | [.expression e] => some (get_value example_cmath e)
        | _ => none) = some (some (.ok (1 / 2))) := by decide!
  obtain ⟨⟨stmts⟩, hp, h1⟩ := ok_of_toOption_map _ _ _ h0
  match stmts, hp, h1 with
  | [.expression e], hp, h1 =>
    simp only [Option.some.injEq] at h1
    exact ⟨(C12_expression_before_tag (fun _ => .ok tokens_number_only) half_to_double
      example_cmath "0.5;" tokens_number_only _ rfl hp).1 e [] rfl, _, e, hp, rfl, h1⟩

/-- C13. Every expression that `make_expression` returns has the shape of
the grammar (one operand more than operators, `+`/`-` between terms, `*`/`/`
between factors, a sign on each factor), `get_value` returns its arithmetic
value (terms before sums, equal precedence from left to right, the sign on
its factor only, a parenthesised expression as a unit) whenever that value
exists, and it exists when every call has the number of arguments of its
function. -/
theorem C13_get_value_is_arithmetic_value {D : Type} [Field D] (to_double : String → D)
    (m : cmath D) (fuel : Nat) (tokes rest : tokens) (e : Expression D)
    (h : make_expression to_double fuel tokes = .ok (e, rest)) :
    wf_expression e = true ∧
    (∀ v, arith_value m e = some v → get_value m e = .ok v) ∧
    (arity_ok_expression e = true →
      ∃ v, arith_value m e = some v ∧ get_value m e = .ok v) := by
  have hw := (parser_wf to_double fuel).1 tokes e rest h
  refine ⟨hw, get_value_of_arith m e, fun ha => ?_⟩
  obtain ⟨v, hv⟩ := arith_value_isSome m e hw ha
  exact ⟨v, hv, get_value_of_arith m e v hv⟩

/-- C13 witness: `1 - 2 - 3` is parsed and evaluates to `-4`; further
`8 / 4 / 2 = 1`, `1 + 2 * 3 - 8 / 4 = 5`, `-2 + 3 = 1` and
`2 * -(1 + 2) * 3 = -18`. -/
theorem C13_get_value_is_arithmetic_value_witness :
    (∃ e, make_expression digits_to_double (parse_fuel tokens_1_minus_2_minus_3)
          tokens_1_minus_2_minus_3 = .ok (e, []) ∧
        wf_expression e = true ∧ arity_ok_expression e = true ∧
        arith_value example_cmath e = some (-4) ∧ get_value example_cmath e = .ok (-4)) ∧
    parsed_value tokens_8_div_4_div_2 = some (.ok 1, []) ∧
    parsed_value tokens_precedence = some (.ok 5, []) ∧
    parsed_value tokens_leading_sign = some (.ok 1, []) ∧
    parsed_value tokens_parenthesised = some (.ok (-18), []) := by
  refine ⟨?_, by decide!, by decide!, by decide!, by decide!⟩
  have h0 : (make_expression digits_to_double (parse_fuel tokens_1_minus_2_minus_3)
      tokens_1_minus_2_minus_3).toOption.map
      (fun p => (p.2, arity_ok_expression p.1, arith_value example_cmath p.1)) =
      some ([], true, some (-4)) := by decide!
  obtain ⟨⟨e, rest⟩, h1, h2⟩ := ok_of_toOption_map _ _ _ h0
  simp only [Prod.mk.injEq] at h2
  obtain ⟨rfl, h3, h4⟩ := h2
  obtain ⟨hw, hv, _⟩ :=
    C13_get_value_is_arithmetic_value digits_to_double example_cmath _ _ _ e h1
  exact ⟨e, h1, hw, h3, h4, hv _ h4⟩

/-- C14. Code defect shown at the failing input `predict; cos(0);`: `is_fun`
omits `cos`, which `c_funcs` does hold, so the call is rejected with
`Unknown function cos`; the seven other identifiers are accepted. -/
theorem C14_cos_is_rejected :
    is_fun "cos" = false ∧
    (∀ name ∈ allowed_functions, name ≠ "cos" → is_fun name = true) ∧
    c_funcs example_cmath "cos" = some (c_unary example_cmath.cos) ∧
    parse (fun _ => .ok tokens_cos_call) digits_to_double example_cmath "predict; cos(0);" =
      .ok { rules := [], error := some "parse error: line 1: Unknown function cos" } ∧
    parse (fun _ => .ok (tokens_unary_call "sin")) digits_to_double example_cmath
        "predict; sin(0);" =
      .ok { rules := [{ type := .lst_predict, mask := [0] }], error := none } :=
  ⟨by decide, by decide, rfl, by decide!, by decide!⟩

/-- C15. Code defect shown at the failing inputs `predict; sqrt();` and
`predict; pow(2);`: `make_funccall` does not count the arguments, the program
is accepted, and `get_value` reads `v[0]`, respectively `v[1]`, of a vector
that does not hold it. -/
theorem C15_missing_argument_is_read :
    returns (make_program digits_to_double tokens_sqrt_no_argument) = true ∧
    parse (fun _ => .ok tokens_sqrt_no_argument) digits_to_double example_cmath
        "predict; sqrt();" = .error .undefined_behaviour ∧
    returns (make_program digits_to_double tokens_pow_one_argument) = true ∧
    parse (fun _ => .ok tokens_pow_one_argument) digits_to_double example_cmath
        "predict; pow(2);" = .error .undefined_behaviour :=
  ⟨by decide!, by decide!, by decide!, by decide!⟩

/-- C16. Code defect shown at the failing inputs `predict; 1 +`, `predict; (`
and `predict; pow(2,`: `parse_multiop` reads `tokes.back()` of the empty token
stack, as `make_expression` and `make_term` do on every empty stack. -/
theorem C16_premature_end_inspects_empty_stack :
    is_undefined_behaviour (make_program digits_to_double tokens_end_after_operator) = true ∧
    is_undefined_behaviour (make_program digits_to_double tokens_end_after_bracket) = true ∧
    is_undefined_behaviour (make_program digits_to_double tokens_end_after_comma) = true ∧
    (∀ (to_double : String → ℚ) (fuel : Nat),
      make_expression to_double (fuel + 1) [] = .error .undefined_behaviour ∧
      make_term to_double (fuel + 1) [] = .error .undefined_behaviour) :=
  ⟨by decide!, by decide!, by decide!, fun _ _ => ⟨rfl, rfl⟩⟩

/-- C17. For a call identifier that is none of the allowed names,
`make_funccall` throws `Unknown function <name>`, after
`parse error: line <n>: ` when the line number `n` of the identifier is
positive and after `parse error: ` otherwise; the error leaves `make_factor`,
`make_term` and `make_expression` started at the identifier, and `parse`
turns every parse error of `make_program` into an empty step list with that
message. -/
theorem C17_unknown_function_is_named {D : Type} [Field D] (to_double : String → D)
    (fuel : Nat) (t : token) (tokes : tokens) (hname : t.value ∉ allowed_functions) :
    (0 < t.line_nr → make_funccall to_double (fuel + 1) t tokes =
      .error (.logic_error
        ("parse error: line " ++ toString t.line_nr ++ ": Unknown function " ++ t.value))) ∧
    (t.line_nr ≤ 0 → make_funccall to_double (fuel + 1) t tokes =
      .error (.logic_error ("parse error: Unknown function " ++ t.value))) ∧
    (∀ what, make_funccall to_double (fuel + 1) t tokes = .error (.logic_error what) →
      (t.type = .T_ID → t.value ≠ "+" → t.value ≠ "-" →
        make_factor to_double (fuel + 2) (t :: tokes) = .error (.logic_error what) ∧
        make_term to_double (fuel + 3) (t :: tokes) = .error (.logic_error what) ∧
        make_expression to_double (fuel + 4) (t :: tokes) = .error (.logic_error what))) ∧
    (∀ (tokenize : String → Except Failure tokens) (m : cmath D) (script : String)
        (all : tokens) (what : String),
      tokenize script = .ok all → make_program to_double all = .error (.logic_error what) →
      parse tokenize to_double m script = .ok { rules := [], error := some what }) := by
  have hf : is_fun t.value = false := by
    simp only [allowed_functions, List.mem_cons, List.mem_singleton, List.not_mem_nil,
      not_or, or_false] at hname
    simp [is_fun, hname]
  refine ⟨fun hl => ?_, fun hl => ?_, fun what hw hty hp hm => ?_,
    fun tokenize m script all what ht hp => ?_⟩
  · have e : ": " ++ ("Unknown function " ++ t.value) = ": Unknown function " ++ t.value := by
      rw [← String.append_assoc]; rfl
    simp [make_funccall, hf, throw_parse_error, not_le.mpr hl, String.append_assoc, e]
  · have e : "parse error: " ++ ("Unknown function " ++ t.value) =
        "parse error: Unknown function " ++ t.value := by
      rw [← String.append_assoc]; rfl
    simp [make_funccall, hf, throw_parse_error, hl, e]
  · have h1 : make_factor to_double (fuel + 2) (t :: tokes) = .error (.logic_error what) := by
      simp [make_factor, take, hp, hm, hty, hw]
    have h2 : make_term to_double (fuel + 3) (t :: tokes) = .error (.logic_error what) := by
      simp [make_term, h1]
    exact ⟨h1, h2, by simp [make_expression, h2]⟩
  · simp [parse, ht, hp]

/-- C17 witness: the call `foo(2)` on line 3 of the script
`predict; 1 + foo(2);`. -/
theorem C17_unknown_function_is_named_witness :
    (⟨.T_ID, "foo", 3⟩ : token).value ∉ allowed_functions ∧
    make_funccall digits_to_double 1 ⟨.T_ID, "foo", 3⟩
        [⟨.T_LEFT_ROUND_BRACKET, "(", 3⟩, ⟨.T_INTEGER, "2", 3⟩,
         ⟨.T_RIGHT_ROUND_BRACKET, ")", 3⟩, ⟨.T_SEMICOLON, ";", 3⟩] =
      .error (.logic_error "parse error: line 3: Unknown function foo") ∧
    parse (fun _ => .ok tokens_unknown_call) digits_to_double example_cmath
        "predict;\n\n1 + foo(2);" =
      .ok { rules := [], error := some "parse error: line 3: Unknown function foo" } :=
  ⟨by decide,
   (C17_unknown_function_is_named digits_to_double 0 ⟨.T_ID, "foo", 3⟩
      [⟨.T_LEFT_ROUND_BRACKET, "(", 3⟩, ⟨.T_INTEGER, "2", 3⟩,
       ⟨.T_RIGHT_ROUND_BRACKET, ")", 3⟩, ⟨.T_SEMICOLON, ";", 3⟩] (by decide)).1 (by decide),
   by decide!⟩

/-- C18. `sumruleorder` throws `P0 does not satisfy condition E` exactly when
`|(Σ p_j) / 2 - 1| > 1e-4`; otherwise it throws
`Mask does not satisfy the sum rule of order 1` exactly when
`|(Σ (-1)^j p_j) / 2| > 1e-8`; otherwise it returns with `P0 = (Σ p_j) / 2` and
`SLO ≥ 1`. -/
theorem C18_sumruleorder_errors {K : Type} [LinearOrderedField K] (p : List K) :
    (sumruleorder p = .error (.logic_error "P0 does not satisfy condition E") ↔
      |p.sum / 2 - 1| > 1 / 10 ^ 4) ∧
    (¬ |p.sum / 2 - 1| > 1 / 10 ^ 4 →
      (sumruleorder p =
          .error (.logic_error "Mask does not satisfy the sum rule of order 1") ↔
        |(∑ j in Finset.range p.length, (-1) ^ j * p.getD j 0) / 2| > 1 / 10 ^ 8)) ∧
    (¬ |p.sum / 2 - 1| > 1 / 10 ^ 4 →
      ¬ |(∑ j in Finset.range p.length, (-1) ^ j * p.getD j 0) / 2| > 1 / 10 ^ 8 →
      ∃ SLO : Int, sumruleorder p = .ok (SLO, p.sum / 2) ∧ 1 ≤ SLO) := by
  rw [← PP_zero, ← PP_one_range]
  refine ⟨⟨fun h => ?_, fun h => ?_⟩, fun h0 => ⟨fun h => ?_, fun h => ?_⟩, fun h0 h1 => ?_⟩
  · by_contra hc
    simp only [sumruleorder, if_neg hc] at h
    split_ifs at h
    simp at h
  · simp only [sumruleorder, if_pos h]
  · by_contra hc
    simp only [sumruleorder, if_neg h0, if_neg hc] at h
    split_ifs at h
  · simp only [sumruleorder, if_neg h0, if_pos h]
  · simp only [sumruleorder, if_neg h0, if_neg h1]
    split_ifs
    · exact ⟨1, rfl, le_refl _⟩
    · exact ⟨_, rfl, le_trans (by decide) (order_loop_bounds p _ _ _ 2).1⟩

/-- C19, amended: after orders 0 and 1 have passed, `sumruleorder` accepts
each higher order in turn as long as the absolute value of its residual is at
most `1e-8` (the same `error` as for order 1), and stops at the first order
whose residual exceeds `1e-8`. -/
theorem C19_orders_accepted_within_1e8 {K : Type} [LinearOrderedField K] (p : List K)
    (h0 : ¬ |p.sum / 2 - 1| > 1 / 10 ^ 4)
    (h1 : ¬ |(∑ j in Finset.range p.length, (-1) ^ j * p.getD j 0) / 2| > 1 / 10 ^ 8) :
    sumruleorder p = .ok (accepted_order (1 / 10 ^ 8) p, p.sum / 2) := by
  rw [← PP_zero] at h0 ⊢
  rw [← PP_one_range] at h1
  exact sumruleorder_accepted p h0 h1

set_option maxRecDepth 100000 in
/-- C19 witness: the mask of the linear B-spline, whose residual of order 2
is 0 and of order 3 is `1 / 2`. -/
theorem C19_orders_accepted_within_1e8_witness :
    ¬ |mask_linear.sum / 2 - 1| > 1 / 10 ^ 4 ∧
    ¬ |(∑ j in Finset.range mask_linear.length, (-1) ^ j * mask_linear.getD j 0) / 2| >
        1 / 10 ^ 8 ∧
    sumruleorder mask_linear =
      .ok (accepted_order (1 / 10 ^ 8) mask_linear, mask_linear.sum / 2) ∧
    accepted_order (1 / 10 ^ 8) mask_linear = 2 ∧
    sum_rule_residuals mask_linear =
      [0, 1 / 2, 2, 7 / 2, 107 / 7, 123 / 2, 6018 / 31, 903953 / 1302, 233135065 / 82677,
       1701308867 / 165354] :=
  ⟨by decide!, by decide!, C19_orders_accepted_within_1e8 mask_linear (by decide!) (by decide!),
    by decide!, by decide!⟩

set_option maxRecDepth 100000 in
/-- C19 counterexample: the residual of order 2 of the mask
`[1/2 - 2^-21, 1, 1/2 + 2^-21]` is `-2^-21`, at most `1e-6` in absolute value,
so that a tolerance of `1e-6` accepts order 2; `sumruleorder` stops at order 1. -/
theorem C19_counterexample :
    sum00 mask_order2_residual = -1 / 2 ^ 21 ∧
    |sum00 mask_order2_residual| ≤ 1 / 10 ^ 6 ∧
    accepted_order (1 / 10 ^ 6) mask_order2_residual = 2 ∧
    sumruleorder mask_order2_residual = .ok (1, 1) := by
  refine ⟨by decide!, by decide!, by decide!, by decide!⟩

/-- C20, amended: for every mask on which `sumruleorder` returns, the
recorded order satisfies `1 ≤ SLO ≤ 11`. -/
theorem C20_order_between_1_and_11 {K : Type} [LinearOrderedField K] (p : List K)
    (SLO : Int) (P0 : K) (h : sumruleorder p = .ok (SLO, P0)) : 1 ≤ SLO ∧ SLO ≤ 11 := by
  simp only [sumruleorder] at h
  split_ifs at h
  · simp only [Except.ok.injEq, Prod.mk.injEq] at h
    rw [← h.1]
    decide
  · simp only [Except.ok.injEq, Prod.mk.injEq] at h
    rw [← h.1]
    have hb := order_loop_bounds p (1 / 10 ^ 8) (List.range' 2 9)
      { lesssum00r := (0, 0), y := y_order2 p } 2
    simp only [List.length_range'] at hb
    constructor
    · exact le_trans (by decide) hb.1
    · exact le_trans hb.2 (by decide)

set_option maxRecDepth 100000 in
/-- C20 witness: the mask of the 4-point scheme, of order 4. -/
theorem C20_order_between_1_and_11_witness :
    sumruleorder mask_4_point = .ok (4, 1) ∧ (1 : Int) ≤ 4 ∧ (4 : Int) ≤ 11 :=
  have h : sumruleorder mask_4_point = .ok (4, 1) := by decide!
  ⟨h, C20_order_between_1_and_11 mask_4_point 4 1 h⟩

set_option maxRecDepth 100000 in
/-- C20 counterexample: on the binomial mask `C(11, j) / 2 ^ 10` every
residual is 0 and `sumruleorder` returns `SLO = 11`. -/
theorem C20_counterexample :
    sumruleorder mask_binomial_11 = .ok (11, 1) ∧ ¬ ((11 : Int) ≤ 10) :=
  ⟨by decide!, by decide⟩

end Claims

/-! ## Claims on the Analyzer front end, the constructor and the model functions -/

section ModelClaims

/-- C21. `compute_smoothness` returns a value for every sample list and every
scale, never an error.  The mask `P` it hands to `sobsmthest` is `T` with each
entry multiplied by `scale`, where `T` is the sample list without its leading
and its trailing zeros: `samples` is a run of zeros, `T`, and a run of zeros,
`T` is empty or starts and ends with a nonzero sample, and `T` is the only such
list (zeros inside are kept).  When `sumruleorder` accepts `P` with the order
`SLO`, the result is what the eigenvalue part gives for `P` and `SLO`; when
`sumruleorder` throws, the result is NaN, in particular when order 0 fails
(`|ΣP / 2 - 1| > 1e-4`) or order 1 fails (`|Σ (-1)^j P_j / 2| > 1e-8`).  An
all-zero input is trimmed to the empty mask and gives NaN. -/
theorem C21_compute_smoothness_never_raises {K : Type} [LinearOrderedField K]
    (eigen_part : List K → Int → double_value K) (samples : List K) (scale : K) :
    ∃ T P : List K, T = pop_trailing_zeros (erase_leading_zeros samples) ∧
      P = T.map (fun p => p * scale) ∧
      (∃ k1 k2 : Nat, samples = List.replicate k1 0 ++ T ++ List.replicate k2 0) ∧
      (T = [] ∨ (T.head? ≠ some 0 ∧ T.getLast? ≠ some 0)) ∧
      (∀ (core : List K) (k1 k2 : Nat),
        samples = List.replicate k1 0 ++ core ++ List.replicate k2 0 →
        (core = [] ∨ (core.head? ≠ some 0 ∧ core.getLast? ≠ some 0)) → T = core) ∧
      (∃ v, compute_smoothness eigen_part samples scale = .ok v) ∧
      (∀ SLO P0, sumruleorder P = .ok (SLO, P0) →
        compute_smoothness eigen_part samples scale = .ok (eigen_part P SLO)) ∧
      (∀ e, sumruleorder P = .error e →
        compute_smoothness eigen_part samples scale = .ok .nan) ∧
      ((|P.sum / 2 - 1| > 1 / 10 ^ 4 ∨
          |(∑ j in Finset.range P.length, (-1) ^ j * P.getD j 0) / 2| > 1 / 10 ^ 8) →
        compute_smoothness eigen_part samples scale = .ok .nan) ∧
      ((∀ v ∈ samples, v = 0) →
        T = [] ∧ compute_smoothness eigen_part samples scale = .ok .nan) := by
  obtain ⟨k1, k2, h1, h2⟩ := trim_decomposition samples
  refine ⟨_, _, rfl, rfl, ⟨k1, k2, h1⟩, h2, ?_, compute_smoothness_ok eigen_part samples scale,
    ?_, ?_, ?_, ?_⟩
  · intro core k1 k2 hs hc
    rw [hs]
    exact trim_of_core core k1 k2 hc
  · intro SLO P0 h
    rw [compute_smoothness_eq, h]
  · intro e h
    rw [compute_smoothness_eq, h]
  · intro h
    obtain ⟨what, hw⟩ := sumruleorder_rejects _ h
    rw [compute_smoothness_eq, hw]
  · intro h
    refine ⟨?_, compute_smoothness_zero eigen_part samples scale h⟩
    have e : erase_leading_zeros samples = [] := by
      unfold erase_leading_zeros
      rw [List.dropWhile_eq_nil_iff]
      intro v hv
      simpa using h v hv
    rw [e]
    rfl

/-- C22. `construct_stable_wavelet` returns for every step list: the list
after the call is the given list followed by one step (so it is one step
longer and every given step stands unchanged at its place), the new last step
is an update step with the four-entry mask `[α, β, β, α]`, and `α` is the
`k`-th value `-2 + k / 10^4` of the sweep for some `k ≤ 40000`, hence lies in
`[-2, 2]`.  Exact arithmetic; the eigenvalue part of `sobsmthest` is any
function. -/
theorem C22_constructor_appends_one_update {K : Type} [LinearOrderedField K]
    (eigen_part : List K → Int → double_value K) (custom_steps : List (lifting_step K)) :
    ∃ (k : Nat) (alpha beta : K) (result : List (lifting_step K)) (sob sob_dual : double_value K),
      construct_stable_wavelet eigen_part custom_steps = .ok (result, sob, sob_dual) ∧
      result = custom_steps ++ [⟨.lst_update, [alpha, beta, beta, alpha]⟩] ∧
      result.length = custom_steps.length + 1 ∧
      (∀ i, i < custom_steps.length → result[i]? = custom_steps[i]?) ∧
      result.getLast? = some ⟨.lst_update, [alpha, beta, beta, alpha]⟩ ∧
      k ≤ 40000 ∧ alpha = -2 + (k : K) / 10 ^ 4 ∧ -2 ≤ alpha ∧ alpha ≤ 2 := by
  obtain ⟨w, hw, h1, -⟩ := construct_spec eigen_part custom_steps
  obtain ⟨c, a, sob, dual, -, -, -, h2⟩ := candidate_ok eigen_part custom_steps (alpha_of w : K)
  refine ⟨w, alpha_of w, -c / (a - c), _, sob, dual, by rw [h1, h2], rfl, by simp, ?_, by simp,
    hw, rfl, alpha_of_ge w, (alpha_of_le_two w).mpr hw⟩
  intro i hi
  rw [List.getElem?_append_left hi]

/-- C23. For every `alpha`, every list `steps` of preceding steps and every
four-entry mask the trailing update step held before: `do_construction` returns
and sets the trailing mask to `[α, β, β, α]` with
`β = -current / (after - current)`, where `current` and `after` are the two
probe sums `compute_vanishing_moment` forms with the mask `[α, 0, 0, α]`; and
when `after - current ≠ 0`, the response of `inverse_custom` at level 0 to the
unit impulse at index 17 of the 32-sample probe, with that trailing mask, sums
to exactly 0. -/
theorem C23_beta_gives_vanishing_moment {K : Type} [LinearOrderedField K]
    (eigen_part : List K → Int → double_value K) (alpha : K) (steps : List (lifting_step K))
    (mask : List K) (hmask : mask.length = 4) :
    ∃ (current after : K) (sob sob_dual : double_value K) (response : List K),
      current_sum (steps ++ [⟨.lst_update, [alpha, 0, 0, alpha]⟩]) = some current ∧
      after_update_sum (steps ++ [⟨.lst_update, [alpha, 0, 0, alpha]⟩]) = some after ∧
      do_construction eigen_part alpha (steps ++ [⟨.lst_update, mask⟩]) =
        .ok (steps ++ [⟨.lst_update, [alpha, -current / (after - current),
          -current / (after - current), alpha]⟩], sob, sob_dual) ∧
      inverse_custom (probe 17) 32 0 (steps ++ [⟨.lst_update, [alpha,
          -current / (after - current), -current / (after - current), alpha]⟩]) =
        some response ∧
      (after - current ≠ 0 → accumulate response = 0) := by
  obtain ⟨c, a, sob, dual, h1, h2, -, h4⟩ := do_construction_ok eigen_part alpha steps mask hmask
  obtain ⟨c1, a1, r, k1, k2, k3, k4⟩ := probe_sum_affine steps alpha (-c / (a - c))
  rw [h1] at k1
  rw [h2] at k2
  cases k1
  cases k2
  refine ⟨c, a, sob, dual, r, h1, h2, h4, k3, ?_⟩
  intro hne
  rw [k4]
  field_simp

/-- C23 witness: the preceding step `predict [1/2, 1/2]` and `α = 1/8` over `ℚ`;
`current = 1/2`, `after = -7/2`, so `β = 1/8`, and the probe response with the
trailing mask `[1/8, 1/8, 1/8, 1/8]` sums to 0. -/
theorem C23_beta_gives_vanishing_moment_witness :
    ([0, 0, 0, 0] : List ℚ).length = 4 ∧
    current_sum ([⟨.lst_predict, [1 / 2, 1 / 2]⟩, ⟨.lst_update, [1 / 8, 0, 0, 1 / 8]⟩] :
      List (lifting_step ℚ)) = some (1 / 2) ∧
    after_update_sum ([⟨.lst_predict, [1 / 2, 1 / 2]⟩, ⟨.lst_update, [1 / 8, 0, 0, 1 / 8]⟩] :
      List (lifting_step ℚ)) = some (-7 / 2) ∧
    ∃ response, inverse_custom (probe 17) 32 0
        ([⟨.lst_predict, [1 / 2, 1 / 2]⟩, ⟨.lst_update, [1 / 8, 1 / 8, 1 / 8, 1 / 8]⟩] :
          List (lifting_step ℚ)) = some response ∧
      accumulate response = 0 := by
  have hc : current_sum ([⟨.lst_predict, [1 / 2, 1 / 2]⟩, ⟨.lst_update, [1 / 8, 0, 0, 1 / 8]⟩] :
      List (lifting_step ℚ)) = some (1 / 2) := by decide!
  have ha : after_update_sum ([⟨.lst_predict, [1 / 2, 1 / 2]⟩,
      ⟨.lst_update, [1 / 8, 0, 0, 1 / 8]⟩] : List (lifting_step ℚ)) = some (-7 / 2) := by decide!
  obtain ⟨c, a, sob, dual, r, h1, h2, -, h4, h5⟩ :=
    C23_beta_gives_vanishing_moment (fun _ _ => (double_value.nan : double_value ℚ)) (1 / 8)
      [⟨.lst_predict, [1 / 2, 1 / 2]⟩] [0, 0, 0, 0] rfl
  have h1' : current_sum ([⟨.lst_predict, [1 / 2, 1 / 2]⟩, ⟨.lst_update, [1 / 8, 0, 0, 1 / 8]⟩] :
      List (lifting_step ℚ)) = some c := h1
  have h2' : after_update_sum ([⟨.lst_predict, [1 / 2, 1 / 2]⟩,
      ⟨.lst_update, [1 / 8, 0, 0, 1 / 8]⟩] : List (lifting_step ℚ)) = some a := h2
  rw [hc] at h1'
  rw [ha] at h2'
  cases h1'
  cases h2'
  have e : (-(1 / 2 : ℚ) / (-7 / 2 - 1 / 2)) = 1 / 8 := by norm_num
  rw [e] at h4
  exact ⟨rfl, hc, ha, r, h4, h5 (by norm_num)⟩

/-- C24, amended: `construct_stable_wavelet` returns what `do_construction`
returns for the `w`-th value `alpha_of w = -2 + w / 10^4` of the ascending
sweep (`w ≤ 40000`), where `do_construction` returns for every `alpha_of k` the
pair `candidate_sob k`, `candidate_dual k`.  If some eligible candidate (both
values not NaN) has a dual smoothness greater than the initial `-1e12`, then `w`
is eligible, no eligible candidate has a greater dual smoothness than `w`, and
every eligible candidate before `w` has a strictly smaller one, so `w` is the
earliest candidate of maximal dual smoothness.  If no eligible candidate has a
dual smoothness greater than `-1e12`, in particular if none is eligible, the
initial `best_alpha = -2` is kept (`w = 0`). -/
theorem C24_earliest_maximal_candidate_wins {K : Type} [LinearOrderedField K]
    (eigen_part : List K → Int → double_value K) (custom_steps : List (lifting_step K)) :
    ∃ w, w ≤ 40000 ∧
      construct_stable_wavelet eigen_part custom_steps =
        candidate eigen_part custom_steps (alpha_of w) ∧
      (∀ k, ∃ steps1, candidate eigen_part custom_steps (alpha_of k) =
        .ok (steps1, candidate_sob eigen_part custom_steps k,
          candidate_dual eigen_part custom_steps k)) ∧
      (∀ k, (alpha_of k : K) < alpha_of (k + 1)) ∧
      ((∃ k, k ≤ 40000 ∧ eligible eigen_part custom_steps k = true ∧
          (candidate_dual eigen_part custom_steps k).gt sentinel = true) →
        eligible eigen_part custom_steps w = true ∧
        (∀ k, k ≤ 40000 → eligible eigen_part custom_steps k = true →
          (candidate_dual eigen_part custom_steps k).gt
            (candidate_dual eigen_part custom_steps w) = false) ∧
        ∀ k, k < w → eligible eigen_part custom_steps k = true →
          (candidate_dual eigen_part custom_steps w).gt
            (candidate_dual eigen_part custom_steps k) = true) ∧
      ((∀ k, k ≤ 40000 → eligible eigen_part custom_steps k = true →
          (candidate_dual eigen_part custom_steps k).gt sentinel = false) → w = 0) := by
  obtain ⟨w, hw, h1, h2⟩ := construct_spec eigen_part custom_steps
  refine ⟨w, hw, h1, ?_, ?_, ?_, ?_⟩
  · intro k
    obtain ⟨c, a, sob, dual, -, -, -, hc⟩ := candidate_ok eigen_part custom_steps (alpha_of k : K)
    refine ⟨custom_steps ++ [⟨.lst_update,
      [alpha_of k, -c / (a - c), -c / (a - c), alpha_of k]⟩], ?_⟩
    simp only [candidate_sob, candidate_dual, hc]
  · intro k
    rw [alpha_of_succ]
    have : (0 : K) < 1 / 10 ^ 4 := by positivity
    linarith
  · rintro ⟨k, hk, he, hg⟩
    rcases h2 with ⟨-, h3⟩ | ⟨h3, -, h5, h6⟩
    · rw [h3 k hk he] at hg
      exact absurd hg (by simp)
    · exact ⟨h3, h5, h6⟩
  · intro hall
    rcases h2 with ⟨h3, -⟩ | ⟨h3, h4, -, -⟩
    · exact h3
    · rw [hall w hw h3] at h4
      exact absurd h4 (by simp)

/-- C24 counterexample: the empty step list over `ℚ`.  For every `alpha` the
primal smoothness is NaN (the only step is the appended update step, whose
`iupdate` leaves the unit impulse at 16 as it is, and the mask `[1]` fails
condition E), so no candidate is eligible and there is no maximum over the
eligible candidates; `construct_stable_wavelet` still selects `alpha = -2`, a
candidate that is not eligible. -/
theorem C24_counterexample :
    (∀ (eigen_part : List ℚ → Int → double_value ℚ) (k : Nat),
      candidate_sob eigen_part [] k = .nan ∧ eligible eigen_part [] k = false) ∧
    ∀ eigen_part : List ℚ → Int → double_value ℚ,
      construct_stable_wavelet eigen_part [] = candidate eigen_part [] (alpha_of 0) ∧
      eligible eigen_part [] 0 = false := by
  refine ⟨fun ep k => ⟨candidate_sob_nil ep k, eligible_nil ep k⟩, fun ep => ⟨?_, eligible_nil ep 0⟩⟩
  rw [construct_nil, alpha_of_zero]

/-- C25, amended: the winner `w` of `construct_stable_wavelet` either has a
dual and a primal smoothness that are not NaN and a dual smoothness that is not
`-∞` and is greater than the initial `-1e12`, or it is the initial `alpha = -2`
(`w = 0`) and no eligible candidate has a dual smoothness greater than `-1e12`;
in that case nothing is known of the smoothness of the winner.  A dual
smoothness `+∞` is not skipped: as soon as a candidate with a primal smoothness
other than NaN has the dual smoothness `+∞`, the winner has the dual smoothness
`+∞`. -/
theorem C25_only_nan_is_skipped {K : Type} [LinearOrderedField K]
    (eigen_part : List K → Int → double_value K) (custom_steps : List (lifting_step K)) :
    ∃ w, w ≤ 40000 ∧
      construct_stable_wavelet eigen_part custom_steps =
        candidate eigen_part custom_steps (alpha_of w) ∧
      ((candidate_dual eigen_part custom_steps w ≠ .nan ∧
          candidate_sob eigen_part custom_steps w ≠ .nan ∧
          candidate_dual eigen_part custom_steps w ≠ .neg_inf ∧
          (candidate_dual eigen_part custom_steps w).gt sentinel = true) ∨
        (w = 0 ∧ ∀ k, k ≤ 40000 → eligible eigen_part custom_steps k = true →
          (candidate_dual eigen_part custom_steps k).gt sentinel = false)) ∧
      (∀ k, k ≤ 40000 → candidate_dual eigen_part custom_steps k = .pos_inf →
        candidate_sob eigen_part custom_steps k ≠ .nan →
        candidate_dual eigen_part custom_steps w = .pos_inf) := by
  obtain ⟨w, hw, h1, h2⟩ := construct_spec eigen_part custom_steps
  refine ⟨w, hw, h1, ?_, ?_⟩
  · rcases h2 with ⟨h3, h4⟩ | ⟨h3, h4, -, -⟩
    · exact Or.inr ⟨h3, h4⟩
    · refine Or.inl ⟨?_, ?_, ?_, h4⟩
      · intro e
        rw [e] at h4
        simp [double_value.gt] at h4
      · intro e
        simp [eligible, e, double_value.eq_self] at h3
      · intro e
        rw [e] at h4
        simp [double_value.gt, sentinel] at h4
  · intro k hk hinf hsob
    have he : eligible eigen_part custom_steps k = true := by
      have hs1 : (candidate_sob eigen_part custom_steps k).eq_self = true := by
        cases hs : candidate_sob eigen_part custom_steps k
        · rfl
        · rfl
        · rfl
        · exact absurd hs hsob
      rw [eligible, hinf, hs1]
      rfl
    have hg : (candidate_dual eigen_part custom_steps k).gt sentinel = true := by
      rw [hinf]
      rfl
    rcases h2 with ⟨-, h4⟩ | ⟨h3, h4, h5, -⟩
    · rw [h4 k hk he] at hg
      exact absurd hg (by simp)
    · have := h5 k hk he
      rw [hinf] at this
      cases hd : candidate_dual eigen_part custom_steps w
      · rw [hd] at this
        simp [double_value.gt] at this
      · rfl
      · rw [hd] at h4
        simp [double_value.gt, sentinel] at h4
      · rw [hd] at h4
        simp [double_value.gt] at h4

/-- C25 counterexample: the empty step list over `ℚ`.  The candidate
`alpha = -2` has the dual smoothness NaN (`β = 5/2`, the dual samples sum to 2
and after the scaling by 2 fail condition E), and it is the winner:
`construct_stable_wavelet` returns the mask `[-2, 5/2, 5/2, -2]` with both
smoothness values NaN. -/
theorem C25_counterexample :
    (∀ eigen_part : List ℚ → Int → double_value ℚ,
      candidate_dual eigen_part [] 0 = .nan) ∧
    ∀ eigen_part : List ℚ → Int → double_value ℚ,
      construct_stable_wavelet eigen_part [] =
        .ok ([⟨.lst_update, [-2, 5 / 2, 5 / 2, -2]⟩], .nan, .nan) := by
  constructor
  · intro ep
    simp only [candidate_dual, alpha_of_zero, candidate_nil_rat]
  · intro ep
    rw [construct_nil, candidate_nil_rat]

/-- C26. For a stride of at least 1, fewer than 64 levels and a buffer that
holds the `n` strided samples, `lifting::compress` returns a buffer `y` and a
count: a detail coefficient (`i < n` with `i mod 2^levels ≠ 0`) is 0 in `y` when
its absolute value is below the threshold and is unchanged otherwise, every
other cell is unchanged, and the count is the number of detail coefficients
below the threshold.  With threshold 0 nothing changes and the count is 0; with
a threshold above every `|coefficient|` all detail coefficients become 0 and
the count is their number.  The count is at most `n`, so `count / n` lies in
`[0, 1]`, and `compress` on a model of `2^levels` samples returns a model of
the same size with a ratio in `[0, 1]`. -/
theorem C26_compress_zeroes_small_details {K : Type} [LinearOrderedField K] (x : List K)
    (n levels stride : Nat) (threshold : K) (hstride : 1 ≤ stride) (hlevels : levels < 64)
    (hbuf : ∀ idx : Nat, idx < n → idx * stride < x.length) :
    ∃ y compressed, lifting.compress x n threshold levels stride = some (y, compressed) ∧
      y.length = x.length ∧
      (∀ i, i < n → i % 2 ^ levels ≠ 0 →
        y[i * stride]? = (x[i * stride]?).map fun v => if |v| < threshold then 0 else v) ∧
      (∀ p, (∀ i, i < n → i % 2 ^ levels ≠ 0 → p ≠ i * stride) → y[p]? = x[p]?) ∧
      compressed =
        ((List.range n).filter (compress_hits x threshold (2 ^ levels - 1) stride)).length ∧
      (threshold = 0 → y = x ∧ compressed = 0) ∧
      ((∀ i, i < n → i % 2 ^ levels ≠ 0 → ∀ v, x[i * stride]? = some v → |v| < threshold) →
        (∀ i, i < n → i % 2 ^ levels ≠ 0 → y[i * stride]? = some 0) ∧
        compressed = ((List.range n).filter fun i => decide (i % 2 ^ levels ≠ 0)).length) ∧
      compressed ≤ n ∧ 0 ≤ (compressed : K) / n ∧ (compressed : K) / n ≤ 1 ∧
      ∀ (sqrt3 : K) (s : scheme) (custom_steps : List (lifting_step K)) (m : model K),
        m.levels = levels → m.values.length = 2 ^ levels →
        ∃ m1 ratio, compress sqrt3 m threshold s custom_steps = some (m1, ratio) ∧
          m1.levels = m.levels ∧ m1.values.length = m.values.length ∧
          0 ≤ ratio ∧ ratio ≤ 1 := by
  obtain ⟨y, c, h1, h2, h3, h4, h5, h6, h7, h8⟩ :=
    compress_spec x n levels stride threshold hstride hlevels hbuf
  refine ⟨y, c, h1, h2, h3, h4, h5, ?_, ?_, h6, h7, h8, ?_⟩
  · intro ht
    have hnone : ∀ i, compress_hits x threshold (2 ^ levels - 1) stride i = false := by
      intro i
      simp only [compress_hits, Bool.and_eq_false_imp, decide_eq_true_eq]
      intro _
      rcases x[i * stride]? with _ | v
      · rfl
      · simp [ht, not_lt.mpr (abs_nonneg v)]
    have hc0 : c = 0 := by
      rw [h5, List.filter_eq_nil_iff.mpr (fun i _ => by simp [hnone i])]
      rfl
    refine ⟨?_, hc0⟩
    apply List.ext_getElem?
    intro p
    by_cases hp : ∀ i, i < n → i % 2 ^ levels ≠ 0 → p ≠ i * stride
    · exact h4 p hp
    · push_neg at hp
      obtain ⟨i, hi1, hi2, rfl⟩ := hp
      rw [h3 i hi1 hi2]
      rcases x[i * stride]? with _ | v
      · rfl
      · simp [ht, not_lt.mpr (abs_nonneg v)]
  · intro hall
    constructor
    · intro i hi hd
      rw [h3 i hi hd]
      have hb := hbuf i hi
      rw [List.getElem?_eq_getElem hb]
      simp [hall i hi hd _ (List.getElem?_eq_getElem hb)]
    · rw [h5]
      congr 1
      apply List.filter_congr
      intro i hi
      have hi' : i < n := List.mem_range.mp hi
      have hb := hbuf i hi'
      simp only [compress_hits, Nat.and_pow_two_sub_one_eq_mod, List.getElem?_eq_getElem hb]
      by_cases hd : i % 2 ^ levels ≠ 0
      · simp [hd, hall i hi' hd _ (List.getElem?_eq_getElem hb)]
      · simp [hd]
  · intro sqrt3 s custom_steps m hm hlen
    exact compress_model_spec sqrt3 threshold s custom_steps m levels hlevels hm hlen

/-- C26 witness: the buffer `[4, 1/2, -5, 3]` over `ℚ` with one level, stride 1
and threshold 1. -/
theorem C26_compress_zeroes_small_details_witness :
    (∀ idx : Nat, idx < 4 → idx * 1 < ([4, 1 / 2, -5, 3] : List ℚ).length) ∧
    ∃ y compressed, lifting.compress ([4, 1 / 2, -5, 3] : List ℚ) 4 1 1 1 = some (y, compressed) ∧
      y.length = 4 ∧ (compressed : ℚ) / (4 : Nat) ≤ 1 := by
  have hb : ∀ idx : Nat, idx < 4 → idx * 1 < ([4, 1 / 2, -5, 3] : List ℚ).length := by
    intro idx h
    simpa using h
  obtain ⟨y, c, h1, h2, -, -, -, -, -, -, -, h3, -⟩ :=
    C26_compress_zeroes_small_details ([4, 1 / 2, -5, 3] : List ℚ) 4 1 1 1 (by decide)
      (by decide) hb
  exact ⟨hb, y, c, h1, h2, h3⟩

/-- C27, amended: for a threshold `≥ 0` (and a stride of at least 1, fewer than
64 levels, a buffer that holds the `n` strided samples) `lifting::smooth`
returns a buffer `y` in which every detail coefficient `d` (`i < n` with
`i mod 2^levels ≠ 0`) is replaced by `r = smooth_value threshold d` with
`|r| ≤ |d|` and `r` zero or of the sign of `d`, with `r = d` when the threshold
is 0; every other cell is unchanged. -/
theorem C27_smooth_shrinks_details {K : Type} [LinearOrderedField K] (x : List K)
    (n levels stride : Nat) (threshold : K) (hthreshold : 0 ≤ threshold) (hstride : 1 ≤ stride)
    (hlevels : levels < 64) (hbuf : ∀ idx : Nat, idx < n → idx * stride < x.length) :
    ∃ y, lifting.smooth x n threshold levels stride = some y ∧ y.length = x.length ∧
      (∀ i, i < n → i % 2 ^ levels ≠ 0 →
        ∃ d r, x[i * stride]? = some d ∧ y[i * stride]? = some r ∧
          r = lifting.smooth_value threshold d ∧ |r| ≤ |d| ∧
          (r = 0 ∨ (0 < r ∧ 0 < d) ∨ (r < 0 ∧ d < 0)) ∧ (threshold = 0 → r = d)) ∧
      (∀ p, (∀ i, i < n → i % 2 ^ levels ≠ 0 → p ≠ i * stride) → y[p]? = x[p]?) := by
  obtain ⟨y, h1, h2, h3, h4⟩ := smooth_spec x n levels stride threshold hstride hlevels hbuf
  refine ⟨y, h1, h2, ?_, h4⟩
  intro i hi hd
  have hb := hbuf i hi
  obtain ⟨a, b, c⟩ := smooth_value_spec threshold x[i * stride] hthreshold
  refine ⟨x[i * stride], lifting.smooth_value threshold x[i * stride],
    List.getElem?_eq_getElem hb, ?_, rfl, a, b, c⟩
  rw [h3 i hi hd, List.getElem?_eq_getElem hb]
  rfl

/-- C27 witness: the buffer `[4, 3, -5, 1/2]` over `ℚ` with one level, stride 1
and threshold 1. -/
theorem C27_smooth_shrinks_details_witness :
    (0 : ℚ) ≤ 1 ∧ (∀ idx : Nat, idx < 4 → idx * 1 < ([4, 3, -5, 1 / 2] : List ℚ).length) ∧
    ∃ y, lifting.smooth ([4, 3, -5, 1 / 2] : List ℚ) 4 1 1 1 = some y ∧ y.length = 4 := by
  have hb : ∀ idx : Nat, idx < 4 → idx * 1 < ([4, 3, -5, 1 / 2] : List ℚ).length := by
    intro idx h
    simpa using h
  obtain ⟨y, h1, h2, -⟩ :=
    C27_smooth_shrinks_details ([4, 3, -5, 1 / 2] : List ℚ) 4 1 1 1 (by norm_num) (by decide)
      (by decide) hb
  exact ⟨by norm_num, hb, y, h1, h2⟩

/-- C27 counterexample: threshold `-1` on the buffer `[0, 0]` with one level.
The detail coefficient `d = 0` at index 1 is replaced by `r = 1`: `|r| > |d|`,
and `r` is neither zero nor of the sign of `d`. -/
theorem C27_counterexample :
    lifting.smooth ([0, 0] : List ℚ) 2 (-1) 1 1 = some [0, 1] ∧ 1 % 2 ^ 1 ≠ 0 ∧
      ¬ (|(1 : ℚ)| ≤ |(0 : ℚ)|) ∧ (1 : ℚ) ≠ 0 ∧ ¬ ((0 : ℚ) < 0) := by
  refine ⟨by decide!, by decide, by norm_num, by norm_num, by norm_num⟩

/-- C28. Exact arithmetic in a field of characteristic zero, `sqrt3` a square
root of 3.  For every catalog scheme `s` (every scheme other than `custom`) and
every `L` with `get_width s ≤ L < 64`: `make_scaling_function` returns a model
of `2^L` samples, and the forward transform of `s` at the levels
`0, ..., L - get_width s` maps these samples to the unit impulse at index
`2^L / 2`. -/
theorem C28_scaling_function_roundtrip {K : Type} [Field K] [CharZero K] (sqrt3 : K)
    (hsqrt3 : sqrt3 * sqrt3 = 3) (s : scheme) (hs : s ≠ .custom)
    (custom_steps : List (lifting_step K)) (L : Nat) (hL : get_width s ≤ L) (hL64 : L < 64)
    (values0 : List K) :
    ∃ m1, make_scaling_function sqrt3 { levels := L, values := values0 } s custom_steps =
        some m1 ∧ m1.levels = L ∧ m1.values.length = 2 ^ L ∧
      forward_levels sqrt3 s custom_steps m1.values (2 ^ L) L 1 false =
        some ((List.replicate (2 ^ L) 0).set (2 ^ L / 2) 1) := by
  have hw := get_width_ge s
  have hpos : 0 < 2 ^ L := Nat.pow_pos (by norm_num)
  have hidx : 2 ^ L / 2 < 2 ^ L := Nat.div_lt_self hpos (by norm_num)
  have h := undoes_levels_down (2 ^ L)
    (fun x lev => forward_scheme sqrt3 s custom_steps x (2 ^ L) lev 1 false)
    (fun y lev => inverse_scheme sqrt3 s custom_steps y (2 ^ L) lev 1 false)
    ((L : Int) - get_width s + 1).toNat (by
      intro lev hlev
      have h4 : lev + 4 ≤ L := by omega
      exact undoes_inverse_scheme sqrt3 hsqrt3 s hs custom_steps (2 ^ L) (2 ^ L) lev 1 false
        le_rfl (Nat.pow_dvd_pow 2 (by omega)) (fun idx hi => by omega) (fun h => by simp at h))
  obtain ⟨y, a, b, c⟩ := h ((List.replicate (2 ^ L) 0).set (2 ^ L / 2) 1) (by simp)
  refine ⟨{ levels := L, values := y }, ?_, rfl, b, c⟩
  simp only [make_scaling_function, shift_one_of_lt L hL64, Option.some_bind,
    unit_impulse_eq _ _ hidx, inverse_levels, a, Option.map_some']

/-- C28 witness: Daubechies D4 over the reals with `sqrt3 = √3` and `L = 4`. -/
theorem C28_scaling_function_roundtrip_witness :
    ∃ m1, make_scaling_function (Real.sqrt 3) { levels := (4 : Nat), values := [] }
        .daubechies_d4 [] = some m1 ∧ m1.levels = (4 : Nat) ∧ m1.values.length = 2 ^ 4 ∧
      forward_levels (Real.sqrt 3) .daubechies_d4 [] m1.values (2 ^ 4) (4 : Nat) 1 false =
        some ((List.replicate (2 ^ 4) (0 : ℝ)).set (2 ^ 4 / 2) 1) :=
  C28_scaling_function_roundtrip (Real.sqrt 3) (Real.mul_self_sqrt (by norm_num)) .daubechies_d4
    (by decide) [] 4 (by decide) (by decide) []

/-- C29. `make_wavelet_function` for `haar` (width 4) on a model of 3 levels has
no defined result: the shift count `(uint64_t)(3 - 4)` is `2^64 - 1`.  In
general, for every scheme `s` and every `L` with `1 ≤ L < get_width s`,
`make_wavelet_function` has no defined result, while `make_scaling_function`
returns the unit impulse at index `2^L / 2` of `2^L` samples. -/
theorem C29_wavelet_function_below_width :
    make_wavelet_function (0 : ℚ) { levels := 3, values := [] } .haar [] = none ∧
    shift_one (3 - get_width .haar) = none ∧
    make_scaling_function (0 : ℚ) { levels := 3, values := [] } .haar [] =
      some { levels := 3, values := [0, 0, 0, 0, 1, 0, 0, 0] } ∧
    ∀ (K : Type) [Field K] (sqrt3 : K) (s : scheme) (custom_steps : List (lifting_step K))
      (L : Nat) (values0 : List K), 1 ≤ L → (L : Int) < get_width s →
      make_wavelet_function sqrt3 { levels := L, values := values0 } s custom_steps = none ∧
      make_scaling_function sqrt3 { levels := L, values := values0 } s custom_steps =
        some { levels := L, values := (List.replicate (2 ^ L) 0).set (2 ^ L / 2) 1 } := by
  have gen : ∀ (K : Type) [Field K] (sqrt3 : K) (s : scheme)
      (custom_steps : List (lifting_step K)) (L : Nat) (values0 : List K), 1 ≤ L →
      (L : Int) < get_width s →
      make_wavelet_function sqrt3 { levels := L, values := values0 } s custom_steps = none ∧
      make_scaling_function sqrt3 { levels := L, values := values0 } s custom_steps =
        some { levels := L, values := (List.replicate (2 ^ L) 0).set (2 ^ L / 2) 1 } := by
    intro K _ sqrt3 s custom_steps L values0 h1 h2
    have hw := get_width_le s
    have hL64 : L < 64 := by omega
    have hpos : 0 < 2 ^ L := Nat.pow_pos (by norm_num)
    have hidx : 2 ^ L / 2 < 2 ^ L := Nat.div_lt_self hpos (by norm_num)
    have hz : ((L : Int) - get_width s + 1).toNat = 0 := by omega
    constructor
    · simp only [make_wavelet_function, shift_one_of_lt L hL64, Option.some_bind,
        shift_one_of_neg ((L : Int) - get_width s) (by omega) (by omega), Option.none_bind]
    · simp only [make_scaling_function, shift_one_of_lt L hL64, Option.some_bind,
        unit_impulse_eq _ _ hidx, inverse_levels, hz, levels_down, Option.map_some']
  refine ⟨?_, ?_, ?_, gen⟩
  · exact (gen ℚ 0 .haar [] 3 [] (by decide) (by decide)).1
  · exact shift_one_of_neg _ (by decide) (by decide)
  · have h := (gen ℚ 0 .haar [] 3 [] (by decide) (by decide)).2
    simpa using h

end ModelClaims

/-! ## Claims on the passes, the transition operator and the components -/

section UpdateClaims

open lifting

/-- C31, amended.  `n` is a multiple of `2^(level+1)`, the buffer holds the `n`
strided samples and, in cyclic mode, the mask has at most `n / 2^level` taps.
Then `update` and `iupdate` return buffers of the size of the input.  The
cyclic loop visits `k = 0, ..., n / 2^(level+1) - 1`, the non-cyclic loop
`k = 1, ..., n / 2^(level+1) - 1`.  For each visited `k` the sample at index
`k * 2^(level+1)` (times the stride) becomes its old value plus (`update`) or
minus (`iupdate`) the stencil response `Σ_j mask[j] * x[update_coeff k j]` over
the odd neighbours.  Every cell that is not such a target keeps its value; in
non-cyclic mode the sample at index 0 is one of them. -/
theorem C31_update_corrects_even_samples {K : Type} [Field K] (x mask : List K)
    (n level stride : Nat) (cyclical : Bool) (hstride : 1 ≤ stride)
    (hdiv : 2 ^ (level + 1) ∣ n) (hbuf : ∀ idx : Nat, idx < n → idx * stride < x.length)
    (hmask : cyclical = true → mask.length * 2 ^ level ≤ n) :
    ∃ y z, update x n mask level stride cyclical = some y ∧
      iupdate x n mask level stride cyclical = some z ∧
      y.length = x.length ∧ z.length = x.length ∧
      (∀ k : Nat, (if cyclical then 0 else 1) ≤ k → k < n / 2 ^ (level + 1) →
        ∃ old : K, x[k * 2 ^ (level + 1) * stride]? = some old ∧
          y[k * 2 ^ (level + 1) * stride]? = some (old +
            ∑ j in Finset.range mask.length, mask.getD j 0 *
              x.getD (update_coeff n mask.length level cyclical k j * stride).toNat 0) ∧
          z[k * 2 ^ (level + 1) * stride]? = some (old -
            ∑ j in Finset.range mask.length, mask.getD j 0 *
              x.getD (update_coeff n mask.length level cyclical k j * stride).toNat 0)) ∧
      (∀ p : Nat, (∀ k : Nat, (if cyclical then 0 else 1) ≤ k → k < n / 2 ^ (level + 1) →
        p ≠ k * 2 ^ (level + 1) * stride) → y[p]? = x[p]? ∧ z[p]? = x[p]?) ∧
      (cyclical = false → y[0]? = x[0]? ∧ z[0]? = x[0]?) := by
  obtain ⟨y, a1, a2, a3, a4⟩ := update_response (fun x u => x + u) x mask n level stride
    cyclical hstride hdiv hbuf hmask
  obtain ⟨z, b1, b2, b3, b4⟩ := update_response (fun x u => x - u) x mask n level stride
    cyclical hstride hdiv hbuf hmask
  have hframe : ∀ p : Nat, (∀ k : Nat, (if cyclical then 0 else 1) ≤ k →
      k < n / 2 ^ (level + 1) → p ≠ k * 2 ^ (level + 1) * stride) →
      y[p]? = x[p]? ∧ z[p]? = x[p]? := fun p hp => ⟨a4 p hp, b4 p hp⟩
  refine ⟨y, z, ?_, ?_, a2, b2, ?_, hframe, ?_⟩
  · simpa only [update, is_multiple_of_dvd n level hdiv, Bool.not_true, Bool.false_eq_true,
      if_false] using a1
  · simpa only [iupdate, is_multiple_of_dvd n level hdiv, Bool.not_true, Bool.false_eq_true,
      if_false] using b1
  · intro k hk1 hk2
    obtain ⟨old, c1, c2⟩ := a3 k hk1 hk2
    obtain ⟨old', d1, d2⟩ := b3 k hk1 hk2
    rw [c1] at d1
    cases d1
    exact ⟨old, c1, c2, d2⟩
  · intro hc
    apply hframe
    intro k hk1 _
    rw [hc] at hk1
    simp only [Bool.false_eq_true, if_false] at hk1
    have : 0 < k * 2 ^ (level + 1) * stride := by positivity
    omega

/-- C31 witness: the buffer `[0, 1, 0, 1]` with the mask `[1, 1]`, `n = 4`,
level 0, stride 1, non-cyclic; sample 0 keeps its value 0. -/
theorem C31_update_corrects_even_samples_witness :
    (1 ≤ 1) ∧ 2 ^ (0 + 1) ∣ 4 ∧
    (∀ idx : Nat, idx < 4 → idx * 1 < ([0, 1, 0, 1] : List ℚ).length) ∧
    ∃ y z, update ([0, 1, 0, 1] : List ℚ) 4 [1, 1] 0 1 false = some y ∧
      iupdate ([0, 1, 0, 1] : List ℚ) 4 [1, 1] 0 1 false = some z ∧
      y[0]? = some 0 ∧ z[0]? = some 0 := by
  have hb : ∀ idx : Nat, idx < 4 → idx * 1 < ([0, 1, 0, 1] : List ℚ).length := by
    intro idx h
    simpa using h
  obtain ⟨y, z, h1, h2, -, -, -, -, h3⟩ :=
    C31_update_corrects_even_samples ([0, 1, 0, 1] : List ℚ) [1, 1] 4 0 1 false (by decide)
      (by decide) hb (by simp)
  exact ⟨by decide, by decide, hb, y, z, h1, h2, (h3 rfl).1, (h3 rfl).2⟩

/-- C31 counterexample: on the buffer `[0, 1, 0, 1]` with the mask `[1, 1]` the
stencil response at `k = 0` is 2.  The cyclic `update` adds it to sample 0; the
non-cyclic `update` and `iupdate` leave sample 0 at 0. -/
theorem C31_counterexample :
    update ([0, 1, 0, 1] : List ℚ) 4 [1, 1] 0 1 false = some [0, 1, 2, 1] ∧
    iupdate ([0, 1, 0, 1] : List ℚ) 4 [1, 1] 0 1 false = some [0, 1, -2, 1] ∧
    update ([0, 1, 0, 1] : List ℚ) 4 [1, 1] 0 1 true = some [2, 1, 2, 1] ∧
    (∑ j in Finset.range 2, ([1, 1] : List ℚ).getD j 0 *
      ([0, 1, 0, 1] : List ℚ).getD (update_coeff 4 2 0 false 0 j * (1 : Nat)).toNat 0) = 2 := by
  refine ⟨by decide!, by decide!, by decide!, ?_⟩
  simp [Finset.sum_range_succ, update_coeff, clamp_coeff]
  norm_num

end UpdateClaims

section BiorthogonalClaims

open lifting

/-- C32.  `biorthogonal_inverse` against `role_swapped_inverse`, the primitive
sequence of the standard `inverse_s` (`inverse_calls`; non-cyclic, stride 1) with
`ipredict` and `iupdate` exchanged on the same masks and every scale factor `f`
replaced by `1 / f`, level and border flag kept.  The two agree on every buffer
for the ten catalog schemes other than `cdf_9_7` and `daubechies_d4`.  For these
two the code passes the border flag 1 to both scale calls where `inverse_cdf_9_7`
and `inverse_daubechies_d4` pass 0, and for `daubechies_d4` it scales the even
samples before the odd ones.  On the buffer `[1, 1]` with `n = 2` at level 0 and
`cdf_9_7` the code returns sample 0 unscaled, the role-swapped inverse scales
it: the two results differ. -/
theorem C32_biorthogonal_inverse_border_flag :
    (∀ (K : Type) [Field K] (sqrt3 : K) (sample : List K) (n level : Nat) (s : scheme)
        (custom_steps : List (lifting_step K)),
        s ≠ .cdf_9_7 → s ≠ .daubechies_d4 → s ≠ .custom →
        biorthogonal_inverse sqrt3 sample n level s custom_steps =
          role_swapped_inverse sqrt3 s sample n level) ∧
    (∀ (K : Type) [Field K] (sqrt3 : K) (sample : List K) (n level : Nat)
        (custom_steps : List (lifting_step K)),
        biorthogonal_inverse sqrt3 sample n level .cdf_9_7 custom_steps =
          run_calls n level
            [.iscale_even (1 / get_even_scaling_factor_cdf_9_7) 1,
             .iscale_odd (1 / get_odd_scaling_factor_cdf_9_7) 1,
             .ipredict get_second_update_mask_cdf_9_7,
             .iupdate get_second_prediction_mask_cdf_9_7,
             .ipredict get_first_update_mask_cdf_9_7,
             .iupdate get_first_prediction_mask_cdf_9_7] sample ∧
        biorthogonal_inverse sqrt3 sample n level .daubechies_d4 custom_steps =
          run_calls n level
            [.iscale_even (1 / get_even_scaling_factor_daubechies_d4 sqrt3) 1,
             .iscale_odd (1 / get_odd_scaling_factor_daubechies_d4 sqrt3) 1,
             .ipredict get_second_update_mask_daubechies_d4,
             .iupdate (get_prediction_mask_daubechies_d4 sqrt3),
             .ipredict (get_first_update_mask_daubechies_d4 sqrt3)] sample) ∧
    (∀ (K : Type) [Field K] (sqrt3 : K),
        (inverse_calls sqrt3 scheme.cdf_9_7).map role_swap =
          [.iscale_even (1 / get_even_scaling_factor_cdf_9_7) 0,
           .iscale_odd (1 / get_odd_scaling_factor_cdf_9_7) 0,
           .ipredict get_second_update_mask_cdf_9_7,
           .iupdate get_second_prediction_mask_cdf_9_7,
           .ipredict get_first_update_mask_cdf_9_7,
           .iupdate get_first_prediction_mask_cdf_9_7] ∧
        (inverse_calls sqrt3 scheme.daubechies_d4).map role_swap =
          [.iscale_odd (1 / get_odd_scaling_factor_daubechies_d4 sqrt3) 0,
           .iscale_even (1 / get_even_scaling_factor_daubechies_d4 sqrt3) 0,
           .ipredict get_second_update_mask_daubechies_d4,
           .iupdate (get_prediction_mask_daubechies_d4 sqrt3),
           .ipredict (get_first_update_mask_daubechies_d4 sqrt3)]) ∧
    (∀ (K : Type) [Field K] (sqrt3 : K) (sample : List K) (n level : Nat) (s : scheme),
        s ≠ .custom →
        inverse_scheme sqrt3 s [] sample n level 1 false =
          run_calls n level (inverse_calls sqrt3 s) sample) ∧
    biorthogonal_inverse (0 : ℚ) [1, 1] 2 0 .cdf_9_7 [] =
      some [1, 4452633667396143 / 2500000000000000] ∧
    role_swapped_inverse (0 : ℚ) .cdf_9_7 [1, 1] 2 0 =
      some [500000000000000 / 615087052457063,
        62500000000671253024690249333747 / 50000000000005116190430508822135] ∧
    biorthogonal_inverse (0 : ℚ) [1, 1] 2 0 .cdf_9_7 [] ≠
      role_swapped_inverse (0 : ℚ) .cdf_9_7 [1, 1] 2 0 := by
  refine ⟨?_, ?_, ?_, ?_, by decide!, by decide!, by decide!⟩
  · intro K _ sqrt3 sample n level s cs h1 h2 h3
    cases s <;>
      first
      | exact absurd rfl h1
      | exact absurd rfl h2
      | exact absurd rfl h3
      | simp only [biorthogonal_inverse, role_swapped_inverse, inverse_calls, List.map,
          role_swap, run_calls, run_call, Option.bind_some]
  · intro K _ sqrt3 sample n level cs
    constructor <;>
      simp only [biorthogonal_inverse, run_calls, run_call, Option.bind_some]
  · intro K _ sqrt3
    constructor <;> simp only [inverse_calls, List.map, role_swap]
  · intro K _ sqrt3 sample n level s h3
    cases s <;>
      first
      | exact absurd rfl h3
      | simp only [inverse_scheme, inverse_calls, run_calls, run_call, Option.bind_some,
        inverse_jamlet_linear, inverse_jamlet_quadratic, inverse_jamlet_cubic,
        inverse_jamlet_4_point, inverse_cdf_5_3, inverse_cdf_9_7, inverse_chaikin,
        inverse_cubic_bsplines, inverse_cubic_bspline_wavelets, inverse_daubechies_d4,
        inverse_4_point, inverse_haar]

end BiorthogonalClaims

section TransopClaims

/-- C33.  For every mask `p` of `N + 1 ≥ 1` entries the loops of `transop` stay
inside `p`, `a` and `T` (the model returns a value).  The vector `a` has
`2 N + 1` entries with `a[k] = Σ_l p[N + l - k] * p[l]`, the sum over the `l`
with both indices inside the mask (`mask_entry` is 0 outside).  The matrix `T`
has `2 N + 1` rows of `2 N + 1` entries with `T[i][j] = a[2 i - j] / 2` when
`0 ≤ 2 i - j ≤ 2 N` and `T[i][j] = 0` otherwise (indices from 0). -/
theorem C33_transop_banded_autocorrelation {K : Type} [Field K] (p : List K)
    (h : 1 ≤ p.length) :
    (∃ a, autocorrelation p = some a ∧ a.length = 2 * (p.length - 1) + 1 ∧
      ∀ k, k < 2 * (p.length - 1) + 1 →
        a[k]? = some (∑ l in Finset.range p.length,
          mask_entry p ((p.length : Int) - 1 + l - k) * p.getD l 0)) ∧
    ∃ T, transop p = some T ∧ T.length = 2 * (p.length - 1) + 1 ∧
      ∀ i, i < 2 * (p.length - 1) + 1 →
        ∃ row, T[i]? = some row ∧ row.length = 2 * (p.length - 1) + 1 ∧
          ∀ j, j < 2 * (p.length - 1) + 1 →
            row[j]? = some
              (if 0 ≤ 2 * (i : Int) - j ∧ 2 * (i : Int) - j ≤ 2 * ((p.length : Int) - 1) then
                autocorrelation_spec p (2 * (i : Int) - j) / 2
              else 0) := by
  obtain ⟨N, hN⟩ : ∃ N, p.length = N + 1 := ⟨p.length - 1, by omega⟩
  have e : p.length - 1 = N := by omega
  rw [e]
  constructor
  · obtain ⟨a, a1, a2, a3⟩ := autocorrelation_eq p N hN
    exact ⟨a, a1, a2, a3⟩
  · obtain ⟨T, h1, h2, h3⟩ := transop_eq p N hN
    refine ⟨T, h1, h2, fun i hi => ⟨_, h3 i hi, by simp, fun j hj => ?_⟩⟩
    rw [map_range_get, if_pos hj]
    rfl

/-- C33 witness: the mask `[1/2, 1, 1/2]` of the linear B-spline, with a
`5 × 5` matrix. -/
theorem C33_transop_banded_autocorrelation_witness :
    1 ≤ ([1 / 2, 1, 1 / 2] : List ℚ).length ∧
    ∃ T, transop ([1 / 2, 1, 1 / 2] : List ℚ) = some T ∧ T.length = 5 :=
  ⟨by decide,
    (C33_transop_banded_autocorrelation ([1 / 2, 1, 1 / 2] : List ℚ) (by decide)).2.imp
      fun _ h => ⟨h.1, h.2.1⟩⟩

/-- C34.  Exact arithmetic in an ordered field.  For every mask with
`Σ_j p_j = 2` and `Σ_j (-1)^j p_j = 0`, `transop` returns a matrix `T` and every
column of `T` sums to 1: the all-ones row vector is a left eigenvector of `T`
for the eigenvalue 1. -/
theorem C34_transop_columns_sum_to_one {K : Type} [LinearOrderedField K] (p : List K)
    (hs : p.sum = 2) (ha : ∑ j in Finset.range p.length, (-1) ^ j * p.getD j 0 = 0) :
    ∃ T, transop p = some T ∧ T.length = 2 * (p.length - 1) + 1 ∧
      ∀ j, j < 2 * (p.length - 1) + 1 → (T.map fun row => row.getD j 0).sum = 1 := by
  have hne : p ≠ [] := by
    intro h
    rw [h] at hs
    norm_num at hs
  obtain ⟨N, hN⟩ : ∃ N, p.length = N + 1 :=
    ⟨p.length - 1, by have := List.length_pos.mpr hne; omega⟩
  have e : p.length - 1 = N := by omega
  rw [e]
  exact transop_columns p N hN hs ha

/-- C34 witness: the mask `[1/2, 1, 1/2]` of the linear B-spline. -/
theorem C34_transop_columns_sum_to_one_witness :
    ([1 / 2, 1, 1 / 2] : List ℚ).sum = 2 ∧
    ∃ T, transop ([1 / 2, 1, 1 / 2] : List ℚ) = some T ∧ T.length = 5 ∧
      ∀ j, j < 5 → (T.map fun row => row.getD j 0).sum = 1 :=
  ⟨by norm_num,
    C34_transop_columns_sum_to_one ([1 / 2, 1, 1 / 2] : List ℚ) (by norm_num)
      (by simp [Finset.sum_range_succ]; norm_num)⟩

end TransopClaims

section MomentClaims

/-- C35.  For every mask with `Σ_j p_j = 2` whose alternating moments
`M_i = Σ_j (-1)^j j^i p_j` are 0 for all `i < Kord` and with
`|M_Kord| / 2 > 1e-8`, where `1 ≤ Kord ≤ 10`, `sumruleorder` returns
`SLO = Kord` (and `P0 = 1`). -/
theorem C35_sumruleorder_records_exact_order {K : Type} [LinearOrderedField K] (p : List K)
    (Kord : Nat) (h1 : 1 ≤ Kord) (h10 : Kord ≤ 10) (hsum : p.sum = 2)
    (hz : ∀ i, i < Kord → alternating_moment p i = 0)
    (hK : |alternating_moment p Kord| / 2 > 1 / 10 ^ 8) :
    sumruleorder p = .ok ((Kord : Int), 1) :=
  sumruleorder_of_moments p Kord h1 h10 hsum hz hK

/-- C35 witness: `[1, 1]` has order 1, `[1/2, 1, 1/2]` order 2 and the cubic
B-spline mask `[1/8, 1/2, 3/4, 1/2, 1/8]` order 4. -/
theorem C35_sumruleorder_records_exact_order_witness :
    sumruleorder ([1, 1] : List ℚ) = .ok (1, 1) ∧
    sumruleorder ([1 / 2, 1, 1 / 2] : List ℚ) = .ok (2, 1) ∧
    sumruleorder ([1 / 8, 1 / 2, 3 / 4, 1 / 2, 1 / 8] : List ℚ) = .ok (4, 1) := by
  refine ⟨?_, ?_, ?_⟩
  · refine C35_sumruleorder_records_exact_order ([1, 1] : List ℚ) 1 (by decide) (by decide)
      (by norm_num) ?_ ?_
    · intro i hi
      interval_cases i
      simp [alternating_moment, Finset.sum_range_succ]
    · simp [alternating_moment, Finset.sum_range_succ]
      norm_num
  · refine C35_sumruleorder_records_exact_order ([1 / 2, 1, 1 / 2] : List ℚ) 2 (by decide)
      (by decide) (by norm_num) ?_ ?_
    · intro i hi
      interval_cases i <;> (simp [alternating_moment, Finset.sum_range_succ]; try norm_num)
    · simp [alternating_moment, Finset.sum_range_succ]
      norm_num
  · refine C35_sumruleorder_records_exact_order ([1 / 8, 1 / 2, 3 / 4, 1 / 2, 1 / 8] : List ℚ) 4
      (by decide) (by decide) (by norm_num) ?_ ?_
    · intro i hi
      interval_cases i <;> simp [alternating_moment, Finset.sum_range_succ] <;> norm_num
    · simp [alternating_moment, Finset.sum_range_succ]
      norm_num

end MomentClaims

section DefaultScriptClaims

/-- C36.  The default script of the view parses to the step list
`[Predict [-1/16, 9/16, 9/16, -1/16], Update [1/4, 1/4]]`.  For every buffer,
every `n` and every level, `forward_custom` and `inverse_custom` on this step
list return exactly what `forward_4_point` and `inverse_4_point` return
(non-cyclic, stride 1).  When `n` is a multiple of `2^(level+1)` and the buffer
has `n` samples, both return a buffer of `n` samples. -/
theorem C36_default_script_is_four_point :
    parse (fun _ => .ok default_script_tokens) example_to_double example_cmath
        default_wavelet_rules =
      .ok { rules := [{ type := .lst_predict, mask := [-1 / 16, 9 / 16, 9 / 16, -1 / 16] },
                      { type := .lst_update, mask := [1 / 4, 1 / 4] }],
            error := none } ∧
    (∀ (K : Type) [Field K] (x : List K) (n level : Nat),
      forward_custom x n level
          [⟨.lst_predict, [-1 / 16, 9 / 16, 9 / 16, -1 / 16]⟩, ⟨.lst_update, [1 / 4, 1 / 4]⟩] =
        lifting.forward_4_point x n level 1 false ∧
      inverse_custom x n level
          [⟨.lst_predict, [-1 / 16, 9 / 16, 9 / 16, -1 / 16]⟩, ⟨.lst_update, [1 / 4, 1 / 4]⟩] =
        lifting.inverse_4_point x n level 1 false) ∧
    ∀ (K : Type) [Field K] [CharZero K] (x : List K) (n level : Nat),
      2 ^ (level + 1) ∣ n → x.length = n →
      (∃ y, lifting.forward_4_point x n level 1 false = some y ∧ y.length = n) ∧
      ∃ z, lifting.inverse_4_point x n level 1 false = some z ∧ z.length = n := by
  refine ⟨by decide!, ?_, ?_⟩
  rotate_left
  · intro K _ _ x n level hdiv hx
    exact ⟨total_forward_scheme (0 : K) .four_point [] n level hdiv x hx,
      total_inverse_scheme (0 : K) .four_point [] n level hdiv x hx⟩
  intro K _ x n level
  constructor
  · simp only [forward_custom, run_steps, forward_custom_step, lifting.forward_4_point,
      lifting.get_prediction_mask_4_point, lifting.get_update_mask_4_point,
      lifting.compute_symmetric_mask]
    rcases lifting.predict x n [-1 / 16, 9 / 16, 9 / 16, -1 / 16] level 1 false with _ | y
    · rfl
    · simp only [Option.some_bind]
      rcases lifting.update y n [1 / 4, 1 / 4] level 1 false with _ | z <;> rfl
  · simp only [inverse_custom, List.reverse_cons, List.reverse_nil, List.nil_append,
      List.singleton_append, run_steps, inverse_custom_step, lifting.inverse_4_point,
      lifting.get_prediction_mask_4_point, lifting.get_update_mask_4_point,
      lifting.compute_symmetric_mask]
    rcases lifting.iupdate x n [1 / 4, 1 / 4] level 1 false with _ | y
    · rfl
    · simp only [Option.some_bind]
      rcases lifting.ipredict y n [-1 / 16, 9 / 16, 9 / 16, -1 / 16] level 1 false with _ | z <;>
        rfl

end DefaultScriptClaims

section ComponentClaims

/-- C37.  Exact arithmetic in an ordered field, `sqrt3` a square root of 3, `s`
a catalog scheme (not `custom`), a model of `L < 64` levels with `2^L` values.
The threshold `+∞` of `get_spline_component` is the argument `infinity`: there
is a bound `B` such that for every `infinity > B` the following holds.
`get_spline_component` returns at every level `l ≤ L`, `get_wavelet_component`
at every level `l < L`.  The spline component at `l` plus the wavelet component
at `l` is, element by element, the spline component at `l + 1`.  The spline
component at `L` is `values`.  Hence the spline component at level 0 plus the
wavelet components at the levels `0, ..., L - 1` is `values`. -/
theorem C37_multiresolution_decomposition {K : Type} [LinearOrderedField K] (sqrt3 : K)
    (hsqrt3 : sqrt3 * sqrt3 = 3) (s : scheme) (hs : s ≠ .custom)
    (custom_steps : List (lifting_step K)) (L : Nat) (hL : L < 64) (values : List K)
    (hlen : values.length = 2 ^ L) :
    ∃ B : K, ∀ infinity : K, B < infinity →
      ∃ spline wavelet : Nat → List K,
        (∀ l, l ≤ L → get_spline_component infinity sqrt3 { levels := L, values := values } l s
          custom_steps = some (spline l)) ∧
        (∀ l, l < L → get_wavelet_component sqrt3 { levels := L, values := values } l s
          custom_steps = some (wavelet l)) ∧
        (∀ l, l < L →
          List.zipWith (fun u w => u + w) (spline l) (wavelet l) = spline (l + 1)) ∧
        spline L = values ∧
        (List.range L).foldl (fun acc l => List.zipWith (fun u w => u + w) acc (wavelet l))
          (spline 0) = values := by
  obtain ⟨B, hB⟩ := components_spec sqrt3 hsqrt3 s hs custom_steps L hL values hlen
  refine ⟨B, fun infinity hinf => ?_⟩
  obtain ⟨spline, wavelet, h1, h2, h3, h4⟩ := hB infinity hinf
  have hadd : ∀ x y : List K, comb 1 1 x y = List.zipWith (fun u w => u + w) x y := by
    intro x y
    unfold comb
    congr 1
    funext u w
    ring
  have hstep : ∀ l, l < L →
      List.zipWith (fun u w => u + w) (spline l) (wavelet l) = spline (l + 1) :=
    fun l hl => by rw [← hadd, h3 l hl]
  refine ⟨spline, wavelet, h1, h2, hstep, h4, ?_⟩
  have htel : ∀ j, j ≤ L →
      (List.range j).foldl (fun acc l => List.zipWith (fun u w => u + w) acc (wavelet l))
        (spline 0) = spline j := by
    intro j
    induction j with
    | zero => intro _; rfl
    | succ j ih =>
      intro hj
      rw [List.range_succ, List.foldl_append, ih (by omega)]
      exact hstep j (by omega)
  rw [htel L le_rfl, h4]

/-- C37 witness: Daubechies D4 over the reals with `sqrt3 = √3` on the model
of 2 levels with the values `[1, 2, 3, 4]`. -/
theorem C37_multiresolution_decomposition_witness :
    ∃ B : ℝ, ∀ infinity : ℝ, B < infinity →
      ∃ spline wavelet : Nat → List ℝ,
        (∀ l : Nat, l ≤ 2 → get_spline_component infinity (Real.sqrt 3)
          { levels := (2 : Nat), values := [1, 2, 3, 4] } l .daubechies_d4 [] =
            some (spline l)) ∧
        (∀ l : Nat, l < 2 → get_wavelet_component (Real.sqrt 3)
          { levels := (2 : Nat), values := [1, 2, 3, 4] } l .daubechies_d4 [] =
            some (wavelet l)) ∧
        (∀ l : Nat, l < 2 →
          List.zipWith (fun u w => u + w) (spline l) (wavelet l) = spline (l + 1)) ∧
        spline 2 = [1, 2, 3, 4] ∧
        (List.range 2).foldl (fun acc l => List.zipWith (fun u w => u + w) acc (wavelet l))
          (spline 0) = [1, 2, 3, 4] :=
  C37_multiresolution_decomposition (Real.sqrt 3) (Real.mul_self_sqrt (by norm_num))
    .daubechies_d4 (by decide) [] 2 (by decide) [1, 2, 3, 4] rfl

end ComponentClaims

section GridClaims

open lifting

/-- C38.  `n` is a multiple of `2^(level+1)`, the buffer holds the `n` strided
samples, in cyclic mode the mask has at most `n / 2^level` taps, in non-cyclic
mode the border flag is not negative.  Every tap index `predict_coeff` is a
multiple of `2^(level+1)` and every tap index `update_coeff` an odd multiple of
`2^level`; `predict_target i = (2 i + 1) * 2^level` and
`update_target i = i * 2^(level+1)`.  `predict` and `ipredict` return, replace
the sample at each odd multiple `(2 k + 1) * 2^level` by its old value minus
(plus) the stencil over its taps, and leave every cell that is not an odd
multiple of `2^level` unchanged.  `update` and `iupdate` return, change only
samples at multiples of `2^(level+1)`, by the stencil over the odd taps, and
leave every other cell unchanged.  `scale_even` and `iscale_even` return and
leave every cell that is not a multiple of `2^(level+1)` unchanged;
`scale_odd` and `iscale_odd` return and leave every cell that is not an odd
multiple of `2^level` unchanged.  All indices are taken times the stride. -/
theorem C38_primitives_stay_on_their_grid {K : Type} [Field K] (x mask : List K)
    (n level stride : Nat) (s : K) (border : Int) (cyclical : Bool) (hstride : 1 ≤ stride)
    (hdiv : 2 ^ (level + 1) ∣ n) (hbuf : ∀ idx : Nat, idx < n → idx * stride < x.length)
    (hmask : cyclical = true → mask.length * 2 ^ level ≤ n)
    (hborder : cyclical = false → 0 ≤ border) :
    ((∀ i j : Int, ∃ c : Int,
        predict_coeff n mask.length level cyclical i j = c * 2 ^ (level + 1)) ∧
      (∀ i : Int, predict_target level i = (2 * i + 1) * 2 ^ level) ∧
      (∀ i j : Int, ∃ c : Int,
        update_coeff n mask.length level cyclical i j = (2 * c + 1) * 2 ^ level) ∧
      (∀ i : Int, update_target level i = i * 2 ^ (level + 1))) ∧
    (∃ y z, predict x n mask level stride cyclical = some y ∧
      ipredict x n mask level stride cyclical = some z ∧
      y.length = x.length ∧ z.length = x.length ∧
      (∀ k : Nat, k < n / 2 ^ (level + 1) →
        ∃ old : K, x[(2 * k + 1) * 2 ^ level * stride]? = some old ∧
          y[(2 * k + 1) * 2 ^ level * stride]? = some (old -
            ∑ j in Finset.range mask.length, mask.getD j 0 *
              x.getD (predict_coeff n mask.length level cyclical k j * stride).toNat 0) ∧
          z[(2 * k + 1) * 2 ^ level * stride]? = some (old +
            ∑ j in Finset.range mask.length, mask.getD j 0 *
              x.getD (predict_coeff n mask.length level cyclical k j * stride).toNat 0)) ∧
      ∀ p : Nat, (∀ a : Nat, p ≠ (2 * a + 1) * 2 ^ level * stride) →
        y[p]? = x[p]? ∧ z[p]? = x[p]?) ∧
    (∃ y z, update x n mask level stride cyclical = some y ∧
      iupdate x n mask level stride cyclical = some z ∧
      y.length = x.length ∧ z.length = x.length ∧
      (∀ k : Nat, (if cyclical then 0 else 1) ≤ k → k < n / 2 ^ (level + 1) →
        ∃ old : K, x[k * 2 ^ (level + 1) * stride]? = some old ∧
          y[k * 2 ^ (level + 1) * stride]? = some (old +
            ∑ j in Finset.range mask.length, mask.getD j 0 *
              x.getD (update_coeff n mask.length level cyclical k j * stride).toNat 0) ∧
          z[k * 2 ^ (level + 1) * stride]? = some (old -
            ∑ j in Finset.range mask.length, mask.getD j 0 *
              x.getD (update_coeff n mask.length level cyclical k j * stride).toNat 0)) ∧
      ∀ p : Nat, (∀ a : Nat, p ≠ a * 2 ^ (level + 1) * stride) →
        y[p]? = x[p]? ∧ z[p]? = x[p]?) ∧
    (∃ y z, scale_even x n s level border stride cyclical = some y ∧
      iscale_even x n s level border stride cyclical = some z ∧
      y.length = x.length ∧ z.length = x.length ∧
      ∀ p : Nat, (∀ a : Nat, p ≠ a * 2 ^ (level + 1) * stride) →
        y[p]? = x[p]? ∧ z[p]? = x[p]?) ∧
    (∃ y z, scale_odd x n s level border stride cyclical = some y ∧
      iscale_odd x n s level border stride cyclical = some z ∧
      y.length = x.length ∧ z.length = x.length ∧
      ∀ p : Nat, (∀ a : Nat, p ≠ (2 * a + 1) * 2 ^ level * stride) →
        y[p]? = x[p]? ∧ z[p]? = x[p]?) := by
  have hn : n = n / 2 ^ (level + 1) * 2 ^ (level + 1) := (Nat.div_mul_cancel hdiv).symm
  have hP : 2 ^ level < 2 ^ (level + 1) := Nat.pow_lt_pow_right (by norm_num) (by omega)
  have hmul := is_multiple_of_dvd n level hdiv
  refine ⟨⟨?_, ?_, ?_, ?_⟩, ?_, ?_, ?_, ?_⟩
  · intro i j
    obtain ⟨c, hc, -⟩ := predict_coeff_spec n mask.length level _ cyclical hn i j
    exact ⟨c, hc⟩
  · intro i
    simp only [predict_target]
    ring
  · intro i j
    obtain ⟨c, hc, -⟩ := update_coeff_spec n mask.length level _ cyclical hn i j
    exact ⟨c, hc⟩
  · intro i
    rfl
  · obtain ⟨y, a1, a2, a3, a4⟩ := predict_response (fun x u => x - u) x mask n level stride
      cyclical hstride hdiv hbuf hmask
    obtain ⟨z, b1, b2, b3, b4⟩ := predict_response (fun x u => x + u) x mask n level stride
      cyclical hstride hdiv hbuf hmask
    refine ⟨y, z, ?_, ?_, a2, b2, ?_, fun p hp => ⟨a4 p (fun k _ => hp k), b4 p (fun k _ => hp k)⟩⟩
    · simpa only [predict, hmul, Bool.not_true, Bool.false_eq_true, if_false] using a1
    · simpa only [ipredict, hmul, Bool.not_true, Bool.false_eq_true, if_false] using b1
    · intro k hk
      obtain ⟨old, c1, c2⟩ := a3 k hk
      obtain ⟨old', d1, d2⟩ := b3 k hk
      rw [c1] at d1
      cases d1
      exact ⟨old, c1, c2, d2⟩
  · obtain ⟨y, a1, a2, a3, a4⟩ := update_response (fun x u => x + u) x mask n level stride
      cyclical hstride hdiv hbuf hmask
    obtain ⟨z, b1, b2, b3, b4⟩ := update_response (fun x u => x - u) x mask n level stride
      cyclical hstride hdiv hbuf hmask
    refine ⟨y, z, ?_, ?_, a2, b2, ?_,
      fun p hp => ⟨a4 p (fun k _ _ => hp k), b4 p (fun k _ _ => hp k)⟩⟩
    · simpa only [update, hmul, Bool.not_true, Bool.false_eq_true, if_false] using a1
    · simpa only [iupdate, hmul, Bool.not_true, Bool.false_eq_true, if_false] using b1
    · intro k hk1 hk2
      obtain ⟨old, c1, c2⟩ := a3 k hk1 hk2
      obtain ⟨old', d1, d2⟩ := b3 k hk1 hk2
      rw [c1] at d1
      cases d1
      exact ⟨old, c1, c2, d2⟩
  · obtain ⟨y, a1, a2, a3⟩ := scale_loops_frame (fun v => v * s) x n level stride border
      cyclical 0 (Nat.pow_pos (by norm_num)) hstride hdiv hbuf hborder
    obtain ⟨z, b1, b2, b3⟩ := scale_loops_frame (fun v => v / s) x n level stride border
      cyclical 0 (Nat.pow_pos (by norm_num)) hstride hdiv hbuf hborder
    refine ⟨y, z, ?_, ?_, a2, b2, fun p hp => ⟨a3 p (fun a => by simpa using hp a),
      b3 p (fun a => by simpa using hp a)⟩⟩
    · simp only [scale_even, hmul, Bool.not_true, Bool.false_eq_true, if_false]
      cases cyclical with
      | true =>
        simpa only [if_true, zero_mul, sub_zero, add_zero, Nat.cast_zero] using a1
      | false =>
        simpa only [Bool.false_eq_true, if_false, Nat.cast_zero, zero_add] using a1
    · simp only [iscale_even, hmul, Bool.not_true, Bool.false_eq_true, if_false]
      cases cyclical with
      | true =>
        simpa only [if_true, zero_mul, sub_zero, add_zero, Nat.cast_zero] using b1
      | false =>
        simpa only [Bool.false_eq_true, if_false, Nat.cast_zero, zero_add] using b1
  · obtain ⟨y, a1, a2, a3⟩ := scale_loops_frame (fun v => v * s) x n level stride border
      cyclical (2 ^ level) hP hstride hdiv hbuf hborder
    obtain ⟨z, b1, b2, b3⟩ := scale_loops_frame (fun v => v / s) x n level stride border
      cyclical (2 ^ level) hP hstride hdiv hbuf hborder
    have hg : ∀ p : Nat, (∀ a : Nat, p ≠ (2 * a + 1) * 2 ^ level * stride) →
        ∀ a : Nat, p ≠ (2 ^ level + a * 2 ^ (level + 1)) * stride := by
      intro p hp a e
      apply hp a
      rw [e, pow_succ]
      ring
    refine ⟨y, z, ?_, ?_, a2, b2, fun p hp => ⟨a3 p (hg p hp), b3 p (hg p hp)⟩⟩
    · simp only [scale_odd, hmul, Bool.not_true, Bool.false_eq_true, if_false]
      cases cyclical with
      | true =>
        simpa only [if_true, zero_mul, sub_zero, add_zero, Nat.cast_pow, Nat.cast_ofNat] using a1
      | false =>
        simpa only [Bool.false_eq_true, if_false, Nat.cast_pow, Nat.cast_ofNat] using a1
    · simp only [iscale_odd, hmul, Bool.not_true, Bool.false_eq_true, if_false]
      cases cyclical with
      | true =>
        simpa only [if_true, zero_mul, sub_zero, add_zero, Nat.cast_pow, Nat.cast_ofNat] using b1
      | false =>
        simpa only [Bool.false_eq_true, if_false, Nat.cast_pow, Nat.cast_ofNat] using b1

/-- C38 witness: the buffer `[1, ..., 8]` with `n = 8` at level 1, stride 1,
non-cyclic: the cells 1 and 3 (no multiples of 2) are never changed, `predict`
leaves cell 4 and `update` cell 2 unchanged. -/
theorem C38_primitives_stay_on_their_grid_witness :
    (1 ≤ 1) ∧ 2 ^ (1 + 1) ∣ 8 ∧
    (∀ idx : Nat, idx < 8 → idx * 1 < ([1, 2, 3, 4, 5, 6, 7, 8] : List ℚ).length) ∧
    (∃ y, predict ([1, 2, 3, 4, 5, 6, 7, 8] : List ℚ) 8 [1 / 2, 1 / 2] 1 1 false = some y ∧
      y[1]? = some 2 ∧ y[3]? = some 4 ∧ y[4]? = some 5) ∧
    (∃ y, update ([1, 2, 3, 4, 5, 6, 7, 8] : List ℚ) 8 [1 / 2, 1 / 2] 1 1 false = some y ∧
      y[1]? = some 2 ∧ y[2]? = some 3 ∧ y[3]? = some 4) ∧
    (∃ y, scale_even ([1, 2, 3, 4, 5, 6, 7, 8] : List ℚ) 8 2 1 0 1 false = some y ∧
      y[1]? = some 2 ∧ y[2]? = some 3) ∧
    (∃ y, scale_odd ([1, 2, 3, 4, 5, 6, 7, 8] : List ℚ) 8 2 1 0 1 false = some y ∧
      y[1]? = some 2 ∧ y[4]? = some 5) := by
  have hb : ∀ idx : Nat, idx < 8 → idx * 1 < ([1, 2, 3, 4, 5, 6, 7, 8] : List ℚ).length := by
    intro idx h
    simpa using h
  obtain ⟨-, ⟨y1, _, p1, -, -, -, -, p2⟩, ⟨y2, _, u1, -, -, -, -, u2⟩, ⟨y3, _, e1, -, -, -, e2⟩,
      ⟨y4, _, o1, -, -, -, o2⟩⟩ :=
    C38_primitives_stay_on_their_grid ([1, 2, 3, 4, 5, 6, 7, 8] : List ℚ) [1 / 2, 1 / 2] 8 1 1 2 0
      false (by decide) (by decide) hb (by simp) (by simp)
  refine ⟨by decide, by decide, hb, ⟨y1, p1, ?_, ?_, ?_⟩, ⟨y2, u1, ?_, ?_, ?_⟩, ⟨y3, e1, ?_, ?_⟩,
    ⟨y4, o1, ?_, ?_⟩⟩
  · exact (p2 1 (fun a => by omega)).1
  · exact (p2 3 (fun a => by omega)).1
  · exact (p2 4 (fun a => by omega)).1
  · exact (u2 1 (fun a => by omega)).1
  · exact (u2 2 (fun a => by omega)).1
  · exact (u2 3 (fun a => by omega)).1
  · exact (e2 1 (fun a => by omega)).1
  · exact (e2 2 (fun a => by omega)).1
  · exact (o2 1 (fun a => by omega)).1
  · exact (o2 4 (fun a => by omega)).1

end GridClaims

section SelectionClaims

set_option maxRecDepth 1000000 in
/-- C39.  The mask `mask_eleven_entries` has `N + 1 = 11` entries and
`sumruleorder` returns `SLO = 11` on it: the residual of every order is at most
`1e-8` in absolute value.  So `SLO ≤ N` fails.  With `vsize = 2 * SLO = 22` and
an index list `od` of `2 N + 1 = 21` entries, the selection loop
`bigreig[i] = wr(od[i + 1])` reads `od[21]`, past the end of the list, and has
no defined result.  The loop stays inside `od` whenever `SLO ≤ N` and the
entries of `od` are indices of `wr`; and `SLO ≤ N` holds for every mask of 12 or
more entries on which `sumruleorder` returns. -/
theorem C39_order_exceeds_eigenvalue_list :
    mask_eleven_entries.length = 10 + 1 ∧
    sumruleorder mask_eleven_entries =
      .ok (11, 4611686018427387971 / 4611686018427387904) ∧
    ¬ ((11 : Int) ≤ 10) ∧
    (∀ (wr : List ℚ) (od : List Nat), od.length = 2 * 10 + 1 →
      bigreig wr od (2 * 11) = none) ∧
    (∀ (wr : List ℚ) (od : List Nat) (N SLO : Nat), od.length = 2 * N + 1 →
      (∀ k ∈ od, k < wr.length) → SLO ≤ N →
      ∃ vs, bigreig wr od (2 * SLO) = some vs ∧ vs.length = 2 * SLO) ∧
    (∀ (K : Type) [LinearOrderedField K] (p : List K) (SLO : Int) (P0 : K),
      12 ≤ p.length → sumruleorder p = .ok (SLO, P0) → SLO ≤ (p.length : Int) - 1) := by
  refine ⟨rfl, by decide!, by decide, ?_, ?_, ?_⟩
  · intro wr od h
    exact bigreig_loop_none wr od _ 20 (by simp) (by omega)
  · intro wr od N SLO h1 h2 h3
    obtain ⟨vs, a, b⟩ := bigreig_loop_some wr od h2 (List.range (2 * SLO))
      (fun i hi => by rw [List.mem_range] at hi; omega)
    exact ⟨vs, a, by simpa using b⟩
  · intro K _ p SLO P0 h1 h2
    have := sumruleorder_le_eleven p SLO P0 h2
    omega

end SelectionClaims

section SplineMaskClaims

/-- C40.  On the 32-sample probe of `analyze` (`probe 16`, the unit impulse at
index 16) at level 0, stride 1, non-cyclic, `inverse_cubic_bsplines` and
`inverse_cubic_bspline_wavelets` both return `[1/8, 1/2, 3/4, 1/2, 1/8]` at the
indices 14..18 and 0 at every other index; without its leading and trailing
zeros this is the cubic B-spline mask. -/
theorem C40_cubic_bspline_families_share_mask :
    lifting.inverse_cubic_bsplines (probe 16 : List ℚ) 32 0 1 false =
      some [0, 0, 0, 0, 0, 0, 0, 0, 0, 0, 0, 0, 0, 0, 1 / 8, 1 / 2, 3 / 4, 1 / 2, 1 / 8, 0, 0, 0,
        0, 0, 0, 0, 0, 0, 0, 0, 0, 0] ∧
    lifting.inverse_cubic_bspline_wavelets (probe 16 : List ℚ) 32 0 1 false =
      some [0, 0, 0, 0, 0, 0, 0, 0, 0, 0, 0, 0, 0, 0, 1 / 8, 1 / 2, 3 / 4, 1 / 2, 1 / 8, 0, 0, 0,
        0, 0, 0, 0, 0, 0, 0, 0, 0, 0] ∧
    (probe 16 : List ℚ) = (List.replicate 32 0).set 16 1 ∧
    pop_trailing_zeros (erase_leading_zeros
      ([0, 0, 0, 0, 0, 0, 0, 0, 0, 0, 0, 0, 0, 0, 1 / 8, 1 / 2, 3 / 4, 1 / 2, 1 / 8, 0, 0, 0,
        0, 0, 0, 0, 0, 0, 0, 0, 0, 0] : List ℚ)) = [1 / 8, 1 / 2, 3 / 4, 1 / 2, 1 / 8] :=
  ⟨by decide!, by decide!, rfl, by decide!⟩

end SplineMaskClaims

end Pief
